import Mathlib

/-!
# Slidescape iSyntax core: shallow embedding and verified properties

The definitions below transcribe the C sources of the iSyntax reader
(`isyntax.c`), the tile streamer (`tile_streamer.cpp`) and the block allocator
(`platform/platform.c`).  Arrays reached through C pointers are functions from
the index to the element, so that an index the C code computes is looked up as
it is, in or out of the intended range.  Unsigned machine integers are natural
numbers reduced modulo `2^w` where the C code can wrap; signed counters are
integers, and the theorems carry the ranges in which they do not overflow.
-/

namespace Slidescape

/-! ## Data model of the tile streamer (`tile_streamer.cpp`) -/

/-- Integer vector `v2i`. -/
structure v2i where
  x : Int
  y : Int

/-- Integer rectangle `bounds2i` (`min` inclusive, `max` exclusive). -/
structure bounds2i where
  min : v2i
  max : v2i

/-- The fields of `isyntax_tile_t` that the streamer reads or writes. -/
structure isyntax_tile_t where
  exists_ : Bool
  has_ll : Bool
  has_h : Bool
  is_loaded : Bool
  is_submitted_for_loading : Bool
  is_submitted_for_h_coeff_decompression : Bool
  data_chunk_index : Nat
  codeblock_chunk_index : Nat

/-- Pyramid level `isyntax_level_t`; `tiles` is the C array `level->tiles`. -/
structure isyntax_level_t where
  width_in_tiles : Int
  height_in_tiles : Int
  tiles : Int → isyntax_tile_t
  is_fully_loaded : Bool

/-- Request slot `isyntax_tile_req_t` of the streamer. -/
structure isyntax_tile_req_t where
  tile_x : Int
  tile_y : Int
  level_tile_index : Int
  region_tile_index : Int
  adj_need_ll_mask : Nat
  adj_need_h_mask : Nat
  want_load : Bool
  need_h_coeff : Bool
  need_ll_coeff : Bool

/-- Per-scale region `isyntax_load_region_t`; `tile_req` is the C array. -/
structure isyntax_load_region_t where
  scale : Int
  padded_bounds : bounds2i
  visible_bounds : bounds2i
  width_in_tiles : Int
  height_in_tiles : Int
  tile_req : Int → isyntax_tile_req_t

/-- The nine `ISYNTAX_ADJ_TILE_*` bit constants.  Their header is not part of
the sources at hand, so the constants are a parameter of the embedding. -/
structure isyntax_adj_tile_t where
  TOP_LEFT : Nat
  TOP_CENTER : Nat
  TOP_RIGHT : Nat
  CENTER_LEFT : Nat
  CENTER : Nat
  CENTER_RIGHT : Nat
  BOTTOM_LEFT : Nat
  BOTTOM_CENTER : Nat
  BOTTOM_RIGHT : Nat

/-- What the streamer observes of the shared work queue around its `k`-th
submission: whether `add_work_queue_entry` accepted the entry, the value of
`is_tile_streamer_frame_boundary_passed` read after it, and the result of
`get_work_queue_task_count`. -/
structure work_queue_sample_t where
  accepted : Bool
  frame_boundary_passed : Bool
  tasks_waiting : Int

/-- One call of `isyntax_begin_load_tile`, with the levels as they were when
the call was made. -/
structure begin_load_tile_call_t where
  levels : Int → isyntax_level_t
  scale : Int
  tile_x : Int
  tile_y : Int

/-- State threaded through a pass of the streamer: the levels of the WSI
image, the file's `refcount`, the number of queue submissions made so far and
the trace of `isyntax_begin_load_tile` calls. -/
structure stream_state_t where
  levels : Int → isyntax_level_t
  refcount : Int
  submissions : Nat
  begin_load_tile_calls : List begin_load_tile_call_t

/-- Assignment `level->tiles[tile_index].is_submitted_for_loading = v` on level `scale`. -/
def set_is_submitted_for_loading (levels : Int → isyntax_level_t) (scale tile_index : Int)
    (v : Bool) : Int → isyntax_level_t :=
  fun s =>
    if s = scale then
      { levels s with
        tiles := fun i =>
          if i = tile_index then { (levels s).tiles i with is_submitted_for_loading := v }
          else (levels s).tiles i }
    else levels s

/-- `isyntax_begin_load_tile` (tile_streamer.cpp:349): marks the tile as
submitted, retains the file and queues the load task; when the queue rejects
the entry both are undone. -/
def isyntax_begin_load_tile (env : Nat → work_queue_sample_t) (st : stream_state_t)
    (scale tile_x tile_y : Int) : stream_state_t :=
  let level := st.levels scale
  let tile_index := tile_y * level.width_in_tiles + tile_x
  let tile := level.tiles tile_index
  if !tile.is_submitted_for_loading then
    let levels1 := set_is_submitted_for_loading st.levels scale tile_index true
    let refcount1 := st.refcount + 1
    if !(env st.submissions).accepted then
      { st with
        levels := set_is_submitted_for_loading levels1 scale tile_index false
        refcount := refcount1 - 1
        submissions := st.submissions + 1 }
    else
      { st with levels := levels1, refcount := refcount1, submissions := st.submissions + 1 }
  else st

/-- The test `source_tile->exists && !(source_tile->has_h && source_tile->has_ll)`
on the tile at `(tile_x, tile_y)` of `level`. -/
def source_tile_blocks (level : isyntax_level_t) (tile_y tile_x : Int) : Bool :=
  let source_tile := level.tiles (tile_y * level.width_in_tiles + tile_x)
  source_tile.exists_ && !(source_tile.has_h && source_tile.has_ll)

/-- Body of the innermost loop of the load pass (tile_streamer.cpp:874-966)
for one tile of the visible rectangle.  The Boolean is `true` when the body
leaves through `goto break_out_of_loop2`. -/
def stream_load_tile (K : isyntax_adj_tile_t)
    (isyntax_get_adjacent_tiles_mask : isyntax_level_t → Int → Int → Nat)
    (env : Nat → work_queue_sample_t) (logical_cpu_count : Int)
    (region : isyntax_load_region_t) (scale tile_y tile_x : Int)
    (st : stream_state_t) : stream_state_t × Bool :=
  let level := st.levels scale
  let tile_index := tile_y * level.width_in_tiles + tile_x
  let tile := level.tiles tile_index
  if tile.is_submitted_for_loading then (st, false)
  else if !tile.has_ll then (st, false)
  else if !tile.has_h then (st, false)
  else
    let local_tile_x := tile_x - region.padded_bounds.min.x
    let local_tile_y := tile_y - region.padded_bounds.min.y
    let local_tile_index := local_tile_y * region.width_in_tiles + local_tile_x
    let req := region.tile_req local_tile_index
    if !req.want_load then (st, false)
    else
      let adj_tiles := isyntax_get_adjacent_tiles_mask level tile_x tile_y
      if adj_tiles &&& K.TOP_LEFT ≠ 0 && source_tile_blocks level (tile_y - 1) (tile_x - 1) then
        (st, false)
      else if adj_tiles &&& K.TOP_CENTER ≠ 0 && source_tile_blocks level (tile_y - 1) tile_x then
        (st, false)
      else if adj_tiles &&& K.TOP_RIGHT ≠ 0 && source_tile_blocks level (tile_y - 1) (tile_x + 1) then
        (st, false)
      else if adj_tiles &&& K.CENTER_LEFT ≠ 0 && source_tile_blocks level tile_y (tile_x - 1) then
        (st, false)
      else if adj_tiles &&& K.CENTER ≠ 0 && source_tile_blocks level tile_y tile_x then
        (st, false)
      else if adj_tiles &&& K.CENTER_RIGHT ≠ 0 && source_tile_blocks level tile_y (tile_x + 1) then
        (st, false)
      else if adj_tiles &&& K.BOTTOM_LEFT ≠ 0 && source_tile_blocks level (tile_y + 1) (tile_x - 1) then
        (st, false)
      else if adj_tiles &&& K.BOTTOM_CENTER ≠ 0 && source_tile_blocks level (tile_y + 1) tile_x then
        (st, false)
      else if adj_tiles &&& K.BOTTOM_RIGHT ≠ 0 && source_tile_blocks level (tile_y + 1) (tile_x + 1) then
        (st, false)
      else
        let call : begin_load_tile_call_t :=
          { levels := st.levels, scale := scale, tile_x := tile_x, tile_y := tile_y }
        let st1 := isyntax_begin_load_tile env
          { st with begin_load_tile_calls := st.begin_load_tile_calls ++ [call] } scale tile_x tile_y
        if (env st1.submissions).frame_boundary_passed then (st1, true)
        else if (env st1.submissions).tasks_waiting > logical_cpu_count * 4 then (st1, true)
        else (st1, false)

/-- The loop `for (tile_x = ...; tile_x < visible_bounds.max.x; ++tile_x)` with
`n` iterations left. -/
def stream_load_row (K : isyntax_adj_tile_t)
    (isyntax_get_adjacent_tiles_mask : isyntax_level_t → Int → Int → Nat)
    (env : Nat → work_queue_sample_t) (logical_cpu_count : Int)
    (region : isyntax_load_region_t) (scale tile_y : Int) :
    Nat → Int → stream_state_t → stream_state_t × Bool
  | 0, _, st => (st, false)
  | n + 1, tile_x, st =>
    match stream_load_tile K isyntax_get_adjacent_tiles_mask env logical_cpu_count region
        scale tile_y tile_x st with
    | (st1, true) => (st1, true)
    | (st1, false) =>
      stream_load_row K isyntax_get_adjacent_tiles_mask env logical_cpu_count region scale tile_y
        n (tile_x + 1) st1

/-- The loop `for (tile_y = ...; tile_y < visible_bounds.max.y; ++tile_y)` with
`n` iterations left. -/
def stream_load_rows (K : isyntax_adj_tile_t)
    (isyntax_get_adjacent_tiles_mask : isyntax_level_t → Int → Int → Nat)
    (env : Nat → work_queue_sample_t) (logical_cpu_count : Int)
    (region : isyntax_load_region_t) (scale : Int) :
    Nat → Int → stream_state_t → stream_state_t × Bool
  | 0, _, st => (st, false)
  | n + 1, tile_y, st =>
    match stream_load_row K isyntax_get_adjacent_tiles_mask env logical_cpu_count region scale
        tile_y (region.visible_bounds.max.x - region.visible_bounds.min.x).toNat
        region.visible_bounds.min.x st with
    | (st1, true) => (st1, true)
    | (st1, false) =>
      stream_load_rows K isyntax_get_adjacent_tiles_mask env logical_cpu_count region scale
        n (tile_y + 1) st1

/-- The loop over scales of the load pass (tile_streamer.cpp:868): `n` scales
left, `scale` counting down and `scale_to_load_index` counting up. -/
def stream_load_scales (K : isyntax_adj_tile_t)
    (isyntax_get_adjacent_tiles_mask : isyntax_level_t → Int → Int → Nat)
    (env : Nat → work_queue_sample_t) (logical_cpu_count : Int)
    (regions : Int → isyntax_load_region_t) :
    Nat → Int → Int → stream_state_t → stream_state_t
  | 0, _, _, st => st
  | n + 1, scale, scale_to_load_index, st =>
    let region := regions scale_to_load_index
    match stream_load_rows K isyntax_get_adjacent_tiles_mask env logical_cpu_count region scale
        (region.visible_bounds.max.y - region.visible_bounds.min.y).toNat
        region.visible_bounds.min.y st with
    | (st1, true) => st1
    | (st1, false) =>
      stream_load_scales K isyntax_get_adjacent_tiles_mask env logical_cpu_count regions
        n (scale - 1) (scale_to_load_index + 1) st1

/-- The load pass of `isyntax_stream_image_tiles` (tile_streamer.cpp:866-990):
`for (scale = highest_scale_to_load; scale >= lowest_visible_scale; --scale, ++scale_to_load_index)`. -/
def isyntax_stream_load_pass (K : isyntax_adj_tile_t)
    (isyntax_get_adjacent_tiles_mask : isyntax_level_t → Int → Int → Nat)
    (env : Nat → work_queue_sample_t) (logical_cpu_count : Int)
    (regions : Int → isyntax_load_region_t)
    (highest_scale_to_load lowest_visible_scale : Int) (st : stream_state_t) : stream_state_t :=
  stream_load_scales K isyntax_get_adjacent_tiles_mask env logical_cpu_count regions
    (highest_scale_to_load + 1 - lowest_visible_scale).toNat highest_scale_to_load 0 st

/-- The nine positions of an adjacency mask: flag, `dx`, `dy`. -/
def adjacency_positions (K : isyntax_adj_tile_t) : List (Nat × Int × Int) :=
  [(K.TOP_LEFT, -1, -1), (K.TOP_CENTER, 0, -1), (K.TOP_RIGHT, 1, -1),
   (K.CENTER_LEFT, -1, 0), (K.CENTER, 0, 0), (K.CENTER_RIGHT, 1, 0),
   (K.BOTTOM_LEFT, -1, 1), (K.BOTTOM_CENTER, 0, 1), (K.BOTTOM_RIGHT, 1, 1)]

/-- Readiness of the tile of a `isyntax_begin_load_tile` call: its own `has_ll`
and `has_h` are set and every tile at a position flagged in its adjacency mask
either does not exist or has both `has_h` and `has_ll`. -/
def tile_ready_for_load (K : isyntax_adj_tile_t)
    (isyntax_get_adjacent_tiles_mask : isyntax_level_t → Int → Int → Nat)
    (c : begin_load_tile_call_t) : Prop :=
  let level := c.levels c.scale
  let tile := level.tiles (c.tile_y * level.width_in_tiles + c.tile_x)
  tile.has_ll = true ∧ tile.has_h = true ∧
  ∀ p ∈ adjacency_positions K,
    isyntax_get_adjacent_tiles_mask level c.tile_x c.tile_y &&& p.1 ≠ 0 →
      (level.tiles ((c.tile_y + p.2.2) * level.width_in_tiles + (c.tile_x + p.2.1))).exists_ = false ∨
      ((level.tiles ((c.tile_y + p.2.2) * level.width_in_tiles + (c.tile_x + p.2.1))).has_h = true ∧
       (level.tiles ((c.tile_y + p.2.2) * level.width_in_tiles + (c.tile_x + p.2.1))).has_ll = true)

/-! ### A one-tile pyramid used to exercise the load pass -/

/-- Bit values for the adjacency constants (one bit per position). -/
def example_adj_tile : isyntax_adj_tile_t :=
  { TOP_LEFT := 0x100, TOP_CENTER := 0x80, TOP_RIGHT := 0x40, CENTER_LEFT := 0x20,
    CENTER := 0x10, CENTER_RIGHT := 8, BOTTOM_LEFT := 4, BOTTOM_CENTER := 2, BOTTOM_RIGHT := 1 }

/-- A tile that exists and has both coefficient sets but is not loaded yet. -/
def example_ready_tile : isyntax_tile_t :=
  { exists_ := true, has_ll := true, has_h := true, is_loaded := false,
    is_submitted_for_loading := false, is_submitted_for_h_coeff_decompression := false,
    data_chunk_index := 0, codeblock_chunk_index := 0 }

/-- Levels of one tile each. -/
def example_levels : Int → isyntax_level_t :=
  fun _ => { width_in_tiles := 1, height_in_tiles := 1, tiles := fun _ => example_ready_tile,
             is_fully_loaded := false }

/-- Regions whose visible rectangle is the single tile `(0, 0)`, wanted for loading. -/
def example_regions : Int → isyntax_load_region_t :=
  fun _ =>
    { scale := 0, padded_bounds := { min := { x := 0, y := 0 }, max := { x := 1, y := 1 } },
      visible_bounds := { min := { x := 0, y := 0 }, max := { x := 1, y := 1 } },
      width_in_tiles := 1, height_in_tiles := 1,
      tile_req := fun _ =>
        { tile_x := 0, tile_y := 0, level_tile_index := 0, region_tile_index := 0,
          adj_need_ll_mask := 0, adj_need_h_mask := 0, want_load := true,
          need_h_coeff := false, need_ll_coeff := false } }

/-- A work queue that accepts every entry and stays empty. -/
def example_queue : Nat → work_queue_sample_t :=
  fun _ => { accepted := true, frame_boundary_passed := false, tasks_waiting := 0 }

/-- The call the load pass makes on the one-tile pyramid. -/
def example_call : begin_load_tile_call_t :=
  { levels := example_levels, scale := 0, tile_x := 0, tile_y := 0 }

/-! ## Opening a file: `isyntax_open` (isyntax.c)

`ASSERT` is taken as in a release build, where it expands to nothing. -/

/-- Codeblock descriptor `isyntax_codeblock_t`. -/
structure isyntax_codeblock_t where
  x_coordinate : Nat
  y_coordinate : Nat
  color_component : Nat
  scale : Nat
  coefficient : Nat
  block_data_offset : Nat
  block_size : Nat
  block_header_template_id : Nat

/-- Tag header `dicom_tag_header_t`. -/
structure dicom_tag_header_t where
  group : Nat
  element : Nat
  size : Int

/-- Seektable record `isyntax_seektable_codeblock_header_t`. -/
structure isyntax_seektable_codeblock_header_t where
  block_data_offset_header : dicom_tag_header_t
  block_data_offset : Nat
  block_size_header : dicom_tag_header_t
  block_size : Nat

/-- The fields of `isyntax_image_t` used while opening a file.  `codeblocks`
is `none` while the C pointer is `NULL`. -/
structure isyntax_image_t where
  codeblock_count : Nat
  codeblocks : Option (Nat → isyntax_codeblock_t)
  header_codeblocks_are_partial : Bool
  block_header_size : Nat

/-- The fields of `isyntax_t` used while opening a file.  `wsi_image` is
`none` while the C pointer is `NULL`. -/
structure isyntax_t where
  filesize : Int
  wsi_image : Option isyntax_image_t

/-- The seektable loop of `isyntax_open` (isyntax.c:1233-1269) over the
entries still to visit, with the current `actual_real_codeblock_index` and the
array `wsi_image->codeblocks`. -/
def isyntax_seektable_fill (codeblock_count : Nat) :
    List isyntax_seektable_codeblock_header_t → Nat → (Nat → isyntax_codeblock_t) →
      (Nat → isyntax_codeblock_t)
  | [], _, codeblocks => codeblocks
  | seektable_entry :: rest, actual_real_codeblock_index, codeblocks =>
    if seektable_entry.block_data_offset ≠ 0 then
      let codeblocks1 : Nat → isyntax_codeblock_t := fun i =>
        if i = actual_real_codeblock_index then
          { codeblocks i with
            block_data_offset := seektable_entry.block_data_offset
            block_size := seektable_entry.block_size }
        else codeblocks i
      if actual_real_codeblock_index + 1 = codeblock_count then codeblocks1
      else isyntax_seektable_fill codeblock_count rest (actual_real_codeblock_index + 1) codeblocks1
    else isyntax_seektable_fill codeblock_count rest actual_real_codeblock_index codeblocks

/-- Seektable resolution as `isyntax_open` starts it: index `0`, all
`seektable_entry_count` entries. -/
def isyntax_resolve_seektable (codeblock_count : Nat)
    (codeblock_headers : List isyntax_seektable_codeblock_header_t)
    (codeblocks : Nat → isyntax_codeblock_t) : Nat → isyntax_codeblock_t :=
  isyntax_seektable_fill codeblock_count codeblock_headers 0 codeblocks

/-- The seektable entries with a non-zero `block_data_offset`, in table order. -/
def seektable_real_entries (codeblock_headers : List isyntax_seektable_codeblock_header_t) :
    List isyntax_seektable_codeblock_header_t :=
  codeblock_headers.filter (fun e => decide (e.block_data_offset ≠ 0))

/-- `MEGABYTES(n)` of common.h. -/
def MEGABYTES (n : Nat) : Nat := 1024 * (1024 * n)

/-- An open file as `isyntax_open` sees it: its bytes and whether `fstat` succeeds. -/
structure isyntax_file_t where
  bytes : List Nat
  fstat_ok : Bool

/-- `memchr(read_buffer, '\x04', bytes_read)`: offset of the first byte `0x04`. -/
def memchr_eot : List Nat → Option Nat
  | [] => none
  | b :: rest => if b = 4 then some 0 else (memchr_eot rest).map (· + 1)

/-- The seektable part of `isyntax_open` (isyntax.c:1203-1281).  The record
layouts come from a header that is not among the sources, so reading the tag
and the entries from the file at `isyntax_data_offset` is the parameter
`read_seektable`; it is given the number of bytes to read when the tag's size
is non-negative and `none` when the size is to be guessed from the codeblock
count.  The result is `none` when the code would write through a `NULL`
`codeblocks` pointer. -/
def isyntax_open_seektable
    (read_seektable_tag : List Nat → Int → dicom_tag_header_t)
    (read_seektable : List Nat → Int → Option Int → Nat →
      List isyntax_seektable_codeblock_header_t)
    (file : List Nat) (isyntax_data_offset : Int) ( isyntax : isyntax_t) : Option isyntax_t :=
  match isyntax.wsi_image with
  | some wsi_image =>
    if wsi_image.header_codeblocks_are_partial then
      let seektable_header_tag := read_seektable_tag file isyntax_data_offset
      if seektable_header_tag.group = 0x301D ∧ seektable_header_tag.element = 0x2015 then
        let seektable_size : Option Int :=
          if seektable_header_tag.size < 0 then none else some seektable_header_tag.size
        let codeblock_headers :=
          read_seektable file isyntax_data_offset seektable_size wsi_image.codeblock_count
        match wsi_image.codeblocks with
        | some codeblocks =>
          some { isyntax with
            wsi_image := some { wsi_image with
              codeblocks := some (isyntax_resolve_seektable wsi_image.codeblock_count
                codeblock_headers codeblocks) } }
        | none => if codeblock_headers.any (fun e => decide (e.block_data_offset ≠ 0)) then none
                  else some isyntax
      else some isyntax
    else some isyntax
  | none => some isyntax

/-- The header loop of `isyntax_open` (isyntax.c:1132-1183) with `fuel` chunks
still allowed.  `rest` is the part of the file not yet read, `read_buffer` the
current chunk (`bytes_read` is its length).  The result is `none` when the
loop leaves through `goto fail_1`, and otherwise the parser state and
`isyntax_data_offset`.  The Boolean that `isyntax_parse_xml_header` returns is
dropped, as in the C code, which calls it as a statement. -/
def isyntax_open_header_loop
    (isyntax_parse_xml_header : isyntax_t → List Nat → Bool → Bool × isyntax_t)
    (read_size : Nat) :
    Nat → isyntax_t → List Nat → List Nat → Bool → Int → Option (isyntax_t × Int)
  | 0, _, _, _, _, _ => none
  | fuel + 1, isyntax, read_buffer, rest, are_there_bytes_left, header_length =>
    match memchr_eot read_buffer with
    | some offset =>
      let chunk_length := offset
      let header_length1 := header_length + chunk_length
      let isyntax_data_offset := header_length1 + 1
      if !(decide (header_length1 > 0) && decide (header_length1 < isyntax.filesize)) then none
      else
        let r := isyntax_parse_xml_header isyntax (read_buffer.take chunk_length) true
        some (r.2, isyntax_data_offset)
    | none =>
      let chunk_length := read_size
      let header_length1 := header_length + chunk_length
      if are_there_bytes_left then
        let r := isyntax_parse_xml_header isyntax (read_buffer.take chunk_length) false
        let next_buffer := rest.take read_size
        isyntax_open_header_loop isyntax_parse_xml_header read_size fuel r.2 next_buffer
          (rest.drop read_size) (decide (next_buffer.length = read_size)) header_length1
      else none

/-- `isyntax_open` (isyntax.c:1091): `fopen`, `fstat`, the header loop, the
seektable, `success = true`.  `file = none` stands for a failed `fopen`.
The outer `Option` is `none`
only where the code would dereference `NULL` or the fuel for the header loop
is used up; the Boolean is the value `isyntax_open` returns. -/
def isyntax_open
    (isyntax_parse_xml_header : isyntax_t → List Nat → Bool → Bool × isyntax_t)
    (read_seektable_tag : List Nat → Int → dicom_tag_header_t)
    (read_seektable : List Nat → Int → Option Int → Nat →
      List isyntax_seektable_codeblock_header_t)
    (file : Option isyntax_file_t) : Option (Bool × isyntax_t) :=
  let isyntax0 : isyntax_t := { filesize := 0, wsi_image := none }
  let read_size := MEGABYTES 1
  match file with
  | none => some (false, isyntax0)
  | some fp =>
    if fp.fstat_ok then
      let isyntax1 : isyntax_t := { isyntax0 with filesize := fp.bytes.length }
      let read_buffer := fp.bytes.take read_size
      let bytes_read := read_buffer.length
      if bytes_read < 3 then some (false, isyntax1)
      else
        let are_there_bytes_left := decide (bytes_read = read_size)
        match isyntax_open_header_loop isyntax_parse_xml_header read_size
            (fp.bytes.length + 1) isyntax1 read_buffer (fp.bytes.drop read_size)
            are_there_bytes_left 0 with
        | none => some (false, isyntax1)
        | some (isyntax2, isyntax_data_offset) =>
          match isyntax_open_seektable read_seektable_tag read_seektable fp.bytes
              isyntax_data_offset isyntax2 with
          | some isyntax3 => some (true, isyntax3)
          | none => none
    else some (false, isyntax0)

/-! ### Example data for seektable resolution and for opening a file -/

/-- A seektable entry with the given offset and size. -/
def example_seektable_entry (offset size : Nat) : isyntax_seektable_codeblock_header_t :=
  { block_data_offset_header := { group := 0x301D, element := 0x2010, size := 8 }
    block_data_offset := offset
    block_size_header := { group := 0x301D, element := 0x2011, size := 8 }
    block_size := size }

/-- A seektable with two padding entries among three real ones. -/
def example_seektable : List isyntax_seektable_codeblock_header_t :=
  [example_seektable_entry 0 0, example_seektable_entry 100 5, example_seektable_entry 0 0,
   example_seektable_entry 105 7, example_seektable_entry 112 9]

/-- A zeroed codeblock array, as `calloc` returns it. -/
def example_codeblocks : Nat → isyntax_codeblock_t :=
  fun _ => { x_coordinate := 0, y_coordinate := 0, color_component := 0, scale := 0,
             coefficient := 0, block_data_offset := 0, block_size := 0,
             block_header_template_id := 0 }

/-- A header parser that reports a parse error for every chunk. -/
def example_failing_parse : isyntax_t → List Nat → Bool → Bool × isyntax_t :=
  fun isyntax _ _ => (false, isyntax)

/-- A file whose header is the two bytes `<<` followed by the end-of-table
marker `CR LF 0x04` and one byte of data. -/
def example_malformed_file : isyntax_file_t :=
  { bytes := [60, 60, 13, 10, 4, 0], fstat_ok := true }

/-! ## Base64 (`base64_decode`, isyntax.c:49-110) -/

/-- The 64 symbols of `base64_table`, as character codes. -/
def base64_table : List Nat :=
  "ABCDEFGHIJKLMNOPQRSTUVWXYZabcdefghijklmnopqrstuvwxyz0123456789+/".toList.map Char.toNat

/-- The decoding table built at the start of `base64_decode`: `memset(dtable, 0x80, 256)`,
then `dtable[base64_table[i]] = i` for `i < 64`, then `dtable['='] = 0`. -/
def base64_dtable : Nat → Nat :=
  let dtable0 : Nat → Nat := fun _ => 0x80
  let dtable1 : Nat → Nat := (List.range 64).foldl
    (fun dtable i => fun c => if c = base64_table.getD i 0 then i else dtable c) dtable0
  fun c => if c = 61 then 0 else dtable1 c

/-- The second loop of `base64_decode` (isyntax.c:79-106) over the remaining
input, with `count`, `pad`, `block` and the bytes written so far (`pos - out`
is their number).  `none` is the `return NULL` for invalid padding. -/
def base64_decode_loop : List Nat → Nat → Nat → (Nat → Nat) → List Nat → Option (List Nat)
  | [], _, _, _, out => some out
  | c :: rest, count, pad, block, out =>
    let tmp := base64_dtable c
    if tmp = 0x80 then base64_decode_loop rest count pad block out
    else
      let pad1 := if c = 61 then pad + 1 else pad
      let block1 : Nat → Nat := fun i => if i = count then tmp else block i
      let count1 := count + 1
      if count1 = 4 then
        let out1 := out ++
          [((block1 0 <<< 2) ||| (block1 1 >>> 4)) % 256,
           ((block1 1 <<< 4) ||| (block1 2 >>> 2)) % 256,
           ((block1 2 <<< 6) ||| block1 3) % 256]
        if pad1 ≠ 0 then
          if pad1 = 1 then some out1.dropLast
          else if pad1 = 2 then some out1.dropLast.dropLast
          else none
        else base64_decode_loop rest 0 pad1 block1 out1
      else base64_decode_loop rest count1 pad1 block1 out

/-- `base64_decode(src, len, &out_len)`: `none` is `NULL`, and `some out` the
returned buffer, whose length is `out_len`.  `block` starts out
uninitialised in C; every entry is written before it is read, and it is
zeroed here.  A failing `malloc` is not modelled. -/
def base64_decode (src : List Nat) : Option (List Nat) :=
  let count := (src.filter (fun c => decide (base64_dtable c ≠ 0x80))).length
  if count = 0 ∨ count % 4 ≠ 0 then none
  else base64_decode_loop src 0 0 (fun _ => 0) []

/-- Base64 encoding as RFC 1341 defines it (not part of the sources): three
bytes become four symbols of `base64_table`; a final group of one or two
bytes is zero-extended and completed with `=`. -/
def rfc1341_base64_encode : List Nat → List Nat
  | [] => []
  | [a] =>
    [base64_table.getD (a >>> 2) 0, base64_table.getD ((a &&& 3) <<< 4) 0, 61, 61]
  | [a, b] =>
    [base64_table.getD (a >>> 2) 0, base64_table.getD (((a &&& 3) <<< 4) ||| (b >>> 4)) 0,
     base64_table.getD ((b &&& 15) <<< 2) 0, 61]
  | a :: b :: c :: rest =>
    [base64_table.getD (a >>> 2) 0, base64_table.getD (((a &&& 3) <<< 4) ||| (b >>> 4)) 0,
     base64_table.getD (((b &&& 15) <<< 2) ||| (c >>> 6)) 0, base64_table.getD (c &&& 63) 0]
      ++ rfc1341_base64_encode rest

/-! ## The block header table leaf (isyntax.c:317-402) -/

/-- `*(u32*)(p + offset)`: little-endian 32-bit load; a byte outside the
buffer reads as `0`. -/
def read_u32_le (p : List Nat) (offset : Nat) : Nat :=
  p.getD offset 0 + 256 * p.getD (offset + 1) 0 + 65536 * p.getD (offset + 2) 0
    + 16777216 * p.getD (offset + 3) 0

/-- The trimming loop `while (last_char == '\n' || last_char == '\r' || last_char == ' ')`
(isyntax.c:330) with `fuel` iterations allowed.  `value` is the memory around
the content buffer, indexed from the start of the buffer. -/
def trim_trailing_whitespace (value : Int → Nat) : Nat → Int → Nat → Option Int
  | 0, _, _ => none
  | fuel + 1, value_len, last_char =>
    if last_char = 10 ∨ last_char = 13 ∨ last_char = 32 then
      trim_trailing_whitespace value fuel (value_len - 1) (value (value_len - 1 - 1))
    else some value_len

/-- The trimming of the block header table leaf (isyntax.c:320-333): drop one
trailing `/`, then all trailing line feeds, carriage returns and blanks.  The
result is the trimmed `value_len`. -/
def block_header_table_trim (fuel : Nat) (value : Int → Nat) (value_len : Int) : Option Int :=
  let last_char := value (value_len - 1)
  if last_char = 47 then
    trim_trailing_whitespace value fuel (value_len - 1) (value (value_len - 1 - 1))
  else trim_trailing_whitespace value fuel value_len last_char

/-- The loop `for (i = 0; i < block_count; ++i)` copying record `i` into
`image->codeblocks[i]` (isyntax.c:356 and 381), with `n` records left. -/
def copy_block_headers (read_block_header : Nat → isyntax_codeblock_t) :
    Nat → Nat → (Nat → isyntax_codeblock_t) → (Nat → isyntax_codeblock_t)
  | 0, _, codeblocks => codeblocks
  | n + 1, i, codeblocks =>
    copy_block_headers read_block_header n (i + 1)
      (fun j => if j = i then read_block_header i else codeblocks j)

/-- What the handler does with the decoded table (isyntax.c:336-398).  The
record layouts are declared in a header that is not among the sources:
`read_tag_header` reads a `dicom_tag_header_t` at a byte offset,
`read_partial_block_header` and `read_full_block_header` give the codeblock
that the loop body fills from record `i` (for a partial record the offset and
size stay zero). -/
def isyntax_decode_block_header_table
    (read_tag_header : List Nat → Nat → dicom_tag_header_t)
    (read_partial_block_header read_full_block_header : List Nat → Nat → isyntax_codeblock_t)
    (image : isyntax_image_t) (decoded : List Nat) : isyntax_image_t :=
  let image1 := { image with block_header_size := decoded.length }
  let header_size := read_u32_le decoded 0 + 0
  let sequence_element := read_tag_header decoded 4
  let zeroed : Nat → isyntax_codeblock_t :=
    fun _ => { x_coordinate := 0, y_coordinate := 0, color_component := 0, scale := 0,
               coefficient := 0, block_data_offset := 0, block_size := 0,
               block_header_template_id := 0 }
  if sequence_element.size = 40 then
    let block_count := header_size / 48
    let should_be_zero := header_size % 48
    let image2 := if should_be_zero ≠ 0 then image1 else image1
    { image2 with
      codeblock_count := block_count
      codeblocks := some (copy_block_headers (read_partial_block_header decoded) block_count 0 zeroed)
      header_codeblocks_are_partial := true }
  else if sequence_element.size = 72 then
    let block_count := header_size / 80
    let should_be_zero := header_size % 80
    let image2 := if should_be_zero ≠ 0 then image1 else image1
    { image2 with
      codeblock_count := block_count
      codeblocks := some (copy_block_headers (read_full_block_header decoded) block_count 0 zeroed)
      header_codeblocks_are_partial := false }
  else image1

/-- `isyntax_parse_scannedimage_child_node` for the leaf `UFS_IMAGE_BLOCK_HEADER_TABLE`
(group `0x301D`, element `0x2014`): trim, `base64_decode`, decode the table.
Other leaves do not touch the image fields modelled here.  The result is
`none` when the trimming runs out of fuel or leaves a negative length. -/
def isyntax_parse_scannedimage_child_node
    (read_tag_header : List Nat → Nat → dicom_tag_header_t)
    (read_partial_block_header read_full_block_header : List Nat → Nat → isyntax_codeblock_t)
    (fuel : Nat) (image : isyntax_image_t) (group element : Nat)
    (value : Int → Nat) (value_len : Nat) : Option isyntax_image_t :=
  if group = 0x301D ∧ element = 0x2014 then
    match block_header_table_trim fuel value value_len with
    | none => none
    | some value_len1 =>
      if value_len1 < 0 then none
      else
        match base64_decode ((List.range value_len1.toNat).map (fun i => value i)) with
        | some decoded =>
          some (isyntax_decode_block_header_table read_tag_header read_partial_block_header
            read_full_block_header image decoded)
        | none => some image
  else some image

/-- A `dicom_tag_header_t` read as `u16 group; u16 element; u32 size`, little-endian. -/
def example_read_tag_header (p : List Nat) (offset : Nat) : dicom_tag_header_t :=
  { group := p.getD offset 0 + 256 * p.getD (offset + 1) 0
    element := p.getD (offset + 2) 0 + 256 * p.getD (offset + 3) 0
    size := read_u32_le p (offset + 4) }

/-- A record reader that fills only the coordinates, from the first bytes of record `i`. -/
def example_read_block_header (record_size : Nat) (p : List Nat) (i : Nat) : isyntax_codeblock_t :=
  { x_coordinate := read_u32_le p (4 + record_size * i + 8)
    y_coordinate := read_u32_le p (4 + record_size * i + 20)
    color_component := 0, scale := 0, coefficient := 0, block_data_offset := 0, block_size := 0,
    block_header_template_id := 0 }

/-- A decoded table that declares a length of 49 bytes, not a multiple of the
48-byte partial record, and whose first record has size field 40. -/
def example_bad_length_table : List Nat :=
  [49, 0, 0, 0, 0x1D, 0x30, 0x0D, 0x20, 40, 0, 0, 0] ++ List.replicate 40 0

/-- An image before its table is decoded: no codeblock array. -/
def example_empty_image : isyntax_image_t :=
  { codeblock_count := 0, codeblocks := none, header_codeblocks_are_partial := false,
    block_header_size := 0 }

/-! ## Reference counting of background tasks (tile_streamer.cpp) -/

/-- `isyntax_begin_first_load` (tile_streamer.cpp:383): retain, queue the task,
release again when the queue rejects it. -/
def isyntax_begin_first_load (env : Nat → work_queue_sample_t) (st : stream_state_t) :
    stream_state_t :=
  let refcount1 := st.refcount + 1
  if !(env st.submissions).accepted then
    { st with refcount := refcount1 - 1, submissions := st.submissions + 1 }
  else { st with refcount := refcount1, submissions := st.submissions + 1 }

/-- Assignment `tile->is_submitted_for_h_coeff_decompression = v` on level `scale`. -/
def set_is_submitted_for_h_coeff_decompression (levels : Int → isyntax_level_t)
    (scale tile_index : Int) (v : Bool) : Int → isyntax_level_t :=
  fun s =>
    if s = scale then
      { levels s with
        tiles := fun i =>
          if i = tile_index then
            { (levels s).tiles i with is_submitted_for_h_coeff_decompression := v }
          else (levels s).tiles i }
    else levels s

/-- `isyntax_begin_decompress_h_coeff_for_tile` (tile_streamer.cpp:448); the
tile is given by its index in the level. -/
def isyntax_begin_decompress_h_coeff_for_tile (env : Nat → work_queue_sample_t)
    (st : stream_state_t) (scale tile_index : Int) : stream_state_t :=
  let refcount1 := st.refcount + 1
  let levels1 := set_is_submitted_for_h_coeff_decompression st.levels scale tile_index true
  if !(env st.submissions).accepted then
    { st with
      refcount := refcount1 - 1
      levels := set_is_submitted_for_h_coeff_decompression levels1 scale tile_index false
      submissions := st.submissions + 1 }
  else { st with refcount := refcount1, levels := levels1, submissions := st.submissions + 1 }

/-- The two global flags of the tile streamer. -/
structure tile_streamer_flags_t where
  is_tile_stream_task_in_progress : Bool
  is_tile_streamer_frame_boundary_passed : Bool

/-- `stream_image_tiles` (tile_streamer.cpp:1027): when no streaming task is in
progress, retain the file, set the flag and call `add_work_queue_entry`, whose
result the C code does not look at; otherwise raise the frame boundary flag. -/
def stream_image_tiles (_env : Nat → work_queue_sample_t) (flags : tile_streamer_flags_t)
    (st : stream_state_t) : tile_streamer_flags_t × stream_state_t :=
  if !flags.is_tile_stream_task_in_progress then
    ({ flags with is_tile_stream_task_in_progress := true },
     { st with refcount := st.refcount + 1, submissions := st.submissions + 1 })
  else ({ flags with is_tile_streamer_frame_boundary_passed := true }, st)

/-- The last statement of each task function (`isyntax_load_tile_task_func`,
`isyntax_first_load_task_func`, `isyntax_decompress_h_coeff_for_tile_task_func`,
`isyntax_stream_image_tiles_func`): `atomic_decrement(&isyntax->refcount)`. -/
def task_func_release (st : stream_state_t) : stream_state_t :=
  { st with refcount := st.refcount - 1 }

/-- A work queue that rejects every entry. -/
def example_full_queue : Nat → work_queue_sample_t :=
  fun _ => { accepted := false, frame_boundary_passed := false, tasks_waiting := 256 }

/-- The streamer state of the one-tile pyramid with no task in flight. -/
def example_idle_state : stream_state_t :=
  { levels := example_levels, refcount := 0, submissions := 0, begin_load_tile_calls := [] }

/-! ## Data chunks (tile_streamer.cpp:394-432 and 788-795) -/

/-- The fields of `isyntax_data_chunk_t` used by the streamer; `data` is
`none` while the chunk has not been read. -/
structure isyntax_data_chunk_t where
  offset : Nat
  top_codeblock_index : Nat
  codeblock_count_per_color : Int
  scale : Int
  data : Option (List Nat)

/-- The index of a tile's codeblock within one colour of its chunk
(tile_streamer.cpp:402-411); `none` is `panic()`.  `%` is C's remainder. -/
def codeblock_index_in_chunk (scale_in_chunk tile_x tile_y : Int) : Option Int :=
  if scale_in_chunk = 0 then some 0
  else if scale_in_chunk = 1 then some (1 + (Int.tmod tile_y 2) * 2 + (Int.tmod tile_x 2))
  else if scale_in_chunk = 2 then some (5 + (Int.tmod tile_y 4) * 4 + (Int.tmod tile_x 4))
  else none

/-- The array `chunk_codeblock_indices_for_color` (tile_streamer.cpp:412). -/
def chunk_codeblock_indices_for_color (chunk : isyntax_data_chunk_t)
    (codeblock_index_in_chunk : Int) : List Int :=
  [codeblock_index_in_chunk,
   chunk.codeblock_count_per_color + codeblock_index_in_chunk,
   2 * chunk.codeblock_count_per_color + codeblock_index_in_chunk]

/-- One read that `isyntax_decompress_h_coeff_for_tile` hands to the
decompressor: the codeblock's index within the chunk, `offset_in_chunk` and
`codeblock->block_size`. -/
structure h_coeff_read_t where
  index_in_chunk : Int
  offset_in_chunk : Int
  block_size : Nat
  deriving DecidableEq

/-- The codeblocks that `isyntax_decompress_h_coeff_for_tile` selects for the
three colour channels of a tile and the byte ranges of the chunk buffer it
passes to the decompressor (tile_streamer.cpp:394-432).  `codeblocks` is
`wsi->codeblocks`, indexed by an integer as the C pointer is.  The result is
`none` when the chunk is not loaded or the function panics. -/
def isyntax_decompress_h_coeff_for_tile (codeblocks : Int → isyntax_codeblock_t)
    (chunk : isyntax_data_chunk_t) (tile : isyntax_tile_t) (scale tile_x tile_y : Int) :
    Option (List h_coeff_read_t) :=
  match chunk.data with
  | some _ =>
    let scale_in_chunk := chunk.scale - scale
    match codeblock_index_in_chunk scale_in_chunk tile_x tile_y with
    | none => none
    | some codeblock_index_in_chunk =>
      some ((chunk_codeblock_indices_for_color chunk codeblock_index_in_chunk).map (fun idx =>
        let codeblock := codeblocks (tile.codeblock_chunk_index + idx)
        { index_in_chunk := idx
          offset_in_chunk := (codeblock.block_data_offset : Int) - chunk.offset
          block_size := codeblock.block_size }))
  | none => none

/-- The `read_size` that the streamer computes for a chunk it reads
(tile_streamer.cpp:792-794), in 64-bit unsigned arithmetic. -/
def chunk_read_size (codeblocks : Int → isyntax_codeblock_t) (chunk : isyntax_data_chunk_t) :
    Nat :=
  let last_codeblock :=
    codeblocks (chunk.top_codeblock_index + (chunk.codeblock_count_per_color * 3) - 1)
  let offset1 : Nat := (last_codeblock.block_data_offset + last_codeblock.block_size) % 2 ^ 64
  (((offset1 : Int) - (chunk.offset : Int)) % 2 ^ 64).toNat

/-- A chunk of three levels (21 codeblocks per colour), loaded, at offset 1000. -/
def example_chunk : isyntax_data_chunk_t :=
  { offset := 1000, top_codeblock_index := 0, codeblock_count_per_color := 21, scale := 2,
    data := some [] }

/-- Codeblocks at non-decreasing offsets from 1000 on, one byte each, except
that the first one is 500 bytes long and so overlaps all the others. -/
def example_overlapping_codeblocks : Int → isyntax_codeblock_t :=
  fun j =>
    { x_coordinate := 0, y_coordinate := 0, color_component := 0, scale := 2, coefficient := 1,
      block_data_offset := 1000 + j.toNat, block_size := if j = 0 then 500 else 1,
      block_header_template_id := 0 }

/-- Codeblocks of ten bytes each, stored one after the other from offset 1000. -/
def example_contiguous_codeblocks : Int → isyntax_codeblock_t :=
  fun j =>
    { x_coordinate := 0, y_coordinate := 0, color_component := 0, scale := 2, coefficient := 1,
      block_data_offset := 1000 + 10 * j.toNat, block_size := 10,
      block_header_template_id := 0 }

/-! ## Block allocator (platform/platform.c:312-405)

Addresses are natural numbers and `NULL` is `0`.  The lock is not modelled. -/

/-- Free list entry `block_allocator_item_t`; `next` points into `free_list_storage`. -/
structure block_allocator_item_t where
  next : Option Nat
  chunk_index : Nat
  block_index : Nat

/-- Chunk `block_allocator_chunk_t`. -/
structure block_allocator_chunk_t where
  used_blocks : Nat
  memory : Nat

/-- Allocator `block_allocator_t`. -/
structure block_allocator_t where
  block_size : Nat
  chunk_capacity_in_blocks : Nat
  chunk_size : Nat
  chunk_count : Nat
  used_chunks : Nat
  chunks : Nat → block_allocator_chunk_t
  free_list_storage : Nat → block_allocator_item_t
  free_list : Option Nat
  free_list_length : Nat
  is_valid : Bool

/-- `block_allocator_create` (platform.c:312) in `size_t` arithmetic;
`memory` is the address that `malloc(chunk_size)` returns.  `none` is a
division by zero. -/
def block_allocator_create (memory : Nat) (block_size max_capacity_in_blocks chunk_size : Nat) :
    Option block_allocator_t :=
  let total_capacity := (block_size * max_capacity_in_blocks) % 2 ^ 64
  if chunk_size = 0 then none
  else
    let chunk_count := total_capacity / chunk_size
    if chunk_count = 0 then none
    else
      let chunk_capacity_in_blocks := max_capacity_in_blocks / chunk_count
      some
        { block_size := block_size
          chunk_capacity_in_blocks := chunk_capacity_in_blocks
          chunk_size := chunk_size
          chunk_count := chunk_count
          used_chunks := 1
          chunks := fun i => if i = 0 then { used_blocks := 0, memory := memory }
                             else { used_blocks := 0, memory := 0 }
          free_list_storage := fun _ => { next := none, chunk_index := 0, block_index := 0 }
          free_list := none
          free_list_length := 0
          is_valid := true }

/-- `block_alloc` (platform.c:342); `new_chunk_memory` is the address that
`malloc(chunk_size)` returns if a new chunk is needed.  `none` is `panic()`.
The counters are natural numbers: `used_chunks` is at least `1` from
`block_allocator_create` on, and the free list is non-empty where its length
is decremented. -/
def block_alloc (new_chunk_memory : Nat) (allocator : block_allocator_t) :
    Option (Nat × block_allocator_t) :=
  match allocator.free_list with
  | some free_item_ptr =>
    let free_item := allocator.free_list_storage free_item_ptr
    let result := (allocator.chunks free_item.chunk_index).memory
      + free_item.block_index * allocator.block_size
    some (result,
      { allocator with
        free_list := free_item.next
        free_list_length := allocator.free_list_length - 1 })
  | none =>
    let chunk_index := allocator.used_chunks - 1
    let current_chunk := allocator.chunks chunk_index
    if current_chunk.used_blocks < allocator.chunk_capacity_in_blocks then
      let block_index := current_chunk.used_blocks
      let result := current_chunk.memory + block_index * allocator.block_size
      some (result,
        { allocator with
          chunks := fun i =>
            if i = chunk_index then { current_chunk with used_blocks := block_index + 1 }
            else allocator.chunks i })
    else if allocator.used_chunks < allocator.chunk_count then
      let chunk_index1 := allocator.used_chunks
      let current_chunk1 := allocator.chunks chunk_index1
      let block_index := current_chunk1.used_blocks
      let result := new_chunk_memory + block_index * allocator.block_size
      some (result,
        { allocator with
          used_chunks := allocator.used_chunks + 1
          chunks := fun i =>
            if i = chunk_index1 then { used_blocks := block_index + 1, memory := new_chunk_memory }
            else allocator.chunks i })
    else none

/-- The search loop of `block_free` (platform.c:383-390) over the chunk
indices still to try. -/
def block_free_find_chunk (allocator : block_allocator_t) (ptr_to_free : Nat) :
    List Nat → Option Nat
  | [] => none
  | i :: rest =>
    let chunk := allocator.chunks i
    if ptr_to_free ≥ chunk.memory ∧ ptr_to_free < chunk.memory + allocator.chunk_size then some i
    else block_free_find_chunk allocator ptr_to_free rest

/-- `block_free` (platform.c:378).  `none` is `panic()` or a division by zero. -/
def block_free (allocator : block_allocator_t) (ptr_to_free : Nat) : Option block_allocator_t :=
  match block_free_find_chunk allocator ptr_to_free (List.range allocator.used_chunks) with
  | some chunk_index =>
    if allocator.block_size = 0 then none
    else
      let chunk := allocator.chunks chunk_index
      let free_item : block_allocator_item_t :=
        { next := allocator.free_list
          chunk_index := chunk_index
          block_index := (ptr_to_free - chunk.memory) / allocator.block_size }
      let free_index := allocator.free_list_length
      some
        { allocator with
          free_list_length := allocator.free_list_length + 1
          free_list_storage := fun i =>
            if i = free_index then free_item else allocator.free_list_storage i
          free_list := some free_index }
  | none => none

/-- `n` calls of `block_alloc` in a row; the pointers are returned in order. -/
def block_alloc_many (new_chunk_memory : Nat) :
    Nat → block_allocator_t → Option (List Nat × block_allocator_t)
  | 0, allocator => some ([], allocator)
  | n + 1, allocator =>
    match block_alloc new_chunk_memory allocator with
    | none => none
    | some (p, allocator1) =>
      match block_alloc_many new_chunk_memory n allocator1 with
      | none => none
      | some (ps, allocator2) => some (p :: ps, allocator2)

/-- The allocator `block_allocator_create(10, 10, 35)` with its first chunk at
address 1000, after five allocations. -/
def example_overfull_allocator : Option (List Nat × block_allocator_t) :=
  match block_allocator_create 1000 10 10 35 with
  | none => none
  | some allocator => block_alloc_many 5000 5 allocator

/-- The allocator `block_allocator_create(16, 8, 64)` with its first chunk at
address 1000, after three allocations. -/
def example_allocator : Option (List Nat × block_allocator_t) :=
  match block_allocator_create 1000 16 8 64 with
  | none => none
  | some allocator => block_alloc_many 5000 3 allocator

/-- The allocator state of `example_allocator`. -/
def example_allocator_state : block_allocator_t :=
  match example_allocator with
  | some r => r.2
  | none =>
    { block_size := 0, chunk_capacity_in_blocks := 0, chunk_size := 0, chunk_count := 0,
      used_chunks := 0, chunks := fun _ => { used_blocks := 0, memory := 0 },
      free_list_storage := fun _ => { next := none, chunk_index := 0, block_index := 0 },
      free_list := none, free_list_length := 0, is_valid := false }

/-! ## The Hulsken decompressor (`isyntax_hulsken_decompress`, isyntax.c:777-1067)

The statistics counters `max_code_size`, `symbol_counts`, `fast_count` and
`nonfast_count` do not influence the result and are left out. -/

/-- `*(u64*)(buffer + byte)`: little-endian 64-bit load.  `buffer` is the
codeblock data with the bytes that follow it in memory; a byte beyond the
list reads as `0`. -/
def read_u64_le (buffer : List Nat) (byte : Nat) : Nat :=
  buffer.getD byte 0 + 2 ^ 8 * buffer.getD (byte + 1) 0 + 2 ^ 16 * buffer.getD (byte + 2) 0
    + 2 ^ 24 * buffer.getD (byte + 3) 0 + 2 ^ 32 * buffer.getD (byte + 4) 0
    + 2 ^ 40 * buffer.getD (byte + 5) 0 + 2 ^ 48 * buffer.getD (byte + 6) 0
    + 2 ^ 56 * buffer.getD (byte + 7) 0

/-- `bitstream_lsb_read` (isyntax.c:779): between 57 and 64 bits of the
stream from bit `pos` on, least significant bit first. -/
def bitstream_lsb_read (buffer : List Nat) (pos : Nat) : Nat :=
  read_u64_le buffer (pos / 8) >>> (pos % 8)

/-- `HUFFMAN_FAST_BITS`. -/
def HUFFMAN_FAST_BITS : Nat := 12

/-- `huffman_t`: the arrays `fast`, `code` and `size`. -/
structure huffman_t where
  fast : Nat → Nat
  code : Nat → Nat
  size : Nat → Nat

/-- `1 << n` stored in a 32-bit variable, for `n < 32`.  From `n = 32` on the C
shift is undefined (an x86-64 shifts by `n & 31`), and on the signed `1` C
leaves it undefined already at `n = 31`; the value given here for those
counts, `0` from `n = 32` on, is a choice of the model and not the value of a
machine. -/
def shl32 (n : Nat) : Nat := (1 <<< n) % 2 ^ 32

/-- `(1 << n) - 1` as a `u32`, for `n < 32` (see `shl32`). -/
def mask32 (n : Nat) : Nat := (shl32 n + 2 ^ 32 - 1) % 2 ^ 32

/-- The loop of `save_code_in_huffman_fast_lookup_table` (isyntax.c:805) with
`n` iterations left, at index `i`. -/
def save_code_loop (code code_width symbol : Nat) : Nat → Nat → (Nat → Nat) → (Nat → Nat)
  | 0, _, fast => fast
  | n + 1, i, fast =>
    save_code_loop code code_width symbol n (i + 1)
      (fun address => if address = ((i <<< code_width) ||| code) then symbol else fast address)

/-- `save_code_in_huffman_fast_lookup_table` (isyntax.c:802). -/
def save_code_in_huffman_fast_lookup_table (h : huffman_t) (code code_width symbol : Nat) :
    huffman_t :=
  let duplicate_bits := HUFFMAN_FAST_BITS - code_width
  { h with fast := save_code_loop code code_width symbol (shl32 duplicate_bits) 0 h.fast }

/-- The descent `while (!is_leaf)` (isyntax.c:901): shift the blob until its
lowest bit is set.  The result is the blob, `bits_to_advance` and `code_size`
at the leaf; `none` when `fuel` shifts did not reach a set bit. -/
def hulsken_descend : Nat → Nat → Nat → Nat → Option (Nat × Nat × Nat)
  | 0, _, _, _ => none
  | fuel + 1, blob, bits_to_advance, code_size =>
    if blob &&& 1 ≠ 0 then some (blob, bits_to_advance, code_size)
    else hulsken_descend fuel (blob >>> 1) (bits_to_advance + 1) (code_size + 1)

/-- The loop `while (!found_zero)` (isyntax.c:943) that walks back up the
tree, with `fuel` iterations allowed: the result is `code`, `code_high_bit`
and `code_size` when the loop is left. -/
def hulsken_ascend : Nat → Nat → Nat → Nat → Nat × Nat × Nat
  | 0, code, code_high_bit, code_size => (code, code_high_bit, code_size)
  | fuel + 1, code, code_high_bit, code_size =>
    if ((2 ^ 32 - 1 - code) &&& code_high_bit) ≠ 0 then (code, code_high_bit, code_size)
    else
      let code_size1 := code_size - 1
      if code_size1 = 0 then (code, code_high_bit, code_size1)
      else
        let code1 := code &&& ((code_high_bit + 2 ^ 32 - 1) % 2 ^ 32)
        let code_high_bit1 := code_high_bit >>> 1
        hulsken_ascend fuel code1 code_high_bit1 code_size1

/-- What the table reading loop stores for one leaf (isyntax.c:911-927):
`huffman.code[symbol]`, `huffman.size[symbol]`, and either the entries of the
fast table that end in the code, or, for a code longer than
`HUFFMAN_FAST_BITS`, the marker at the code's low bits. -/
def hulsken_store_code (huffman : huffman_t) (code code_size symbol : Nat) : huffman_t :=
  let huffman1 : huffman_t :=
    { huffman with
      code := fun i => if i = symbol then code % 2 ^ 16 else huffman.code i
      size := fun i => if i = symbol then code_size % 2 ^ 8 else huffman.size i }
  if code_size ≤ HUFFMAN_FAST_BITS then
    save_code_in_huffman_fast_lookup_table huffman1 code code_size symbol
  else
    let fast_mask := shl32 HUFFMAN_FAST_BITS - 1
    let prefix_code := code &&& fast_mask
    let old_fast_data := huffman1.fast prefix_code
    let old_max_size := (old_fast_data &&& 0x1F) % 2 ^ 8
    let new_max_size := (max old_max_size code_size) % 2 ^ 8
    { huffman1 with
      fast := fun i => if i = prefix_code then (256 + new_max_size) % 2 ^ 16
                       else huffman1.fast i }

/-- The loop that reads the Huffman table (isyntax.c:890-951), with `fuel`
leaves allowed.  The result is `bits_read` and the table after the loop. -/
def hulsken_read_table (buffer : List Nat) :
    Nat → Nat → Nat → Nat → huffman_t → Option (Nat × huffman_t)
  | 0, _, _, _, _ => none
  | fuel + 1, code_size, code, bits_read, huffman =>
    let blob := bitstream_lsb_read buffer bits_read
    match hulsken_descend 65 blob 1 code_size with
    | none => none
    | some (blob1, bits_to_advance, code_size1) =>
      let blob2 := blob1 >>> 1
      let symbol := blob2 % 256
      let huffman1 := hulsken_store_code huffman code code_size1 symbol
      let bits_read1 := bits_read + (bits_to_advance + 8)
      if code_size1 = 0 then some (bits_read1, huffman1)
      else
        let code_high_bit := shl32 (code_size1 - 1)
        match hulsken_ascend code_size1 code code_high_bit code_size1 with
        | (code2, code_high_bit2, code_size2) =>
          let code3 := code2 ||| code_high_bit2
          if code_size2 > 0 then
            hulsken_read_table buffer fuel code_size2 code3 bits_read1 huffman1
          else some (bits_read1, huffman1)

/-- The linear search of the decoder for a code longer than `HUFFMAN_FAST_BITS`
(isyntax.c:983-994) over the symbols `i, i + 1, ...`, `n` of them: the
`(symbol, code_size)` of the first match. -/
def hulsken_search_long_code (huffman : huffman_t) (blob : Nat) : Nat → Nat → Option (Nat × Nat)
  | 0, _ => none
  | n + 1, i =>
    let test_size := huffman.size i
    if test_size ≤ HUFFMAN_FAST_BITS then hulsken_search_long_code huffman blob n (i + 1)
    else
      let test_code := huffman.code i
      if blob &&& mask32 test_size = test_code then some (i, test_size)
      else hulsken_search_long_code huffman blob n (i + 1)

/-- One symbol lookup of the decoder (isyntax.c:971-1000): `symbol` and
`code_size`, the latter already replaced by `1` when it is `0`. -/
def hulsken_decode_symbol (huffman : huffman_t) (blob : Nat) : Nat × Nat :=
  let fast_mask := shl32 HUFFMAN_FAST_BITS - 1
  let fast_index := blob &&& fast_mask
  let c := huffman.fast fast_index
  let r : Nat × Nat :=
    if c ≤ 255 then (c, huffman.size c)
    else
      match hulsken_search_long_code huffman blob 256 0 with
      | some r => r
      | none => (0, 1)
  if r.2 = 0 then (r.1, 1) else r

/-- A signed 32-bit variable after an assignment of `x`. -/
def to_i32 (x : Int) : Int := (x + 2 ^ 31) % 2 ^ 32 - 2 ^ 31

/-- `memset(output_buffer + start, 0, count)`, with `count` converted to
`size_t`.  A count that is negative as an `i32` becomes a size of `2 ^ 64 +
count` bytes, beyond every object: C leaves such a call undefined, and the
fill given here for it is a choice of the model and not what a machine
does. -/
def memset_zero (output_buffer : Int → Nat) (start count : Int) : Int → Nat :=
  fun i => if start ≤ i ∧ i < start + count % 2 ^ 64 then 0 else output_buffer i

/-- The loop `for(;;)` that gathers adjacent zero run symbols (isyntax.c:1023-1042),
with `fuel` iterations allowed: the result is `numzeroes` and `bits_read`. -/
def hulsken_extend_zero_run (buffer : List Nat) (compressor_version : Nat)
    (zerorun_code zerorun_code_size zerorun_code_mask zero_counter_size zero_counter_mask : Nat)
    (serialized_length decompressed_length : Int) :
    Nat → Nat → Nat → Option (Nat × Nat)
  | 0, _, _ => none
  | fuel + 1, numzeroes, bits_read =>
    let blob := bitstream_lsb_read buffer bits_read
    let next_code := (blob &&& zerorun_code_mask) % 2 ^ 8
    if next_code = zerorun_code then
      let blob1 := blob >>> zerorun_code_size
      let counter_extra_bits0 := blob1 &&& zero_counter_mask
      let counter_extra_bits : Nat :=
        if compressor_version = 2 then (counter_extra_bits0 + 1) % 2 ^ 32 else counter_extra_bits0
      let numzeroes1 : Nat := ((numzeroes <<< zero_counter_size) % 2 ^ 32) ||| counter_extra_bits
      let bits_read1 := bits_read + (zerorun_code_size + zero_counter_size)
      if (decompressed_length + (numzeroes1 : Int)) % 2 ^ 32 ≥ serialized_length then
        some (numzeroes1, bits_read1)
      else
        hulsken_extend_zero_run buffer compressor_version zerorun_code zerorun_code_size
          zerorun_code_mask zero_counter_size zero_counter_mask serialized_length
          decompressed_length fuel numzeroes1 bits_read1
    else some (numzeroes, bits_read)

/-- State of the message decoding loop. -/
structure hulsken_state_t where
  bits_read : Nat
  decompressed_length : Int
  output_buffer : Int → Nat

/-- The message decoding loop `while (bits_read < block_size_in_bits)`
(isyntax.c:967-1056), with `fuel` iterations allowed. -/
def hulsken_decode_message (buffer : List Nat) (compressor_version : Nat) (huffman : huffman_t)
    (zerorun_symbol zero_counter_size : Nat) (block_size_in_bits serialized_length : Int) :
    Nat → hulsken_state_t → Option hulsken_state_t
  | 0, _ => none
  | fuel + 1, st =>
    let zerorun_code := huffman.code zerorun_symbol
    let zerorun_code_size := if huffman.size zerorun_symbol = 0 then 1 else huffman.size zerorun_symbol
    let zerorun_code_mask := mask32 zerorun_code_size
    let zero_counter_mask := mask32 zero_counter_size
    if ¬ ((st.bits_read : Int) < block_size_in_bits) then some st
    else if st.decompressed_length ≥ serialized_length then some st
    else
      let blob := bitstream_lsb_read buffer st.bits_read
      let symbol := (hulsken_decode_symbol huffman blob).1
      let code_size := (hulsken_decode_symbol huffman blob).2
      let blob1 := blob >>> code_size
      let bits_read1 := st.bits_read + code_size
      if symbol = zerorun_symbol then
        let numzeroes0 : Nat := blob1 &&& zero_counter_mask
        let bits_read2 := bits_read1 + zero_counter_size
        if numzeroes0 > 0 then
          let numzeroes : Nat :=
            if compressor_version = 2 then (numzeroes0 + 1) % 2 ^ 32 else numzeroes0
          if (st.decompressed_length + (numzeroes : Int)) % 2 ^ 32 ≥ serialized_length then
            some
              { bits_read := bits_read2
                decompressed_length := to_i32 (st.decompressed_length + (numzeroes : Int))
                output_buffer := memset_zero st.output_buffer st.decompressed_length
                  (min (serialized_length - st.decompressed_length) (numzeroes : Int)) }
          else
            match hulsken_extend_zero_run buffer compressor_version zerorun_code zerorun_code_size
                zerorun_code_mask zero_counter_size zero_counter_mask serialized_length
                st.decompressed_length fuel numzeroes bits_read2 with
            | none => none
            | some (numzeroes1, bits_read3) =>
              let bytes_to_write :=
                to_i32 (min (serialized_length - st.decompressed_length) (numzeroes1 : Int))
              hulsken_decode_message buffer compressor_version huffman zerorun_symbol
                zero_counter_size block_size_in_bits serialized_length fuel
                { bits_read := bits_read3
                  decompressed_length := to_i32 (st.decompressed_length + (numzeroes1 : Int))
                  output_buffer := memset_zero st.output_buffer st.decompressed_length
                    bytes_to_write }
        else
          hulsken_decode_message buffer compressor_version huffman zerorun_symbol
            zero_counter_size block_size_in_bits serialized_length fuel
            { bits_read := bits_read2
              decompressed_length := to_i32 (st.decompressed_length + 1)
              output_buffer := fun i =>
                if i = st.decompressed_length then symbol else st.output_buffer i }
      else
        hulsken_decode_message buffer compressor_version huffman zerorun_symbol
          zero_counter_size block_size_in_bits serialized_length fuel
          { bits_read := bits_read1
            decompressed_length := to_i32 (st.decompressed_length + 1)
            output_buffer := fun i =>
              if i = st.decompressed_length then symbol else st.output_buffer i }

/-- `_popcnt32` on a 16-bit mask: the number of set bits. -/
def popcnt16 (x : Nat) : Nat :=
  ((List.range 16).filter (fun i => x.testBit i)).length

/-- What the header of a codeblock yields (isyntax.c:837-881). -/
structure hulsken_header_t where
  serialized_length : Int
  zerorun_symbol : Nat
  zero_counter_size : Nat
  bits_read : Nat

/-- The header of a codeblock (isyntax.c:837-881).  Version 1 stores the
serialized length; version 2 stores bitplane masks, from which the length is
derived, and a bitplane seektable that is skipped.  `log2f_trunc` stands for
`(i32)(log2f(serialized_length))`, a floating point computation.  `none` is
`panic()`. -/
def hulsken_read_header (log2f_trunc : Int → Nat) (buffer : List Nat)
    (coeff_count compressor_version : Nat) : Option hulsken_header_t :=
  let coeff_bit_depth := 16
  let block_width := 128
  let block_height := 128
  if compressor_version = 1 then
    some
      { serialized_length := read_u32_le buffer 0
        zerorun_symbol := buffer.getD 4 0
        zero_counter_size := buffer.getD 5 0
        bits_read := 4 * 8 + 8 + 8 }
  else
    let masks : Option (Nat × Nat) :=
      if coeff_count = 1 then
        some (popcnt16 (buffer.getD 0 0 + 256 * buffer.getD 1 0), 2)
      else if coeff_count = 3 then
        some (popcnt16 (buffer.getD 0 0 + 256 * buffer.getD 1 0)
          + popcnt16 (buffer.getD 2 0 + 256 * buffer.getD 3 0)
          + popcnt16 (buffer.getD 4 0 + 256 * buffer.getD 5 0), 6)
      else none
    match masks with
    | none => none
    | some (total_mask_bits, byte_pos) =>
      let _unused := coeff_bit_depth
      let serialized_length : Int := total_mask_bits * (block_width * block_height / 8)
      let bits_read := byte_pos * 8 + 8 + 8
      let stored_bit_plane_count := total_mask_bits
      let bitplane_ptr_bits := log2f_trunc serialized_length + 5
      some
        { serialized_length := serialized_length
          zerorun_symbol := buffer.getD byte_pos 0
          zero_counter_size := buffer.getD (byte_pos + 1) 0
          bits_read := if compressor_version ≥ 2 then
              bits_read + stored_bit_plane_count * bitplane_ptr_bits
            else bits_read }

/-- What `isyntax_hulsken_decompress` returns: the output buffer and the
value stored in `codeblock->decompressed_size`. -/
structure hulsken_result_t where
  output_buffer : Int → Nat
  decompressed_size : Int

/-- `isyntax_hulsken_decompress` (isyntax.c:816).  `buffer` is `codeblock->data`
followed by the bytes after it in memory, `block_size` is
`codeblock->block_size`, `output_init` the content of the freshly allocated
output buffer.  `fuel` bounds the iterations of each of the three loops;
`none` means that a loop did not end within `fuel` iterations, or `panic()`. -/
def isyntax_hulsken_decompress (log2f_trunc : Int → Nat) (fuel : Nat) (buffer : List Nat)
    (block_size : Nat) (coeff_count compressor_version : Nat) (output_init : Int → Nat) :
    Option hulsken_result_t :=
  let block_size_in_bits : Int := block_size * 8
  match hulsken_read_header log2f_trunc buffer coeff_count compressor_version with
  | none => none
  | some header =>
    let huffman0 : huffman_t :=
      { fast := fun _ => 0x8080, code := fun _ => 0, size := fun _ => 0 }
    match hulsken_read_table buffer fuel 0 0 header.bits_read huffman0 with
    | none => none
    | some (bits_read, huffman) =>
      match hulsken_decode_message buffer compressor_version huffman header.zerorun_symbol
          header.zero_counter_size block_size_in_bits header.serialized_length fuel
          { bits_read := bits_read, decompressed_length := 0, output_buffer := output_init } with
      | none => none
      | some st =>
        some { output_buffer := st.output_buffer, decompressed_size := st.decompressed_length }

/-- The first `n` bytes of an output buffer. -/
def output_bytes (output_buffer : Int → Nat) (n : Nat) : List Nat :=
  (List.range n).map (fun i : Nat => output_buffer (i : Int))

/-! ## Encoding for the Hulsken decompressor (stated from the format, not from the sources) -/

/-- A prefix-code tree over byte symbols: a `0` bit descends to the first
subtree, a `1` bit to the second. -/
inductive huffman_tree where
  | leaf (symbol : Nat) : huffman_tree
  | node (zero one : huffman_tree) : huffman_tree

/-- The `width` low bits of `value`, least significant first. -/
def bits_lsb (value : Nat) : Nat → List Bool
  | 0 => []
  | width + 1 => value.testBit 0 :: bits_lsb (value / 2) width

/-- The serialized tree: pre-order, a `0` bit per descent, a `1` bit followed
by the 8-bit symbol per leaf. -/
def huffman_tree.serialize : huffman_tree → List Bool
  | .leaf symbol => true :: bits_lsb symbol 8
  | .node zero one => false :: (zero.serialize ++ one.serialize)

/-- The leaves of a tree from left to right, each with the path from the
root (the code of its symbol), given the path to the tree itself. -/
def huffman_tree.codes_from (path : List Bool) : huffman_tree → List (Nat × List Bool)
  | .leaf symbol => [(symbol, path)]
  | .node zero one => zero.codes_from (path ++ [false]) ++ one.codes_from (path ++ [true])

/-- The code table of a tree. -/
def huffman_tree.codes (t : huffman_tree) : List (Nat × List Bool) := t.codes_from []

/-- The depth of a tree: the length of its longest code. -/
def huffman_tree.depth : huffman_tree → Nat
  | .leaf _ => 0
  | .node zero one => max zero.depth one.depth + 1

/-- The symbols at the leaves, from left to right. -/
def huffman_tree.symbols : huffman_tree → List Nat
  | .leaf symbol => [symbol]
  | .node zero one => zero.symbols ++ one.symbols

/-- The code of a symbol: its path in the tree. -/
def huffman_tree.code_of (t : huffman_tree) (symbol : Nat) : List Bool :=
  match t.codes.find? (fun e => e.1 = symbol) with
  | some e => e.2
  | none => []

/-- Byte `j` of a packed bit list: bits `8 j` to `8 j + 7`, least significant
first, missing bits being zero. -/
def pack_byte (bits : List Bool) (j : Nat) : Nat :=
  (bits.getD (8 * j) false).toNat + 2 * (bits.getD (8 * j + 1) false).toNat
    + 4 * (bits.getD (8 * j + 2) false).toNat + 8 * (bits.getD (8 * j + 3) false).toNat
    + 16 * (bits.getD (8 * j + 4) false).toNat + 32 * (bits.getD (8 * j + 5) false).toNat
    + 64 * (bits.getD (8 * j + 6) false).toNat + 128 * (bits.getD (8 * j + 7) false).toNat

/-- Bits packed into bytes, least significant bit first, the last byte padded
with zero bits. -/
def pack_bits (bits : List Bool) : List Nat :=
  (List.range ((bits.length + 7) / 8)).map (pack_byte bits)

/-- The version 1 header: the serialized length in four bytes, little-endian,
the zero run symbol and the width of the zero run counter. -/
def hulsken_header_bytes (serialized_length zerorun_symbol zero_counter_size : Nat) : List Nat :=
  [serialized_length % 256, serialized_length / 256 % 256, serialized_length / 65536 % 256,
   serialized_length / 16777216 % 256, zerorun_symbol, zero_counter_size]

/-- The code that a message uses for a symbol: its path in the tree, except
that with a tree of a single leaf, whose path is empty, the decoder takes one
bit per symbol, written here as a `0` bit. -/
def huffman_tree.message_code (t : huffman_tree) (symbol : Nat) : List Bool :=
  match t with
  | .leaf _ => [false]
  | .node _ _ => t.code_of symbol

/-- The bits of a message of literal symbols: the code of each symbol, each
occurrence of the zero run symbol followed by a count field of zeros. -/
def hulsken_literal_bits (code : Nat → List Bool) (zerorun_symbol zero_counter_size : Nat) :
    List Nat → List Bool
  | [] => []
  | symbol :: rest =>
    code symbol ++ (if symbol = zerorun_symbol then List.replicate zero_counter_size false
                    else [])
      ++ hulsken_literal_bits code zerorun_symbol zero_counter_size rest

/-- The counts of a zero run of `n` zeros: the digits of `n` in base
`2 ^ zero_counter_size`, most significant first, none for `n = 0`; `fuel`
bounds the number of digits. -/
def zero_run_counts (zero_counter_size : Nat) : Nat → Nat → List Nat
  | 0, _ => []
  | fuel + 1, n =>
    if n = 0 then []
    else zero_run_counts zero_counter_size fuel (n >>> zero_counter_size)
      ++ [n % 2 ^ zero_counter_size]

/-- The bits of a chain of zero run symbols with the given counts: the code
of the zero run symbol before each count field. -/
def zero_run_bits (zerorun_code : List Bool) (zero_counter_size : Nat) : List Nat → List Bool
  | [] => []
  | count :: rest =>
    zerorun_code ++ bits_lsb count zero_counter_size
      ++ zero_run_bits zerorun_code zero_counter_size rest

/-- A version 1 codeblock: the header, then the serialized tree followed by
the message bits, packed into bytes. -/
def hulsken_codeblock (t : huffman_tree) (zerorun_symbol zero_counter_size : Nat)
    (serialized_length : Nat) (message : List Bool) : List Nat :=
  hulsken_header_bytes serialized_length zerorun_symbol zero_counter_size
    ++ pack_bits (t.serialize ++ message)

/-- The value of a list of bits, least significant first. -/
def bits_val : List Bool → Nat
  | [] => 0
  | b :: rest => b.toNat + 2 * bits_val rest

/-- Bit `p` of the stream held in `buffer`, least significant bit of each byte first. -/
def stream_bit (buffer : List Nat) (p : Nat) : Bool :=
  (buffer.getD (p / 8) 0).testBit (p % 8)

/-- The stream holds the bits `bits` from position `pos` on. -/
def stream_has (buffer : List Nat) : Nat → List Bool → Prop
  | _, [] => True
  | pos, b :: rest => stream_bit buffer pos = b ∧ stream_has buffer (pos + 1) rest

/-- The path that follows a path in the enumeration of the leaves, on paths
written from the leaf up to the root: drop the trailing `1` branches and turn
the last `0` branch into a `1`; `none` after the last leaf. -/
def path_succ : List Bool → Option (List Bool)
  | [] => none
  | true :: rest => path_succ rest
  | false :: rest => some (true :: rest)

/-- The number of leaves of a tree. -/
def huffman_tree.leaves : huffman_tree → Nat
  | .leaf _ => 1
  | .node zero one => zero.leaves + one.leaves

/-- The table entry stored for a leaf given with its path. -/
def hulsken_store_leaf (huffman : huffman_t) (e : Nat × List Bool) : huffman_t :=
  hulsken_store_code huffman (bits_val e.2) e.2.length e.1

/-- The table of `isyntax_hulsken_decompress` before the tree is read. -/
def huffman_initial : huffman_t :=
  { fast := fun _ => 0x8080, code := fun _ => 0, size := fun _ => 0 }

/-- The low bits of `x` are the code `p`. -/
def code_matches (x : Nat) (p : List Bool) : Prop := x % 2 ^ p.length = bits_val p

/-- A code table that the decompressor can hold: byte symbols, no symbol
twice, codes of at most 16 bits, no code a prefix of another. -/
structure codes_wf (codes : List (Nat × List Bool)) : Prop where
  symbol_lt : ∀ e ∈ codes, e.1 < 256
  length_le : ∀ e ∈ codes, e.2.length ≤ 16
  nodup : (codes.map Prod.fst).Nodup
  prefix_free : ∀ e1 ∈ codes, ∀ e2 ∈ codes, e1.2 <+: e2.2 → e1 = e2

/-- The arrays of `huffman_t` hold the code table `codes`. -/
structure table_holds (h : huffman_t) (codes : List (Nat × List Bool)) : Prop where
  size_code : ∀ e ∈ codes, h.size e.1 = e.2.length ∧ h.code e.1 = bits_val e.2
  size_zero : ∀ s, s ∉ codes.map Prod.fst → h.size s = 0
  fast_le : ∀ a, h.fast a ≤ 255 →
    ∃ e ∈ codes, e.2.length ≤ 12 ∧ h.fast a = e.1 ∧ code_matches a e.2
  fast_eq : ∀ e ∈ codes, e.2.length ≤ 12 → ∀ a < 4096, code_matches a e.2 → h.fast a = e.1

/-- A symbol of the message: it is in the table, and the bits the message
uses for it start with its code and are as many as the decoder consumes. -/
def message_code_ok (L : List (Nat × List Bool)) (mc : Nat → List Bool) (x : Nat) : Prop :=
  ∃ e ∈ L, e.1 = x ∧ e.2 <+: mc x ∧ (mc x).length = (if e.2.length = 0 then 1 else e.2.length)

/-- The value of a chain of counts that continues a run of `v` zeros. -/
def zero_run_value (cb : Nat) (v : Nat) (counts : List Nat) : Nat :=
  counts.foldl (fun acc d => acc * 2 ^ cb + d) v

/-- A tree with three leaves: the codes are `0`, `10` and `11`. -/
def example_tree : huffman_tree := .node (.leaf 0) (.node (.leaf 5) (.leaf 7))

/-- A tree in which the symbol 9 has a code of nine bits. -/
def example_deep_tree : huffman_tree :=
  .node (.leaf 0) (.node (.leaf 1) (.node (.leaf 2) (.node (.leaf 3) (.node (.leaf 4)
    (.node (.leaf 5) (.node (.leaf 6) (.node (.leaf 7) (.node (.leaf 8) (.leaf 9)))))))))

/-- The tree with leaves `s`, `s + 1`, ... hanging off a spine of `n` nodes. -/
def example_spine : Nat → Nat → huffman_tree
  | 0, s => .leaf s
  | n + 1, s => .node (.leaf s) (example_spine n (s + 1))

/-- A full record reader for the examples: the offset and the size of the
block are taken from bytes 56 and 72 of the 80-byte record `i` (the layout
itself is declared in a header that is not among the sources). -/
def example_read_full_block_header (p : List Nat) (i : Nat) : isyntax_codeblock_t :=
  { x_coordinate := 0, y_coordinate := 0, color_component := 0, scale := 0, coefficient := 0,
    block_data_offset := read_u32_le p (4 + 80 * i + 56)
    block_size := read_u32_le p (4 + 80 * i + 72)
    block_header_template_id := 0 }

/-- An 80-byte full record for the examples: the sequence element with size
field 72, then the block data offset at byte 56 and the block size at byte 72. -/
def example_full_record (block_data_offset block_size : Nat) : List Nat :=
  [0x1D, 0x30, 0x0D, 0x20, 72, 0, 0, 0] ++ List.replicate 48 0
    ++ [block_data_offset, 0, 0, 0] ++ List.replicate 12 0 ++ [block_size, 0, 0, 0]
    ++ List.replicate 4 0

/-- A decoded table of two full records, declaring a length of 160 bytes. -/
def example_full_table : List Nat :=
  [160, 0, 0, 0] ++ example_full_record 100 20 ++ example_full_record 120 30

/-- A decoded table that declares a length of 240 bytes, five partial records
of 48 bytes, and whose first record has size field 40. -/
def example_partial_table : List Nat :=
  [240, 0, 0, 0, 0x1D, 0x30, 0x0D, 0x20, 40, 0, 0, 0] ++ List.replicate 232 0

/-- The three loops of `isyntax_hulsken_decompress` (isyntax.c:837-1056): the
header, the Huffman table and the message.  The result is the declared
`serialized_length` and the state in which the message loop ended; `none`
means that a loop did not end within `fuel` iterations, or `panic()`. -/
def hulsken_decode (log2f_trunc : Int → Nat) (fuel : Nat) (buffer : List Nat)
    (block_size : Nat) (coeff_count compressor_version : Nat) (output_init : Int → Nat) :
    Option (Int × hulsken_state_t) :=
  let block_size_in_bits : Int := block_size * 8
  match hulsken_read_header log2f_trunc buffer coeff_count compressor_version with
  | none => none
  | some header =>
    let huffman0 : huffman_t :=
      { fast := fun _ => 0x8080, code := fun _ => 0, size := fun _ => 0 }
    match hulsken_read_table buffer fuel 0 0 header.bits_read huffman0 with
    | none => none
    | some (bits_read, huffman) =>
      match hulsken_decode_message buffer compressor_version huffman header.zerorun_symbol
          header.zero_counter_size block_size_in_bits header.serialized_length fuel
          { bits_read := bits_read, decompressed_length := 0, output_buffer := output_init } with
      | none => none
      | some st => some (header.serialized_length, st)

/-- What the caller of `isyntax_hulsken_decompress` receives: the returned
pointer (`none` for `NULL`), the value stored in `codeblock->decompressed_size`
and whether the size mismatch line was printed. -/
structure hulsken_return_t where
  output_buffer : Option (Int → Nat)
  decompressed_size : Int
  size_mismatch_printed : Bool

/-- The end of `isyntax_hulsken_decompress` (isyntax.c:1059-1066): the size
check, the store to `codeblock->decompressed_size` and `return output_buffer`.
`do_debug` is `DO_DEBUG` (common.h:106-112): when it is set,
`ASSERT(!"size mismatch")` calls `panic()`, which is `none`; otherwise `ASSERT`
expands to nothing. -/
def hulsken_size_check (do_debug : Bool) (serialized_length : Int) (st : hulsken_state_t) :
    Option hulsken_return_t :=
  if serialized_length ≠ st.decompressed_length then
    if do_debug then none
    else
      some { output_buffer := some st.output_buffer
             decompressed_size := st.decompressed_length
             size_mismatch_printed := true }
  else
    some { output_buffer := some st.output_buffer
           decompressed_size := st.decompressed_length
           size_mismatch_printed := false }

/-- `isyntax_hulsken_decompress` (isyntax.c:816-1067) with its size check and
return value made explicit: the three loops, then `hulsken_size_check`. -/
def isyntax_hulsken_decompress_return (do_debug : Bool) (log2f_trunc : Int → Nat) (fuel : Nat)
    (buffer : List Nat) (block_size : Nat) (coeff_count compressor_version : Nat)
    (output_init : Int → Nat) : Option hulsken_return_t :=
  match hulsken_decode log2f_trunc fuel buffer block_size coeff_count compressor_version
      output_init with
  | none => none
  | some (serialized_length, st) => hulsken_size_check do_debug serialized_length st

/-! ## The XML header (`isyntax_parse_xml_header`, isyntax.c:473-774) -/

/-- The return values of `yxml_parse` as `isyntax_parse_xml_header` tells them
apart (the yxml library is not among the sources): `YXML_ERROR` stands for
every `r < 0`, `YXML_UNRECOGNIZED` for a positive value that is none of the
tokens of the `switch`. -/
inductive yxml_ret_t where
  | YXML_ERROR
  | YXML_OK
  | YXML_ELEMSTART
  | YXML_CONTENT
  | YXML_ELEMEND
  | YXML_ATTRSTART
  | YXML_ATTRVAL
  | YXML_ATTREND
  | YXML_PISTART
  | YXML_PICONTENT
  | YXML_PIEND
  | YXML_UNRECOGNIZED
  deriving DecidableEq

/-- The node types `ISYNTAX_NODE_*`. -/
inductive isyntax_node_type_t where
  | ISYNTAX_NODE_NONE
  | ISYNTAX_NODE_LEAF
  | ISYNTAX_NODE_BRANCH
  | ISYNTAX_NODE_ARRAY
  deriving DecidableEq

/-- One entry `isyntax_parser_node_t` of the node stack. -/
structure isyntax_parser_node_t where
  node_type : isyntax_node_type_t
  has_children : Bool
  has_base64_content : Bool
  group : Nat
  element : Nat

/-- The fields of `isyntax_parser_t` that the element tokens read or write.
The attribute and content buffers are left to the handlers of the other
tokens. -/
structure isyntax_parser_t where
  node_stack_index : Int
  node_stack : Int → isyntax_parser_node_t
  current_node_type : isyntax_node_type_t
  current_node_has_children : Bool
  attribute_index : Nat
  contentlen : Nat
  image_header_parsing_mode : Nat

/-- The lines that `isyntax_parse_xml_header` writes with `console_print_error`. -/
inductive xml_error_line_t where
  | closing_element_without_matching_start
  | unrecognized_token
  deriving DecidableEq

/-- What `isyntax_parse_xml_header` works on: the yxml state `parser->x`, the
parser and the error lines printed so far. -/
structure xml_header_state_t (χ : Type) where
  x : χ
  parser : isyntax_parser_t
  error_lines : List xml_error_line_t

/-- The code that `isyntax_parse_xml_header` calls and that is either outside
the sources (yxml) or works on data not modelled here: `yxml_parse` with the
element name `x->elem` it leaves, the two child node functions called at the
end of a leaf, the handler of `YXML_CONTENT` (which returns the number of
further characters it skips) and the handlers of the attribute tokens. -/
structure xml_header_env_t (χ : Type) where
  yxml_parse : χ → Nat → χ × yxml_ret_t
  elem : χ → List Nat
  parse_ufsimport_child_node : isyntax_parser_t → isyntax_parser_t
  parse_scannedimage_child_node : isyntax_parser_t → isyntax_parser_t
  handle_content : χ → isyntax_parser_t → List Nat → isyntax_parser_t × Nat
  handle_attr : yxml_ret_t → χ → isyntax_parser_t → isyntax_parser_t

/-- The case `YXML_ELEMSTART` (isyntax.c:522-553). -/
def isyntax_parse_xml_elemstart {χ : Type} (env : xml_header_env_t χ)
    (st : xml_header_state_t χ) : xml_header_state_t χ :=
  let parent_node := st.parser.node_stack st.parser.node_stack_index
  let node_stack_index := st.parser.node_stack_index + 1
  let node_type : isyntax_node_type_t :=
    if env.elem st.x = "Attribute".toList.map Char.toNat then .ISYNTAX_NODE_LEAF
    else if env.elem st.x = "DataObject".toList.map Char.toNat then .ISYNTAX_NODE_BRANCH
    else if env.elem st.x = "Array".toList.map Char.toNat then .ISYNTAX_NODE_ARRAY
    else .ISYNTAX_NODE_NONE
  let inherits := node_type = .ISYNTAX_NODE_BRANCH ∨ node_type = .ISYNTAX_NODE_ARRAY
  let node : isyntax_parser_node_t :=
    { node_type := node_type, has_children := false, has_base64_content := false
      group := if inherits then parent_node.group else 0
      element := if inherits then parent_node.element else 0 }
  { st with
    parser :=
      { st.parser with
        node_stack_index := node_stack_index
        node_stack := fun i => if i = node_stack_index then node else st.parser.node_stack i
        contentlen := 0
        attribute_index := 0
        current_node_type := node_type
        current_node_has_children := false } }

/-- The case `YXML_ELEMEND` (isyntax.c:609-671): the end of a leaf without
children hands its content to a child node function; then the context is
popped back to the parent node, or, with an empty node stack, an error line
is printed. -/
def isyntax_parse_xml_elemend {χ : Type} (env : xml_header_env_t χ)
    (st : xml_header_state_t χ) : xml_header_state_t χ :=
  let parser0 := st.parser
  let parser1 : isyntax_parser_t :=
    if parser0.current_node_type = .ISYNTAX_NODE_LEAF ∧ ¬ parser0.current_node_has_children then
      if parser0.node_stack_index = 2 then env.parse_ufsimport_child_node parser0
      else env.parse_scannedimage_child_node parser0
    else if parser0.current_node_type = .ISYNTAX_NODE_LEAF then
      if (parser0.node_stack parser0.node_stack_index).group = 0x301D then
        if (parser0.node_stack parser0.node_stack_index).element = 0x2000 ∨
            (parser0.node_stack parser0.node_stack_index).element = 0x2009 then
          { parser0 with image_header_parsing_mode := 0 }
        else parser0
      else parser0
    else parser0
  if parser1.node_stack_index > 0 then
    let node_stack_index := parser1.node_stack_index - 1
    { st with
      parser :=
        { parser1 with
          node_stack_index := node_stack_index
          current_node_type := (parser1.node_stack node_stack_index).node_type
          current_node_has_children := (parser1.node_stack node_stack_index).has_children } }
  else
    { st with
      parser := parser1
      error_lines := st.error_lines ++ [.closing_element_without_matching_start] }

/-- The loop `for (remaining_length = chunk_length; remaining_length > 0; ...)`
of `isyntax_parse_xml_header` (isyntax.c:506-766) over the characters still to
read.  The result is `success` with the state reached: `false` after
`goto failed`, `true` when the loop ends, also at a NUL character, where
`ASSERT(false)` is empty in a release build; `none` when `fuel` runs out. -/
def isyntax_parse_xml_header_loop {χ : Type} (env : xml_header_env_t χ) :
    Nat → List Nat → xml_header_state_t χ → Option (Bool × xml_header_state_t χ)
  | _, [], st => some (true, st)
  | 0, _ :: _, _ => none
  | fuel + 1, c :: rest, st =>
    if c = 0 then some (true, st)
    else
      let st1 : xml_header_state_t χ := { st with x := (env.yxml_parse st.x c).1 }
      match (env.yxml_parse st.x c).2 with
      | .YXML_OK => isyntax_parse_xml_header_loop env fuel rest st1
      | .YXML_ERROR => some (false, st1)
      | .YXML_ELEMSTART =>
        isyntax_parse_xml_header_loop env fuel rest (isyntax_parse_xml_elemstart env st1)
      | .YXML_CONTENT =>
        isyntax_parse_xml_header_loop env fuel
          (rest.drop (env.handle_content st1.x st1.parser (c :: rest)).2)
          { st1 with parser := (env.handle_content st1.x st1.parser (c :: rest)).1 }
      | .YXML_ELEMEND =>
        isyntax_parse_xml_header_loop env fuel rest (isyntax_parse_xml_elemend env st1)
      | .YXML_ATTRSTART =>
        isyntax_parse_xml_header_loop env fuel rest
          { st1 with parser := env.handle_attr .YXML_ATTRSTART st1.x st1.parser }
      | .YXML_ATTRVAL =>
        isyntax_parse_xml_header_loop env fuel rest
          { st1 with parser := env.handle_attr .YXML_ATTRVAL st1.x st1.parser }
      | .YXML_ATTREND =>
        isyntax_parse_xml_header_loop env fuel rest
          { st1 with parser := env.handle_attr .YXML_ATTREND st1.x st1.parser }
      | .YXML_PISTART => isyntax_parse_xml_header_loop env fuel rest st1
      | .YXML_PICONTENT => isyntax_parse_xml_header_loop env fuel rest st1
      | .YXML_PIEND => isyntax_parse_xml_header_loop env fuel rest st1
      | .YXML_UNRECOGNIZED =>
        some (false, { st1 with error_lines := st1.error_lines ++ [.unrecognized_token] })

/-- What `isyntax_parse_xml_header` returns and leaves: `success`, whether the
`cleanup` block has freed the parser's buffers, and the state. -/
structure xml_header_result_t (χ : Type) where
  success : Bool
  cleaned_up : Bool
  state : xml_header_state_t χ

/-- `isyntax_parse_xml_header(isyntax, xml_header, chunk_length, is_last_chunk)`
(isyntax.c:473-774) on an initialised parser; `xml_header` holds the
`chunk_length` characters of the chunk. -/
def isyntax_parse_xml_header {χ : Type} (env : xml_header_env_t χ) (st : xml_header_state_t χ)
    (xml_header : List Nat) (is_last_chunk : Bool) : Option (xml_header_result_t χ) :=
  match isyntax_parse_xml_header_loop env xml_header.length xml_header st with
  | none => none
  | some (false, st1) => some { success := false, cleaned_up := true, state := st1 }
  | some (true, st1) => some { success := true, cleaned_up := is_last_chunk, state := st1 }

/-- The fields of `tile_streamer_t` that the region pass reads; `β` stands for
the floating point rectangle `bounds2f`. -/
structure tile_streamer_t (β : Type) where
  camera_bounds : β
  crop_bounds : β
  is_cropped : Bool

/-- The visible tile rectangle of a scale (tile_streamer.cpp:531-548).
`world_bounds_to_tile_bounds` and `clip_bounds2i` are declared in a header
that is not among the sources and are parameters; the first is given the
rectangle and the scale, which stands for the tile sides of the level and the
origin offset. -/
def stream_visible_tiles {β : Type} (world_bounds_to_tile_bounds : β → Int → bounds2i)
    (clip_bounds2i : bounds2i → bounds2i → bounds2i) (tile_streamer : tile_streamer_t β)
    (level : isyntax_level_t) (scale : Int) : bounds2i :=
  let level_tiles_bounds : bounds2i :=
    { min := { x := 0, y := 0 }, max := { x := level.width_in_tiles, y := level.height_in_tiles } }
  let visible_tiles0 := world_bounds_to_tile_bounds tile_streamer.camera_bounds scale
  let visible_tiles1 : bounds2i :=
    { min := { x := visible_tiles0.min.x - 1, y := visible_tiles0.min.y - 1 }
      max := { x := visible_tiles0.max.x + 1, y := visible_tiles0.max.y + 1 } }
  let visible_tiles2 := clip_bounds2i visible_tiles1 level_tiles_bounds
  if tile_streamer.is_cropped then
    let crop_tile_bounds := world_bounds_to_tile_bounds tile_streamer.camera_bounds scale
    clip_bounds2i visible_tiles2 crop_tile_bounds
  else visible_tiles2

/-- The padded rectangle (tile_streamer.cpp:553-558): the visible rectangle
grown by one tile on each side that has room in the level. -/
def stream_padded_bounds (level : isyntax_level_t) (visible_tiles : bounds2i) : bounds2i :=
  { min := { x := if visible_tiles.min.x > 0 then visible_tiles.min.x - 1 else visible_tiles.min.x
             y := if visible_tiles.min.y > 0 then visible_tiles.min.y - 1 else visible_tiles.min.y }
    max := { x := if visible_tiles.max.x < level.width_in_tiles then visible_tiles.max.x + 1
                  else visible_tiles.max.x
             y := if visible_tiles.max.y < level.height_in_tiles then visible_tiles.max.y + 1
                  else visible_tiles.max.y } }

/-- A request slot after `memset(tile_req, 0, tile_req_size)`. -/
def tile_req_zero : isyntax_tile_req_t :=
  { tile_x := 0, tile_y := 0, level_tile_index := 0, region_tile_index := 0,
    adj_need_ll_mask := 0, adj_need_h_mask := 0, want_load := false, need_h_coeff := false,
    need_ll_coeff := false }

/-- What the nine blocks of the marking pass work on: `need_ll_mask`,
`need_h_mask` and the request slots. -/
structure stream_mark_state_t where
  need_ll_mask : Nat
  need_h_mask : Nat
  tile_req : Int → isyntax_tile_req_t

/-- One block `if (adjacent & ISYNTAX_ADJ_TILE_...)` of the marking pass
(tile_streamer.cpp:598-737) for the position `(dx, dy)` with bit `flag`: for an
existing neighbour that lacks coefficients the bit is added to the mask and
the flag is set in the neighbour's request slot. -/
def stream_mark_adjacent (level : isyntax_level_t) (local_bounds_width : Int)
    (tile_x tile_y local_tile_x local_tile_y : Int) (adjacent flag : Nat) (dx dy : Int)
    (s : stream_mark_state_t) : stream_mark_state_t :=
  if adjacent &&& flag ≠ 0 then
    let adj_tile := level.tiles ((tile_y + dy) * level.width_in_tiles + (tile_x + dx))
    if adj_tile.exists_ then
      let adj_local_tile_index := (local_tile_y + dy) * local_bounds_width + (local_tile_x + dx)
      let s1 : stream_mark_state_t :=
        if !adj_tile.has_ll then
          { s with
            need_ll_mask := s.need_ll_mask ||| flag
            tile_req := fun i =>
              if i = adj_local_tile_index then { s.tile_req i with need_ll_coeff := true }
              else s.tile_req i }
        else s
      if !adj_tile.has_h then
        { s1 with
          need_h_mask := s1.need_h_mask ||| flag
          tile_req := fun i =>
            if i = adj_local_tile_index then { s1.tile_req i with need_h_coeff := true }
            else s1.tile_req i }
      else s1
    else s
  else s

/-- Body of the marking loops (tile_streamer.cpp:584-746) for one tile of the
padded rectangle: for a tile that is not loaded and lies in the visible
rectangle, `want_load` is set, the nine neighbour blocks run in the order of
`adjacency_positions`, and the two masks are stored. -/
def stream_mark_tile (K : isyntax_adj_tile_t)
    (isyntax_get_adjacent_tiles_mask : isyntax_level_t → Int → Int → Nat)
    (level : isyntax_level_t) (visible_tiles padded_bounds : bounds2i) (local_bounds_width : Int)
    (tile_y tile_x local_tile_index : Int) (tile_req : Int → isyntax_tile_req_t) :
    Int → isyntax_tile_req_t :=
  let central_tile := level.tiles (tile_y * level.width_in_tiles + tile_x)
  let local_tile_x := tile_x - padded_bounds.min.x
  let local_tile_y := tile_y - padded_bounds.min.y
  if !central_tile.is_loaded then
    let adjacent := isyntax_get_adjacent_tiles_mask level tile_x tile_y
    if tile_x ≥ visible_tiles.min.x ∧ tile_y ≥ visible_tiles.min.y ∧
        tile_x < visible_tiles.max.x ∧ tile_y < visible_tiles.max.y then
      let tile_req1 : Int → isyntax_tile_req_t := fun i =>
        if i = local_tile_index then { tile_req i with want_load := true } else tile_req i
      let s := (adjacency_positions K).foldl
        (fun s p => stream_mark_adjacent level local_bounds_width tile_x tile_y local_tile_x
          local_tile_y adjacent p.1 p.2.1 p.2.2 s)
        { need_ll_mask := 0, need_h_mask := 0, tile_req := tile_req1 }
      fun i =>
        if i = local_tile_index then
          { s.tile_req i with adj_need_ll_mask := s.need_ll_mask, adj_need_h_mask := s.need_h_mask }
        else s.tile_req i
    else tile_req
  else tile_req

/-- The loop `for (tile_x = ...; tile_x < padded_bounds.max.x; ++tile_x, ++local_tile_index)`
of the marking pass with `n` iterations left; the result is `local_tile_index`
and the request slots. -/
def stream_mark_row (K : isyntax_adj_tile_t)
    (isyntax_get_adjacent_tiles_mask : isyntax_level_t → Int → Int → Nat)
    (level : isyntax_level_t) (visible_tiles padded_bounds : bounds2i) (local_bounds_width : Int)
    (tile_y : Int) : Nat → Int → Int → (Int → isyntax_tile_req_t) → Int × (Int → isyntax_tile_req_t)
  | 0, _, local_tile_index, tile_req => (local_tile_index, tile_req)
  | n + 1, tile_x, local_tile_index, tile_req =>
    stream_mark_row K isyntax_get_adjacent_tiles_mask level visible_tiles padded_bounds
      local_bounds_width tile_y n (tile_x + 1) (local_tile_index + 1)
      (stream_mark_tile K isyntax_get_adjacent_tiles_mask level visible_tiles padded_bounds
        local_bounds_width tile_y tile_x local_tile_index tile_req)

/-- The loop `for (tile_y = ...; tile_y < padded_bounds.max.y; ++tile_y)` of the
marking pass with `n` iterations left. -/
def stream_mark_rows (K : isyntax_adj_tile_t)
    (isyntax_get_adjacent_tiles_mask : isyntax_level_t → Int → Int → Nat)
    (level : isyntax_level_t) (visible_tiles padded_bounds : bounds2i) (local_bounds_width : Int) :
    Nat → Int → Int → (Int → isyntax_tile_req_t) → Int × (Int → isyntax_tile_req_t)
  | 0, _, local_tile_index, tile_req => (local_tile_index, tile_req)
  | n + 1, tile_y, local_tile_index, tile_req =>
    let r := stream_mark_row K isyntax_get_adjacent_tiles_mask level visible_tiles padded_bounds
      local_bounds_width tile_y (padded_bounds.max.x - padded_bounds.min.x).toNat
      padded_bounds.min.x local_tile_index tile_req
    stream_mark_rows K isyntax_get_adjacent_tiles_mask level visible_tiles padded_bounds
      local_bounds_width n (tile_y + 1) r.1 r.2

/-- The marking pass of a scale (tile_streamer.cpp:566-750) on freshly zeroed
request slots. -/
def stream_mark_pass (K : isyntax_adj_tile_t)
    (isyntax_get_adjacent_tiles_mask : isyntax_level_t → Int → Int → Nat)
    (level : isyntax_level_t) (visible_tiles padded_bounds : bounds2i) :
    Int → isyntax_tile_req_t :=
  (stream_mark_rows K isyntax_get_adjacent_tiles_mask level visible_tiles padded_bounds
    (padded_bounds.max.x - padded_bounds.min.x)
    (padded_bounds.max.y - padded_bounds.min.y).toNat padded_bounds.min.y 0
    (fun _ => tile_req_zero)).2

/-- The neighbours of the tile `(tile_x, tile_y)` are marked in the request
slots `tile_req` of a region: for every existing tile at a position flagged
by the adjacency mask, its slot has `need_ll_coeff` set if it lacks `has_ll`
and `need_h_coeff` set if it lacks `has_h`. -/
def neighbours_marked (K : isyntax_adj_tile_t)
    (isyntax_get_adjacent_tiles_mask : isyntax_level_t → Int → Int → Nat)
    (level : isyntax_level_t) (padded_bounds : bounds2i) (tile_req : Int → isyntax_tile_req_t)
    (tile_x tile_y : Int) : Prop :=
  ∀ p ∈ adjacency_positions K,
    isyntax_get_adjacent_tiles_mask level tile_x tile_y &&& p.1 ≠ 0 →
    (level.tiles ((tile_y + p.2.2) * level.width_in_tiles + (tile_x + p.2.1))).exists_ = true →
      ((level.tiles ((tile_y + p.2.2) * level.width_in_tiles + (tile_x + p.2.1))).has_ll = false →
        (tile_req ((tile_y - padded_bounds.min.y + p.2.2)
          * (padded_bounds.max.x - padded_bounds.min.x)
          + (tile_x - padded_bounds.min.x + p.2.1))).need_ll_coeff = true) ∧
      ((level.tiles ((tile_y + p.2.2) * level.width_in_tiles + (tile_x + p.2.1))).has_h = false →
        (tile_req ((tile_y - padded_bounds.min.y + p.2.2)
          * (padded_bounds.max.x - padded_bounds.min.x)
          + (tile_x - padded_bounds.min.x + p.2.1))).need_h_coeff = true)

/-- The adjacency mask used in the examples: the bits of the positions that
lie inside the level. -/
def example_adjacent_tiles_mask (level : isyntax_level_t) (tile_x tile_y : Int) : Nat :=
  ((adjacency_positions example_adj_tile).filter (fun p =>
    decide (0 ≤ tile_x + p.2.1 ∧ tile_x + p.2.1 < level.width_in_tiles ∧
      0 ≤ tile_y + p.2.2 ∧ tile_y + p.2.2 < level.height_in_tiles))).foldl
    (fun m p => m ||| p.1) 0

/-- A tile that exists and has no coefficients yet. -/
def example_bare_tile : isyntax_tile_t :=
  { exists_ := true, has_ll := false, has_h := false, is_loaded := false,
    is_submitted_for_loading := false, is_submitted_for_h_coeff_decompression := false,
    data_chunk_index := 0, codeblock_chunk_index := 0 }

/-- A level of three tiles in a row; the middle one is loaded, the outer two
have no coefficients. -/
def example_strip_level : isyntax_level_t :=
  { width_in_tiles := 3, height_in_tiles := 1
    tiles := fun i => if i = 1 then { example_ready_tile with is_loaded := true }
      else example_bare_tile
    is_fully_loaded := false }

/-- A level of three bare tiles in a row. -/
def example_bare_strip_level : isyntax_level_t :=
  { width_in_tiles := 3, height_in_tiles := 1, tiles := fun _ => example_bare_tile,
    is_fully_loaded := false }

/-- A clipping function for the examples: each side of `a` is moved into `b`. -/
def example_clip_bounds2i (a b : bounds2i) : bounds2i :=
  { min := { x := min b.max.x (max a.min.x b.min.x), y := min b.max.y (max a.min.y b.min.y) }
    max := { x := max b.min.x (min a.max.x b.max.x), y := max b.min.y (min a.max.y b.max.y) } }

/-- A conversion for the examples, in which a world rectangle is given by its
tile bounds at every scale. -/
def example_world_bounds_to_tile_bounds (bounds : bounds2i) (_scale : Int) : bounds2i := bounds

/-- A cropped streamer: the camera sees the tiles `[0, 3) x [0, 3)`, the crop
region covers the tile `(0, 0)` only. -/
def example_cropped_streamer : tile_streamer_t bounds2i :=
  { camera_bounds := { min := { x := 0, y := 0 }, max := { x := 3, y := 3 } }
    crop_bounds := { min := { x := 0, y := 0 }, max := { x := 1, y := 1 } }
    is_cropped := true }

/-- A level of four by four tiles. -/
def example_square_level : isyntax_level_t :=
  { width_in_tiles := 4, height_in_tiles := 4, tiles := fun _ => example_bare_tile,
    is_fully_loaded := false }

/-- What the region pass builds: the regions, the first `chunks_to_load_count`
entries of `chunks_to_load`, and the values that this list has taken, one per
insertion. -/
structure stream_region_state_t where
  regions : Int → isyntax_load_region_t
  chunks_to_load : List Nat
  chunks_to_load_history : List (List Nat)

/-- The search loop `for (i = 0; i < chunks_to_load_count; ++i)` of the chunk
pass (tile_streamer.cpp:765-770): whether `chunk_index` is in the list. -/
def chunks_to_load_search (chunk_index : Nat) : List Nat → Bool
  | [] => false
  | c :: rest => if c = chunk_index then true else chunks_to_load_search chunk_index rest

/-- `COUNT(chunks_to_load)` for `u32 chunks_to_load[16]`. -/
def max_chunks_to_load : Nat := 16

/-- Body of the loops of the chunk pass (tile_streamer.cpp:756-774) for one
tile of the padded rectangle.  The Boolean is `true` when the body leaves
through `goto break_out_of_loop`. -/
def stream_collect_tile (level : isyntax_level_t) (tile_req : Int → isyntax_tile_req_t)
    (tile_y tile_x local_tile_index : Int) (st : stream_region_state_t) :
    stream_region_state_t × Bool :=
  if st.chunks_to_load.length = max_chunks_to_load then (st, true)
  else
    let tile := level.tiles (tile_y * level.width_in_tiles + tile_x)
    let req := tile_req local_tile_index
    if req.need_h_coeff then
      let chunk_index := tile.data_chunk_index
      let already_in_list := chunks_to_load_search chunk_index st.chunks_to_load
      if !already_in_list then
        ({ st with
           chunks_to_load := st.chunks_to_load ++ [chunk_index]
           chunks_to_load_history :=
             st.chunks_to_load_history ++ [st.chunks_to_load ++ [chunk_index]] }, false)
      else (st, false)
    else (st, false)

/-- The loop over `tile_x` of the chunk pass with `n` iterations left; the
result carries `local_tile_index`. -/
def stream_collect_row (level : isyntax_level_t) (tile_req : Int → isyntax_tile_req_t)
    (tile_y : Int) : Nat → Int → Int → stream_region_state_t →
      Int × stream_region_state_t × Bool
  | 0, _, local_tile_index, st => (local_tile_index, st, false)
  | n + 1, tile_x, local_tile_index, st =>
    match stream_collect_tile level tile_req tile_y tile_x local_tile_index st with
    | (st1, true) => (local_tile_index, st1, true)
    | (st1, false) =>
      stream_collect_row level tile_req tile_y n (tile_x + 1) (local_tile_index + 1) st1

/-- The loop over `tile_y` of the chunk pass with `n` iterations left. -/
def stream_collect_rows (level : isyntax_level_t) (padded_bounds : bounds2i)
    (tile_req : Int → isyntax_tile_req_t) :
    Nat → Int → Int → stream_region_state_t → stream_region_state_t
  | 0, _, _, st => st
  | n + 1, tile_y, local_tile_index, st =>
    match stream_collect_row level tile_req tile_y
        (padded_bounds.max.x - padded_bounds.min.x).toNat padded_bounds.min.x
        local_tile_index st with
    | (_, st1, true) => st1
    | (local_tile_index1, st1, false) =>
      stream_collect_rows level padded_bounds tile_req n (tile_y + 1) local_tile_index1 st1

/-- Body of the loop over scales of the region pass (tile_streamer.cpp:528-778)
for one scale.  The Boolean is `true` when the body leaves the function
through `return` because the padded rectangle is empty. -/
def stream_region_scale {β : Type} (K : isyntax_adj_tile_t)
    (isyntax_get_adjacent_tiles_mask : isyntax_level_t → Int → Int → Nat)
    (world_bounds_to_tile_bounds : β → Int → bounds2i)
    (clip_bounds2i : bounds2i → bounds2i → bounds2i) (tile_streamer : tile_streamer_t β)
    (levels : Int → isyntax_level_t) (scale scale_to_load_index : Int)
    (st : stream_region_state_t) : stream_region_state_t × Bool :=
  let level := levels scale
  let visible_tiles := stream_visible_tiles world_bounds_to_tile_bounds clip_bounds2i
    tile_streamer level scale
  let padded_bounds := stream_padded_bounds level visible_tiles
  let local_bounds_width := padded_bounds.max.x - padded_bounds.min.x
  let local_bounds_height := padded_bounds.max.y - padded_bounds.min.y
  if local_bounds_width ≤ 0 ∨ local_bounds_height ≤ 0 then (st, true)
  else
    let tile_req := stream_mark_pass K isyntax_get_adjacent_tiles_mask level visible_tiles
      padded_bounds
    let region : isyntax_load_region_t :=
      { scale := scale, padded_bounds := padded_bounds, visible_bounds := visible_tiles,
        width_in_tiles := local_bounds_width, height_in_tiles := local_bounds_height,
        tile_req := tile_req }
    let st1 : stream_region_state_t :=
      { st with regions := fun i => if i = scale_to_load_index then region else st.regions i }
    (stream_collect_rows level padded_bounds tile_req
      (padded_bounds.max.y - padded_bounds.min.y).toNat padded_bounds.min.y 0 st1, false)

/-- The loop over scales of the region pass (tile_streamer.cpp:527): `n` scales
left, `scale` counting down and `scale_to_load_index` counting up. -/
def stream_region_scales {β : Type} (K : isyntax_adj_tile_t)
    (isyntax_get_adjacent_tiles_mask : isyntax_level_t → Int → Int → Nat)
    (world_bounds_to_tile_bounds : β → Int → bounds2i)
    (clip_bounds2i : bounds2i → bounds2i → bounds2i) (tile_streamer : tile_streamer_t β)
    (levels : Int → isyntax_level_t) :
    Nat → Int → Int → stream_region_state_t → stream_region_state_t × Bool
  | 0, _, _, st => (st, false)
  | n + 1, scale, scale_to_load_index, st =>
    match stream_region_scale K isyntax_get_adjacent_tiles_mask world_bounds_to_tile_bounds
        clip_bounds2i tile_streamer levels scale scale_to_load_index st with
    | (st1, true) => (st1, true)
    | (st1, false) =>
      stream_region_scales K isyntax_get_adjacent_tiles_mask world_bounds_to_tile_bounds
        clip_bounds2i tile_streamer levels n (scale - 1) (scale_to_load_index + 1) st1

/-- A region after `memset(regions, 0, ...)`. -/
def load_region_zero : isyntax_load_region_t :=
  { scale := 0, padded_bounds := { min := { x := 0, y := 0 }, max := { x := 0, y := 0 } },
    visible_bounds := { min := { x := 0, y := 0 }, max := { x := 0, y := 0 } },
    width_in_tiles := 0, height_in_tiles := 0, tile_req := fun _ => tile_req_zero }

/-- The region pass of `isyntax_stream_image_tiles` (tile_streamer.cpp:519-778):
the regions are zeroed, the list of chunks is empty, and the loop runs over
the scales from `highest_scale_to_load` down to `lowest_visible_scale`. -/
def isyntax_stream_region_pass {β : Type} (K : isyntax_adj_tile_t)
    (isyntax_get_adjacent_tiles_mask : isyntax_level_t → Int → Int → Nat)
    (world_bounds_to_tile_bounds : β → Int → bounds2i)
    (clip_bounds2i : bounds2i → bounds2i → bounds2i) (tile_streamer : tile_streamer_t β)
    (levels : Int → isyntax_level_t) (highest_scale_to_load lowest_visible_scale : Int) :
    stream_region_state_t × Bool :=
  stream_region_scales K isyntax_get_adjacent_tiles_mask world_bounds_to_tile_bounds
    clip_bounds2i tile_streamer levels
    (highest_scale_to_load + 1 - lowest_visible_scale).toNat highest_scale_to_load 0
    { regions := fun _ => load_region_zero, chunks_to_load := [], chunks_to_load_history := [[]] }

/-- The loop that reads the chunks of the list (tile_streamer.cpp:788-813): a
chunk that has no data yet is read with one call of `pread` (or
`win32_overlapped_read`), whose bytes are `file_read offset size`.  The result
is the chunks and the indices of the chunks read, in order. -/
def stream_read_chunks (file_read : Nat → Nat → List Nat)
    (codeblocks : Int → isyntax_codeblock_t) :
    List Nat → (Nat → isyntax_data_chunk_t) → (Nat → isyntax_data_chunk_t) × List Nat
  | [], data_chunks => (data_chunks, [])
  | chunk_index :: rest, data_chunks =>
    let chunk := data_chunks chunk_index
    if chunk.data.isNone then
      let read_size := chunk_read_size codeblocks chunk
      let r := stream_read_chunks file_read codeblocks rest
        (fun i => if i = chunk_index then
          { chunk with data := some (file_read chunk.offset read_size) } else data_chunks i)
      (r.1, chunk_index :: r.2)
    else stream_read_chunks file_read codeblocks rest data_chunks

/-- The region pass followed by the reading loop (tile_streamer.cpp:519-813):
the state of the region pass, the chunks and the indices of the chunks read.
After the early `return` of the region pass nothing is read. -/
def isyntax_stream_chunk_pass {β : Type} (K : isyntax_adj_tile_t)
    (isyntax_get_adjacent_tiles_mask : isyntax_level_t → Int → Int → Nat)
    (world_bounds_to_tile_bounds : β → Int → bounds2i)
    (clip_bounds2i : bounds2i → bounds2i → bounds2i) (file_read : Nat → Nat → List Nat)
    (tile_streamer : tile_streamer_t β) (levels : Int → isyntax_level_t)
    (codeblocks : Int → isyntax_codeblock_t) (data_chunks : Nat → isyntax_data_chunk_t)
    (highest_scale_to_load lowest_visible_scale : Int) :
    stream_region_state_t × (Nat → isyntax_data_chunk_t) × List Nat :=
  match isyntax_stream_region_pass K isyntax_get_adjacent_tiles_mask world_bounds_to_tile_bounds
      clip_bounds2i tile_streamer levels highest_scale_to_load lowest_visible_scale with
  | (st, true) => (st, data_chunks, [])
  | (st, false) =>
    (st, stream_read_chunks file_read codeblocks st.chunks_to_load data_chunks)

/-- An entry of the list of chunks comes from a tile: `e` is the
`data_chunk_index` of a tile of the padded rectangle of one of the first
`bound` regions whose request slot has `need_h_coeff` set. -/
def chunk_entry_has_tile (levels : Int → isyntax_level_t)
    (regions : Int → isyntax_load_region_t) (highest_scale_to_load bound : Int) (e : Nat) : Prop :=
  ∃ k tile_x tile_y : Int, 0 ≤ k ∧ k < bound ∧
    (regions k).padded_bounds.min.x ≤ tile_x ∧ tile_x < (regions k).padded_bounds.max.x ∧
    (regions k).padded_bounds.min.y ≤ tile_y ∧ tile_y < (regions k).padded_bounds.max.y ∧
    ((regions k).tile_req ((tile_y - (regions k).padded_bounds.min.y) * (regions k).width_in_tiles
      + (tile_x - (regions k).padded_bounds.min.x))).need_h_coeff = true ∧
    ((levels (highest_scale_to_load - k)).tiles
      (tile_y * (levels (highest_scale_to_load - k)).width_in_tiles + tile_x)).data_chunk_index = e

/-- What C19 says of a value of the list of chunks: at most 16 entries, no
entry twice, every entry from a tile that needs its high-pass coefficients. -/
def chunks_to_load_ok (levels : Int → isyntax_level_t)
    (regions : Int → isyntax_load_region_t) (highest_scale_to_load bound : Int)
    (l : List Nat) : Prop :=
  l.length ≤ 16 ∧ l.Nodup ∧
    ∀ e ∈ l, chunk_entry_has_tile levels regions highest_scale_to_load bound e

/-- A streamer for the examples whose camera sees the tile `(1, 0)`. -/
def example_streamer : tile_streamer_t bounds2i :=
  { camera_bounds := { min := { x := 1, y := 0 }, max := { x := 2, y := 1 } }
    crop_bounds := { min := { x := 0, y := 0 }, max := { x := 0, y := 0 } }
    is_cropped := false }

/-- The invariant of the region pass: the list of chunks is the last value
recorded, and every value recorded is as C19 says, with respect to the first
`bound` regions. -/
def stream_region_inv (levels : Int → isyntax_level_t) (highest_scale_to_load bound : Int)
    (st : stream_region_state_t) : Prop :=
  st.chunks_to_load ∈ st.chunks_to_load_history ∧
    ∀ l ∈ st.chunks_to_load_history,
      chunks_to_load_ok levels st.regions highest_scale_to_load bound l

/-! ## The first load (`isyntax_do_first_load`, tile_streamer.cpp:110-331) -/

/-- Colour channel `isyntax_tile_channel_t` of a tile; the pointers are
addresses and `0` is `NULL`. -/
structure isyntax_tile_channel_t where
  coeff_h : Nat
  coeff_ll : Nat
  neighbors_loaded : Nat

/-- One call of `isyntax_load_all_tiles_in_level`: the scale, and the colour
channels of all tiles as they were when the call was made. -/
structure load_all_tiles_call_t where
  scale : Int
  channels : Int → Int → Nat → isyntax_tile_channel_t

/-- State of the first load: `tile->color_channels[color]` of the tile
`tile_index` of level `scale` is `channels scale tile_index color`; the two
block allocators; whether `panic()` was reached; and the calls of
`isyntax_load_all_tiles_in_level` made so far. -/
structure first_load_state_t where
  channels : Int → Int → Nat → isyntax_tile_channel_t
  h_coeff_block_allocator : block_allocator_t
  ll_coeff_block_allocator : block_allocator_t
  panicked : Bool
  load_all_tiles_calls : List load_all_tiles_call_t

/-- What the first load takes from outside: the addresses that `malloc` returns
for the chunk with a given index of each allocator,
`isyntax_get_adjacent_tiles_mask`, and what the load tasks queued by `isyntax_load_all_tiles_in_level`
(`isyntax_load_tile`, which is not among the sources) have done to the state
when the call returns. -/
structure first_load_env_t where
  malloc_h : Nat → Nat
  malloc_ll : Nat → Nat
  isyntax_get_adjacent_tiles_mask : isyntax_level_t → Int → Int → Nat
  load_tiles : Int → first_load_state_t → first_load_state_t

/-- `color_channel->coeff_h = block_alloc(&isyntax->h_coeff_block_allocator)`
for the channel `color` of the tile `tile_index` of level `scale`. -/
def first_load_alloc_coeff_h (env : first_load_env_t) (scale tile_index : Int) (color : Nat)
    (st : first_load_state_t) : first_load_state_t :=
  match block_alloc (env.malloc_h st.h_coeff_block_allocator.used_chunks)
      st.h_coeff_block_allocator with
  | none => { st with panicked := true }
  | some (p, allocator) =>
    { st with
      h_coeff_block_allocator := allocator
      channels := fun s t c =>
        if s = scale ∧ t = tile_index ∧ c = color then { st.channels s t c with coeff_h := p }
        else st.channels s t c }

/-- `color_channel->coeff_ll = block_alloc(&isyntax->ll_coeff_block_allocator)`. -/
def first_load_alloc_coeff_ll (env : first_load_env_t) (scale tile_index : Int) (color : Nat)
    (st : first_load_state_t) : first_load_state_t :=
  match block_alloc (env.malloc_ll st.ll_coeff_block_allocator.used_chunks)
      st.ll_coeff_block_allocator with
  | none => { st with panicked := true }
  | some (p, allocator) =>
    { st with
      ll_coeff_block_allocator := allocator
      channels := fun s t c =>
        if s = scale ∧ t = tile_index ∧ c = color then { st.channels s t c with coeff_ll := p }
        else st.channels s t c }

/-- `color_channel->neighbors_loaded = isyntax_get_adjacent_tiles_mask(level, tile_x, tile_y)`. -/
def first_load_set_neighbors_loaded (env : first_load_env_t) (level : isyntax_level_t)
    (scale tile_index : Int) (color : Nat) (tile_x tile_y : Int) (st : first_load_state_t) :
    first_load_state_t :=
  { st with
    channels := fun s t c =>
      if s = scale ∧ t = tile_index ∧ c = color then
        { st.channels s t c with
          neighbors_loaded := env.isyntax_get_adjacent_tiles_mask level tile_x tile_y }
      else st.channels s t c }

/-- Body of the loop over the three colours for a tile of the top level
(tile_streamer.cpp:178-191); after `panic()` nothing is done any more. -/
def first_load_top_channel (env : first_load_env_t) (level : isyntax_level_t)
    (scale tile_x tile_y tile_index : Int) (st : first_load_state_t) (i : Nat) :
    first_load_state_t :=
  if st.panicked then st
  else
    let st1 := first_load_alloc_coeff_h env scale tile_index i st
    if st1.panicked then st1
    else
      let st2 := first_load_alloc_coeff_ll env scale tile_index i st1
      if st2.panicked then st2
      else first_load_set_neighbors_loaded env level scale tile_index i tile_x tile_y st2

/-- Body of the loops that decompress the top level (tile_streamer.cpp:166-192). -/
def first_load_top_tile (env : first_load_env_t) (level : isyntax_level_t)
    (scale tile_y tile_x tile_index : Int) (st : first_load_state_t) : first_load_state_t :=
  if !(level.tiles tile_index).exists_ then st
  else
    (List.range 3).foldl (first_load_top_channel env level scale tile_x tile_y tile_index) st

/-- The loop over `tile_x` of the top level with `n` iterations left; the
result carries `tile_index`. -/
def first_load_top_row (env : first_load_env_t) (level : isyntax_level_t) (scale tile_y : Int) :
    Nat → Int → Int → first_load_state_t → Int × first_load_state_t
  | 0, _, tile_index, st => (tile_index, st)
  | n + 1, tile_x, tile_index, st =>
    first_load_top_row env level scale tile_y n (tile_x + 1) (tile_index + 1)
      (first_load_top_tile env level scale tile_y tile_x tile_index st)

/-- The loop over `tile_y` of the top level with `n` iterations left. -/
def first_load_top_rows (env : first_load_env_t) (level : isyntax_level_t) (scale : Int) :
    Nat → Int → Int → first_load_state_t → first_load_state_t
  | 0, _, _, st => st
  | n + 1, tile_y, tile_index, st =>
    let r := first_load_top_row env level scale tile_y level.width_in_tiles.toNat 0 tile_index st
    first_load_top_rows env level scale n (tile_y + 1) r.1 r.2

/-- Body of the loop `for (i = 0; i < 4; ++i)` (or `16`) of a lower level
(tile_streamer.cpp:219-238 and 273-292) for the tile at the offset
`(tile_delta_x[i], tile_delta_y[i])` of its chunk. -/
def first_load_chunk_tile (env : first_load_env_t) (level : isyntax_level_t)
    (scale tile_x tile_y : Int) (color : Nat) (st : first_load_state_t) (delta : Int × Int) :
    first_load_state_t :=
  if st.panicked then st
  else
    let tile_x_in_chunk := tile_x + delta.1
    let tile_y_in_chunk := tile_y + delta.2
    let tile_index := tile_y_in_chunk * level.width_in_tiles + tile_x_in_chunk
    let st1 := first_load_alloc_coeff_h env scale tile_index color st
    if st1.panicked then st1
    else
      first_load_set_neighbors_loaded env level scale tile_index color tile_x_in_chunk
        tile_y_in_chunk st1

/-- Body of the loops over the chunks of a lower level
(tile_streamer.cpp:205-245 and 259-299): when the first tile of the chunk
exists, every tile of the chunk receives a block for each colour. -/
def first_load_chunk (env : first_load_env_t) (level : isyntax_level_t) (scale : Int)
    (deltas : List (Int × Int)) (tile_y tile_x : Int) (st : first_load_state_t) :
    first_load_state_t :=
  let tile_index := tile_y * level.width_in_tiles + tile_x
  if !(level.tiles tile_index).exists_ then st
  else
    (List.range 3).foldl
      (fun st color => deltas.foldl (first_load_chunk_tile env level scale tile_x tile_y color) st)
      st

/-- The loop `for (tile_x = 0; tile_x < width_in_tiles; tile_x += step)` of a
lower level with `n` iterations left. -/
def first_load_chunk_row (env : first_load_env_t) (level : isyntax_level_t) (scale : Int)
    (deltas : List (Int × Int)) (step tile_y : Int) :
    Nat → Int → first_load_state_t → first_load_state_t
  | 0, _, st => st
  | n + 1, tile_x, st =>
    first_load_chunk_row env level scale deltas step tile_y n (tile_x + step)
      (first_load_chunk env level scale deltas tile_y tile_x st)

/-- The loop `for (tile_y = 0; tile_y < height_in_tiles; tile_y += step)` of a
lower level with `n` iterations left. -/
def first_load_chunk_rows (env : first_load_env_t) (level : isyntax_level_t) (scale : Int)
    (deltas : List (Int × Int)) (step : Int) :
    Nat → Int → first_load_state_t → first_load_state_t
  | 0, _, st => st
  | n + 1, tile_y, st =>
    first_load_chunk_rows env level scale deltas step n (tile_y + step)
      (first_load_chunk_row env level scale deltas step tile_y
        ((level.width_in_tiles + step - 1) / step).toNat 0 st)

/-- `tiles_loaded += isyntax_load_all_tiles_in_level(isyntax, wsi, scale, true)`:
the call is recorded with the channels as they are, then the load tasks do
their work.  After `panic()` the call is not reached. -/
def first_load_all_tiles_in_level (env : first_load_env_t) (scale : Int)
    (st : first_load_state_t) : first_load_state_t :=
  if st.panicked then st
  else
    env.load_tiles scale
      { st with
        load_all_tiles_calls :=
          st.load_all_tiles_calls ++ [{ scale := scale, channels := st.channels }] }

/-- `tile_delta_x` and `tile_delta_y` of the level below the top
(tile_streamer.cpp:215-216). -/
def tile_delta_2 : List (Int × Int) := [(0, 0), (1, 0), (0, 1), (1, 1)]

/-- `tile_delta_x` and `tile_delta_y` of the second level below the top
(tile_streamer.cpp:269-270). -/
def tile_delta_4 : List (Int × Int) :=
  [(0, 0), (1, 0), (2, 0), (3, 0), (0, 1), (1, 1), (2, 1), (3, 1),
   (0, 2), (1, 2), (2, 2), (3, 2), (0, 3), (1, 3), (2, 3), (3, 3)]

/-- `isyntax_do_first_load` (tile_streamer.cpp:110-302) up to its last call of
`isyntax_load_all_tiles_in_level`: the top level is decompressed and loaded,
then the one or two levels below it that the top chunks hold.  The reads from
disk and the contents of the coefficient blocks are not modelled, nor is the
release of the blocks at the end, which follows the last call. -/
def isyntax_do_first_load (env : first_load_env_t) (levels : Int → isyntax_level_t)
    (codeblocks : Int → isyntax_codeblock_t) (max_scale : Int) (st : first_load_state_t) :
    first_load_state_t :=
  let scale := max_scale
  let current_level := levels scale
  let levels_in_chunk : Int :=
    ((codeblocks ((current_level.tiles 0).codeblock_chunk_index)).scale % 3 : Nat) + 1
  let st1 := first_load_top_rows env current_level scale current_level.height_in_tiles.toNat 0 0 st
  let st2 := first_load_all_tiles_in_level env scale st1
  let st4 :=
    if levels_in_chunk ≥ 2 then
      let scale1 := max_scale - 1
      let level1 := levels scale1
      let st3 := first_load_chunk_rows env level1 scale1 tile_delta_2 2
        ((level1.height_in_tiles + 2 - 1) / 2).toNat 0 st2
      first_load_all_tiles_in_level env scale1 st3
    else st2
  if levels_in_chunk ≥ 3 then
    let scale2 := max_scale - 2
    let level2 := levels scale2
    let st5 := first_load_chunk_rows env level2 scale2 tile_delta_4 4
      ((level2.height_in_tiles + 4 - 1) / 4).toNat 0 st4
    first_load_all_tiles_in_level env scale2 st5
  else st4

/-- An allocator as `block_allocator_create`, `block_alloc` and `block_free`
leave it when `malloc` does not fail: at least one chunk is in use, the chunks
in use have memory, and the items of the free list storage name chunks in
use. -/
def block_allocator_wf (allocator : block_allocator_t) : Prop :=
  1 ≤ allocator.used_chunks ∧
  (∀ i, i < allocator.used_chunks → (allocator.chunks i).memory ≠ 0) ∧
  ∀ i, (allocator.free_list_storage i).chunk_index < allocator.used_chunks

/-- A later state of the first load: the allocator of the high-pass blocks is
well formed, no call of `isyntax_load_all_tiles_in_level` was added, a
`coeff_h` that was not `NULL` is not `NULL`, and `panic()` is not undone. -/
def first_load_extends (st st1 : first_load_state_t) : Prop :=
  block_allocator_wf st1.h_coeff_block_allocator ∧
  st1.load_all_tiles_calls = st.load_all_tiles_calls ∧
  (∀ s t c, (st.channels s t c).coeff_h ≠ 0 → (st1.channels s t c).coeff_h ≠ 0) ∧
  (st1.panicked = false → st.panicked = false)

/-- Step of the loops of the first load over the tiles of the level `scale`:
the top level is visited tile by tile, the level below it in chunks of 2 x 2
tiles and the level below that in chunks of 4 x 4 tiles. -/
def first_load_chunk_step (max_scale scale : Int) : Int :=
  if scale = max_scale then 1 else if scale = max_scale - 1 then 2 else 4

/-- What holds at a call of `isyntax_load_all_tiles_in_level`: the level is one
of the top three, and a tile of the level that exists, and whose chunk has a first tile that exists, has a
`coeff_h` that is not `NULL` in its three colour channels. -/
def first_load_call_ok (levels : Int → isyntax_level_t) (max_scale : Int)
    (call : load_all_tiles_call_t) : Prop :=
  (call.scale = max_scale ∨ call.scale = max_scale - 1 ∨ call.scale = max_scale - 2) ∧
  ∀ tile_x tile_y : Int,
    0 ≤ tile_x → tile_x < (levels call.scale).width_in_tiles →
    0 ≤ tile_y → tile_y < (levels call.scale).height_in_tiles →
    ((levels call.scale).tiles
      (tile_y * (levels call.scale).width_in_tiles + tile_x)).exists_ = true →
    ((levels call.scale).tiles
      ((tile_y - tile_y % first_load_chunk_step max_scale call.scale)
          * (levels call.scale).width_in_tiles
        + (tile_x - tile_x % first_load_chunk_step max_scale call.scale))).exists_ = true →
    ∀ color, color < 3 →
      (call.channels call.scale (tile_y * (levels call.scale).width_in_tiles + tile_x)
        color).coeff_h ≠ 0

/-- The allocator `block_allocator_create(16, 32, 128)` with its first chunk at
address 1000: four chunks of eight blocks. -/
def example_first_load_allocator : block_allocator_t :=
  match block_allocator_create 1000 16 32 128 with
  | some allocator => allocator
  | none => example_allocator_state

/-- The state before the first load of the examples: no channel has a block. -/
def example_first_load_state : first_load_state_t :=
  { channels := fun _ _ _ => { coeff_h := 0, coeff_ll := 0, neighbors_loaded := 0 }
    h_coeff_block_allocator := example_first_load_allocator
    ll_coeff_block_allocator := example_first_load_allocator
    panicked := false
    load_all_tiles_calls := [] }

/-- Environment of the examples: `malloc` returns the address `5000 + 128 * i`
for the chunk `i`, and the load tasks leave the channels as they are. -/
def example_first_load_env : first_load_env_t :=
  { malloc_h := fun i => 5000 + 128 * i
    malloc_ll := fun i => 9000 + 128 * i
    isyntax_get_adjacent_tiles_mask := example_adjacent_tiles_mask
    load_tiles := fun _ st => st }

/-- Codeblocks of the examples: the top chunk holds the levels 1 and 0. -/
def example_first_load_codeblocks : Int → isyntax_codeblock_t :=
  fun _ =>
    { x_coordinate := 0, y_coordinate := 0, color_component := 0, scale := 1, coefficient := 0,
      block_data_offset := 0, block_size := 0, block_header_template_id := 0 }

/-- Levels of the examples: one tile at scale 1 and 2 x 2 tiles at scale 0, all
of which exist. -/
def example_first_load_levels : Int → isyntax_level_t :=
  fun scale =>
    if scale = 1 then
      { width_in_tiles := 1, height_in_tiles := 1, tiles := fun _ => example_bare_tile,
        is_fully_loaded := false }
    else
      { width_in_tiles := 2, height_in_tiles := 2, tiles := fun _ => example_bare_tile,
        is_fully_loaded := false }

/-- Levels as `example_first_load_levels`, but the first tile of scale 0 does
not exist. -/
def example_first_load_sparse_levels : Int → isyntax_level_t :=
  fun scale =>
    if scale = 1 then
      { width_in_tiles := 1, height_in_tiles := 1, tiles := fun _ => example_bare_tile,
        is_fully_loaded := false }
    else
      { width_in_tiles := 2, height_in_tiles := 2
        tiles := fun i => if i = 0 then { example_bare_tile with exists_ := false }
          else example_bare_tile
        is_fully_loaded := false }

/-! ## A whole pass of `isyntax_stream_image_tiles` (tile_streamer.cpp:487-1003) -/

/-- What a pass observes of the worker threads when it reaches a tile in the
decompression loop: `global_worker_thread_idle_count`, the result of
`get_work_queue_task_count` and `is_tile_streamer_frame_boundary_passed`. -/
structure worker_sample_t where
  global_worker_thread_idle_count : Int
  tasks_waiting : Int
  frame_boundary_passed : Bool

/-- State of a pass: the streamer state, the data chunks, the indices of the
chunks read from the file, the tiles for which
`isyntax_begin_decompress_h_coeff_for_tile` was called, the tiles for which
`isyntax_decompress_h_coeff_for_tile` was called by the pass itself (scale,
`tile_x`, `tile_y`), and whether `panic()` was reached. -/
structure stream_pass_state_t where
  st : stream_state_t
  data_chunks : Nat → isyntax_data_chunk_t
  chunks_read : List Nat
  h_coeff_tasks : List (Int × Int × Int)
  h_coeff_decompressed : List (Int × Int × Int)
  panicked : Bool

/-- The lowest scale that a pass looks at (tile_streamer.cpp:500-502).
`ATLEAST` and `ATMOST` are macros of a header that is not among the sources
and are parameters. -/
def stream_lowest_visible_scale (ATLEAST ATMOST : Int → Int → Int) (max_scale zoom_level : Int) :
    Int :=
  let highest_visible_scale := ATLEAST max_scale 0
  let lowest_visible_scale := ATLEAST zoom_level 0
  ATMOST highest_visible_scale lowest_visible_scale

/-- The loop that skips the scales that are fully loaded
(tile_streamer.cpp:506-513), with `n` iterations left: the result is
`highest_scale_to_load`. -/
def stream_skip_loaded_scales (levels : Int → isyntax_level_t) : Nat → Int → Int → Int
  | 0, _, highest_scale_to_load => highest_scale_to_load
  | n + 1, scale, highest_scale_to_load =>
    if (levels scale).is_fully_loaded then
      stream_skip_loaded_scales levels n (scale - 1) (highest_scale_to_load - 1)
    else highest_scale_to_load

/-- The highest scale that a pass loads (tile_streamer.cpp:500-513). -/
def stream_highest_scale_to_load (ATLEAST ATMOST : Int → Int → Int)
    (levels : Int → isyntax_level_t) (max_scale zoom_level : Int) : Int :=
  let highest_visible_scale := ATLEAST max_scale 0
  let lowest_visible_scale := stream_lowest_visible_scale ATLEAST ATMOST max_scale zoom_level
  stream_skip_loaded_scales levels (highest_visible_scale + 1 - lowest_visible_scale).toNat
    highest_visible_scale highest_visible_scale

/-- Assignment `tile->has_h = v` on level `scale`. -/
def set_has_h (levels : Int → isyntax_level_t) (scale tile_index : Int) (v : Bool) :
    Int → isyntax_level_t :=
  fun s =>
    if s = scale then
      { levels s with
        tiles := fun i =>
          if i = tile_index then { (levels s).tiles i with has_h := v } else (levels s).tiles i }
    else levels s

/-- Body of the loops of the decompression pass (tile_streamer.cpp:841-856)
for one tile of the padded rectangle of a region.  The coefficient blocks
that `isyntax_decompress_h_coeff_for_tile` allocates and fills are not
modelled: of that function the flags remain, `tile->has_h = true` (the chunk
is loaded when it is called here) or `panic()` for a scale outside the chunk. -/
def stream_decompress_tile (env : Nat → work_queue_sample_t)
    (workers : Int → Int → Int → worker_sample_t) (logical_cpu_count : Int)
    (region : isyntax_load_region_t) (scale tile_y tile_x local_tile_index : Int)
    (s : stream_pass_state_t) : stream_pass_state_t :=
  if s.panicked then s
  else
    let level := s.st.levels scale
    let tile_index := tile_y * level.width_in_tiles + tile_x
    let tile := level.tiles tile_index
    let req := region.tile_req local_tile_index
    if req.need_h_coeff && !tile.is_submitted_for_h_coeff_decompression then
      let chunk := s.data_chunks tile.data_chunk_index
      if chunk.data.isSome then
        let w := workers scale tile_x tile_y
        let tasks_waiting := w.tasks_waiting
        if w.global_worker_thread_idle_count > 0 ∧ tasks_waiting < logical_cpu_count * 10 then
          { s with
            st := isyntax_begin_decompress_h_coeff_for_tile env s.st scale tile_index
            h_coeff_tasks := s.h_coeff_tasks ++ [(scale, tile_x, tile_y)] }
        else if !w.frame_boundary_passed then
          let levels1 := set_is_submitted_for_h_coeff_decompression s.st.levels scale tile_index true
          let s1 : stream_pass_state_t :=
            { s with
              st := { s.st with levels := levels1 }
              h_coeff_decompressed := s.h_coeff_decompressed ++ [(scale, tile_x, tile_y)] }
          match codeblock_index_in_chunk (chunk.scale - scale) tile_x tile_y with
          | none => { s1 with panicked := true }
          | some _ => { s1 with st := { s1.st with levels := set_has_h levels1 scale tile_index true } }
        else s
      else s
    else s

/-- The loop over `tile_x` of the decompression pass with `n` iterations left;
the result carries `local_tile_index`. -/
def stream_decompress_row (env : Nat → work_queue_sample_t)
    (workers : Int → Int → Int → worker_sample_t) (logical_cpu_count : Int)
    (region : isyntax_load_region_t) (scale tile_y : Int) :
    Nat → Int → Int → stream_pass_state_t → Int × stream_pass_state_t
  | 0, _, local_tile_index, s => (local_tile_index, s)
  | n + 1, tile_x, local_tile_index, s =>
    stream_decompress_row env workers logical_cpu_count region scale tile_y n (tile_x + 1)
      (local_tile_index + 1)
      (stream_decompress_tile env workers logical_cpu_count region scale tile_y tile_x
        local_tile_index s)

/-- The loop over `tile_y` of the decompression pass with `n` iterations left. -/
def stream_decompress_rows (env : Nat → work_queue_sample_t)
    (workers : Int → Int → Int → worker_sample_t) (logical_cpu_count : Int)
    (region : isyntax_load_region_t) (scale : Int) :
    Nat → Int → Int → stream_pass_state_t → stream_pass_state_t
  | 0, _, _, s => s
  | n + 1, tile_y, local_tile_index, s =>
    let r := stream_decompress_row env workers logical_cpu_count region scale tile_y
      (region.padded_bounds.max.x - region.padded_bounds.min.x).toNat region.padded_bounds.min.x
      local_tile_index s
    stream_decompress_rows env workers logical_cpu_count region scale n (tile_y + 1) r.1 r.2

/-- The loop over scales of the decompression pass (tile_streamer.cpp:833):
`n` scales left, `scale` counting down and `scale_to_load_index` counting up. -/
def stream_decompress_scales (env : Nat → work_queue_sample_t)
    (workers : Int → Int → Int → worker_sample_t) (logical_cpu_count : Int)
    (regions : Int → isyntax_load_region_t) :
    Nat → Int → Int → stream_pass_state_t → stream_pass_state_t
  | 0, _, _, s => s
  | n + 1, scale, scale_to_load_index, s =>
    let region := regions scale_to_load_index
    stream_decompress_scales env workers logical_cpu_count regions n (scale - 1)
      (scale_to_load_index + 1)
      (stream_decompress_rows env workers logical_cpu_count region scale
        (region.padded_bounds.max.y - region.padded_bounds.min.y).toNat
        region.padded_bounds.min.y 0 s)

/-- `isyntax_stream_image_tiles` (tile_streamer.cpp:487): before the first
load is complete the first load is started; afterwards the scales to load are
determined, the region pass marks the tiles and collects the chunks, the
chunks are read, the high-pass coefficients are decompressed and the tiles
that are ready are submitted for loading.  `zoom_level` is
`tile_streamer->zoom.level`. -/
def isyntax_stream_image_tiles {β : Type} (K : isyntax_adj_tile_t)
    (isyntax_get_adjacent_tiles_mask : isyntax_level_t → Int → Int → Nat)
    (world_bounds_to_tile_bounds : β → Int → bounds2i)
    (clip_bounds2i : bounds2i → bounds2i → bounds2i) (ATLEAST ATMOST : Int → Int → Int)
    (file_read : Nat → Nat → List Nat) (env : Nat → work_queue_sample_t)
    (workers : Int → Int → Int → worker_sample_t) (logical_cpu_count : Int)
    (tile_streamer : tile_streamer_t β) (codeblocks : Int → isyntax_codeblock_t)
    (first_load_complete : Bool) (max_scale zoom_level : Int) (s : stream_pass_state_t) :
    stream_pass_state_t :=
  if !first_load_complete then { s with st := isyntax_begin_first_load env s.st }
  else
    let lowest_visible_scale := stream_lowest_visible_scale ATLEAST ATMOST max_scale zoom_level
    let highest_scale_to_load :=
      stream_highest_scale_to_load ATLEAST ATMOST s.st.levels max_scale zoom_level
    let scales_to_load_count := (highest_scale_to_load + 1) - lowest_visible_scale
    if scales_to_load_count ≤ 0 then s
    else
      match isyntax_stream_region_pass K isyntax_get_adjacent_tiles_mask
          world_bounds_to_tile_bounds clip_bounds2i tile_streamer s.st.levels
          highest_scale_to_load lowest_visible_scale with
      | (_, true) => s
      | (r, false) =>
        let read := stream_read_chunks file_read codeblocks r.chunks_to_load s.data_chunks
        let s1 : stream_pass_state_t :=
          { s with data_chunks := read.1, chunks_read := s.chunks_read ++ read.2 }
        let s2 := stream_decompress_scales env workers logical_cpu_count r.regions
          (highest_scale_to_load + 1 - lowest_visible_scale).toNat highest_scale_to_load 0 s1
        if s2.panicked then s2
        else
          { s2 with
            st := isyntax_stream_load_pass K isyntax_get_adjacent_tiles_mask env
              logical_cpu_count r.regions highest_scale_to_load lowest_visible_scale s2.st }

/-- A streamer state with no call made yet, for the pyramid `example_levels`
with the tile loaded. -/
def example_loaded_pass_state : stream_pass_state_t :=
  { st :=
      { levels := fun s =>
          { example_levels s with tiles := fun _ => { example_ready_tile with is_loaded := true } }
        refcount := 0, submissions := 0, begin_load_tile_calls := [] }
    data_chunks := fun _ => { example_chunk with data := none }
    chunks_read := [], h_coeff_tasks := [], h_coeff_decompressed := [], panicked := false }

/-- A streamer for the examples whose camera sees the tile `(0, 0)`. -/
def example_origin_streamer : tile_streamer_t bounds2i :=
  { camera_bounds := { min := { x := 0, y := 0 }, max := { x := 1, y := 1 } }
    crop_bounds := { min := { x := 0, y := 0 }, max := { x := 0, y := 0 } }
    is_cropped := false }

/-- Worker threads that are idle, with an empty queue. -/
def example_workers : Int → Int → Int → worker_sample_t :=
  fun _ _ _ => { global_worker_thread_idle_count := 1, tasks_waiting := 0,
                 frame_boundary_passed := false }

/-- A version 1 codeblock of 14 bytes: the header, then eight zero bytes where
the table is expected. -/
def example_zero_table_codeblock : List Nat := [1, 0, 0, 0, 0, 1] ++ List.replicate 8 0

/-- A version 1 codeblock with the table of `example_tree` and no message. -/
def example_tree_codeblock : List Nat := hulsken_codeblock example_tree 0 4 0 []

/-- A version 1 codeblock of 15 bytes with serialized length 40000, zero run
symbol 0 and 16-bit zero run counters, the table of `example_tree`, and the
message: a zero run with count `0x8000`, chained with a zero run with count
5, then the symbol 5. -/
def example_long_run_codeblock : List Nat :=
  hulsken_codeblock example_tree 0 16 40000
    (zero_run_bits [false] 16 [0x8000, 5] ++ [true, false])

/-- A version 1 codeblock of 15 bytes with serialized length `2 ^ 31 + 1`, zero
run symbol 0 and 16-bit zero run counters, the table of `example_tree`, and
the message: a zero run with count `0x8000`, chained with a zero run with
count 0, then the symbol 5. -/
def example_huge_length_codeblock : List Nat :=
  hulsken_codeblock example_tree 0 16 (2 ^ 31 + 1)
    (zero_run_bits [false] 16 [0x8000, 0] ++ [true, false])

/-- A call on the allocator: `block_alloc`, or `block_free` of a pointer. -/
inductive block_op where
  | alloc : block_op
  | free (ptr_to_free : Nat) : block_op

/-- A sequence of calls on one allocator, together with the blocks that were
returned and not freed since (`live`, last returned first) and the blocks that
were freed and not returned again since (`freed`, last freed last).
`malloc i` is the address that `malloc(chunk_size)` returns for chunk `i`.
`none` when a call panics, or when a pointer is freed that is not live. -/
def block_run (malloc : Nat → Nat) :
    List block_op → block_allocator_t → List Nat → List Nat →
      Option (block_allocator_t × List Nat × List Nat)
  | [], allocator, live, freed => some (allocator, live, freed)
  | .alloc :: rest, allocator, live, freed =>
    match block_alloc (malloc allocator.used_chunks) allocator with
    | none => none
    | some (p, allocator1) => block_run malloc rest allocator1 (p :: live) (freed.erase p)
  | .free p :: rest, allocator, live, freed =>
    if p ∈ live then
      match block_free allocator p with
      | none => none
      | some allocator1 => block_run malloc rest allocator1 (live.erase p) (freed ++ [p])
    else none

/-- What the allocator's parameters and `malloc` have to satisfy: blocks of
non-zero size, at least one block per chunk, the blocks of a chunk fit into
`chunk_size` bytes, and the memory of distinct chunks does not overlap. -/
structure block_params_ok (malloc : Nat → Nat) (bs cap cs cc : Nat) : Prop where
  bs_pos : 0 < bs
  cap_pos : 1 ≤ cap
  fits : cap * bs ≤ cs
  disjoint : ∀ i j, i < cc → j < cc → i ≠ j →
    malloc i + cs ≤ malloc j ∨ malloc j + cs ≤ malloc i

/-- The state of a run: `ls` are the slots `(chunk index, block index)` of the
live blocks and `fl` the slots on the free list, from the bottom of the stack;
the free list is a stack in the first `free_list_length` items of its storage,
the chunks before the last are full, and no slot occurs twice. -/
structure block_run_inv (malloc : Nat → Nat) (bs cap cs cc : Nat) (a : block_allocator_t)
    (live freed : List Nat) (ls fl : List (Nat × Nat)) : Prop where
  block_size_eq : a.block_size = bs
  capacity_eq : a.chunk_capacity_in_blocks = cap
  chunk_size_eq : a.chunk_size = cs
  chunk_count_eq : a.chunk_count = cc
  used_pos : 1 ≤ a.used_chunks
  used_le : a.used_chunks ≤ cc
  memory_eq : ∀ i, i < a.used_chunks → (a.chunks i).memory = malloc i
  blocks_le : ∀ i, i < a.used_chunks → (a.chunks i).used_blocks ≤ cap
  blocks_full : ∀ i, i + 1 < a.used_chunks → (a.chunks i).used_blocks = cap
  blocks_zero : ∀ i, a.used_chunks ≤ i → (a.chunks i).used_blocks = 0
  head_eq : a.free_list
    = if a.free_list_length = 0 then none else some (a.free_list_length - 1)
  length_eq : fl.length = a.free_list_length
  storage_eq : ∀ j, j < fl.length → a.free_list_storage j
    = { next := if j = 0 then none else some (j - 1)
        chunk_index := (fl.getD j (0, 0)).1
        block_index := (fl.getD j (0, 0)).2 }
  live_eq : live = ls.map (fun s => malloc s.1 + s.2 * bs)
  freed_eq : freed = fl.map (fun s => malloc s.1 + s.2 * bs)
  nodup : (ls ++ fl).Nodup
  valid : ∀ s, s ∈ ls ++ fl → s.1 < a.used_chunks ∧ s.2 < (a.chunks s.1).used_blocks
  count : ls.length + fl.length + cap
    = a.used_chunks * cap + (a.chunks (a.used_chunks - 1)).used_blocks

/-- Where `malloc` puts the chunks of the example with room between them. -/
def example_spaced_malloc (i : Nat) : Nat := 1000 + 100 * i

/-- The allocator `block_allocator_create(16, 8, 64)` with its first chunk at
address 1000: two chunks of four blocks. -/
def example_fresh_allocator : block_allocator_t :=
  match block_allocator_create (example_spaced_malloc 0) 16 8 64 with
  | some allocator => allocator
  | none =>
    { block_size := 0, chunk_capacity_in_blocks := 0, chunk_size := 0, chunk_count := 0,
      used_chunks := 0, chunks := fun _ => { used_blocks := 0, memory := 0 },
      free_list_storage := fun _ => { next := none, chunk_index := 0, block_index := 0 },
      free_list := none, free_list_length := 0, is_valid := false }

/-- Calls on `example_fresh_allocator`: the second chunk is started by the
sixth allocation, and three of the blocks are free at the end. -/
def example_spaced_ops : List block_op :=
  [.alloc, .alloc, .free 1016, .alloc, .alloc, .alloc, .alloc, .free 1000, .free 1100,
   .free 1032]

/-- The allocator and the lists of live and freed blocks after `example_spaced_ops`. -/
def example_spaced_run : block_allocator_t × List Nat × List Nat :=
  match block_run example_spaced_malloc example_spaced_ops example_fresh_allocator [] [] with
  | some r => r
  | none => (example_fresh_allocator, [], [])

/-- Where `malloc` puts the two chunks of the example: one right after the other. -/
def example_adjacent_malloc (i : Nat) : Nat := 1000 + 35 * i

/-- Six allocations, then the fifth block is freed, then one more allocation. -/
def example_block_ops : List block_op :=
  [.alloc, .alloc, .alloc, .alloc, .alloc, .alloc, .free 1040, .alloc]

/-- The `(symbol, code, code_size)` that the table reading loop
(isyntax.c:890-951) holds at each leaf, in the order of the leaves, for the
first `fuel` iterations: what it stores in `huffman.code[symbol]`,
`huffman.size[symbol]` and the fast table. -/
def hulsken_read_table_codes (buffer : List Nat) :
    Nat → Nat → Nat → Nat → List (Nat × Nat × Nat)
  | 0, _, _, _ => []
  | fuel + 1, code_size, code, bits_read =>
    let blob := bitstream_lsb_read buffer bits_read
    match hulsken_descend 65 blob 1 code_size with
    | none => []
    | some (blob1, bits_to_advance, code_size1) =>
      let blob2 := blob1 >>> 1
      let symbol := blob2 % 256
      let bits_read1 := bits_read + (bits_to_advance + 8)
      if code_size1 = 0 then [(symbol, code, code_size1)]
      else
        let code_high_bit := shl32 (code_size1 - 1)
        match hulsken_ascend code_size1 code code_high_bit code_size1 with
        | (code2, code_high_bit2, code_size2) =>
          let code3 := code2 ||| code_high_bit2
          if code_size2 > 0 then
            (symbol, code, code_size1)
              :: hulsken_read_table_codes buffer fuel code_size2 code3 bits_read1
          else [(symbol, code, code_size1)]

/-- The indices of `huffman.fast` that the loop writes for a leaf
(isyntax.c:805-808 for a code of at most `HUFFMAN_FAST_BITS` bits,
isyntax.c:921-925 for a longer one). -/
def hulsken_fast_written (code code_size : Nat) : List Nat :=
  if code_size ≤ HUFFMAN_FAST_BITS then
    (List.range (shl32 (HUFFMAN_FAST_BITS - code_size))).map
      (fun i => (i <<< code_size) ||| code)
  else [code &&& (shl32 HUFFMAN_FAST_BITS - 1)]

/-- The code `c1` of `n1` bits and the code `c2` part at a bit below `n1`,
where `c1` has a `0` and `c2` a `1`. -/
def code_diverges (c1 n1 c2 : Nat) : Prop :=
  ∃ i, i < n1 ∧ (∀ j < i, c2.testBit j = c1.testBit j) ∧ c1.testBit i = false
    ∧ c2.testBit i = true

/-- The code `c2` of `n2` bits lies at or after the node `c` of depth `n` in
the enumeration: it passes through the node or parts from it to the `1` side. -/
def code_after (c n c2 n2 : Nat) : Prop :=
  (n ≤ n2 ∧ ∀ j < n, c2.testBit j = c.testBit j) ∨ code_diverges c n c2

/-- Neither of two codes is the low bits of the other. -/
def codes_prefix_free (c1 n1 c2 n2 : Nat) : Prop :=
  ¬ (n1 ≤ n2 ∧ c2 % 2 ^ n1 = c1) ∧ ¬ (n2 ≤ n1 ∧ c1 % 2 ^ n2 = c2)

/-- A version 1 codeblock with the table of a tree that has two codes of 13
bits, and no message. -/
def example_spine_codeblock : List Nat := hulsken_codeblock (example_spine 13 0) 0 4 0 []

/-- A decoded block header table that declares a length of 0 bytes and whose
first record has size field 40. -/
def example_zero_length_table : List Nat :=
  [0, 0, 0, 0, 0x1D, 0x30, 0x0D, 0x20, 40, 0, 0, 0] ++ List.replicate 40 0

/-- A decoded block header table of twelve bytes that declares a length of 96
bytes, two partial records, and holds only the header of the first. -/
def example_truncated_table : List Nat :=
  [96, 0, 0, 0, 0x1D, 0x30, 0x0D, 0x20, 40, 0, 0, 0]

/-- The tile `(tile_x, tile_y)` sits at a position flagged by the adjacency
mask of a tile of the visible rectangle that is not loaded. -/
def flagged_by_visible_tile (K : isyntax_adj_tile_t)
    (isyntax_get_adjacent_tiles_mask : isyntax_level_t → Int → Int → Nat)
    (level : isyntax_level_t) (visible_tiles : bounds2i) (tile_x tile_y : Int) : Prop :=
  ∃ vx vy : Int,
    (vx ≥ visible_tiles.min.x ∧ vy ≥ visible_tiles.min.y ∧
      vx < visible_tiles.max.x ∧ vy < visible_tiles.max.y) ∧
    (level.tiles (vy * level.width_in_tiles + vx)).is_loaded = false ∧
    ∃ p ∈ adjacency_positions K,
      isyntax_get_adjacent_tiles_mask level vx vy &&& p.1 ≠ 0 ∧
      vx + p.2.1 = tile_x ∧ vy + p.2.2 = tile_y

/-- The request slot `i` of a region is flagged from the tile `(vx, vy)`: the
tile is not loaded and lies in the visible rectangle, and `i` is the
`adj_local_tile_index` of a position flagged by its adjacency mask whose tile
exists and lacks the coefficients (`has_ll` when `need_ll` is set, `has_h`
otherwise). -/
def slot_flagged_from (K : isyntax_adj_tile_t)
    (isyntax_get_adjacent_tiles_mask : isyntax_level_t → Int → Int → Nat)
    (level : isyntax_level_t) (visible_tiles padded_bounds : bounds2i) (w vx vy i : Int)
    (need_ll : Bool) : Prop :=
  (level.tiles (vy * level.width_in_tiles + vx)).is_loaded = false ∧
  (vx ≥ visible_tiles.min.x ∧ vy ≥ visible_tiles.min.y ∧
    vx < visible_tiles.max.x ∧ vy < visible_tiles.max.y) ∧
  ∃ p ∈ adjacency_positions K,
    i = (vy - padded_bounds.min.y + p.2.2) * w + (vx - padded_bounds.min.x + p.2.1) ∧
    isyntax_get_adjacent_tiles_mask level vx vy &&& p.1 ≠ 0 ∧
    (level.tiles ((vy + p.2.2) * level.width_in_tiles + (vx + p.2.1))).exists_ = true ∧
    (if need_ll then
      (level.tiles ((vy + p.2.2) * level.width_in_tiles + (vx + p.2.1))).has_ll = false
    else (level.tiles ((vy + p.2.2) * level.width_in_tiles + (vx + p.2.1))).has_h = false)

/-! ## Theorems -/

/-! ### Load pass: tile readiness -/

theorem isyntax_begin_load_tile_calls (env : Nat → work_queue_sample_t) (st : stream_state_t)
    (scale tile_x tile_y : Int) :
    (isyntax_begin_load_tile env st scale tile_x tile_y).begin_load_tile_calls
      = st.begin_load_tile_calls := by
  unfold isyntax_begin_load_tile
  simp only []
  split_ifs <;> rfl

theorem source_tile_blocks_false (level : isyntax_level_t) (y x : Int)
    (h : source_tile_blocks level y x = false) :
    (level.tiles (y * level.width_in_tiles + x)).exists_ = false ∨
      ((level.tiles (y * level.width_in_tiles + x)).has_h = true ∧
       (level.tiles (y * level.width_in_tiles + x)).has_ll = true) := by
  unfold source_tile_blocks at h
  simp only [] at h
  cases h1 : (level.tiles (y * level.width_in_tiles + x)).exists_ <;>
    cases h2 : (level.tiles (y * level.width_in_tiles + x)).has_h <;>
    cases h3 : (level.tiles (y * level.width_in_tiles + x)).has_ll <;>
    simp_all

theorem flagged_not_blocking {m k : Nat} {level : isyntax_level_t} {y x : Int}
    (h : ¬ ((decide (m &&& k ≠ 0) && source_tile_blocks level y x) = true))
    (hm : m &&& k ≠ 0) :
    (level.tiles (y * level.width_in_tiles + x)).exists_ = false ∨
      ((level.tiles (y * level.width_in_tiles + x)).has_h = true ∧
       (level.tiles (y * level.width_in_tiles + x)).has_ll = true) := by
  apply source_tile_blocks_false
  cases hb : source_tile_blocks level y x
  · rfl
  · exact absurd (by simp [hm, hb]) h

theorem ite_skip_tile {c : Prop} [Decidable c] {P : stream_state_t × Bool → Prop}
    {st : stream_state_t} {x : stream_state_t × Bool}
    (h0 : P (st, false)) (h1 : ¬ c → P x) : P (if c then (st, false) else x) := by
  by_cases h : c
  · rw [if_pos h]; exact h0
  · rw [if_neg h]; exact h1 h

theorem stream_load_tile_calls_ready (K : isyntax_adj_tile_t)
    (mask : isyntax_level_t → Int → Int → Nat)
    (env : Nat → work_queue_sample_t) (cpu : Int)
    (region : isyntax_load_region_t) (scale tile_y tile_x : Int) (st : stream_state_t)
    (hst : ∀ c ∈ st.begin_load_tile_calls, tile_ready_for_load K mask c) :
    ∀ c ∈ (stream_load_tile K mask env cpu region scale tile_y tile_x st).1.begin_load_tile_calls,
      tile_ready_for_load K mask c := by
  unfold stream_load_tile
  simp only []
  refine ite_skip_tile (P := fun r => ∀ c ∈ r.1.begin_load_tile_calls, tile_ready_for_load K mask c) hst (fun _ => ?_)
  refine ite_skip_tile (P := fun r => ∀ c ∈ r.1.begin_load_tile_calls, tile_ready_for_load K mask c) hst (fun h2 => ?_)
  refine ite_skip_tile (P := fun r => ∀ c ∈ r.1.begin_load_tile_calls, tile_ready_for_load K mask c) hst (fun h3 => ?_)
  refine ite_skip_tile (P := fun r => ∀ c ∈ r.1.begin_load_tile_calls, tile_ready_for_load K mask c) hst (fun _ => ?_)
  refine ite_skip_tile (P := fun r => ∀ c ∈ r.1.begin_load_tile_calls, tile_ready_for_load K mask c) hst (fun a1 => ?_)
  refine ite_skip_tile (P := fun r => ∀ c ∈ r.1.begin_load_tile_calls, tile_ready_for_load K mask c) hst (fun a2 => ?_)
  refine ite_skip_tile (P := fun r => ∀ c ∈ r.1.begin_load_tile_calls, tile_ready_for_load K mask c) hst (fun a3 => ?_)
  refine ite_skip_tile (P := fun r => ∀ c ∈ r.1.begin_load_tile_calls, tile_ready_for_load K mask c) hst (fun a4 => ?_)
  refine ite_skip_tile (P := fun r => ∀ c ∈ r.1.begin_load_tile_calls, tile_ready_for_load K mask c) hst (fun a5 => ?_)
  refine ite_skip_tile (P := fun r => ∀ c ∈ r.1.begin_load_tile_calls, tile_ready_for_load K mask c) hst (fun a6 => ?_)
  refine ite_skip_tile (P := fun r => ∀ c ∈ r.1.begin_load_tile_calls, tile_ready_for_load K mask c) hst (fun a7 => ?_)
  refine ite_skip_tile (P := fun r => ∀ c ∈ r.1.begin_load_tile_calls, tile_ready_for_load K mask c) hst (fun a8 => ?_)
  refine ite_skip_tile (P := fun r => ∀ c ∈ r.1.begin_load_tile_calls, tile_ready_for_load K mask c) hst (fun a9 => ?_)
  have key : ∀ c ∈ (isyntax_begin_load_tile env
      { st with begin_load_tile_calls := st.begin_load_tile_calls ++
          [{ levels := st.levels, scale := scale, tile_x := tile_x, tile_y := tile_y }] }
      scale tile_x tile_y).begin_load_tile_calls, tile_ready_for_load K mask c := by
    simp only [isyntax_begin_load_tile_calls, List.mem_append, List.mem_singleton]
    rintro c (hc | rfl)
    · exact hst c hc
    · refine ⟨by simpa using h2, by simpa using h3, ?_⟩
      intro p hp hflag
      simp only [adjacency_positions, List.mem_cons, List.mem_singleton, List.not_mem_nil,
        or_false] at hp
      rcases hp with rfl | rfl | rfl | rfl | rfl | rfl | rfl | rfl | rfl
      · simpa [sub_eq_add_neg] using flagged_not_blocking a1 hflag
      · simpa [sub_eq_add_neg] using flagged_not_blocking a2 hflag
      · simpa [sub_eq_add_neg] using flagged_not_blocking a3 hflag
      · simpa [sub_eq_add_neg] using flagged_not_blocking a4 hflag
      · simpa [sub_eq_add_neg] using flagged_not_blocking a5 hflag
      · simpa [sub_eq_add_neg] using flagged_not_blocking a6 hflag
      · simpa [sub_eq_add_neg] using flagged_not_blocking a7 hflag
      · simpa [sub_eq_add_neg] using flagged_not_blocking a8 hflag
      · simpa [sub_eq_add_neg] using flagged_not_blocking a9 hflag
  split_ifs <;> exact key

theorem stream_load_row_calls_ready (K : isyntax_adj_tile_t)
    (mask : isyntax_level_t → Int → Int → Nat)
    (env : Nat → work_queue_sample_t) (cpu : Int)
    (region : isyntax_load_region_t) (scale tile_y : Int) (n : Nat) :
    ∀ (tile_x : Int) (st : stream_state_t),
      (∀ c ∈ st.begin_load_tile_calls, tile_ready_for_load K mask c) →
      ∀ c ∈ (stream_load_row K mask env cpu region scale tile_y n tile_x st).1.begin_load_tile_calls,
        tile_ready_for_load K mask c := by
  induction n with
  | zero => intro tile_x st hst; simpa [stream_load_row] using hst
  | succ n ih =>
    intro tile_x st hst
    have h := stream_load_tile_calls_ready K mask env cpu region scale tile_y tile_x st hst
    unfold stream_load_row
    rcases hres : stream_load_tile K mask env cpu region scale tile_y tile_x st with ⟨st1, b⟩
    rw [hres] at h
    cases b
    · exact ih (tile_x + 1) st1 h
    · exact h

theorem stream_load_rows_calls_ready (K : isyntax_adj_tile_t)
    (mask : isyntax_level_t → Int → Int → Nat)
    (env : Nat → work_queue_sample_t) (cpu : Int)
    (region : isyntax_load_region_t) (scale : Int) (n : Nat) :
    ∀ (tile_y : Int) (st : stream_state_t),
      (∀ c ∈ st.begin_load_tile_calls, tile_ready_for_load K mask c) →
      ∀ c ∈ (stream_load_rows K mask env cpu region scale n tile_y st).1.begin_load_tile_calls,
        tile_ready_for_load K mask c := by
  induction n with
  | zero => intro tile_y st hst; simpa [stream_load_rows] using hst
  | succ n ih =>
    intro tile_y st hst
    have h := stream_load_row_calls_ready K mask env cpu region scale tile_y
      (region.visible_bounds.max.x - region.visible_bounds.min.x).toNat
      region.visible_bounds.min.x st hst
    unfold stream_load_rows
    rcases hres : stream_load_row K mask env cpu region scale tile_y
      (region.visible_bounds.max.x - region.visible_bounds.min.x).toNat
      region.visible_bounds.min.x st with ⟨st1, b⟩
    rw [hres] at h
    cases b
    · exact ih (tile_y + 1) st1 h
    · exact h

theorem stream_load_scales_calls_ready (K : isyntax_adj_tile_t)
    (mask : isyntax_level_t → Int → Int → Nat)
    (env : Nat → work_queue_sample_t) (cpu : Int)
    (regions : Int → isyntax_load_region_t) (n : Nat) :
    ∀ (scale idx : Int) (st : stream_state_t),
      (∀ c ∈ st.begin_load_tile_calls, tile_ready_for_load K mask c) →
      ∀ c ∈ (stream_load_scales K mask env cpu regions n scale idx st).begin_load_tile_calls,
        tile_ready_for_load K mask c := by
  induction n with
  | zero => intro scale idx st hst; simpa [stream_load_scales] using hst
  | succ n ih =>
    intro scale idx st hst
    have h := stream_load_rows_calls_ready K mask env cpu (regions idx) scale
      ((regions idx).visible_bounds.max.y - (regions idx).visible_bounds.min.y).toNat
      (regions idx).visible_bounds.min.y st hst
    unfold stream_load_scales
    simp only []
    rcases hres : stream_load_rows K mask env cpu (regions idx) scale
      ((regions idx).visible_bounds.max.y - (regions idx).visible_bounds.min.y).toNat
      (regions idx).visible_bounds.min.y st with ⟨st1, b⟩
    rw [hres] at h
    cases b
    · exact ih (scale - 1) (idx + 1) st1 h
    · exact h

/-- C1: in a load pass of `isyntax_stream_image_tiles` started with an empty
call trace, every call of `isyntax_begin_load_tile` is made for a tile whose
`has_ll` and `has_h` are set and whose flagged neighbours (the eight neighbours
and the centre) each either do not exist or have both `has_h` and `has_ll`,
whatever the regions, the adjacency masks and the behaviour of the work queue. -/
theorem stream_load_pass_calls_ready (K : isyntax_adj_tile_t)
    (isyntax_get_adjacent_tiles_mask : isyntax_level_t → Int → Int → Nat)
    (env : Nat → work_queue_sample_t) (logical_cpu_count : Int)
    (regions : Int → isyntax_load_region_t)
    (highest_scale_to_load lowest_visible_scale : Int)
    (levels : Int → isyntax_level_t) (refcount : Int) (submissions : Nat) :
    ∀ c ∈ (isyntax_stream_load_pass K isyntax_get_adjacent_tiles_mask env logical_cpu_count
        regions highest_scale_to_load lowest_visible_scale
        { levels := levels, refcount := refcount, submissions := submissions,
          begin_load_tile_calls := [] }).begin_load_tile_calls,
      tile_ready_for_load K isyntax_get_adjacent_tiles_mask c := by
  unfold isyntax_stream_load_pass
  apply stream_load_scales_calls_ready
  intro c hc
  simp at hc

theorem example_load_pass_trace :
    (isyntax_stream_load_pass example_adj_tile (fun _ _ _ => 0x10) example_queue 4
        example_regions 0 0
        { levels := example_levels, refcount := 0, submissions := 0,
          begin_load_tile_calls := [] }).begin_load_tile_calls = [example_call] := by
  rfl

/-- Witness for C1: on the one-tile pyramid the pass calls `isyntax_begin_load_tile`
for tile `(0, 0)`, and that call satisfies the readiness predicate. -/
theorem stream_load_pass_calls_ready_witness :
    example_call ∈ (isyntax_stream_load_pass example_adj_tile (fun _ _ _ => 0x10) example_queue 4
        example_regions 0 0
        { levels := example_levels, refcount := 0, submissions := 0,
          begin_load_tile_calls := [] }).begin_load_tile_calls ∧
    tile_ready_for_load example_adj_tile (fun _ _ _ => 0x10) example_call :=
  ⟨by rw [example_load_pass_trace]; exact List.mem_singleton.mpr rfl,
   stream_load_pass_calls_ready example_adj_tile (fun _ _ _ => 0x10) example_queue 4
     example_regions 0 0 example_levels 0 0 example_call
     (by rw [example_load_pass_trace]; exact List.mem_singleton.mpr rfl)⟩

/-! ### Seektable resolution -/

/-- Number of codeblocks the seektable loop writes when it starts at index
`idx` with `m` real entries left. -/
theorem seektable_fill_written (n : Nat) (entries : List isyntax_seektable_codeblock_header_t) :
    ∀ (idx : Nat) (cbs : Nat → isyntax_codeblock_t),
      (∀ k e, idx ≤ k →
          k < idx + (if idx < n then min (n - idx) (seektable_real_entries entries).length
                     else (seektable_real_entries entries).length) →
          (seektable_real_entries entries)[k - idx]? = some e →
          isyntax_seektable_fill n entries idx cbs k =
            { cbs k with block_data_offset := e.block_data_offset, block_size := e.block_size }) ∧
      (∀ k, (k < idx ∨
          idx + (if idx < n then min (n - idx) (seektable_real_entries entries).length
                 else (seektable_real_entries entries).length) ≤ k) →
          isyntax_seektable_fill n entries idx cbs k = cbs k) := by
  induction entries with
  | nil =>
    intro idx cbs
    refine ⟨?_, ?_⟩
    · intro k e _ _ h
      simp [seektable_real_entries] at h
    · intro k _
      rfl
  | cons a rest ih =>
    intro idx cbs
    by_cases ha : a.block_data_offset = 0
    · have hf : seektable_real_entries (a :: rest) = seektable_real_entries rest := by
        simp [seektable_real_entries, ha]
      have hfill : isyntax_seektable_fill n (a :: rest) idx cbs
          = isyntax_seektable_fill n rest idx cbs := by
        simp [isyntax_seektable_fill, ha]
      rw [hf, hfill]
      exact ih idx cbs
    · have hf : seektable_real_entries (a :: rest) = a :: seektable_real_entries rest := by
        simp [seektable_real_entries, ha]
      rw [hf]
      by_cases hn : idx + 1 = n
      · have hfill : isyntax_seektable_fill n (a :: rest) idx cbs
            = fun i => if i = idx then
                { cbs i with block_data_offset := a.block_data_offset, block_size := a.block_size }
              else cbs i := by
          simp [isyntax_seektable_fill, ha, hn]
        have hlt : idx < n := by omega
        have hw : (if idx < n then min (n - idx) (a :: seektable_real_entries rest).length
            else (a :: seektable_real_entries rest).length) = 1 := by
          rw [if_pos hlt]
          simp only [List.length_cons]
          omega
        rw [hfill, hw]
        refine ⟨?_, ?_⟩
        · intro k e h1 h2 h3
          have hk : k = idx := by omega
          subst hk
          simp at h3
          subst h3
          simp
        · intro k hk
          have hk2 : k ≠ idx := by omega
          simp [hk2]
      · have hfill : isyntax_seektable_fill n (a :: rest) idx cbs
            = isyntax_seektable_fill n rest (idx + 1) (fun i => if i = idx then
                { cbs i with block_data_offset := a.block_data_offset, block_size := a.block_size }
              else cbs i) := by
          simp [isyntax_seektable_fill, ha, hn]
        have hw : (if idx < n then min (n - idx) (a :: seektable_real_entries rest).length
            else (a :: seektable_real_entries rest).length)
            = (if idx + 1 < n then min (n - (idx + 1)) (seektable_real_entries rest).length
               else (seektable_real_entries rest).length) + 1 := by
          simp only [List.length_cons]
          split_ifs <;> omega
        rw [hfill, hw]
        obtain ⟨iha, ihb⟩ := ih (idx + 1) (fun i => if i = idx then
                { cbs i with block_data_offset := a.block_data_offset, block_size := a.block_size }
              else cbs i)
        refine ⟨?_, ?_⟩
        · intro k e h1 h2 h3
          by_cases hk : k = idx
          · subst hk
            rw [ihb k (Or.inl (Nat.lt_succ_self k))]
            simp at h3
            subst h3
            simp
          · have hk1 : idx + 1 ≤ k := by omega
            have hidx : k - idx = (k - (idx + 1)) + 1 := by omega
            rw [hidx, List.getElem?_cons_succ] at h3
            rw [iha k e hk1 (by omega) h3]
            simp [hk]
        · intro k hk
          have hk2 : k ≠ idx := by omega
          rw [ihb k (by omega)]
          simp [hk2]

theorem seektable_fill_filter (n : Nat) (entries : List isyntax_seektable_codeblock_header_t) :
    ∀ (idx : Nat) (cbs : Nat → isyntax_codeblock_t),
      isyntax_seektable_fill n entries idx cbs
        = isyntax_seektable_fill n (seektable_real_entries entries) idx cbs := by
  induction entries with
  | nil => intro idx cbs; rfl
  | cons a rest ih =>
    intro idx cbs
    by_cases ha : a.block_data_offset = 0
    · have hf : seektable_real_entries (a :: rest) = seektable_real_entries rest := by
        simp [seektable_real_entries, ha]
      rw [hf, ← ih]
      simp [isyntax_seektable_fill, ha]
    · have hf : seektable_real_entries (a :: rest) = a :: seektable_real_entries rest := by
        simp [seektable_real_entries, ha]
      rw [hf]
      simp only [isyntax_seektable_fill, ne_eq, ha, not_false_eq_true, if_true]
      split_ifs
      · rfl
      · exact ih _ _

/-- C5: after seektable resolution with codeblock count `n` and `m` seektable
entries of non-zero offset, codeblock `k < min n m` holds the offset and size
of the `k`-th non-zero-offset entry in table order; the entries of offset zero
have no effect at all (resolution gives the same array as on the table with
them removed); and the codeblocks with index `≥ m` are unchanged. -/
theorem seektable_resolution_positional (codeblock_count : Nat)
    (codeblock_headers : List isyntax_seektable_codeblock_header_t)
    (codeblocks : Nat → isyntax_codeblock_t) :
    (∀ k e, k < min codeblock_count (seektable_real_entries codeblock_headers).length →
        (seektable_real_entries codeblock_headers)[k]? = some e →
        (isyntax_resolve_seektable codeblock_count codeblock_headers codeblocks k).block_data_offset
            = e.block_data_offset ∧
        (isyntax_resolve_seektable codeblock_count codeblock_headers codeblocks k).block_size
            = e.block_size) ∧
    isyntax_resolve_seektable codeblock_count codeblock_headers codeblocks
      = isyntax_resolve_seektable codeblock_count (seektable_real_entries codeblock_headers)
          codeblocks ∧
    (∀ k, (seektable_real_entries codeblock_headers).length ≤ k →
        isyntax_resolve_seektable codeblock_count codeblock_headers codeblocks k = codeblocks k) := by
  obtain ⟨ha, hb⟩ := seektable_fill_written codeblock_count codeblock_headers 0 codeblocks
  refine ⟨?_, ?_, ?_⟩
  · intro k e hk he
    have h := ha k e (Nat.zero_le k) (by
      split_ifs with h0
      · simpa using hk
      · omega) (by simpa using he)
    unfold isyntax_resolve_seektable
    rw [h]
    exact ⟨rfl, rfl⟩
  · exact seektable_fill_filter codeblock_count codeblock_headers 0 codeblocks
  · intro k hk
    unfold isyntax_resolve_seektable
    apply hb k
    right
    split_ifs with h0
    · have := Nat.min_le_right (codeblock_count - 0) (seektable_real_entries codeblock_headers).length
      omega
    · omega

/-- Witness for C5: a table with two padding entries and three real ones,
resolved into two codeblocks; codeblock `1` receives the second real entry. -/
theorem seektable_resolution_positional_witness :
    (1 < min 2 (seektable_real_entries example_seektable).length ∧
      (seektable_real_entries example_seektable)[1]? = some (example_seektable_entry 105 7)) ∧
    (isyntax_resolve_seektable 2 example_seektable example_codeblocks 1).block_data_offset = 105 ∧
    (isyntax_resolve_seektable 2 example_seektable example_codeblocks 1).block_size = 7 :=
  ⟨⟨by decide, by rfl⟩,
   (seektable_resolution_positional 2 example_seektable example_codeblocks).1 1
     (example_seektable_entry 105 7) (by decide) (by rfl)⟩

/-! ### Base64 -/

theorem base64_dtable_table : ∀ i < 64, base64_dtable (base64_table.getD i 0) = i := by decide

theorem base64_table_ne_pad : ∀ i < 64, base64_table.getD i 0 ≠ 61 := by decide

theorem base64_dtable_pad : base64_dtable 61 = 0 := by decide

theorem base64_sym_valid {i : Nat} (hi : i < 64) :
    base64_dtable (base64_table.getD i 0) ≠ 0x80 := by
  rw [base64_dtable_table i hi]; omega

/-- A symbol that is not `=` and arrives when fewer than three symbols are
pending is stored in `block`. -/
theorem base64_loop_sym (i : Nat) (hi : i < 64) (rest : List Nat) (count : Nat) (hc : count < 3)
    (block : Nat → Nat) (out : List Nat) :
    base64_decode_loop (base64_table.getD i 0 :: rest) count 0 block out
      = base64_decode_loop rest (count + 1) 0 (fun j => if j = count then i else block j) out := by
  have h1 := base64_sym_valid hi
  have h2 := base64_table_ne_pad i hi
  have h3 : count + 1 ≠ 4 := by omega
  simp only [base64_decode_loop, base64_dtable_table i hi]
  rw [base64_dtable_table i hi] at h1
  simp only [if_neg h1, if_neg h2, if_neg h3]

/-- The fourth symbol of a group without padding writes three bytes. -/
theorem base64_loop_sym_last (i : Nat) (hi : i < 64) (rest : List Nat)
    (block : Nat → Nat) (out : List Nat) :
    base64_decode_loop (base64_table.getD i 0 :: rest) 3 0 block out
      = base64_decode_loop rest 0 0 (fun j => if j = 3 then i else block j)
          (out ++ [((block 0 <<< 2) ||| (block 1 >>> 4)) % 256,
                   ((block 1 <<< 4) ||| (block 2 >>> 2)) % 256,
                   ((block 2 <<< 6) ||| i) % 256]) := by
  have h1 := base64_sym_valid hi
  have h2 := base64_table_ne_pad i hi
  simp only [base64_decode_loop, base64_dtable_table i hi]
  rw [base64_dtable_table i hi] at h1
  simp only [if_neg h1, if_neg h2]
  simp

theorem base64_bits_a : ∀ a < 256, ∀ h < 16,
    (((a >>> 2) <<< 2) ||| ((((a &&& 3) <<< 4) ||| h) >>> 4)) % 256 = a := by decide!

theorem base64_bits_b : ∀ r < 4, ∀ b < 256, ∀ t < 4,
    ((((r <<< 4) ||| (b >>> 4)) <<< 4) ||| ((((b &&& 15) <<< 2) ||| t) >>> 2)) % 256 = b := by
  decide!

theorem base64_bits_c : ∀ u < 16, ∀ c < 256,
    ((((u <<< 2) ||| (c >>> 6)) <<< 6) ||| (c &&& 63)) % 256 = c := by decide!

theorem base64_idx0 : ∀ a < 256, a >>> 2 < 64 := by decide!
theorem base64_idx1 : ∀ r < 4, ∀ h < 16, ((r <<< 4) ||| h) < 64 := by decide
theorem base64_idx2 : ∀ u < 16, ∀ t < 4, ((u <<< 2) ||| t) < 64 := by decide
theorem base64_idx3 : ∀ c < 256, c &&& 63 < 64 := by decide!
theorem base64_and3 : ∀ a < 256, a &&& 3 < 4 := by decide!
theorem base64_and15 : ∀ a < 256, a &&& 15 < 16 := by decide!
theorem base64_shr4 : ∀ a < 256, a >>> 4 < 16 := by decide!
theorem base64_shr6 : ∀ a < 256, a >>> 6 < 4 := by decide!

/-- Characters outside the alphabet are skipped by the decoding loop. -/
theorem base64_loop_filter (src : List Nat) :
    ∀ (count pad : Nat) (block : Nat → Nat) (out : List Nat),
      base64_decode_loop src count pad block out
        = base64_decode_loop (src.filter (fun c => decide (base64_dtable c ≠ 0x80)))
            count pad block out := by
  induction src with
  | nil => intro count pad block out; rfl
  | cons c rest ih =>
    intro count pad block out
    by_cases hc : base64_dtable c = 0x80
    · have hf : (c :: rest).filter (fun c => decide (base64_dtable c ≠ 0x80))
          = rest.filter (fun c => decide (base64_dtable c ≠ 0x80)) := by
        simp [hc]
      rw [hf, ← ih]
      simp only [base64_decode_loop, hc, if_true]
    · have hf : (c :: rest).filter (fun c => decide (base64_dtable c ≠ 0x80))
          = c :: rest.filter (fun c => decide (base64_dtable c ≠ 0x80)) := by
        simp [hc]
      rw [hf]
      simp only [base64_decode_loop, if_neg hc]
      split_ifs <;> first | rfl | exact ih _ _ _ _

theorem rfc1341_base64_encode_valid (b : List Nat) (hb : ∀ x ∈ b, x < 256) :
    ∀ c ∈ rfc1341_base64_encode b, base64_dtable c ≠ 0x80 := by
  induction b using rfc1341_base64_encode.induct with
  | case1 => intro c hc; simp [rfc1341_base64_encode] at hc
  | case2 a =>
    have ha : a < 256 := hb a (by simp)
    intro c hc
    simp only [rfc1341_base64_encode, List.mem_cons, List.mem_singleton, List.not_mem_nil,
      or_false] at hc
    rcases hc with rfl | rfl | rfl | rfl
    · exact base64_sym_valid (base64_idx0 a ha)
    · have := base64_idx1 (a &&& 3) (base64_and3 a ha) 0 (by omega)
      exact base64_sym_valid (by simpa using this)
    · rw [base64_dtable_pad]; omega
    · rw [base64_dtable_pad]; omega
  | case3 a b =>
    have ha : a < 256 := hb a (by simp)
    have hb' : b < 256 := hb b (by simp)
    intro c hc
    simp only [rfc1341_base64_encode, List.mem_cons, List.mem_singleton, List.not_mem_nil,
      or_false] at hc
    rcases hc with rfl | rfl | rfl | rfl
    · exact base64_sym_valid (base64_idx0 a ha)
    · exact base64_sym_valid (base64_idx1 _ (base64_and3 a ha) _ (base64_shr4 b hb'))
    · have := base64_idx2 (b &&& 15) (base64_and15 b hb') 0 (by omega)
      exact base64_sym_valid (by simpa using this)
    · rw [base64_dtable_pad]; omega
  | case4 a b c rest ih =>
    have ha : a < 256 := hb a (by simp)
    have hb' : b < 256 := hb b (by simp)
    have hc' : c < 256 := hb c (by simp)
    intro x hx
    simp only [rfc1341_base64_encode, List.cons_append, List.nil_append, List.mem_cons] at hx
    rcases hx with rfl | rfl | rfl | rfl | hx
    · exact base64_sym_valid (base64_idx0 a ha)
    · exact base64_sym_valid (base64_idx1 _ (base64_and3 a ha) _ (base64_shr4 b hb'))
    · exact base64_sym_valid (base64_idx2 _ (base64_and15 b hb') _ (base64_shr6 c hc'))
    · exact base64_sym_valid (base64_idx3 c hc')
    · exact ih (fun y hy => hb y (by simp [hy])) x hx

theorem rfc1341_base64_encode_length (b : List Nat) :
    (rfc1341_base64_encode b).length % 4 = 0 ∧ (b ≠ [] → (rfc1341_base64_encode b).length ≠ 0) := by
  induction b using rfc1341_base64_encode.induct with
  | case1 => simp [rfc1341_base64_encode]
  | case2 a => simp [rfc1341_base64_encode]
  | case3 a b => simp [rfc1341_base64_encode]
  | case4 a b c rest ih =>
    simp only [rfc1341_base64_encode, List.cons_append, List.nil_append, List.length_cons]
    refine ⟨by omega, fun _ => by omega⟩

/-- The decoding loop, started between groups on the encoding of `b`, appends `b`. -/
theorem base64_loop_encode (b : List Nat) (hb : ∀ x ∈ b, x < 256) :
    ∀ (block : Nat → Nat) (out : List Nat),
      base64_decode_loop (rfc1341_base64_encode b) 0 0 block out = some (out ++ b) := by
  induction b using rfc1341_base64_encode.induct with
  | case1 => intro block out; simp [rfc1341_base64_encode, base64_decode_loop]
  | case2 a =>
    have ha : a < 256 := hb a (by simp)
    intro block out
    have i0 := base64_idx0 a ha
    have i1 : (a &&& 3) <<< 4 < 64 := by
      have := base64_idx1 (a &&& 3) (base64_and3 a ha) 0 (by omega)
      simpa using this
    have e := base64_bits_a a ha 0 (by omega)
    simp only [Nat.or_zero, Nat.shiftLeft_shiftRight] at e
    simp only [rfc1341_base64_encode]
    rw [base64_loop_sym _ i0 _ 0 (by omega), base64_loop_sym _ i1 _ 1 (by omega)]
    simp [base64_decode_loop, base64_dtable_pad, e]
  | case3 a b =>
    have ha : a < 256 := hb a (by simp)
    have hb' : b < 256 := hb b (by simp)
    intro block out
    have i0 := base64_idx0 a ha
    have i1 := base64_idx1 _ (base64_and3 a ha) _ (base64_shr4 b hb')
    have i2 : (b &&& 15) <<< 2 < 64 := by
      have := base64_idx2 (b &&& 15) (base64_and15 b hb') 0 (by omega)
      simpa using this
    have e1 := base64_bits_a a ha _ (base64_shr4 b hb')
    have e2 := base64_bits_b _ (base64_and3 a ha) b hb' 0 (by omega)
    simp only [Nat.or_zero, Nat.shiftLeft_shiftRight] at e2
    simp only [rfc1341_base64_encode]
    rw [base64_loop_sym _ i0 _ 0 (by omega), base64_loop_sym _ i1 _ 1 (by omega),
      base64_loop_sym _ i2 _ 2 (by omega)]
    simp [base64_decode_loop, base64_dtable_pad, e1, e2]
  | case4 a b c rest ih =>
    have ha : a < 256 := hb a (by simp)
    have hb' : b < 256 := hb b (by simp)
    have hc' : c < 256 := hb c (by simp)
    intro block out
    have i0 := base64_idx0 a ha
    have i1 := base64_idx1 _ (base64_and3 a ha) _ (base64_shr4 b hb')
    have i2 := base64_idx2 _ (base64_and15 b hb') _ (base64_shr6 c hc')
    have i3 := base64_idx3 c hc'
    have e1 := base64_bits_a a ha _ (base64_shr4 b hb')
    have e2 := base64_bits_b _ (base64_and3 a ha) b hb' _ (base64_shr6 c hc')
    have e3 := base64_bits_c _ (base64_and15 b hb') c hc'
    simp only [rfc1341_base64_encode, List.cons_append, List.nil_append]
    rw [base64_loop_sym _ i0 _ 0 (by omega), base64_loop_sym _ i1 _ 1 (by omega),
      base64_loop_sym _ i2 _ 2 (by omega), base64_loop_sym_last _ i3]
    rw [ih (fun y hy => hb y (by simp [hy]))]
    simp [e1, e2, e3]

/-- C4 (amended): for every non-empty byte buffer `b`, `base64_decode` applied
to a text whose alphabet characters (the characters the decoder does not skip)
are the RFC 1341 base64 encoding of `b` succeeds and returns exactly the bytes
of `b`; `out_len` is the length of the returned list. -/
theorem base64_decode_encode (b : List Nat) (hne : b ≠ []) (hb : ∀ x ∈ b, x < 256)
    (src : List Nat)
    (hsrc : src.filter (fun c => decide (base64_dtable c ≠ 0x80)) = rfc1341_base64_encode b) :
    base64_decode src = some b := by
  have hlen := rfc1341_base64_encode_length b
  unfold base64_decode
  simp only [hsrc]
  rw [if_neg (by
    rintro (h | h)
    · exact hlen.2 hne h
    · exact h hlen.1)]
  rw [base64_loop_filter, hsrc, base64_loop_encode b hb]
  simp

/-- Witness for C4: the buffer `[1, 2, 3, 4]`, encoded as `AQIDBA==`. -/
theorem base64_decode_encode_witness :
    rfc1341_base64_encode [1, 2, 3, 4] = [65, 81, 73, 68, 66, 65, 61, 61] ∧
    base64_decode [65, 81, 73, 68, 66, 65, 61, 61] = some [1, 2, 3, 4] :=
  ⟨by decide,
   base64_decode_encode [1, 2, 3, 4] (by decide) (by decide) [65, 81, 73, 68, 66, 65, 61, 61]
     (by decide)⟩

/-- Counterexample to C4 as stated: the empty buffer encodes to the empty
text, on which `base64_decode` returns `NULL`. -/
theorem base64_decode_empty_fails :
    rfc1341_base64_encode [] = [] ∧ base64_decode (rfc1341_base64_encode []) = none := by
  decide

/-! ### Chunk coverage -/

theorem codeblock_index_in_chunk_range (scale_in_chunk tile_x tile_y : Int)
    (hx : 0 ≤ tile_x) (hy : 0 ≤ tile_y)
    (hs : scale_in_chunk = 0 ∨ scale_in_chunk = 1 ∨ scale_in_chunk = 2) :
    ∃ idx, codeblock_index_in_chunk scale_in_chunk tile_x tile_y = some idx ∧ 0 ≤ idx ∧
      (scale_in_chunk = 0 → idx < 1) ∧ (scale_in_chunk = 1 → idx < 5) ∧
      (scale_in_chunk = 2 → idx < 21) := by
  have hx2 : Int.tmod tile_x 2 = tile_x % 2 := Int.tmod_eq_emod hx (by omega)
  have hy2 : Int.tmod tile_y 2 = tile_y % 2 := Int.tmod_eq_emod hy (by omega)
  have hx4 : Int.tmod tile_x 4 = tile_x % 4 := Int.tmod_eq_emod hx (by omega)
  have hy4 : Int.tmod tile_y 4 = tile_y % 4 := Int.tmod_eq_emod hy (by omega)
  rcases hs with h | h | h
  · subst h
    exact ⟨0, by simp [codeblock_index_in_chunk], by omega, by omega, by omega, by omega⟩
  · subst h
    refine ⟨1 + (tile_y % 2) * 2 + tile_x % 2, by simp [codeblock_index_in_chunk, hx2, hy2],
      by omega, by omega, by omega, by omega⟩
  · subst h
    refine ⟨5 + (tile_y % 4) * 4 + tile_x % 4, by simp [codeblock_index_in_chunk, hx4, hy4],
      by omega, by omega, by omega, by omega⟩

/-- Codeblocks stored one after the other end in index order. -/
theorem codeblock_ends_monotone (codeblocks : Int → isyntax_codeblock_t) (top : Int) (n : Nat)
    (hseq : ∀ j : Nat, j + 1 < n →
      (codeblocks (top + j)).block_data_offset + (codeblocks (top + j)).block_size
        ≤ (codeblocks (top + (j + 1 : Nat))).block_data_offset) :
    ∀ k : Nat, ∀ j : Nat, j + k < n →
      (codeblocks (top + j)).block_data_offset ≤ (codeblocks (top + (j + k : Nat))).block_data_offset ∧
      (codeblocks (top + j)).block_data_offset + (codeblocks (top + j)).block_size
        ≤ (codeblocks (top + (j + k : Nat))).block_data_offset
            + (codeblocks (top + (j + k : Nat))).block_size := by
  intro k
  induction k with
  | zero => intro j _; simp
  | succ k ih =>
    intro j hj
    have h1 := ih j (by omega)
    have h2 := hseq (j + k) (by omega)
    have e : (j + (k + 1) : Nat) = (j + k + 1 : Nat) := by omega
    rw [e]
    constructor <;> omega

/-- C6 (amended): for a tile at non-negative coordinates whose scale lies within
its loaded data chunk (`chunk.scale - scale` is 0, 1 or 2, and the chunk holds
at least the 1, 5 or 21 codeblocks per colour of that level), each of the three
codeblocks that `isyntax_decompress_h_coeff_for_tile` selects has an index in
the chunk below `3 * codeblock_count_per_color`, and its byte range lies inside
the `read_size` bytes read for the chunk, provided the chunk's codeblocks are
stored from `chunk.offset` on in index order, each ending at or before the
offset of the next. -/
theorem chunk_coverage (codeblocks : Int → isyntax_codeblock_t) (chunk : isyntax_data_chunk_t)
    (tile : isyntax_tile_t) (scale tile_x tile_y : Int) (data : List Nat)
    (hdata : chunk.data = some data)
    (hscale : chunk.scale - scale = 0 ∨ chunk.scale - scale = 1 ∨ chunk.scale - scale = 2)
    (hx : 0 ≤ tile_x) (hy : 0 ≤ tile_y)
    (htop : tile.codeblock_chunk_index = chunk.top_codeblock_index)
    (hcount : (chunk.scale - scale = 0 → 1 ≤ chunk.codeblock_count_per_color) ∧
      (chunk.scale - scale = 1 → 5 ≤ chunk.codeblock_count_per_color) ∧
      (chunk.scale - scale = 2 → 21 ≤ chunk.codeblock_count_per_color))
    (hfirst : (codeblocks chunk.top_codeblock_index).block_data_offset = chunk.offset)
    (hseq : ∀ j : Nat, (j : Int) + 1 < 3 * chunk.codeblock_count_per_color →
      (codeblocks (chunk.top_codeblock_index + j)).block_data_offset
          + (codeblocks (chunk.top_codeblock_index + j)).block_size
        ≤ (codeblocks (chunk.top_codeblock_index + (j + 1 : Nat))).block_data_offset)
    (hfit : (codeblocks (chunk.top_codeblock_index
          + (chunk.codeblock_count_per_color * 3) - 1)).block_data_offset
        + (codeblocks (chunk.top_codeblock_index
          + (chunk.codeblock_count_per_color * 3) - 1)).block_size < 2 ^ 64) :
    ∃ reads, isyntax_decompress_h_coeff_for_tile codeblocks chunk tile scale tile_x tile_y
        = some reads ∧ reads.length = 3 ∧
      ∀ r ∈ reads, 0 ≤ r.index_in_chunk ∧
        r.index_in_chunk < 3 * chunk.codeblock_count_per_color ∧
        0 ≤ r.offset_in_chunk ∧
        r.offset_in_chunk + r.block_size ≤ chunk_read_size codeblocks chunk := by
  obtain ⟨idx, hidx, h0, i0, i1, i2⟩ :=
    codeblock_index_in_chunk_range (chunk.scale - scale) tile_x tile_y hx hy hscale
  have hlt : idx < chunk.codeblock_count_per_color := by
    rcases hscale with h | h | h
    · have := i0 h; have := hcount.1 h; omega
    · have := i1 h; have := hcount.2.1 h; omega
    · have := i2 h; have := hcount.2.2 h; omega
  obtain ⟨N, hN⟩ : ∃ N : Nat, (N : Int) = 3 * chunk.codeblock_count_per_color :=
    ⟨(3 * chunk.codeblock_count_per_color).toNat, by omega⟩
  have hmono := codeblock_ends_monotone codeblocks chunk.top_codeblock_index N
    (fun j hj => hseq j (by omega))
  have hlast : (chunk.top_codeblock_index : Int) + (chunk.codeblock_count_per_color * 3) - 1
      = chunk.top_codeblock_index + ((N - 1 : Nat) : Int) := by omega
  -- the size of the read
  have hread : ∀ j : Nat, j < N →
      ((codeblocks (chunk.top_codeblock_index + j)).block_data_offset : Int) - chunk.offset
        + (codeblocks (chunk.top_codeblock_index + j)).block_size
        ≤ chunk_read_size codeblocks chunk ∧
      (chunk.offset : Int) ≤ (codeblocks (chunk.top_codeblock_index + j)).block_data_offset := by
    intro j hj
    have a1 := hmono j 0 (by omega)
    have a2 := hmono (N - 1 - j) j (by omega)
    have e1 : ((0 + j : Nat) : Int) = j := by omega
    have e2 : (j + (N - 1 - j) : Nat) = N - 1 := by omega
    simp only [Nat.cast_zero, add_zero, zero_add] at a1
    rw [e2] at a2
    rw [hfirst] at a1
    unfold chunk_read_size
    simp only []
    rw [hlast] at hfit ⊢
    rw [Nat.mod_eq_of_lt hfit]
    have e3 : (((codeblocks (chunk.top_codeblock_index + ((N - 1 : Nat) : Int))).block_data_offset
        + (codeblocks (chunk.top_codeblock_index + ((N - 1 : Nat) : Int))).block_size : Nat) : Int)
        - (chunk.offset : Int) < 2 ^ 64 := by
      have : (2 : Int) ^ 64 = ((2 ^ 64 : Nat) : Int) := by norm_num
      omega
    rw [Int.emod_eq_of_lt (by omega) e3]
    constructor
    · omega
    · omega
  refine ⟨_, by simp [isyntax_decompress_h_coeff_for_tile, hdata, hidx]; rfl, by
    simp [chunk_codeblock_indices_for_color], ?_⟩
  intro r hr
  simp only [chunk_codeblock_indices_for_color, List.map_cons, List.map_nil, List.mem_cons,
    List.mem_singleton, List.not_mem_nil, or_false] at hr
  have key : ∀ c : Int, 0 ≤ c → c ≤ 2 →
      let i := c * chunk.codeblock_count_per_color + idx
      0 ≤ i ∧ i < 3 * chunk.codeblock_count_per_color ∧
      0 ≤ ((codeblocks (tile.codeblock_chunk_index + i)).block_data_offset : Int) - chunk.offset ∧
      ((codeblocks (tile.codeblock_chunk_index + i)).block_data_offset : Int) - chunk.offset
        + (codeblocks (tile.codeblock_chunk_index + i)).block_size
          ≤ chunk_read_size codeblocks chunk := by
    intro c hc0 hc2 i
    have hi0 : 0 ≤ i := by
      have : 0 ≤ c * chunk.codeblock_count_per_color := by
        have : 0 ≤ chunk.codeblock_count_per_color := by omega
        positivity
      omega
    have hi1 : i < 3 * chunk.codeblock_count_per_color := by
      have : c * chunk.codeblock_count_per_color ≤ 2 * chunk.codeblock_count_per_color := by
        have : 0 ≤ chunk.codeblock_count_per_color := by omega
        nlinarith
      omega
    obtain ⟨j, hj⟩ : ∃ j : Nat, (j : Int) = i := ⟨i.toNat, by omega⟩
    have hr := hread j (by omega)
    rw [htop, ← hj]
    refine ⟨hi0 |> fun _ => by omega, by omega, by omega, hr.1⟩
  rcases hr with rfl | rfl | rfl
  · simpa using key 0 (by omega) (by omega)
  · simpa using key 1 (by omega) (by omega)
  · simpa using key 2 (by omega) (by omega)

/-- Witness for C6: tile `(3, 2)` one scale below the top of a three-level
chunk whose 63 codeblocks of ten bytes are stored back to back. -/
theorem chunk_coverage_witness :
    (example_chunk.scale - 1 = 1 ∧ 5 ≤ example_chunk.codeblock_count_per_color) ∧
    ∃ reads, isyntax_decompress_h_coeff_for_tile example_contiguous_codeblocks example_chunk
        example_ready_tile 1 3 2 = some reads ∧ reads.length = 3 ∧
      ∀ r ∈ reads, 0 ≤ r.index_in_chunk ∧
        r.index_in_chunk < 3 * example_chunk.codeblock_count_per_color ∧
        0 ≤ r.offset_in_chunk ∧
        r.offset_in_chunk + r.block_size
          ≤ chunk_read_size example_contiguous_codeblocks example_chunk :=
  ⟨by decide,
   chunk_coverage example_contiguous_codeblocks example_chunk example_ready_tile 1 3 2 []
     rfl (by decide) (by decide) (by decide) rfl (by decide) rfl
     (by
       intro j _
       simp only [example_contiguous_codeblocks, example_chunk]
       have e1 : ((0 : Nat) + (j : Int)).toNat = j := by omega
       have e2 : (((0 : Nat) : Int) + ((j + 1 : Nat) : Int)).toNat = j + 1 := by omega
       rw [e1, e2]
       omega)
     (by decide)⟩

/-- Counterexample to C6 as stated: the codeblocks of the chunk are stored at
non-decreasing offsets in index order starting at `chunk.offset`, the tile's
scale is the chunk's, and yet the byte range of the codeblock selected for the
first colour channel, `[1000, 1500)`, reaches beyond the 63 bytes read for the
chunk. -/
theorem chunk_coverage_fails_for_overlapping_codeblocks :
    example_chunk.scale - 2 = 0 ∧
    (example_overlapping_codeblocks example_chunk.top_codeblock_index).block_data_offset
      = example_chunk.offset ∧
    (∀ j : Fin 62,
      (example_overlapping_codeblocks (example_chunk.top_codeblock_index + j.val)).block_data_offset
        ≤ (example_overlapping_codeblocks
            (example_chunk.top_codeblock_index + (j.val + 1 : Nat))).block_data_offset) ∧
    isyntax_decompress_h_coeff_for_tile example_overlapping_codeblocks example_chunk
        example_ready_tile 2 0 0
      = some [{ index_in_chunk := 0, offset_in_chunk := 0, block_size := 500 },
              { index_in_chunk := 21, offset_in_chunk := 21, block_size := 1 },
              { index_in_chunk := 42, offset_in_chunk := 42, block_size := 1 }] ∧
    chunk_read_size example_overlapping_codeblocks example_chunk = 63 ∧
    ¬ ((0 : Int) + (500 : Nat) ≤ chunk_read_size example_overlapping_codeblocks example_chunk) := by
  refine ⟨by decide, by decide, by decide, by decide, by decide, by decide⟩

/-! ### Block allocator -/

theorem block_free_find_chunk_range (allocator : block_allocator_t) (p ci : Nat)
    (hmatch : p ≥ (allocator.chunks ci).memory ∧
      p < (allocator.chunks ci).memory + allocator.chunk_size)
    (hfirst : ∀ j < ci, ¬ (p ≥ (allocator.chunks j).memory ∧
      p < (allocator.chunks j).memory + allocator.chunk_size)) :
    ∀ (n s : Nat), s ≤ ci → ci < s + n →
      block_free_find_chunk allocator p (List.range' s n) = some ci := by
  intro n
  induction n with
  | zero => intro s h1 h2; omega
  | succ n ih =>
    intro s h1 h2
    rw [List.range'_succ]
    by_cases hs : s = ci
    · subst hs
      simp only [block_free_find_chunk]
      rw [if_pos hmatch]
    · have hlt : s < ci := by omega
      simp only [block_free_find_chunk]
      rw [if_neg (hfirst s hlt)]
      exact ih (s + 1) (by omega) (by omega)

/-- C7 (amended): in an allocator state with a non-zero block size, let `p` be
the address of block `bi` of chunk `ci`, a chunk in use, such that the block
starts inside the `chunk_size` bytes of its chunk and `p` lies in no chunk of
smaller index.  Then `block_free(p)` followed by `block_alloc` returns `p`
(the free list is consulted before bump allocation, last freed first), and
afterwards `used_chunks`, every chunk (so every `used_blocks`), the free list
head and the free list length are what they were before the `block_free`. -/
theorem block_free_then_alloc (allocator : block_allocator_t) (ci bi new_chunk_memory : Nat)
    (hci : ci < allocator.used_chunks) (hbs : 0 < allocator.block_size)
    (hin : bi * allocator.block_size < allocator.chunk_size)
    (hfirst : ∀ j < ci,
      ¬ ((allocator.chunks ci).memory + bi * allocator.block_size ≥ (allocator.chunks j).memory ∧
         (allocator.chunks ci).memory + bi * allocator.block_size
           < (allocator.chunks j).memory + allocator.chunk_size)) :
    ∃ allocator1 allocator2,
      block_free allocator ((allocator.chunks ci).memory + bi * allocator.block_size)
        = some allocator1 ∧
      block_alloc new_chunk_memory allocator1
        = some ((allocator.chunks ci).memory + bi * allocator.block_size, allocator2) ∧
      allocator2.used_chunks = allocator.used_chunks ∧
      allocator2.chunks = allocator.chunks ∧
      allocator2.free_list = allocator.free_list ∧
      allocator2.free_list_length = allocator.free_list_length := by
  have hfind := block_free_find_chunk_range allocator
    ((allocator.chunks ci).memory + bi * allocator.block_size) ci
    ⟨by omega, by omega⟩ hfirst allocator.used_chunks 0 (Nat.zero_le _) (by omega)
  rw [← List.range_eq_range'] at hfind
  have hdiv : ((allocator.chunks ci).memory + bi * allocator.block_size
      - (allocator.chunks ci).memory) / allocator.block_size = bi := by
    rw [Nat.add_sub_cancel_left, Nat.mul_div_cancel _ hbs]
  refine ⟨{ allocator with
      free_list_length := allocator.free_list_length + 1
      free_list_storage := fun i =>
        if i = allocator.free_list_length then
          { next := allocator.free_list, chunk_index := ci, block_index := bi }
        else allocator.free_list_storage i
      free_list := some allocator.free_list_length },
    { allocator with
      free_list_length := allocator.free_list_length + 1 - 1
      free_list_storage := fun i =>
        if i = allocator.free_list_length then
          { next := allocator.free_list, chunk_index := ci, block_index := bi }
        else allocator.free_list_storage i
      free_list := allocator.free_list }, ?_, ?_, rfl, rfl, rfl, by simp⟩
  · unfold block_free
    rw [hfind]
    simp only []
    rw [if_neg (by omega), hdiv]
  · unfold block_alloc
    simp only [if_true]

/-- Witness for C7: the allocator `block_allocator_create(16, 8, 64)` after
three allocations; freeing the second block, at address 1016, and allocating
again returns 1016. -/
theorem block_free_then_alloc_witness :
    example_allocator.map Prod.fst = some [1000, 1016, 1032] ∧
    (example_allocator_state.chunks 0).memory + 1 * example_allocator_state.block_size = 1016 ∧
    ∃ allocator1 allocator2,
      block_free example_allocator_state
          ((example_allocator_state.chunks 0).memory + 1 * example_allocator_state.block_size)
        = some allocator1 ∧
      block_alloc 5000 allocator1
        = some ((example_allocator_state.chunks 0).memory
            + 1 * example_allocator_state.block_size, allocator2) ∧
      allocator2.used_chunks = example_allocator_state.used_chunks ∧
      allocator2.chunks = example_allocator_state.chunks ∧
      allocator2.free_list = example_allocator_state.free_list ∧
      allocator2.free_list_length = example_allocator_state.free_list_length :=
  ⟨by decide, by decide,
   block_free_then_alloc example_allocator_state 0 1 5000 (by decide) (by decide) (by decide)
     (fun j hj => absurd hj (Nat.not_lt_zero j))⟩

/-- Counterexample to C7 as stated: `block_allocator_create(10, 10, 35)` gives
chunks of 35 bytes with a capacity of 5 blocks of 10 bytes; the fifth block
returned by `block_alloc`, at address 1040, lies beyond the 35 bytes of its
chunk, and `block_free` of it finds no chunk and panics. -/
theorem block_free_panics_for_block_beyond_chunk :
    example_overfull_allocator.map Prod.fst = some [1000, 1010, 1020, 1030, 1040] ∧
    (example_overfull_allocator.bind (fun r => block_free r.2 1040)).isNone = true := by
  refine ⟨by decide, by decide⟩

/-! ### Reference counting of background tasks -/

/-- `isyntax_begin_load_tile` on a tile not yet submitted: the refcount ends
one higher when the queue accepts the task and unchanged when it rejects it. -/
theorem isyntax_begin_load_tile_refcount (env : Nat → work_queue_sample_t) (st : stream_state_t)
    (scale tile_x tile_y : Int)
    (h : ((st.levels scale).tiles
      (tile_y * (st.levels scale).width_in_tiles + tile_x)).is_submitted_for_loading = false) :
    (isyntax_begin_load_tile env st scale tile_x tile_y).refcount
      = st.refcount + (if (env st.submissions).accepted then 1 else 0) := by
  unfold isyntax_begin_load_tile
  simp only [h]
  cases (env st.submissions).accepted <;> simp

/-- `isyntax_begin_first_load`: one higher when accepted, unchanged when rejected. -/
theorem isyntax_begin_first_load_refcount (env : Nat → work_queue_sample_t)
    (st : stream_state_t) :
    (isyntax_begin_first_load env st).refcount
      = st.refcount + (if (env st.submissions).accepted then 1 else 0) := by
  unfold isyntax_begin_first_load
  cases (env st.submissions).accepted <;> simp

/-- `isyntax_begin_decompress_h_coeff_for_tile`: one higher when accepted,
unchanged when rejected. -/
theorem isyntax_begin_decompress_h_coeff_for_tile_refcount (env : Nat → work_queue_sample_t)
    (st : stream_state_t) (scale tile_index : Int) :
    (isyntax_begin_decompress_h_coeff_for_tile env st scale tile_index).refcount
      = st.refcount + (if (env st.submissions).accepted then 1 else 0) := by
  unfold isyntax_begin_decompress_h_coeff_for_tile
  cases (env st.submissions).accepted <;> simp

/-- `stream_image_tiles` with no streaming task in progress: the refcount ends
one higher whatever the queue answers. -/
theorem stream_image_tiles_refcount (env : Nat → work_queue_sample_t)
    (flags : tile_streamer_flags_t) (st : stream_state_t)
    (h : flags.is_tile_stream_task_in_progress = false) :
    (stream_image_tiles env flags st).2.refcount = st.refcount + 1 ∧
    (stream_image_tiles env flags st).1.is_tile_stream_task_in_progress = true := by
  unfold stream_image_tiles
  simp [h]

/-- C8, the failing input: `stream_image_tiles` called with no streaming task
in progress while the work queue rejects the entry.  No task was accepted, yet
the refcount ends one higher (at 1 instead of 0) and the task is marked as in
progress, so that no task function will ever release it. -/
theorem stream_image_tiles_rejected_keeps_refcount :
    (example_full_queue example_idle_state.submissions).accepted = false ∧
    example_idle_state.refcount = 0 ∧
    (stream_image_tiles example_full_queue
      { is_tile_stream_task_in_progress := false, is_tile_streamer_frame_boundary_passed := false }
      example_idle_state).2.refcount = 1 ∧
    (stream_image_tiles example_full_queue
      { is_tile_stream_task_in_progress := false, is_tile_streamer_frame_boundary_passed := false }
      example_idle_state).1.is_tile_stream_task_in_progress = true ∧
    (isyntax_begin_first_load example_full_queue example_idle_state).refcount = 0 := by
  refine ⟨by decide, by decide, by decide, by decide, by decide⟩

/-! ### Opening a file -/

/-- The header loop of `isyntax_open` does not depend on the Boolean that the
parser returns. -/
theorem isyntax_open_header_loop_drops_result
    (parse : isyntax_t → List Nat → Bool → Bool × isyntax_t) (read_size : Nat) (fuel : Nat) :
    ∀ ( isyntax : isyntax_t) (read_buffer rest : List Nat) (left : Bool) (header_length : Int),
      isyntax_open_header_loop parse read_size fuel isyntax read_buffer rest left header_length
        = isyntax_open_header_loop (fun i c l => (true, (parse i c l).2)) read_size fuel isyntax
            read_buffer rest left header_length := by
  induction fuel with
  | zero => intro isyntax read_buffer rest left header_length; rfl
  | succ fuel ih =>
    intro isyntax read_buffer rest left header_length
    simp only [isyntax_open_header_loop]
    cases memchr_eot read_buffer with
    | some offset => rfl
    | none =>
      simp only []
      split_ifs
      · exact ih _ _ _ _ _
      · rfl

/-- `isyntax_open` returns the same value, and leaves the same state, when
every parse error reported by the header parser is replaced by success. -/
theorem isyntax_open_drops_parse_result
    (parse : isyntax_t → List Nat → Bool → Bool × isyntax_t)
    (read_seektable_tag : List Nat → Int → dicom_tag_header_t)
    (read_seektable : List Nat → Int → Option Int → Nat →
      List isyntax_seektable_codeblock_header_t)
    (file : Option isyntax_file_t) :
    isyntax_open parse read_seektable_tag read_seektable file
      = isyntax_open (fun i c l => (true, (parse i c l).2)) read_seektable_tag read_seektable
          file := by
  unfold isyntax_open
  simp only [← isyntax_open_header_loop_drops_result parse]

/-- C9, the failing input: a file whose header `<<` is rejected by the parser
(here a parser that reports a parse error for every chunk) and is followed by
the end-of-table marker.  `isyntax_open` returns `true`. -/
theorem isyntax_open_succeeds_on_parse_error :
    (example_failing_parse { filesize := 6, wsi_image := none } [60, 60, 13, 10] true).1 = false ∧
    (isyntax_open example_failing_parse (fun _ _ => { group := 0, element := 0, size := 0 })
      (fun _ _ _ _ => []) (some example_malformed_file)).map Prod.fst = some true := by
  refine ⟨by decide, by decide⟩

/-! ### The block header table -/

/-- The decoded table is accepted whatever the remainder of its declared
length: with a first record of size field 40 the image receives a codeblock
array of `header_size / 48` entries and is marked partial. -/
theorem isyntax_decode_block_header_table_partial
    (read_tag_header : List Nat → Nat → dicom_tag_header_t)
    (read_partial_block_header read_full_block_header : List Nat → Nat → isyntax_codeblock_t)
    (image : isyntax_image_t) (decoded : List Nat)
    (h : (read_tag_header decoded 4).size = 40) :
    (isyntax_decode_block_header_table read_tag_header read_partial_block_header
      read_full_block_header image decoded).codeblocks.isSome = true ∧
    (isyntax_decode_block_header_table read_tag_header read_partial_block_header
      read_full_block_header image decoded).codeblock_count = read_u32_le decoded 0 / 48 ∧
    isyntax_image_t.header_codeblocks_are_partial (isyntax_decode_block_header_table
      read_tag_header read_partial_block_header read_full_block_header image decoded) = true := by
  unfold isyntax_decode_block_header_table
  simp [h]

/-- C10, the failing input: a decoded table declaring a length of 49 bytes,
which is not a multiple of the 48-byte partial record.  The handler reports
nothing: the image, which had no codeblock array, receives one of
`49 / 48 = 1` entry. -/
theorem block_header_table_bad_length_accepted :
    read_u32_le example_bad_length_table 0 = 49 ∧ 49 % 48 ≠ 0 ∧
    (example_read_tag_header example_bad_length_table 4).size = 40 ∧
    example_empty_image.codeblocks.isSome = false ∧
    (isyntax_decode_block_header_table example_read_tag_header (example_read_block_header 48)
      (example_read_block_header 80) example_empty_image
      example_bad_length_table).codeblocks.isSome = true ∧
    (isyntax_decode_block_header_table example_read_tag_header (example_read_block_header 48)
      (example_read_block_header 80) example_empty_image
      example_bad_length_table).codeblock_count = 1 ∧
    ((isyntax_parse_scannedimage_child_node example_read_tag_header (example_read_block_header 48)
      (example_read_block_header 80) 100 example_empty_image 0x301D 0x2014
      (fun i => (rfc1341_base64_encode example_bad_length_table).getD i.toNat 0)
      (rfc1341_base64_encode example_bad_length_table).length).map
        (fun image => (image.codeblocks.isSome, image.codeblock_count))) = some (true, 1) := by
  refine ⟨by decide, by decide, by decide, by decide, by decide, by decide, by decide!⟩

/-! ### The bit stream -/

theorem testBit_byte_cons (a b j : Nat) (hb : b < 256) :
    (b + 2 ^ 8 * a).testBit j = if j < 8 then b.testBit j else a.testBit (j - 8) := by
  rw [Nat.add_comm]
  exact Nat.testBit_mul_pow_two_add a (by simpa using hb) j

theorem getD_lt_256 (buffer : List Nat) (hbuf : ∀ b ∈ buffer, b < 256) (i : Nat) :
    buffer.getD i 0 < 256 := by
  by_cases h : i < buffer.length
  · rw [List.getD_eq_getElem _ _ h]
    exact hbuf _ (List.getElem_mem h)
  · rw [List.getD_eq_default _ _ (by omega)]
    omega

theorem read_u64_le_testBit (buffer : List Nat) (hbuf : ∀ b ∈ buffer, b < 256) (byte j : Nat) :
    (read_u64_le buffer byte).testBit j
      = (decide (j < 64) && (buffer.getD (byte + j / 8) 0).testBit (j % 8)) := by
  have e : read_u64_le buffer byte
      = buffer.getD byte 0 + 2 ^ 8 * (buffer.getD (byte + 1) 0 + 2 ^ 8 *
          (buffer.getD (byte + 2) 0 + 2 ^ 8 * (buffer.getD (byte + 3) 0 + 2 ^ 8 *
          (buffer.getD (byte + 4) 0 + 2 ^ 8 * (buffer.getD (byte + 5) 0 + 2 ^ 8 *
          (buffer.getD (byte + 6) 0 + 2 ^ 8 * (buffer.getD (byte + 7) 0 + 2 ^ 8 * 0))))))) := by
    unfold read_u64_le
    ring
  have hlt := getD_lt_256 buffer hbuf
  rw [e]
  rw [testBit_byte_cons _ _ _ (hlt _)]
  split_ifs with h0
  · have : j / 8 = 0 := by omega
    have : j % 8 = j := by omega
    simp [*]; omega
  rw [testBit_byte_cons _ _ _ (hlt _)]
  split_ifs with h1
  · have e1 : j / 8 = 1 := by omega
    have e2 : j % 8 = j - 8 := by omega
    rw [e1, e2]; simp; omega
  rw [testBit_byte_cons _ _ _ (hlt _)]
  split_ifs with h2
  · have e1 : j / 8 = 2 := by omega
    have e2 : j % 8 = j - 8 - 8 := by omega
    rw [e1, e2]; simp; omega
  rw [testBit_byte_cons _ _ _ (hlt _)]
  split_ifs with h3
  · have e1 : j / 8 = 3 := by omega
    have e2 : j % 8 = j - 8 - 8 - 8 := by omega
    rw [e1, e2]; simp; omega
  rw [testBit_byte_cons _ _ _ (hlt _)]
  split_ifs with h4
  · have e1 : j / 8 = 4 := by omega
    have e2 : j % 8 = j - 8 - 8 - 8 - 8 := by omega
    rw [e1, e2]; simp; omega
  rw [testBit_byte_cons _ _ _ (hlt _)]
  split_ifs with h5
  · have e1 : j / 8 = 5 := by omega
    have e2 : j % 8 = j - 8 - 8 - 8 - 8 - 8 := by omega
    rw [e1, e2]; simp; omega
  rw [testBit_byte_cons _ _ _ (hlt _)]
  split_ifs with h6
  · have e1 : j / 8 = 6 := by omega
    have e2 : j % 8 = j - 8 - 8 - 8 - 8 - 8 - 8 := by omega
    rw [e1, e2]; simp; omega
  rw [testBit_byte_cons _ _ _ (hlt _)]
  split_ifs with h7
  · have e1 : j / 8 = 7 := by omega
    have e2 : j % 8 = j - 8 - 8 - 8 - 8 - 8 - 8 - 8 := by omega
    rw [e1, e2]; simp; omega
  · have : ¬ j < 64 := by omega
    simp [this]

/-- Bit `i` of the blob read at `pos` is bit `pos + i` of the stream, as long
as it lies within the 64 bits loaded. -/
theorem bitstream_lsb_read_testBit (buffer : List Nat) (hbuf : ∀ b ∈ buffer, b < 256)
    (pos i : Nat) :
    (bitstream_lsb_read buffer pos).testBit i
      = (decide (pos % 8 + i < 64) && stream_bit buffer (pos + i)) := by
  unfold bitstream_lsb_read stream_bit
  rw [Nat.testBit_shiftRight, read_u64_le_testBit buffer hbuf]
  have e1 : pos / 8 + (pos % 8 + i) / 8 = (pos + i) / 8 := by omega
  have e2 : (pos % 8 + i) % 8 = (pos + i) % 8 := by omega
  rw [e1, e2]

theorem bitstream_lsb_read_testBit_of_lt (buffer : List Nat) (hbuf : ∀ b ∈ buffer, b < 256)
    (pos i : Nat) (hi : i < 57) :
    (bitstream_lsb_read buffer pos).testBit i = stream_bit buffer (pos + i) := by
  rw [bitstream_lsb_read_testBit buffer hbuf]
  have : pos % 8 + i < 64 := by omega
  simp [this]

theorem stream_has_append (buffer : List Nat) (l1 l2 : List Bool) :
    ∀ pos, stream_has buffer pos (l1 ++ l2)
      ↔ stream_has buffer pos l1 ∧ stream_has buffer (pos + l1.length) l2 := by
  induction l1 with
  | nil => intro pos; simp [stream_has]
  | cons b l1 ih =>
    intro pos
    have e : pos + 1 + l1.length = pos + (l1.length + 1) := by omega
    show stream_bit buffer pos = b ∧ stream_has buffer (pos + 1) (l1 ++ l2) ↔ _
    rw [ih (pos + 1), e]
    simp only [stream_has, List.length_cons, and_assoc]

theorem stream_has_getD (buffer : List Nat) (l : List Bool) :
    ∀ pos, stream_has buffer pos l → ∀ i < l.length, stream_bit buffer (pos + i) = l.getD i false := by
  induction l with
  | nil => intro pos _ i hi; simp at hi
  | cons b l ih =>
    intro pos h i hi
    cases i with
    | zero => simpa using h.1
    | succ i =>
      have := ih (pos + 1) h.2 i (by simpa using hi)
      rw [List.getD_cons_succ, ← this]
      congr 1
      omega

theorem stream_has_of_getD (buffer : List Nat) (l : List Bool) :
    ∀ pos, (∀ i < l.length, stream_bit buffer (pos + i) = l.getD i false) →
      stream_has buffer pos l := by
  induction l with
  | nil => intro pos _; trivial
  | cons b l ih =>
    intro pos h
    refine ⟨by simpa using h 0 (by simp), ih (pos + 1) ?_⟩
    intro i hi
    have := h (i + 1) (by simpa using hi)
    rw [List.getD_cons_succ] at this
    rw [← this]
    congr 1
    omega

theorem bits_val_lt (l : List Bool) : bits_val l < 2 ^ l.length := by
  induction l with
  | nil => simp [bits_val]
  | cons b l ih =>
    simp only [bits_val, List.length_cons, pow_succ]
    cases b <;> simp <;> omega

theorem bits_val_testBit (l : List Bool) : ∀ i, (bits_val l).testBit i = l.getD i false := by
  induction l with
  | nil => intro i; simp [bits_val]
  | cons b l ih =>
    intro i
    have e : bits_val (b :: l) = 2 ^ 1 * bits_val l + b.toNat := by
      simp [bits_val]; omega
    rw [e, Nat.testBit_mul_pow_two_add _ (by cases b <;> simp)]
    cases i with
    | zero => cases b <;> simp
    | succ i => simp [ih]

/-- The low bits of a blob, after a shift, are the bits that the stream holds there. -/
theorem blob_mod_eq_bits_val (buffer : List Nat) (hbuf : ∀ b ∈ buffer, b < 256)
    (pos k : Nat) (l : List Bool) (h : stream_has buffer (pos + k) l) (hk : k + l.length ≤ 57) :
    (bitstream_lsb_read buffer pos >>> k) % 2 ^ l.length = bits_val l := by
  apply Nat.eq_of_testBit_eq
  intro i
  rw [Nat.testBit_mod_two_pow, Nat.testBit_shiftRight, bits_val_testBit]
  by_cases hi : i < l.length
  · rw [bitstream_lsb_read_testBit_of_lt buffer hbuf pos (k + i) (by omega)]
    have := stream_has_getD buffer l (pos + k) h i hi
    rw [← this]
    simp [hi, Nat.add_assoc]
  · rw [List.getD_eq_default _ _ (by omega)]
    simp [hi]

theorem blob_testBit_of_stream_has (buffer : List Nat) (hbuf : ∀ b ∈ buffer, b < 256)
    (pos k : Nat) (l : List Bool) (h : stream_has buffer (pos + k) l) (i : Nat)
    (hi : i < l.length) (hk : k + l.length ≤ 57) :
    (bitstream_lsb_read buffer pos).testBit (k + i) = l.getD i false := by
  rw [bitstream_lsb_read_testBit_of_lt buffer hbuf pos (k + i) (by omega)]
  have := stream_has_getD buffer l (pos + k) h i hi
  rw [← this, Nat.add_assoc]

/-! ### Packing bits into bytes -/

theorem pack_byte_lt (bits : List Bool) (j : Nat) : pack_byte bits j < 256 := by
  unfold pack_byte
  generalize bits.getD (8 * j) false = b0
  generalize bits.getD (8 * j + 1) false = b1
  generalize bits.getD (8 * j + 2) false = b2
  generalize bits.getD (8 * j + 3) false = b3
  generalize bits.getD (8 * j + 4) false = b4
  generalize bits.getD (8 * j + 5) false = b5
  generalize bits.getD (8 * j + 6) false = b6
  generalize bits.getD (8 * j + 7) false = b7
  revert b0 b1 b2 b3 b4 b5 b6 b7
  decide

theorem pack_byte_testBit (bits : List Bool) (j k : Nat) (hk : k < 8) :
    (pack_byte bits j).testBit k = bits.getD (8 * j + k) false := by
  unfold pack_byte
  have h : ∀ b0 b1 b2 b3 b4 b5 b6 b7 : Bool, ∀ k : Fin 8,
      (b0.toNat + 2 * b1.toNat + 4 * b2.toNat + 8 * b3.toNat + 16 * b4.toNat + 32 * b5.toNat
        + 64 * b6.toNat + 128 * b7.toNat).testBit k.val
        = [b0, b1, b2, b3, b4, b5, b6, b7].getD k.val false := by decide
  have := h (bits.getD (8 * j) false) (bits.getD (8 * j + 1) false) (bits.getD (8 * j + 2) false)
    (bits.getD (8 * j + 3) false) (bits.getD (8 * j + 4) false) (bits.getD (8 * j + 5) false)
    (bits.getD (8 * j + 6) false) (bits.getD (8 * j + 7) false) ⟨k, hk⟩
  rw [this]
  interval_cases k <;> rfl

theorem pack_bits_lt (bits : List Bool) : ∀ b ∈ pack_bits bits, b < 256 := by
  intro b hb
  simp only [pack_bits, List.mem_map] at hb
  obtain ⟨j, _, rfl⟩ := hb
  exact pack_byte_lt bits j

theorem pack_bits_length (bits : List Bool) : (pack_bits bits).length = (bits.length + 7) / 8 := by
  simp [pack_bits]

theorem stream_bit_pack_bits (bits : List Bool) (tail : List Nat) (i : Nat)
    (hi : i < bits.length) :
    stream_bit (pack_bits bits ++ tail) i = bits.getD i false := by
  unfold stream_bit
  have hlen : i / 8 < (pack_bits bits).length := by
    rw [pack_bits_length]; omega
  rw [List.getD_eq_getElem _ _ (by rw [List.length_append]; omega)]
  rw [List.getElem_append_left hlen]
  simp only [pack_bits, List.getElem_map, List.getElem_range]
  rw [pack_byte_testBit _ _ _ (Nat.mod_lt _ (by omega))]
  congr 1
  omega

theorem stream_bit_append_bytes (header rest : List Nat) (i : Nat) :
    stream_bit (header ++ rest) (8 * header.length + i) = stream_bit rest i := by
  unfold stream_bit
  have e1 : (8 * header.length + i) / 8 = header.length + i / 8 := by omega
  have e2 : (8 * header.length + i) % 8 = i % 8 := by omega
  rw [e1, e2]
  congr 1
  simp only [List.getD_eq_getElem?_getD]
  rw [List.getElem?_append_right (by omega)]
  simp

/-- The stream of a codeblock holds its bits right after the six header bytes. -/
theorem stream_has_codeblock (t : huffman_tree) (z cb sl : Nat) (message : List Bool)
    (tail : List Nat) :
    stream_has (hulsken_codeblock t z cb sl message ++ tail) 48 (t.serialize ++ message) := by
  apply stream_has_of_getD
  intro i hi
  unfold hulsken_codeblock
  rw [List.append_assoc]
  have := stream_bit_append_bytes (hulsken_header_bytes sl z cb)
    (pack_bits (t.serialize ++ message) ++ tail) i
  have e : 8 * (hulsken_header_bytes sl z cb).length = 48 := rfl
  rw [e] at this
  rw [← stream_bit_pack_bits (t.serialize ++ message) tail i hi, ← this]

/-! ### Reading the Huffman table -/

theorem bits_val_append (l1 l2 : List Bool) :
    bits_val (l1 ++ l2) = bits_val l1 + 2 ^ l1.length * bits_val l2 := by
  induction l1 with
  | nil => simp [bits_val]
  | cons b l1 ih =>
    show bits_val (b :: (l1 ++ l2)) = _
    simp only [bits_val, ih, List.length_cons, pow_succ]
    ring

theorem bits_lsb_length (n : Nat) : ∀ x, (bits_lsb x n).length = n := by
  induction n with
  | zero => intro x; rfl
  | succ n ih => intro x; simp [bits_lsb, ih]

theorem bits_lsb_getD (n : Nat) : ∀ x i,
    (bits_lsb x n).getD i false = (decide (i < n) && x.testBit i) := by
  induction n with
  | zero => intro x i; simp [bits_lsb]
  | succ n ih =>
    intro x i
    cases i with
    | zero => simp [bits_lsb]
    | succ i =>
      simp only [bits_lsb, List.getD_cons_succ, ih, Nat.testBit_succ]
      simp

theorem bits_val_bits_lsb (n x : Nat) : bits_val (bits_lsb x n) = x % 2 ^ n := by
  apply Nat.eq_of_testBit_eq
  intro i
  rw [bits_val_testBit, bits_lsb_getD, Nat.testBit_mod_two_pow]

theorem bits_lsb_bits_val (l : List Bool) : bits_lsb (bits_val l) l.length = l := by
  apply List.ext_getElem
  · rw [bits_lsb_length]
  · intro i h1 h2
    have := bits_lsb_getD l.length (bits_val l) i
    rw [List.getD_eq_getElem _ _ h1, bits_val_testBit, List.getD_eq_getElem _ _ h2] at this
    simpa [h2] using this

/-- The code of a path written from the leaf up to the root. -/
theorem path_code_cons (b : Bool) (rp : List Bool) :
    bits_val (b :: rp).reverse = bits_val rp.reverse + 2 ^ rp.length * b.toNat := by
  rw [List.reverse_cons, bits_val_append]
  simp [bits_val]

theorem path_code_lt (rp : List Bool) : bits_val rp.reverse < 2 ^ rp.length := by
  have := bits_val_lt rp.reverse
  simpa using this

theorem path_code_replicate_false (k : Nat) (rp : List Bool) :
    bits_val (List.replicate k false ++ rp).reverse = bits_val rp.reverse := by
  induction k with
  | zero => simp
  | succ k ih =>
    rw [List.replicate_succ, List.cons_append, path_code_cons, ih]
    simp

theorem and_one_ne_zero_iff (x : Nat) : x &&& 1 ≠ 0 ↔ x.testBit 0 = true := by
  rw [Nat.and_one_is_mod, Nat.testBit_zero]
  simp

theorem hulsken_descend_zeros (k : Nat) :
    ∀ (fuel blob bits_to_advance code_size : Nat), k < fuel →
      (∀ j < k, blob.testBit j = false) → blob.testBit k = true →
      hulsken_descend fuel blob bits_to_advance code_size
        = some (blob >>> k, bits_to_advance + k, code_size + k) := by
  induction k with
  | zero =>
    intro fuel blob bta cs hf _ hk
    cases fuel with
    | zero => omega
    | succ fuel =>
      simp only [hulsken_descend]
      rw [if_pos ((and_one_ne_zero_iff blob).mpr hk)]
      simp
  | succ k ih =>
    intro fuel blob bta cs hf hz hk
    cases fuel with
    | zero => omega
    | succ fuel =>
      simp only [hulsken_descend]
      have h0 : ¬ (blob &&& 1 ≠ 0) := by
        rw [and_one_ne_zero_iff]
        simp [hz 0 (by omega)]
      rw [if_neg h0]
      rw [ih fuel (blob >>> 1) (bta + 1) (cs + 1) (by omega)
        (fun j hj => by rw [Nat.testBit_shiftRight]; exact hz (1 + j) (by omega))
        (by rw [Nat.testBit_shiftRight, Nat.add_comm]; exact hk)]
      congr 2
      · rw [← Nat.shiftRight_add]
        congr 1; omega
      · congr 1 <;> omega

theorem shl32_eq (n : Nat) (h : n < 32) : shl32 n = 2 ^ n := by
  unfold shl32
  rw [Nat.one_shiftLeft]
  exact Nat.mod_eq_of_lt (Nat.pow_lt_pow_right (by omega) h)

theorem mask32_eq (n : Nat) (h : n < 32) : mask32 n = 2 ^ n - 1 := by
  unfold mask32
  rw [shl32_eq n h]
  have : 2 ^ n < 2 ^ 32 := Nat.pow_lt_pow_right (by omega) h
  have : 0 < 2 ^ n := Nat.two_pow_pos _
  omega

theorem and_two_pow_ne_zero_iff (x k : Nat) : x &&& 2 ^ k ≠ 0 ↔ x.testBit k = true := by
  constructor
  · intro h
    by_contra hb
    apply h
    apply Nat.eq_of_testBit_eq
    intro i
    rw [Nat.testBit_and, Nat.testBit_two_pow]
    by_cases hi : k = i
    · subst hi; simp [hb]
    · simp [hi]
  · intro h e
    have := congrArg (fun y => y.testBit k) e
    simp [Nat.testBit_and, Nat.testBit_two_pow, h] at this

theorem not_and_two_pow (code k : Nat) (hc : code < 2 ^ 32) (hk : k < 32) :
    ((2 ^ 32 - 1 - code) &&& 2 ^ k ≠ 0) ↔ code.testBit k = false := by
  rw [and_two_pow_ne_zero_iff]
  have e : 2 ^ 32 - 1 - code = 2 ^ 32 - (code + 1) := by omega
  rw [e, Nat.testBit_two_pow_sub_succ hc]
  simp [hk]

theorem path_code_testBit_top (b : Bool) (rp : List Bool) :
    (bits_val (b :: rp).reverse).testBit rp.length = b := by
  rw [bits_val_testBit]
  simp

/-- The loop that walks back up the tree computes the next path. -/
theorem hulsken_ascend_path (rp : List Bool) :
    rp ≠ [] → rp.length ≤ 32 → ∀ fuel, rp.length ≤ fuel →
      ∃ c hb cs, hulsken_ascend fuel (bits_val rp.reverse) (shl32 (rp.length - 1)) rp.length
          = (c, hb, cs) ∧
        match path_succ rp with
        | some rp' => cs = rp'.length ∧ c ||| hb = bits_val rp'.reverse
        | none => cs = 0 := by
  induction rp with
  | nil => intro h; exact absurd rfl h
  | cons b rest ih =>
    intro _ hlen fuel hfuel
    simp only [List.length_cons] at hlen hfuel
    cases fuel with
    | zero => omega
    | succ fuel =>
      have hlt : bits_val (b :: rest).reverse < 2 ^ 32 :=
        lt_of_lt_of_le (path_code_lt (b :: rest))
          (Nat.pow_le_pow_right (by omega) (by simpa using hlen))
      have hsh : shl32 ((b :: rest).length - 1) = 2 ^ rest.length := by
        simp only [List.length_cons, Nat.add_sub_cancel]
        exact shl32_eq _ (by omega)
      have htop := path_code_testBit_top b rest
      rw [hsh]
      simp only [hulsken_ascend, List.length_cons]
      cases b with
      | false =>
        rw [if_pos ((not_and_two_pow _ _ hlt (by omega)).mpr htop)]
        refine ⟨_, _, _, rfl, ?_⟩
        simp only [path_succ, List.length_cons, true_and]
        rw [path_code_cons, path_code_cons]
        simp only [Bool.toNat_false, Bool.toNat_true, Nat.mul_zero, Nat.add_zero, Nat.mul_one]
        have hl := path_code_lt rest
        rw [Nat.add_comm]
        have := Nat.testBit_mul_pow_two_add 1 hl
        apply Nat.eq_of_testBit_eq
        intro i
        rw [Nat.testBit_or, Nat.testBit_two_pow]
        have h2 := Nat.testBit_mul_pow_two_add 1 hl i
        rw [Nat.mul_one] at h2
        rw [h2]
        by_cases hi : i < rest.length
        · have : rest.length ≠ i := by omega
          simp [hi, this]
        · by_cases hi2 : i = rest.length
          · subst hi2
            simp [Nat.testBit_lt_two_pow hl]
          · have h3 : (bits_val rest.reverse).testBit i = false :=
              Nat.testBit_lt_two_pow (lt_of_lt_of_le hl (Nat.pow_le_pow_right (by omega) (by omega)))
            have h4 : rest.length ≠ i := fun h => hi2 h.symm
            have h5 : i - rest.length ≠ 0 := by omega
            have h6 : Nat.testBit 1 (i - rest.length) = false := by
              have := (Nat.testBit_one_eq_true_iff_self_eq_zero (i := i - rest.length))
              cases hb : Nat.testBit 1 (i - rest.length)
              · rfl
              · exact absurd (this.mp hb) h5
            simp [hi, h3, h4, h6]
      | true =>
        rw [if_neg (by
          rw [not_and_two_pow _ _ hlt (by omega), htop]
          simp)]
        simp only [Nat.add_sub_cancel]
        by_cases hr : rest.length = 0
        · rw [if_pos hr]
          have : rest = [] := List.length_eq_zero.mp hr
          subst this
          exact ⟨_, _, _, rfl, by simp [path_succ]⟩
        · rw [if_neg hr]
          have hne : rest ≠ [] := fun h => hr (by simp [h])
          have hcode : bits_val (true :: rest).reverse &&& ((2 ^ rest.length + 2 ^ 32 - 1) % 2 ^ 32)
              = bits_val rest.reverse := by
            have h1 : 2 ^ rest.length < 2 ^ 32 := Nat.pow_lt_pow_right (by omega) (by omega)
            have h0 : 0 < 2 ^ rest.length := Nat.two_pow_pos _
            have e : (2 ^ rest.length + 2 ^ 32 - 1) % 2 ^ 32 = 2 ^ rest.length - 1 := by omega
            rw [e, Nat.and_pow_two_sub_one_eq_mod, path_code_cons]
            simp only [Bool.toNat_true, Nat.mul_one]
            rw [Nat.add_mod_right]
            exact Nat.mod_eq_of_lt (path_code_lt rest)
          have hhb : 2 ^ rest.length >>> 1 = shl32 (rest.length - 1) := by
            rw [shl32_eq _ (by omega), Nat.shiftRight_eq_div_pow]
            have : rest.length = (rest.length - 1) + 1 := by omega
            rw [this, pow_succ]
            simp
          rw [hcode, hhb]
          obtain ⟨c, hb, cs, h1, h2⟩ := ih hne (by omega) fuel (by omega)
          exact ⟨c, hb, cs, h1, by simpa [path_succ] using h2⟩

theorem getD_replicate_append_lt (k : Nat) (l : List Bool) (j : Nat) (hj : j < k) :
    (List.replicate k false ++ l).getD j false = false := by
  simp only [List.getD_eq_getElem?_getD]
  rw [List.getElem?_append_left (by simpa using hj)]
  simp [hj]

theorem getD_replicate_append_eq (k : Nat) (b : Bool) (l : List Bool) :
    (List.replicate k false ++ b :: l).getD k false = b := by
  simp only [List.getD_eq_getElem?_getD]
  rw [List.getElem?_append_right (by simp)]
  simp

theorem path_succ_isSome_length (rp rp' : List Bool) (h : path_succ rp = some rp') :
    0 < rp'.length := by
  induction rp with
  | nil => simp [path_succ] at h
  | cons b rest ih =>
    cases b with
    | false => simp [path_succ] at h; subst h; simp
    | true => exact ih (by simpa [path_succ] using h)

/-- One iteration of the table reading loop on `k` descents followed by a leaf. -/
theorem hulsken_read_table_leaf (buffer : List Nat) (hbuf : ∀ b ∈ buffer, b < 256)
    (k sym : Nat) (rp : List Bool) (br : Nat) (h : huffman_t) (fuel : Nat)
    (hs : stream_has buffer br (List.replicate k false ++ true :: bits_lsb sym 8))
    (hsym : sym < 256) (hk : k + rp.length ≤ 32) :
    hulsken_read_table buffer (fuel + 1) rp.length (bits_val rp.reverse) br h =
      match path_succ (List.replicate k false ++ rp) with
      | some rp' =>
        hulsken_read_table buffer fuel rp'.length (bits_val rp'.reverse) (br + (k + 9))
          (hulsken_store_code h (bits_val rp.reverse) (rp.length + k) sym)
      | none => some (br + (k + 9), hulsken_store_code h (bits_val rp.reverse) (rp.length + k) sym) := by
  have hlen : (List.replicate k false ++ true :: bits_lsb sym 8).length = k + 9 := by
    simp [bits_lsb_length]
  have hbit : ∀ i < k + 9, (bitstream_lsb_read buffer br).testBit i
      = (List.replicate k false ++ true :: bits_lsb sym 8).getD i false := by
    intro i hi
    have := blob_testBit_of_stream_has buffer hbuf br 0 _ (by simpa using hs) i
      (by rw [hlen]; exact hi) (by rw [hlen]; omega)
    simpa using this
  have hdesc := hulsken_descend_zeros k 65 (bitstream_lsb_read buffer br) 1 rp.length (by omega)
    (fun j hj => by rw [hbit j (by omega)]; exact getD_replicate_append_lt k _ j hj)
    (by rw [hbit k (by omega)]; exact getD_replicate_append_eq k true _)
  have hs2 : stream_has buffer (br + (k + 1)) (bits_lsb sym 8) := by
    have e : List.replicate k false ++ true :: bits_lsb sym 8
        = (List.replicate k false ++ [true]) ++ bits_lsb sym 8 := by simp
    rw [e, stream_has_append] at hs
    simpa using hs.2
  have hsymbol : (bitstream_lsb_read buffer br >>> k >>> 1) % 256 = sym := by
    have := blob_mod_eq_bits_val buffer hbuf br (k + 1) (bits_lsb sym 8) hs2
      (by rw [bits_lsb_length]; omega)
    rw [bits_lsb_length, bits_val_bits_lsb] at this
    rw [← Nat.shiftRight_add]
    have e : (2 : Nat) ^ 8 = 256 := by norm_num
    rw [e] at this
    rw [this]
    exact Nat.mod_eq_of_lt hsym
  simp only [hulsken_read_table, hdesc, hsymbol]
  have hbr : br + (1 + k + 8) = br + (k + 9) := by omega
  rw [hbr]
  by_cases h0 : rp.length + k = 0
  · have hk0 : k = 0 := by omega
    have hrp : rp = [] := List.length_eq_zero.mp (by omega)
    subst hk0 hrp
    simp [path_succ]
  · rw [if_neg h0]
    have hq : (List.replicate k false ++ rp).length = rp.length + k := by simp; omega
    have hne : List.replicate k false ++ rp ≠ [] := by
      intro e
      rw [e] at hq
      simp at hq
      omega
    obtain ⟨c, hb, cs, h1, h2⟩ := hulsken_ascend_path (List.replicate k false ++ rp) hne
      (by rw [hq]; omega) (rp.length + k) (by rw [hq])
    rw [hq, path_code_replicate_false] at h1
    rw [h1]
    simp only []
    cases hps : path_succ (List.replicate k false ++ rp) with
    | none =>
      rw [hps] at h2
      simp only [] at h2
      subst h2
      simp
    | some rp' =>
      rw [hps] at h2
      simp only [] at h2
      obtain ⟨h3, h4⟩ := h2
      have := path_succ_isSome_length _ _ hps
      rw [if_pos (by omega), h3, h4]

theorem bits_val_replicate_false (k : Nat) : bits_val (List.replicate k false) = 0 := by
  induction k with
  | zero => rfl
  | succ k ih => simp [List.replicate_succ, bits_val, ih]

theorem bits_val_append_zeros (l : List Bool) (k : Nat) :
    bits_val (l ++ List.replicate k false) = bits_val l := by
  rw [bits_val_append, bits_val_replicate_false]
  simp

theorem huffman_tree.leaves_pos (t : huffman_tree) : 0 < t.leaves := by
  induction t with
  | leaf s => simp [huffman_tree.leaves]
  | node zero one ih1 ih2 => simp [huffman_tree.leaves]; omega

/-- The table reading loop, started at the root of a subtree that is reached
by `k` more descents from the path `rp`, stores the leaves of the subtree in
order and goes on with the path that follows the subtree. -/
theorem hulsken_read_table_tree (buffer : List Nat) (hbuf : ∀ b ∈ buffer, b < 256)
    (t : huffman_tree) :
    ∀ (k : Nat) (rp : List Bool) (br : Nat) (h : huffman_t) (fuel : Nat),
      stream_has buffer br (List.replicate k false ++ t.serialize) →
      (∀ s ∈ t.symbols, s < 256) →
      k + rp.length + t.depth ≤ 32 →
      t.leaves ≤ fuel →
      hulsken_read_table buffer fuel rp.length (bits_val rp.reverse) br h =
        match path_succ (List.replicate k false ++ rp) with
        | some rp' =>
          hulsken_read_table buffer (fuel - t.leaves) rp'.length (bits_val rp'.reverse)
            (br + k + t.serialize.length)
            ((t.codes_from (rp.reverse ++ List.replicate k false)).foldl hulsken_store_leaf h)
        | none =>
          some (br + k + t.serialize.length,
            (t.codes_from (rp.reverse ++ List.replicate k false)).foldl hulsken_store_leaf h) := by
  induction t with
  | leaf sym =>
    intro k rp br h fuel hs hsym hd hf
    simp only [huffman_tree.leaves] at hf
    obtain ⟨f, rfl⟩ : ∃ f, fuel = f + 1 := ⟨fuel - 1, by omega⟩
    have := hulsken_read_table_leaf buffer hbuf k sym rp br h f (by simpa [huffman_tree.serialize] using hs)
      (hsym sym (by simp [huffman_tree.symbols])) (by omega)
    rw [this]
    simp only [huffman_tree.codes_from, huffman_tree.serialize, huffman_tree.leaves,
      List.foldl_cons, List.foldl_nil, hulsken_store_leaf, bits_val_append_zeros,
      List.length_append, List.length_reverse, List.length_replicate, List.length_cons,
      bits_lsb_length, Nat.add_sub_cancel]
    have e : br + k + (8 + 1) = br + (k + 9) := by omega
    rfl
  | node zero one ih0 ih1 =>
    intro k rp br h fuel hs hsym hd hf
    simp only [huffman_tree.leaves] at hf
    simp only [huffman_tree.depth] at hd
    have hser : List.replicate k false ++ (huffman_tree.node zero one).serialize
        = (List.replicate (k + 1) false ++ zero.serialize) ++ one.serialize := by
      simp only [huffman_tree.serialize, List.replicate_succ']
      simp
    rw [hser, stream_has_append] at hs
    obtain ⟨hs0, hs1⟩ := hs
    have hsym0 : ∀ s ∈ zero.symbols, s < 256 :=
      fun s hs => hsym s (by simp [huffman_tree.symbols, hs])
    have hsym1 : ∀ s ∈ one.symbols, s < 256 :=
      fun s hs => hsym s (by simp [huffman_tree.symbols, hs])
    have h0 := ih0 (k + 1) rp br h fuel hs0 hsym0 (by omega) (by omega)
    have hps : path_succ (List.replicate (k + 1) false ++ rp)
        = some (true :: (List.replicate k false ++ rp)) := by
      simp [List.replicate_succ, path_succ]
    rw [hps] at h0
    simp only [] at h0
    rw [h0]
    have hlen : (true :: (List.replicate k false ++ rp)).length = k + rp.length + 1 := by simp
    have h1 := ih1 0 (true :: (List.replicate k false ++ rp)) (br + (k + 1) + zero.serialize.length)
      ((zero.codes_from (rp.reverse ++ List.replicate (k + 1) false)).foldl hulsken_store_leaf h)
      (fuel - zero.leaves)
      (by
        simp only [List.replicate_zero, List.nil_append]
        have e : br + (List.replicate (k + 1) false ++ zero.serialize).length
            = br + (k + 1) + zero.serialize.length := by simp; omega
        rw [← e]; exact hs1)
      hsym1 (by rw [hlen]; omega) (by omega)
    rw [h1]
    simp only [List.replicate_zero, List.nil_append, path_succ, huffman_tree.codes_from,
      huffman_tree.serialize, huffman_tree.leaves, List.foldl_append, List.length_cons,
      List.length_append, List.reverse_cons, List.reverse_append, List.reverse_replicate,
      List.append_nil]
    have e1 : fuel - zero.leaves - one.leaves = fuel - (zero.leaves + one.leaves) := by omega
    have e2 : br + (k + 1) + zero.serialize.length + 0 + one.serialize.length
        = br + k + (zero.serialize.length + one.serialize.length + 1) := by omega
    have e3 : rp.reverse ++ List.replicate (k + 1) false
        = rp.reverse ++ List.replicate k false ++ [false] := by
      rw [List.replicate_succ']; simp
    rw [e1, e2, e3]

/-- Reading the table of a whole tree from the initial state. -/
theorem hulsken_read_table_root (buffer : List Nat) (hbuf : ∀ b ∈ buffer, b < 256)
    (t : huffman_tree) (br : Nat) (h : huffman_t) (fuel : Nat) (rest : List Bool)
    (hs : stream_has buffer br (t.serialize ++ rest))
    (hsym : ∀ s ∈ t.symbols, s < 256) (hd : t.depth ≤ 16) (hf : t.leaves ≤ fuel) :
    hulsken_read_table buffer fuel 0 0 br h
      = some (br + t.serialize.length, t.codes.foldl hulsken_store_leaf h) := by
  have := hulsken_read_table_tree buffer hbuf t 0 [] br h fuel
    (by simpa using ((stream_has_append buffer _ _ br).mp hs).1) hsym
    (by simp only [List.length_nil]; omega) hf
  simpa [path_succ, bits_val, huffman_tree.codes] using this

/-! ### The table that the loop stores -/

theorem save_code_loop_apply (code w sym : Nat) :
    ∀ (n i : Nat) (fast : Nat → Nat) (a : Nat),
      ((∃ j, i ≤ j ∧ j < i + n ∧ a = ((j <<< w) ||| code)) →
        save_code_loop code w sym n i fast a = sym) ∧
      ((¬ ∃ j, i ≤ j ∧ j < i + n ∧ a = ((j <<< w) ||| code)) →
        save_code_loop code w sym n i fast a = fast a) := by
  intro n
  induction n with
  | zero =>
    intro i fast a
    refine ⟨?_, fun _ => rfl⟩
    rintro ⟨j, h1, h2, _⟩
    omega
  | succ n ih =>
    intro i fast a
    simp only [save_code_loop]
    obtain ⟨ih1, ih2⟩ := ih (i + 1)
      (fun address => if address = ((i <<< w) ||| code) then sym else fast address) a
    by_cases h1 : ∃ j, i + 1 ≤ j ∧ j < i + 1 + n ∧ a = ((j <<< w) ||| code)
    · refine ⟨fun _ => ih1 h1, fun hn => ?_⟩
      obtain ⟨j, hj1, hj2, hj3⟩ := h1
      exact absurd ⟨j, by omega, by omega, hj3⟩ hn
    · rw [ih2 h1]
      by_cases h2 : a = ((i <<< w) ||| code)
      · refine ⟨fun _ => by simp [h2], fun hn => ?_⟩
        exact absurd ⟨i, by omega, by omega, h2⟩ hn
      · refine ⟨?_, fun _ => by simp [h2]⟩
        rintro ⟨j, hj1, hj2, hj3⟩
        by_cases hji : j = i
        · subst hji; exact absurd hj3 h2
        · exact absurd ⟨j, by omega, by omega, hj3⟩ h1

theorem shiftLeft_or_eq (j w code : Nat) (hc : code < 2 ^ w) :
    (j <<< w) ||| code = 2 ^ w * j + code := by
  rw [Nat.shiftLeft_eq, Nat.mul_comm, Nat.mul_add_lt_is_or hc]

/-- The addresses that `save_code_in_huffman_fast_lookup_table` writes are the
12-bit values that end in the code. -/
theorem fast_addresses_iff (w code a : Nat) (hw : w ≤ 12) (hc : code < 2 ^ w) :
    (∃ j, 0 ≤ j ∧ j < 0 + shl32 (HUFFMAN_FAST_BITS - w) ∧ a = ((j <<< w) ||| code))
      ↔ a < 4096 ∧ a % 2 ^ w = code := by
  have hsh : shl32 (HUFFMAN_FAST_BITS - w) = 2 ^ (12 - w) := shl32_eq _ (by unfold HUFFMAN_FAST_BITS; omega)
  have hpow : 2 ^ w * 2 ^ (12 - w) = 4096 := by
    rw [← pow_add]
    have : w + (12 - w) = 12 := by omega
    rw [this]
    norm_num
  rw [hsh]
  constructor
  · rintro ⟨j, _, hj, rfl⟩
    rw [shiftLeft_or_eq j w code hc]
    constructor
    · have : 2 ^ w * j + code < 2 ^ w * (j + 1) := by rw [Nat.mul_add]; omega
      have : 2 ^ w * (j + 1) ≤ 2 ^ w * 2 ^ (12 - w) := Nat.mul_le_mul_left _ (by omega)
      omega
    · rw [Nat.mul_add_mod]
      exact Nat.mod_eq_of_lt hc
  · rintro ⟨ha, hm⟩
    refine ⟨a / 2 ^ w, Nat.zero_le _, ?_, ?_⟩
    · rw [Nat.zero_add, Nat.div_lt_iff_lt_mul (Nat.two_pow_pos w), Nat.mul_comm, hpow]
      exact ha
    · rw [shiftLeft_or_eq _ w code hc, ← hm]
      exact (Nat.div_add_mod a (2 ^ w)).symm

theorem hulsken_store_code_size (h : huffman_t) (code n sym i : Nat) :
    (hulsken_store_code h code n sym).size i = if i = sym then n % 2 ^ 8 else h.size i := by
  unfold hulsken_store_code
  simp only []
  split_ifs <;> simp_all [save_code_in_huffman_fast_lookup_table]

theorem hulsken_store_code_code (h : huffman_t) (code n sym i : Nat) :
    (hulsken_store_code h code n sym).code i = if i = sym then code % 2 ^ 16 else h.code i := by
  unfold hulsken_store_code
  simp only []
  split_ifs <;> simp_all [save_code_in_huffman_fast_lookup_table]

theorem hulsken_store_code_fast_short (h : huffman_t) (code n sym a : Nat) (hn : n ≤ 12)
    (hc : code < 2 ^ n) :
    (hulsken_store_code h code n sym).fast a
      = if a < 4096 ∧ a % 2 ^ n = code then sym else h.fast a := by
  unfold hulsken_store_code
  simp only []
  rw [if_pos (by unfold HUFFMAN_FAST_BITS; exact hn)]
  simp only [save_code_in_huffman_fast_lookup_table]
  obtain ⟨h1, h2⟩ := save_code_loop_apply code n sym (shl32 (HUFFMAN_FAST_BITS - n)) 0 h.fast a
  by_cases hcond : a < 4096 ∧ a % 2 ^ n = code
  · rw [if_pos hcond]
    exact h1 ((fast_addresses_iff n code a hn hc).mpr hcond)
  · rw [if_neg hcond]
    exact h2 (fun hh => hcond ((fast_addresses_iff n code a hn hc).mp hh))

theorem hulsken_store_code_fast_long (h : huffman_t) (code n sym a : Nat) (hn : 12 < n) :
    (hulsken_store_code h code n sym).fast a
      = if a = code % 4096 then (hulsken_store_code h code n sym).fast a else h.fast a := by
  split_ifs with ha
  · rfl
  · unfold hulsken_store_code
    simp only []
    rw [if_neg (by unfold HUFFMAN_FAST_BITS; omega)]
    simp only []
    have e : shl32 HUFFMAN_FAST_BITS - 1 = 2 ^ 12 - 1 := by
      rw [shl32_eq _ (by unfold HUFFMAN_FAST_BITS; omega)]; rfl
    rw [e, Nat.and_pow_two_sub_one_eq_mod]
    rw [if_neg ha]

theorem hulsken_store_code_fast_long_gt (h : huffman_t) (code n sym : Nat) (hn : 12 < n) :
    255 < (hulsken_store_code h code n sym).fast (code % 4096) := by
  unfold hulsken_store_code
  simp only []
  rw [if_neg (by unfold HUFFMAN_FAST_BITS; omega)]
  simp only []
  have e : shl32 HUFFMAN_FAST_BITS - 1 = 2 ^ 12 - 1 := by
    rw [shl32_eq _ (by unfold HUFFMAN_FAST_BITS; omega)]; rfl
  rw [e, Nat.and_pow_two_sub_one_eq_mod]
  simp only [if_true]
  have : ∀ m : Nat, 255 < (256 + m % 2 ^ 8) % 2 ^ 16 := by
    intro m
    have : m % 2 ^ 8 < 2 ^ 8 := Nat.mod_lt _ (by norm_num)
    omega
  exact this _

theorem bits_lsb_take (m : Nat) : ∀ (n x : Nat), n ≤ m →
    bits_lsb x n = (bits_lsb x m).take n := by
  induction m with
  | zero => intro n x h; have : n = 0 := by omega
            subst this; rfl
  | succ m ih =>
    intro n x h
    cases n with
    | zero => simp [bits_lsb]
    | succ n =>
      simp only [bits_lsb, List.take_succ_cons]
      rw [ih n (x / 2) (by omega)]

theorem bits_lsb_mod (n x : Nat) : bits_lsb (x % 2 ^ n) n = bits_lsb x n := by
  apply List.ext_getElem
  · simp [bits_lsb_length]
  · intro i h1 h2
    have hi : i < n := by rw [bits_lsb_length] at h1; exact h1
    have a := bits_lsb_getD n (x % 2 ^ n) i
    have b := bits_lsb_getD n x i
    rw [List.getD_eq_getElem _ _ h1] at a
    rw [List.getD_eq_getElem _ _ h2] at b
    rw [a, b, Nat.testBit_mod_two_pow]
    simp [hi]

theorem code_matches_eq_bits_lsb (x : Nat) (p : List Bool) (h : code_matches x p) :
    p = bits_lsb x p.length := by
  unfold code_matches at h
  have := bits_lsb_bits_val p
  rw [← h, bits_lsb_mod] at this
  exact this.symm

/-- Two codes found at the same place of the stream: the shorter is a prefix
of the longer. -/
theorem code_matches_comparable (x : Nat) (p1 p2 : List Bool) (h1 : code_matches x p1)
    (h2 : code_matches x p2) (hlen : p1.length ≤ p2.length) : p1 <+: p2 := by
  rw [code_matches_eq_bits_lsb x p1 h1, code_matches_eq_bits_lsb x p2 h2]
  rw [bits_lsb_take p2.length p1.length x hlen]
  exact List.take_prefix _ _

theorem code_matches_mod (x : Nat) (p : List Bool) (m : Nat) (hm : p.length ≤ m) :
    code_matches (x % 2 ^ m) p ↔ code_matches x p := by
  unfold code_matches
  rw [Nat.mod_mod_of_dvd _ (Nat.pow_dvd_pow 2 hm)]

theorem code_matches_bits_val (p q : List Bool) (h : code_matches (bits_val q) p)
    (hlen : p.length ≤ q.length) : p <+: q := by
  apply code_matches_comparable (bits_val q) p q h _ hlen
  unfold code_matches
  exact Nat.mod_eq_of_lt (bits_val_lt q)

theorem codes_wf_of_append (L : List (Nat × List Bool)) (x : Nat × List Bool)
    (h : codes_wf (L ++ [x])) : codes_wf L := by
  refine ⟨fun e he => h.symbol_lt e (by simp [he]), fun e he => h.length_le e (by simp [he]),
    ?_, fun e1 h1 e2 h2 => h.prefix_free e1 (by simp [h1]) e2 (by simp [h2])⟩
  have := h.nodup
  rw [List.map_append, List.nodup_append] at this
  exact this.1

theorem table_holds_initial : table_holds huffman_initial [] := by
  refine ⟨fun e he => by simp at he, fun s _ => rfl, fun a ha => ?_, fun e he => by simp at he⟩
  simp [huffman_initial] at ha

/-- Storing one more leaf keeps the table in step with the code list. -/
theorem table_holds_store (h : huffman_t) (L : List (Nat × List Bool)) (x : Nat × List Bool)
    (hT : table_holds h L) (hwf : codes_wf (L ++ [x])) :
    table_holds (hulsken_store_leaf h x) (L ++ [x]) := by
  obtain ⟨s, p⟩ := x
  have hp16 : p.length ≤ 16 := hwf.length_le (s, p) (by simp)
  have hc : bits_val p < 2 ^ p.length := bits_val_lt p
  have hsz : p.length % 2 ^ 8 = p.length := Nat.mod_eq_of_lt (by norm_num; omega)
  have hcd : bits_val p % 2 ^ 16 = bits_val p :=
    Nat.mod_eq_of_lt (lt_of_lt_of_le hc (Nat.pow_le_pow_right (by omega) hp16))
  have hnd := hwf.nodup
  rw [List.map_append, List.nodup_append] at hnd
  have hs_notin : ∀ e ∈ L, e.1 ≠ s := by
    intro e he heq
    have h1 : e.1 ∈ List.map Prod.fst L := List.mem_map_of_mem Prod.fst he
    have h2 : e.1 ∈ List.map Prod.fst [(s, p)] := by simp [heq]
    exact hnd.2.2 h1 h2
  unfold hulsken_store_leaf
  simp only []
  refine ⟨?_, ?_, ?_, ?_⟩
  · intro e he
    rw [hulsken_store_code_size, hulsken_store_code_code]
    rcases List.mem_append.mp he with he | he
    · rw [if_neg (hs_notin e he), if_neg (hs_notin e he)]
      exact hT.size_code e he
    · simp only [List.mem_singleton] at he
      subst he
      simp only [if_true, hsz, hcd, and_self]
  · intro s' hs'
    rw [hulsken_store_code_size]
    simp only [List.map_append, List.map_cons, List.map_nil, List.mem_append,
      List.mem_singleton, not_or] at hs'
    rw [if_neg hs'.2]
    exact hT.size_zero s' hs'.1
  · intro a ha
    by_cases hn : p.length ≤ 12
    · rw [hulsken_store_code_fast_short h _ _ s a hn hc] at ha ⊢
      by_cases hcond : a < 4096 ∧ a % 2 ^ p.length = bits_val p
      · rw [if_pos hcond]
        exact ⟨(s, p), by simp, hn, rfl, hcond.2⟩
      · rw [if_neg hcond] at ha ⊢
        obtain ⟨e, he, h1, h2, h3⟩ := hT.fast_le a ha
        exact ⟨e, by simp [he], h1, h2, h3⟩
    · have hn' : 12 < p.length := by omega
      rw [hulsken_store_code_fast_long h _ _ s a hn'] at ha ⊢
      by_cases hcond : a = bits_val p % 4096
      · rw [if_pos hcond] at ha
        have := hulsken_store_code_fast_long_gt h (bits_val p) p.length s hn'
        rw [← hcond] at this
        omega
      · rw [if_neg hcond] at ha ⊢
        obtain ⟨e, he, h1, h2, h3⟩ := hT.fast_le a ha
        exact ⟨e, by simp [he], h1, h2, h3⟩
  · intro e he hle a ha hm
    by_cases hn : p.length ≤ 12
    · rw [hulsken_store_code_fast_short h _ _ s a hn hc]
      by_cases hcond : a < 4096 ∧ a % 2 ^ p.length = bits_val p
      · rw [if_pos hcond]
        have hm2 : code_matches a p := hcond.2
        rcases Nat.le_total e.2.length p.length with hl | hl
        · have := hwf.prefix_free e he (s, p) (by simp) (code_matches_comparable a e.2 p hm hm2 hl)
          rw [this]
        · have := hwf.prefix_free (s, p) (by simp) e he (code_matches_comparable a p e.2 hm2 hm hl)
          rw [← this]
      · rw [if_neg hcond]
        rcases List.mem_append.mp he with he' | he'
        · exact hT.fast_eq e he' hle a ha hm
        · simp only [List.mem_singleton] at he'
          subst he'
          exact absurd ⟨ha, hm⟩ hcond
    · have hn' : 12 < p.length := by omega
      rcases List.mem_append.mp he with he' | he'
      · rw [hulsken_store_code_fast_long h _ _ s a hn']
        by_cases hcond : a = bits_val p % 4096
        · exfalso
          have h1 : code_matches (bits_val p % 2 ^ 12) e.2 := by
            have e12 : (2 : Nat) ^ 12 = 4096 := by norm_num
            rw [e12, ← hcond]; exact hm
          rw [code_matches_mod _ _ _ hle] at h1
          have h2 := code_matches_bits_val e.2 p h1 (by omega)
          have h3 := hwf.prefix_free e he (s, p) (by simp) h2
          rw [h3] at hle
          simp only at hle
          omega
        · rw [if_neg hcond]
          exact hT.fast_eq e he' hle a ha hm
      · simp only [List.mem_singleton] at he'
        subst he'
        simp only at hle
        omega

/-- After the table reading loop the arrays hold the code table. -/
theorem table_holds_foldl (L : List (Nat × List Bool)) (hwf : codes_wf L) :
    table_holds (L.foldl hulsken_store_leaf huffman_initial) L := by
  induction L using List.reverseRecOn with
  | nil => exact table_holds_initial
  | append_singleton L x ih =>
    rw [List.foldl_append]
    exact table_holds_store _ L x (ih (codes_wf_of_append L x hwf)) hwf

theorem hulsken_search_long_code_found (h : huffman_t) (blob s : Nat)
    (hs : 12 < h.size s ∧ blob &&& mask32 (h.size s) = h.code s) :
    ∀ (n i : Nat), i ≤ s → s < i + n →
      (∀ j, i ≤ j → j < i + n → 12 < h.size j → blob &&& mask32 (h.size j) = h.code j → j = s) →
      hulsken_search_long_code h blob n i = some (s, h.size s) := by
  intro n
  induction n with
  | zero => intro i h1 h2; omega
  | succ n ih =>
    intro i h1 h2 huniq
    simp only [hulsken_search_long_code]
    by_cases hsz : h.size i ≤ HUFFMAN_FAST_BITS
    · rw [if_pos hsz]
      have hne : i ≠ s := by
        intro e; subst e
        unfold HUFFMAN_FAST_BITS at hsz; omega
      exact ih (i + 1) (by omega) (by omega)
        (fun j hj1 hj2 => huniq j (by omega) (by omega))
    · rw [if_neg hsz]
      by_cases hmatch : blob &&& mask32 (h.size i) = h.code i
      · rw [if_pos hmatch]
        have := huniq i (Nat.le_refl i) (by omega) (by unfold HUFFMAN_FAST_BITS at hsz; omega) hmatch
        subst this
        rfl
      · rw [if_neg hmatch]
        have hne : i ≠ s := by
          intro e; subst e
          exact hmatch hs.2
        exact ih (i + 1) (by omega) (by omega)
          (fun j hj1 hj2 => huniq j (by omega) (by omega))

theorem mask32_and (blob n : Nat) (hn : n < 32) : blob &&& mask32 n = blob % 2 ^ n := by
  rw [mask32_eq n hn, Nat.and_pow_two_sub_one_eq_mod]

/-- The decoder's symbol lookup returns the symbol whose code the blob starts
with, and the length of that code (`1` for the empty code). -/
theorem hulsken_decode_symbol_matches (h : huffman_t) (L : List (Nat × List Bool))
    (hT : table_holds h L) (hwf : codes_wf L) (e : Nat × List Bool) (he : e ∈ L)
    (blob : Nat) (hm : code_matches blob e.2) :
    hulsken_decode_symbol h blob = (e.1, if e.2.length = 0 then 1 else e.2.length) := by
  have hfm : shl32 HUFFMAN_FAST_BITS - 1 = 2 ^ 12 - 1 := by
    rw [shl32_eq _ (by unfold HUFFMAN_FAST_BITS; omega)]; rfl
  have hsym := hwf.symbol_lt e he
  have hlen := hwf.length_le e he
  obtain ⟨hsize, hcode⟩ := hT.size_code e he
  unfold hulsken_decode_symbol
  simp only []
  rw [hfm, Nat.and_pow_two_sub_one_eq_mod]
  by_cases hn : e.2.length ≤ 12
  · have hfast : h.fast (blob % 2 ^ 12) = e.1 :=
      hT.fast_eq e he hn _ (by have := Nat.mod_lt blob (by norm_num : 0 < 2 ^ 12); omega)
        ((code_matches_mod blob e.2 12 hn).mpr hm)
    have h255 : e.1 ≤ 255 := by omega
    simp only [hfast, if_pos h255, hsize]
    by_cases h0 : e.2.length = 0
    · simp only [if_pos h0]
    · simp only [if_neg h0]
  · have hgt : ¬ h.fast (blob % 2 ^ 12) ≤ 255 := by
      intro hle
      obtain ⟨e', he', h1, _, h3⟩ := hT.fast_le _ hle
      rw [code_matches_mod blob e'.2 12 h1] at h3
      have := hwf.prefix_free e' he' e he (code_matches_comparable blob e'.2 e.2 h3 hm (by omega))
      rw [this] at h1
      exact hn h1
    rw [if_neg hgt]
    have hfound := hulsken_search_long_code_found h blob e.1
      ⟨by rw [hsize]; omega, by
        rw [hsize, mask32_and _ _ (by omega), hcode]; exact hm⟩
      256 0 (Nat.zero_le _) (by omega)
      (fun j _ _ hj1 hj2 => by
        have hjin : j ∈ L.map Prod.fst := by
          by_contra hnot
          have := hT.size_zero j hnot
          omega
        obtain ⟨e', he', rfl⟩ := List.mem_map.mp hjin
        obtain ⟨hsize', hcode'⟩ := hT.size_code e' he'
        have hlen' := hwf.length_le e' he'
        rw [hsize', mask32_and _ _ (by omega), hcode'] at hj2
        have hm' : code_matches blob e'.2 := hj2
        rcases Nat.le_total e'.2.length e.2.length with hl | hl
        · rw [hwf.prefix_free e' he' e he (code_matches_comparable blob _ _ hm' hm hl)]
        · rw [hwf.prefix_free e he e' he' (code_matches_comparable blob _ _ hm hm' hl)])
    rw [hfound, hsize]
    simp only []
    have : e.2.length ≠ 0 := by omega
    simp [this]

/-! ### The code table of a tree -/

theorem codes_from_map_fst (t : huffman_tree) :
    ∀ q, (t.codes_from q).map Prod.fst = t.symbols := by
  induction t with
  | leaf s => intro q; rfl
  | node zero one ih0 ih1 =>
    intro q
    simp [huffman_tree.codes_from, huffman_tree.symbols, ih0, ih1]

theorem codes_from_bounds (t : huffman_tree) :
    ∀ q, ∀ e ∈ t.codes_from q, q <+: e.2 ∧ e.2.length ≤ q.length + t.depth := by
  induction t with
  | leaf s =>
    intro q e he
    simp only [huffman_tree.codes_from, List.mem_singleton] at he
    subst he
    simp [huffman_tree.depth]
  | node zero one ih0 ih1 =>
    intro q e he
    simp only [huffman_tree.codes_from, List.mem_append] at he
    simp only [huffman_tree.depth]
    rcases he with he | he
    · obtain ⟨h1, h2⟩ := ih0 _ e he
      refine ⟨(List.prefix_append q [false]).trans h1, ?_⟩
      simp only [List.length_append, List.length_singleton] at h2
      omega
    · obtain ⟨h1, h2⟩ := ih1 _ e he
      refine ⟨(List.prefix_append q [true]).trans h1, ?_⟩
      simp only [List.length_append, List.length_singleton] at h2
      omega

theorem codes_from_prefix_free (t : huffman_tree) :
    ∀ q, ∀ e1 ∈ t.codes_from q, ∀ e2 ∈ t.codes_from q, e1.2 <+: e2.2 → e1 = e2 := by
  induction t with
  | leaf s =>
    intro q e1 h1 e2 h2 _
    simp only [huffman_tree.codes_from, List.mem_singleton] at h1 h2
    rw [h1, h2]
  | node zero one ih0 ih1 =>
    intro q e1 h1 e2 h2 hp
    simp only [huffman_tree.codes_from, List.mem_append] at h1 h2
    have hdiff : ∀ (a b : Nat × List Bool), q ++ [false] <+: a.2 → q ++ [true] <+: b.2 →
        ¬ a.2 <+: b.2 ∧ ¬ b.2 <+: a.2 := by
      intro a b ha hb
      have key : ∀ l : List Bool, q ++ [false] <+: l → q ++ [true] <+: l → False := by
        intro l hl1 hl2
        have := List.prefix_of_prefix_length_le hl1 hl2 (by simp)
        have := this.eq_of_length (by simp)
        simp at this
      exact ⟨fun h => key b.2 (ha.trans h) hb, fun h => key a.2 ha (hb.trans h)⟩
    rcases h1 with h1 | h1 <;> rcases h2 with h2 | h2
    · exact ih0 _ e1 h1 e2 h2 hp
    · exact absurd hp (hdiff e1 e2 (codes_from_bounds zero _ e1 h1).1
        (codes_from_bounds one _ e2 h2).1).1
    · exact absurd hp (hdiff e2 e1 (codes_from_bounds zero _ e2 h2).1
        (codes_from_bounds one _ e1 h1).1).2
    · exact ih1 _ e1 h1 e2 h2 hp

/-- The code table of a tree of depth at most 16 with distinct byte symbols
is one the decompressor can hold. -/
theorem codes_wf_of_tree (t : huffman_tree) (hsym : ∀ s ∈ t.symbols, s < 256)
    (hnd : t.symbols.Nodup) (hd : t.depth ≤ 16) : codes_wf t.codes := by
  refine ⟨?_, ?_, ?_, codes_from_prefix_free t []⟩
  · intro e he
    apply hsym
    rw [← codes_from_map_fst t []]
    exact List.mem_map_of_mem Prod.fst he
  · intro e he
    have := (codes_from_bounds t [] e he).2
    simp only [List.length_nil] at this
    omega
  · unfold huffman_tree.codes
    rw [codes_from_map_fst]
    exact hnd

/-! ### Decoding a message of literal symbols -/

theorem to_i32_of_range (x : Int) (h0 : 0 ≤ x) (h1 : x < 2 ^ 31) : to_i32 x = x := by
  unfold to_i32
  omega

theorem stream_has_initial (buffer : List Nat) (pos : Nat) (l1 l2 : List Bool) (hp : l1 <+: l2)
    (h : stream_has buffer pos l2) : stream_has buffer pos l1 := by
  obtain ⟨r, rfl⟩ := hp
  exact ((stream_has_append buffer l1 r pos).mp h).1

theorem code_matches_of_stream_has (buffer : List Nat) (hbuf : ∀ b ∈ buffer, b < 256)
    (pos : Nat) (p : List Bool) (h : stream_has buffer pos p) (hlen : p.length ≤ 57) :
    code_matches (bitstream_lsb_read buffer pos) p := by
  have := blob_mod_eq_bits_val buffer hbuf pos 0 p (by simpa using h) (by omega)
  simpa [code_matches] using this

theorem message_code_length (L : List (Nat × List Bool)) (hwf : codes_wf L)
    (mc : Nat → List Bool) (x : Nat) (h : message_code_ok L mc x) :
    1 ≤ (mc x).length ∧ (mc x).length ≤ 16 := by
  obtain ⟨e, he, _, _, h3⟩ := h
  have := hwf.length_le e he
  rw [h3]
  split_ifs <;> omega

/-- The lookup at a position where the stream holds the message bits of `x`. -/
theorem hulsken_decode_symbol_at (buffer : List Nat) (hbuf : ∀ b ∈ buffer, b < 256)
    (h : huffman_t) (L : List (Nat × List Bool)) (hT : table_holds h L) (hwf : codes_wf L)
    (mc : Nat → List Bool) (x : Nat) (hx : message_code_ok L mc x) (pos : Nat)
    (rest : List Bool) (hs : stream_has buffer pos (mc x ++ rest)) :
    hulsken_decode_symbol h (bitstream_lsb_read buffer pos) = (x, (mc x).length) := by
  obtain ⟨e, he, h1, h2, h3⟩ := hx
  have hlen := hwf.length_le e he
  have hs1 : stream_has buffer pos e.2 :=
    stream_has_initial buffer pos e.2 (mc x ++ rest) (h2.trans (List.prefix_append _ _)) hs
  have := hulsken_decode_symbol_matches h L hT hwf e he _
    (code_matches_of_stream_has buffer hbuf pos e.2 hs1 (by omega))
  rw [this, h1, h3]

/-- The message decoding loop on a message of literal symbols writes the
symbols one after the other. -/
theorem hulsken_decode_literals (buffer : List Nat) (hbuf : ∀ b ∈ buffer, b < 256)
    (h : huffman_t) (L : List (Nat × List Bool)) (hT : table_holds h L) (hwf : codes_wf L)
    (mc : Nat → List Bool) (z cb : Nat) (hcb : cb ≤ 31) (bsb sl : Int) (hsl : sl < 2 ^ 31) :
    ∀ (s : List Nat) (st : hulsken_state_t) (fuel : Nat) (rest : List Bool),
      stream_has buffer st.bits_read (hulsken_literal_bits mc z cb s ++ rest) →
      (∀ x ∈ s, message_code_ok L mc x) →
      0 ≤ st.decompressed_length →
      st.decompressed_length + s.length = sl →
      (st.bits_read : Int) + (hulsken_literal_bits mc z cb s).length ≤ bsb →
      s.length < fuel →
      ∃ st', hulsken_decode_message buffer 1 h z cb bsb sl fuel st = some st' ∧
        st'.decompressed_length = sl ∧
        st'.bits_read = st.bits_read + (hulsken_literal_bits mc z cb s).length ∧
        (∀ i, i < st.decompressed_length → st'.output_buffer i = st.output_buffer i) ∧
        (∀ i : Nat, i < s.length →
          st'.output_buffer (st.decompressed_length + i) = s.getD i 0) := by
  intro s
  induction s with
  | nil =>
    intro st fuel rest _ _ _ hdl _ hf
    obtain ⟨f, rfl⟩ : ∃ f, fuel = f + 1 := ⟨fuel - 1, by simp at hf; omega⟩
    simp only [List.length_nil, Nat.cast_zero, add_zero] at hdl
    refine ⟨st, ?_, hdl, by simp [hulsken_literal_bits], fun i _ => rfl, fun i hi => by simp at hi⟩
    simp only [hulsken_decode_message]
    by_cases h1 : (st.bits_read : Int) < bsb
    · rw [if_neg (not_not.mpr h1), if_pos (le_of_eq hdl.symm)]
    · rw [if_pos h1]
  | cons x s ih =>
    intro st fuel rest hs hok hdl0 hdl hbits hf
    obtain ⟨f, rfl⟩ : ∃ f, fuel = f + 1 := ⟨fuel - 1, by simp at hf; omega⟩
    have hxok := hok x (by simp)
    obtain ⟨hn1, hn16⟩ := message_code_length L hwf mc x hxok
    simp only [hulsken_literal_bits, List.append_assoc] at hs
    have hsym := hulsken_decode_symbol_at buffer hbuf h L hT hwf mc x hxok st.bits_read _ hs
    simp only [List.length_cons, Nat.cast_add, Nat.cast_one] at hdl
    simp only [hulsken_literal_bits, List.length_append] at hbits
    have hlt1 : (st.bits_read : Int) < bsb := by
      have : (0 : Int) ≤ ((if x = z then List.replicate cb false else []).length : Nat) :=
        Int.natCast_nonneg _
      push_cast at hbits
      omega
    have hlt2 : ¬ st.decompressed_length ≥ sl := by omega
    have hi32 : to_i32 (st.decompressed_length + 1) = st.decompressed_length + 1 :=
      to_i32_of_range _ (by omega) (by omega)
    rw [stream_has_append] at hs
    obtain ⟨_, hs2⟩ := hs
    simp only [hulsken_decode_message]
    rw [if_neg (by simpa using hlt1), if_neg hlt2, hsym]
    simp only []
    by_cases hxz : x = z
    · rw [if_pos hxz]
      rw [if_pos hxz] at hs2 hbits
      rw [stream_has_append] at hs2
      obtain ⟨hs3, hs4⟩ := hs2
      have hzero : (bitstream_lsb_read buffer st.bits_read >>> (mc x).length) &&& mask32 cb = 0 := by
        rw [mask32_and _ _ (by omega)]
        have := blob_mod_eq_bits_val buffer hbuf st.bits_read (mc x).length _ hs3
          (by simp; omega)
        simp only [List.length_replicate] at this
        rw [this, bits_val_replicate_false]
      rw [hzero]
      simp only [gt_iff_lt, lt_self_iff_false, if_false, hi32]
      simp only [List.length_replicate] at hs4 hbits
      obtain ⟨st', h1, h2, h3, h4, h5⟩ := ih
        { bits_read := st.bits_read + (mc x).length + cb
          decompressed_length := st.decompressed_length + 1
          output_buffer := fun i => if i = st.decompressed_length then x else st.output_buffer i }
        f rest hs4 (fun y hy => hok y (by simp [hy])) (by simp only []; omega)
        (by simp only []; omega) (by simp only []; push_cast at hbits ⊢; omega)
        (by simp at hf; omega)
      refine ⟨st', h1, h2, ?_, ?_, ?_⟩
      · rw [h3]
        simp only [hulsken_literal_bits, List.length_append, if_pos hxz, List.length_replicate]
        omega
      · intro i hi
        rw [h4 i (by simp only []; omega)]
        simp only []
        rw [if_neg (by omega)]
      · intro i hi
        cases i with
        | zero =>
          have := h4 st.decompressed_length (by simp only []; omega)
          simp only [if_true] at this
          simpa using this
        | succ i =>
          have := h5 i (by simpa using hi)
          simp only [] at this
          rw [List.getD_cons_succ, ← this]
          congr 1
          push_cast
          omega
    · rw [if_neg hxz]
      rw [if_neg hxz] at hs2 hbits
      simp only [List.nil_append, List.length_nil, Nat.cast_zero, add_zero] at hs2 hbits
      simp only [hi32]
      obtain ⟨st', h1, h2, h3, h4, h5⟩ := ih
        { bits_read := st.bits_read + (mc x).length
          decompressed_length := st.decompressed_length + 1
          output_buffer := fun i => if i = st.decompressed_length then x else st.output_buffer i }
        f rest hs2 (fun y hy => hok y (by simp [hy])) (by simp only []; omega)
        (by simp only []; omega) (by simp only []; push_cast at hbits ⊢; omega)
        (by simp at hf; omega)
      refine ⟨st', h1, h2, ?_, ?_, ?_⟩
      · rw [h3]
        simp only [hulsken_literal_bits, List.length_append, if_neg hxz, List.length_nil]
        omega
      · intro i hi
        rw [h4 i (by simp only []; omega)]
        simp only []
        rw [if_neg (by omega)]
      · intro i hi
        cases i with
        | zero =>
          have := h4 st.decompressed_length (by simp only []; omega)
          simp only [if_true] at this
          simpa using this
        | succ i =>
          have := h5 i (by simpa using hi)
          simp only [] at this
          rw [List.getD_cons_succ, ← this]
          congr 1
          push_cast
          omega

theorem codes_from_ne_nil (t : huffman_tree) (p : List Bool) : t.codes_from p ≠ [] := by
  induction t generalizing p with
  | leaf a => simp [huffman_tree.codes_from]
  | node zero one ihz _ => simp [huffman_tree.codes_from, ihz]

theorem codes_from_extends (t : huffman_tree) (p : List Bool) :
    ∀ e ∈ t.codes_from p, p <+: e.2 := by
  induction t generalizing p with
  | leaf a =>
    intro e he
    simp only [huffman_tree.codes_from, List.mem_singleton] at he
    rw [he]
  | node zero one ihz iho =>
    intro e he
    simp only [huffman_tree.codes_from, List.mem_append] at he
    rcases he with he | he
    · exact (List.prefix_append _ _).trans (ihz _ e he)
    · exact (List.prefix_append _ _).trans (iho _ e he)

/-- In a tree with more than one leaf every code has at least one bit. -/
theorem codes_node_length (zero one : huffman_tree) :
    ∀ e ∈ (huffman_tree.node zero one).codes, 1 ≤ e.2.length := by
  intro e he
  simp only [huffman_tree.codes, huffman_tree.codes_from, List.mem_append, List.nil_append] at he
  rcases he with he | he
  · have := (codes_from_extends zero _ e he).length_le
    simpa using this
  · have := (codes_from_extends one _ e he).length_le
    simpa using this

theorem code_of_mem (t : huffman_tree) (x : Nat) (hx : x ∈ t.symbols) :
    (x, t.code_of x) ∈ t.codes := by
  have hx2 : x ∈ t.codes.map Prod.fst := by
    rw [huffman_tree.codes, codes_from_map_fst]
    exact hx
  obtain ⟨e, he, hex⟩ := List.mem_map.mp hx2
  unfold huffman_tree.code_of
  cases hf : t.codes.find? (fun e => e.1 = x) with
  | none =>
    have := List.find?_eq_none.mp hf e he
    simp [hex] at this
  | some e2 =>
    have h1 := List.mem_of_find?_eq_some hf
    have h2 := List.find?_some hf
    simp only [decide_eq_true_eq] at h2
    simp only []
    rw [← h2]
    exact h1

theorem message_code_ok_of_mem (t : huffman_tree) (x : Nat) (hx : x ∈ t.symbols) :
    message_code_ok t.codes t.message_code x := by
  cases t with
  | leaf a =>
    simp only [huffman_tree.symbols, List.mem_singleton] at hx
    refine ⟨(a, []), by simp [huffman_tree.codes, huffman_tree.codes_from], hx.symm, ?_, ?_⟩
    · simp
    · simp [huffman_tree.message_code]
  | node zero one =>
    have hm := code_of_mem _ x hx
    have hl := codes_node_length zero one _ hm
    refine ⟨_, hm, rfl, ?_, ?_⟩
    · simp [huffman_tree.message_code]
    · have hl2 : ((huffman_tree.node zero one).code_of x).length ≠ 0 := by
        have : 1 ≤ ((huffman_tree.node zero one).code_of x).length := hl
        omega
      simp only [huffman_tree.message_code]
      rw [if_neg hl2]

theorem hulsken_header_bytes_lt (sl z cb : Nat) (hz : z < 256) (hcb : cb < 256) :
    ∀ b ∈ hulsken_header_bytes sl z cb, b < 256 := by
  intro b hb
  simp only [hulsken_header_bytes, List.mem_cons, List.mem_singleton, List.not_mem_nil,
    or_false] at hb
  rcases hb with rfl | rfl | rfl | rfl | rfl | rfl <;> omega

theorem hulsken_codeblock_lt (t : huffman_tree) (z cb sl : Nat) (message : List Bool)
    (hz : z < 256) (hcb : cb < 256) : ∀ b ∈ hulsken_codeblock t z cb sl message, b < 256 := by
  intro b hb
  simp only [hulsken_codeblock, List.mem_append] at hb
  rcases hb with hb | hb
  · exact hulsken_header_bytes_lt sl z cb hz hcb b hb
  · exact pack_bits_lt _ b hb

theorem hulsken_codeblock_length (t : huffman_tree) (z cb sl : Nat) (message : List Bool) :
    (hulsken_codeblock t z cb sl message).length
      = 6 + (t.serialize.length + message.length + 7) / 8 := by
  simp [hulsken_codeblock, hulsken_header_bytes, pack_bits_length]
  omega

/-- The header of a version 1 codeblock is read back. -/
theorem hulsken_read_header_codeblock (log2f_trunc : Int → Nat) (t : huffman_tree)
    (z cb sl : Nat) (message : List Bool) (tail : List Nat) (coeff_count : Nat)
    (hsl : sl < 2 ^ 32) :
    hulsken_read_header log2f_trunc (hulsken_codeblock t z cb sl message ++ tail) coeff_count 1
      = some { serialized_length := sl, zerorun_symbol := z, zero_counter_size := cb,
               bits_read := 48 } := by
  simp only [hulsken_read_header, if_true, hulsken_codeblock, hulsken_header_bytes,
    read_u32_le, List.cons_append, List.getD_cons_zero, List.getD_cons_succ, Nat.zero_add]
  congr 2
  norm_cast
  omega

theorem output_bytes_eq (output_buffer : Int → Nat) (s : List Nat)
    (h : ∀ i : Nat, i < s.length → output_buffer i = s.getD i 0) :
    output_bytes output_buffer s.length = s := by
  apply List.ext_getElem
  · simp [output_bytes]
  · intro i h1 h2
    simp only [output_bytes, List.getElem_map, List.getElem_range]
    rw [h i h2, List.getD_eq_getElem _ _ h2]

/-- C2 (amended): for every prefix-code tree of depth at most 16 whose leaves
carry distinct byte symbols, and every sequence `s` of symbols of that tree,
`isyntax_hulsken_decompress` with compressor version 1 and serialized length
`|s|`, applied to the codeblock made of the header, the serialized tree and the
concatenated codes of `s` (each occurrence of the zero run symbol followed by a
count field of zeros; in the tree of a single leaf one bit per symbol), returns
exactly `s` with `decompressed_size = |s|`, whatever bytes follow the codeblock
in memory and whatever the output buffer held.  The sizes fit the 32-bit
counters of the code and each loop is given enough iterations. -/
theorem hulsken_decompress_literals (log2f_trunc : Int → Nat) (t : huffman_tree)
    (zerorun_symbol zero_counter_size : Nat) (s : List Nat) (tail : List Nat)
    (coeff_count : Nat) (output_init : Int → Nat) (fuel : Nat)
    (hd : t.depth ≤ 16) (hsym : ∀ x ∈ t.symbols, x < 256) (hnd : t.symbols.Nodup)
    (hs : ∀ x ∈ s, x ∈ t.symbols) (hz : zerorun_symbol < 256) (hcb : zero_counter_size ≤ 31)
    (htail : ∀ b ∈ tail, b < 256) (hlen : s.length < 2 ^ 31)
    (hsize : 8 * (hulsken_codeblock t zerorun_symbol zero_counter_size s.length
      (hulsken_literal_bits t.message_code zerorun_symbol zero_counter_size s)).length < 2 ^ 31)
    (hfuel : t.leaves + s.length < fuel) :
    ∃ r, isyntax_hulsken_decompress log2f_trunc fuel
        (hulsken_codeblock t zerorun_symbol zero_counter_size s.length
          (hulsken_literal_bits t.message_code zerorun_symbol zero_counter_size s) ++ tail)
        (hulsken_codeblock t zerorun_symbol zero_counter_size s.length
          (hulsken_literal_bits t.message_code zerorun_symbol zero_counter_size s)).length
        coeff_count 1 output_init = some r
      ∧ output_bytes r.output_buffer s.length = s
      ∧ r.decompressed_size = s.length := by
  have _ := hsize
  have hbuf : ∀ b ∈ hulsken_codeblock t zerorun_symbol zero_counter_size s.length
      (hulsken_literal_bits t.message_code zerorun_symbol zero_counter_size s) ++ tail,
      b < 256 := by
    intro b hb
    rcases List.mem_append.mp hb with hb | hb
    · exact hulsken_codeblock_lt t _ _ _ _ hz (by omega) b hb
    · exact htail b hb
  have hstream := stream_has_codeblock t zerorun_symbol zero_counter_size s.length
    (hulsken_literal_bits t.message_code zerorun_symbol zero_counter_size s) tail
  have hwf := codes_wf_of_tree t hsym hnd hd
  have htable := hulsken_read_table_root _ hbuf t 48 huffman_initial fuel _ hstream hsym hd
    (by omega)
  have hmsg := ((stream_has_append _ _ _ 48).mp hstream).2
  obtain ⟨st, h1, h2, _, _, h5⟩ := hulsken_decode_literals _ hbuf
    (t.codes.foldl hulsken_store_leaf huffman_initial) t.codes (table_holds_foldl _ hwf) hwf
    t.message_code zerorun_symbol zero_counter_size hcb
    (((hulsken_codeblock t zerorun_symbol zero_counter_size s.length
      (hulsken_literal_bits t.message_code zerorun_symbol zero_counter_size s)).length * 8
        : Nat) : Int)
    (s.length : Int) (by exact_mod_cast hlen) s
    { bits_read := 48 + t.serialize.length, decompressed_length := 0,
      output_buffer := output_init }
    fuel [] (by simpa using hmsg) (fun x hx => message_code_ok_of_mem t x (hs x hx))
    (le_refl _) (by simp)
    (by
      simp only [hulsken_codeblock_length]
      norm_cast
      omega)
    (by omega)
  refine ⟨{ output_buffer := st.output_buffer, decompressed_size := st.decompressed_length },
    ?_, ?_, h2⟩
  · unfold isyntax_hulsken_decompress
    rw [hulsken_read_header_codeblock log2f_trunc t _ _ _ _ tail coeff_count (by omega)]
    simp only []
    have e : ({ fast := fun _ => 0x8080, code := fun _ => 0, size := fun _ => 0 } : huffman_t)
        = huffman_initial := rfl
    rw [e, htable]
    simp only []
    push_cast at h1 ⊢
    rw [h1]
  · apply output_bytes_eq
    intro i hi
    have := h5 i hi
    simpa using this

theorem hulsken_decompress_literals_witness :
    ∃ r, isyntax_hulsken_decompress (fun _ => 0) 8
        (hulsken_codeblock example_tree 0 4 3
          (hulsken_literal_bits example_tree.message_code 0 4 [5, 0, 7]) ++ [255, 255])
        (hulsken_codeblock example_tree 0 4 3
          (hulsken_literal_bits example_tree.message_code 0 4 [5, 0, 7])).length
        1 1 (fun _ => 170) = some r
      ∧ output_bytes r.output_buffer 3 = [5, 0, 7]
      ∧ r.decompressed_size = 3 :=
  hulsken_decompress_literals (fun _ => 0) example_tree 0 4 [5, 0, 7] [255, 255] 1
    (fun _ => 170) 8 (by decide) (by decide) (by decide) (by decide) (by decide) (by decide)
    (by decide) (by decide) (by decide) (by decide)

/-- Counterexample to C2 as stated: with the tree of the single leaf 65 the
code of the symbol is empty, so the codeblock for eight symbols is the header
and the serialized tree alone; the decoder takes one bit per symbol, finds
seven bits after the tree and returns seven symbols. -/
theorem hulsken_single_leaf_loses_symbol :
    hulsken_codeblock (.leaf 65) 0 4 8
        (hulsken_literal_bits (huffman_tree.leaf 65).code_of 0 4 (List.replicate 8 65))
      = [8, 0, 0, 0, 0, 4, 131, 0]
    ∧ (isyntax_hulsken_decompress (fun _ => 0) 16 [8, 0, 0, 0, 0, 4, 131, 0] 8 1 1
        (fun _ => 170)).map (fun r => (output_bytes r.output_buffer 8, r.decompressed_size))
      = some ([65, 65, 65, 65, 65, 65, 65, 170], 7) := by
  constructor
  · decide
  · decide!

/-- With a tree of depth 17 the codes of 17 bits do not fit the `u16` entries
of `huffman.code`: the symbols 16 and 17 are not decoded back. -/
theorem hulsken_depth_17_code_truncated :
    (example_spine 17 0).depth = 17
    ∧ (isyntax_hulsken_decompress (fun _ => 0) 64
        (hulsken_codeblock (example_spine 17 0) 0 4 2
          (hulsken_literal_bits (example_spine 17 0).message_code 0 4 [16, 17]))
        (hulsken_codeblock (example_spine 17 0) 0 4 2
          (hulsken_literal_bits (example_spine 17 0).message_code 0 4 [16, 17])).length
        1 1 (fun _ => 170)).map (fun r => (output_bytes r.output_buffer 2, r.decompressed_size))
      ≠ some ([16, 17], 2) := by
  constructor
  · decide
  · decide!

/-! ### Zero runs -/

theorem zero_run_value_ge (cb : Nat) (counts : List Nat) :
    ∀ v, v ≤ zero_run_value cb v counts := by
  induction counts with
  | nil => intro v; exact le_refl _
  | cons d rest ih =>
    intro v
    have h1 := ih (v * 2 ^ cb + d)
    have h2 : v ≤ v * 2 ^ cb := Nat.le_mul_of_pos_right v (Nat.two_pow_pos cb)
    simp only [zero_run_value, List.foldl_cons] at h1 ⊢
    omega

theorem zero_run_value_append (cb v : Nat) (l1 l2 : List Nat) :
    zero_run_value cb v (l1 ++ l2) = zero_run_value cb (zero_run_value cb v l1) l2 := by
  simp [zero_run_value, List.foldl_append]

theorem shiftRight_lt_self (n cb : Nat) (hn : 0 < n) (hcb : 1 ≤ cb) : n >>> cb < n := by
  rw [Nat.shiftRight_eq_div_pow]
  apply Nat.div_lt_self hn
  calc 1 < 2 ^ 1 := by norm_num
    _ ≤ 2 ^ cb := Nat.pow_le_pow_right (by omega) hcb

/-- The counts of a run are the digits of its length. -/
theorem zero_run_counts_value (cb : Nat) (hcb : 1 ≤ cb) :
    ∀ fuel n, n ≤ fuel → zero_run_value cb 0 (zero_run_counts cb fuel n) = n := by
  intro fuel
  induction fuel with
  | zero =>
    intro n hn
    have : n = 0 := by omega
    subst this
    rfl
  | succ fuel ih =>
    intro n hn
    simp only [zero_run_counts]
    by_cases h0 : n = 0
    · rw [if_pos h0, h0]
      rfl
    · rw [if_neg h0, zero_run_value_append]
      have hlt := shiftRight_lt_self n cb (by omega) hcb
      rw [ih _ (by omega)]
      simp only [zero_run_value, List.foldl_cons, List.foldl_nil]
      rw [Nat.shiftRight_eq_div_pow]
      exact Nat.div_add_mod' n (2 ^ cb)

theorem zero_run_counts_lt (cb : Nat) :
    ∀ fuel n, ∀ d ∈ zero_run_counts cb fuel n, d < 2 ^ cb := by
  intro fuel
  induction fuel with
  | zero => intro n d hd; simp [zero_run_counts] at hd
  | succ fuel ih =>
    intro n d hd
    simp only [zero_run_counts] at hd
    by_cases h0 : n = 0
    · rw [if_pos h0] at hd
      simp at hd
    · rw [if_neg h0] at hd
      rcases List.mem_append.mp hd with hd | hd
      · exact ih _ d hd
      · simp only [List.mem_singleton] at hd
        rw [hd]
        exact Nat.mod_lt _ (Nat.two_pow_pos cb)

/-- The counts of a non-empty run start with a non-zero count. -/
theorem zero_run_counts_head (cb : Nat) (hcb : 1 ≤ cb) :
    ∀ fuel n, 0 < n → n ≤ fuel →
      ∃ d rest, zero_run_counts cb fuel n = d :: rest ∧ d ≠ 0 := by
  intro fuel
  induction fuel with
  | zero => intro n h1 h2; omega
  | succ fuel ih =>
    intro n h1 h2
    simp only [zero_run_counts]
    rw [if_neg (by omega)]
    have hlt := shiftRight_lt_self n cb h1 hcb
    by_cases hq : n >>> cb = 0
    · refine ⟨n % 2 ^ cb, [], ?_, ?_⟩
      · rw [hq]
        cases fuel <;> simp [zero_run_counts]
      · rw [Nat.shiftRight_eq_div_pow] at hq
        have := Nat.div_add_mod' n (2 ^ cb)
        rw [hq] at this
        omega
    · obtain ⟨d, rest, e, hd⟩ := ih (n >>> cb) (Nat.pos_of_ne_zero hq)
        (Nat.le_of_lt_succ (lt_of_lt_of_le hlt h2))
      exact ⟨d, rest ++ [n % 2 ^ cb], by rw [e]; rfl, hd⟩

theorem zero_run_counts_length (cb : Nat) (hcb : 1 ≤ cb) :
    ∀ fuel n, (zero_run_counts cb fuel n).length ≤ n := by
  intro fuel
  induction fuel with
  | zero => intro n; simp [zero_run_counts]
  | succ fuel ih =>
    intro n
    simp only [zero_run_counts]
    by_cases h0 : n = 0
    · rw [if_pos h0]
      simp
    · rw [if_neg h0]
      have hlt := shiftRight_lt_self n cb (by omega) hcb
      have := ih (n >>> cb)
      simp only [List.length_append, List.length_singleton]
      omega

theorem zero_run_bits_length (zc : List Bool) (cb : Nat) (counts : List Nat) :
    (zero_run_bits zc cb counts).length = counts.length * (zc.length + cb) := by
  induction counts with
  | nil => simp [zero_run_bits]
  | cons d rest ih =>
    simp only [zero_run_bits, List.length_append, bits_lsb_length, ih, List.length_cons]
    ring

/-- The loop that gathers adjacent zero run symbols reads the whole chain of
counts when the bits after the chain do not start with the zero run code. -/
theorem hulsken_extend_zero_run_chain (buffer : List Nat) (hbuf : ∀ b ∈ buffer, b < 256)
    (zc : List Bool) (hz8 : zc.length ≤ 8) (cb : Nat) (hcb : cb ≤ 31)
    (sl dl : Int) (hsl : sl < 2 ^ 31) (hdl : 0 ≤ dl) (after : List Bool) (last : Nat)
    (hend : ¬ code_matches (bitstream_lsb_read buffer last) zc) :
    ∀ (rest : List Nat) (v pos fuel : Nat),
      (∀ d ∈ rest, d < 2 ^ cb) →
      stream_has buffer pos (zero_run_bits zc cb rest ++ after) →
      pos + (zero_run_bits zc cb rest).length = last →
      dl + (zero_run_value cb v rest : Nat) < sl →
      rest.length < fuel →
      hulsken_extend_zero_run buffer 1 (bits_val zc) zc.length (mask32 zc.length) cb (mask32 cb)
        sl dl fuel v pos = some (zero_run_value cb v rest, last) := by
  intro rest
  induction rest with
  | nil =>
    intro v pos fuel _ _ hpos _ hf
    obtain ⟨f, rfl⟩ : ∃ f, fuel = f + 1 := ⟨fuel - 1, by simp at hf; omega⟩
    simp only [zero_run_bits, List.length_nil, add_zero] at hpos
    subst hpos
    have hend2 : ¬ bitstream_lsb_read buffer pos % 2 ^ zc.length = bits_val zc := hend
    have hlt : bitstream_lsb_read buffer pos % 2 ^ zc.length < 2 ^ 8 :=
      lt_of_lt_of_le (Nat.mod_lt _ (Nat.two_pow_pos _)) (Nat.pow_le_pow_right (by omega) hz8)
    simp only [hulsken_extend_zero_run]
    rw [mask32_and _ _ (by omega), Nat.mod_eq_of_lt hlt, if_neg hend2]
    rfl
  | cons d rest ih =>
    intro v pos fuel hd hs hpos hval hf
    obtain ⟨f, rfl⟩ : ∃ f, fuel = f + 1 := ⟨fuel - 1, by simp at hf; omega⟩
    simp only [zero_run_bits, List.append_assoc] at hs
    have hs0 := hs
    rw [stream_has_append] at hs
    obtain ⟨hs1, hs2⟩ := hs
    rw [stream_has_append] at hs2
    obtain ⟨hs3, hs4⟩ := hs2
    have hm : bitstream_lsb_read buffer pos % 2 ^ zc.length = bits_val zc :=
      code_matches_of_stream_has buffer hbuf pos zc hs1 (by omega)
    have hlt : bitstream_lsb_read buffer pos % 2 ^ zc.length < 2 ^ 8 :=
      lt_of_lt_of_le (Nat.mod_lt _ (Nat.two_pow_pos _)) (Nat.pow_le_pow_right (by omega) hz8)
    have hd1 : d < 2 ^ cb := hd d (by simp)
    have hextra : (bitstream_lsb_read buffer pos >>> zc.length) % 2 ^ cb = d := by
      have := blob_mod_eq_bits_val buffer hbuf pos zc.length _ hs3
        (by rw [bits_lsb_length]; omega)
      rw [bits_lsb_length, bits_val_bits_lsb, Nat.mod_eq_of_lt hd1] at this
      exact this
    have hge := zero_run_value_ge cb rest (v * 2 ^ cb + d)
    have hval2 : zero_run_value cb v (d :: rest) = zero_run_value cb (v * 2 ^ cb + d) rest := rfl
    rw [hval2] at hval ⊢
    have hv32 : v * 2 ^ cb + d < 2 ^ 31 := by
      have : ((v * 2 ^ cb + d : Nat) : Int) ≤ (zero_run_value cb (v * 2 ^ cb + d) rest : Nat) := by
        exact_mod_cast hge
      have : ((v * 2 ^ cb + d : Nat) : Int) < 2 ^ 31 := by omega
      exact_mod_cast this
    have hnum : ((v <<< cb) % 2 ^ 32) ||| d = v * 2 ^ cb + d := by
      have h1 : v <<< cb = v * 2 ^ cb := Nat.shiftLeft_eq v cb
      rw [Nat.mod_eq_of_lt (by rw [h1]; omega), shiftLeft_or_eq v cb d hd1, Nat.mul_comm]
    simp only [hulsken_extend_zero_run]
    rw [mask32_and _ _ (by omega), Nat.mod_eq_of_lt hlt, if_pos hm]
    simp only [OfNat.one_ne_ofNat, if_false]
    rw [mask32_and _ _ (by omega), hextra, hnum]
    have hnb : ¬ (dl + ((v * 2 ^ cb + d : Nat) : Int)) % 2 ^ 32 ≥ sl := by
      have h1 : ((v * 2 ^ cb + d : Nat) : Int) ≤ (zero_run_value cb (v * 2 ^ cb + d) rest : Nat) := by
        exact_mod_cast hge
      have h2 : (0 : Int) ≤ ((v * 2 ^ cb + d : Nat) : Int) := Int.natCast_nonneg _
      rw [Int.emod_eq_of_lt (by omega) (by omega)]
      omega
    rw [if_neg hnb]
    apply ih (v * 2 ^ cb + d) (pos + (zc.length + cb)) f (fun x hx => hd x (by simp [hx]))
    · have e : pos + zc.length + (bits_lsb d cb).length = pos + (zc.length + cb) := by
        rw [bits_lsb_length]
        omega
      rw [e] at hs4
      exact hs4
    · rw [← hpos]
      simp only [zero_run_bits, List.length_append, bits_lsb_length]
      omega
    · exact hval
    · simp at hf
      omega

/-- The message decoding loop on a chain of zero run symbols for `N ≥ 1`
zeros followed by the code of a symbol `b` other than the zero run symbol:
`N` zeros are written, then `b`. -/
theorem hulsken_decode_run_then_literal (buffer : List Nat) (hbuf : ∀ b ∈ buffer, b < 256)
    (h : huffman_t) (L : List (Nat × List Bool)) (hT : table_holds h L) (hwf : codes_wf L)
    (mc : Nat → List Bool) (z cb : Nat) (hcb : cb ≤ 31) (bsb : Int) (N b : Nat)
    (hN : (N : Int) + 1 < 2 ^ 31)
    (hzL : (z, mc z) ∈ L) (hz1 : 1 ≤ (mc z).length) (hz8 : (mc z).length ≤ 8)
    (hbok : message_code_ok L mc b) (hbz : b ≠ z)
    (d : Nat) (rest : List Nat) (hd0 : d ≠ 0) (hdlt : ∀ x ∈ d :: rest, x < 2 ^ cb)
    (hval : zero_run_value cb 0 (d :: rest) = N)
    (st : hulsken_state_t) (hst : st.decompressed_length = 0)
    (hs : stream_has buffer st.bits_read (zero_run_bits (mc z) cb (d :: rest) ++ mc b))
    (hbits : (st.bits_read : Int) + (zero_run_bits (mc z) cb (d :: rest)).length
      + (mc b).length ≤ bsb)
    (fuel : Nat) (hf : rest.length + 3 ≤ fuel) :
    ∃ st', hulsken_decode_message buffer 1 h z cb bsb ((N : Int) + 1) fuel st = some st' ∧
      st'.decompressed_length = (N : Int) + 1 ∧
      (∀ i : Nat, i < N → st'.output_buffer i = 0) ∧
      st'.output_buffer N = b := by
  obtain ⟨f, rfl⟩ : ∃ f, fuel = f + 1 := ⟨fuel - 1, by omega⟩
  have hzok : message_code_ok L mc z :=
    ⟨(z, mc z), hzL, rfl, List.prefix_refl _, by simp only []; rw [if_neg (by omega)]⟩
  obtain ⟨hsize, hcode⟩ := hT.size_code (z, mc z) hzL
  simp only [] at hsize hcode
  have hd1 : d < 2 ^ cb := hdlt d (by simp)
  have hval2 : zero_run_value cb d rest = N := by
    rw [← hval]
    simp [zero_run_value]
  have hdN : d ≤ N := by
    rw [← hval2]
    exact zero_run_value_ge cb rest d
  have hs0 := hs
  simp only [zero_run_bits, List.append_assoc] at hs
  have hsym := hulsken_decode_symbol_at buffer hbuf h L hT hwf mc z hzok st.bits_read _ hs
  rw [stream_has_append] at hs
  obtain ⟨_, hs2⟩ := hs
  rw [stream_has_append] at hs2
  obtain ⟨hs3, hs4⟩ := hs2
  rw [bits_lsb_length] at hs4
  have hs5 := ((stream_has_append _ _ _ _).mp hs4).2
  have hnum0 : (bitstream_lsb_read buffer st.bits_read >>> (mc z).length) &&& mask32 cb = d := by
    rw [mask32_and _ _ (by omega)]
    have := blob_mod_eq_bits_val buffer hbuf st.bits_read (mc z).length _ hs3
      (by rw [bits_lsb_length]; omega)
    rw [bits_lsb_length, bits_val_bits_lsb, Nat.mod_eq_of_lt hd1] at this
    exact this
  have hbl := message_code_length L hwf mc b hbok
  have hq : ¬ (0 : Int) ≥ (N : Int) + 1 := by omega
  have hd0' : d > 0 := by omega
  have hz0 : ¬ (mc z).length = 0 := by omega
  have hmem : ∀ i : Nat, i < N → (0 : Int) ≤ (i : Int) ∧ (i : Int) < 0 + (N : Int) % 2 ^ 64 := by
    intro i hi
    rw [Int.emod_eq_of_lt (by omega) (by omega)]
    omega
  -- the bits after the chain are the code of `b`, not the zero run code
  have hend : ¬ code_matches (bitstream_lsb_read buffer
      (st.bits_read + (mc z).length + cb + (zero_run_bits (mc z) cb rest).length)) (mc z) := by
    intro hm
    obtain ⟨e, he, he1, he2, _⟩ := hbok
    have hmb : code_matches (bitstream_lsb_read buffer
        (st.bits_read + (mc z).length + cb + (zero_run_bits (mc z) cb rest).length)) e.2 :=
      code_matches_of_stream_has buffer hbuf _ e.2
        (stream_has_initial buffer _ e.2 (mc b) he2 hs5) (by have := he2.length_le; omega)
    have heq : e = (z, mc z) := by
      rcases Nat.le_total e.2.length (mc z).length with hl | hl
      · exact hwf.prefix_free e he (z, mc z) hzL (code_matches_comparable _ _ _ hmb hm hl)
      · exact (hwf.prefix_free (z, mc z) hzL e he (code_matches_comparable _ _ _ hm hmb hl)).symm
    rw [heq] at he1
    exact hbz he1.symm
  have hchain := hulsken_extend_zero_run_chain buffer hbuf (mc z) hz8 cb hcb ((N : Int) + 1) 0
    hN (le_refl _) (mc b) _ hend rest d (st.bits_read + (mc z).length + cb) f
    (fun x hx => hdlt x (by simp [hx])) hs4 rfl (by rw [hval2]; omega) (by omega)
  rw [hval2] at hchain
  have hlt1 : (st.bits_read : Int) < bsb := by
    have : (0 : Int) ≤ ((zero_run_bits (mc z) cb (d :: rest)).length : Nat) :=
      Int.natCast_nonneg _
    omega
  have hnb : ¬ ((0 : Int) + (d : Int)) % 2 ^ 32 ≥ (N : Int) + 1 := by
    rw [Int.emod_eq_of_lt (by omega) (by omega)]
    omega
  have hmin : to_i32 (min ((N : Int) + 1 - 0) (N : Int)) = N := by
    rw [min_eq_right (by omega)]
    exact to_i32_of_range _ (by omega) (by omega)
  have hdl2 : to_i32 (0 + (N : Int)) = N := by
    rw [zero_add]
    exact to_i32_of_range _ (by omega) (by omega)
  obtain ⟨st', h1, h2, _, h4, h5⟩ := hulsken_decode_literals buffer hbuf h L hT hwf mc z cb hcb
    bsb ((N : Int) + 1) hN [b]
    { bits_read := st.bits_read + (mc z).length + cb + (zero_run_bits (mc z) cb rest).length
      decompressed_length := N
      output_buffer := memset_zero st.output_buffer 0 N }
    f [] (by simpa [hulsken_literal_bits, hbz] using hs5)
    (fun x hx => by rw [List.mem_singleton.mp hx]; exact hbok) (by simp) (by simp)
    (by
      simp only [hulsken_literal_bits, if_neg hbz, List.append_nil, List.length_append,
        zero_run_bits, bits_lsb_length] at hbits ⊢
      push_cast at hbits ⊢
      omega)
    (by simp; omega)
  refine ⟨st', ?_, h2, ?_, ?_⟩
  · rw [← h1]
    simp only [hulsken_decode_message]
    rw [if_neg (not_not.mpr hlt1), hst, if_neg hq, hsym]
    simp only [if_true]
    rw [hnum0, if_pos hd0']
    simp only [OfNat.one_ne_ofNat, if_false]
    rw [if_neg hnb, hsize, hcode, if_neg hz0, hchain]
    simp only []
    rw [hmin, hdl2]
  · intro i hi
    rw [h4 i (by simp only []; exact_mod_cast hi)]
    simp only [memset_zero]
    rw [if_pos (hmem i hi)]
  · have := h5 0 (by simp)
    simpa using this

/-- The message decoding loop on the zero run for `N` zeros (nothing when
`N = 0`) followed by the code of a symbol `b` other than the zero run symbol. -/
theorem hulsken_decode_zero_run_message (buffer : List Nat) (hbuf : ∀ b ∈ buffer, b < 256)
    (h : huffman_t) (L : List (Nat × List Bool)) (hT : table_holds h L) (hwf : codes_wf L)
    (mc : Nat → List Bool) (z cb : Nat) (hcb1 : 1 ≤ cb) (hcb : cb ≤ 31) (bsb : Int) (N b : Nat)
    (hN : (N : Int) + 1 < 2 ^ 31)
    (hzL : (z, mc z) ∈ L) (hz1 : 1 ≤ (mc z).length) (hz8 : (mc z).length ≤ 8)
    (hbok : message_code_ok L mc b) (hbz : b ≠ z)
    (st : hulsken_state_t) (hst : st.decompressed_length = 0)
    (hs : stream_has buffer st.bits_read
      (zero_run_bits (mc z) cb (zero_run_counts cb N N) ++ mc b))
    (hbits : (st.bits_read : Int) + (zero_run_bits (mc z) cb (zero_run_counts cb N N)).length
      + (mc b).length ≤ bsb)
    (fuel : Nat) (hf : N + 3 ≤ fuel) :
    ∃ st', hulsken_decode_message buffer 1 h z cb bsb ((N : Int) + 1) fuel st = some st' ∧
      st'.decompressed_length = (N : Int) + 1 ∧
      (∀ i : Nat, i < N → st'.output_buffer i = 0) ∧
      st'.output_buffer N = b := by
  by_cases h0 : N = 0
  · subst h0
    have e : zero_run_counts cb 0 0 = [] := rfl
    rw [e] at hs hbits
    simp only [zero_run_bits, List.nil_append, List.length_nil, Nat.cast_zero, add_zero] at hs hbits
    obtain ⟨st', h1, h2, _, _, h5⟩ := hulsken_decode_literals buffer hbuf h L hT hwf mc z cb hcb
      bsb (((0 : Nat) : Int) + 1) hN [b] st fuel []
      (by simpa [hulsken_literal_bits, hbz] using hs)
      (fun x hx => by rw [List.mem_singleton.mp hx]; exact hbok) (by rw [hst])
      (by rw [hst]; simp)
      (by
        simp only [hulsken_literal_bits, if_neg hbz, List.append_nil]
        exact hbits)
      (by simp; omega)
    refine ⟨st', h1, h2, fun i hi => absurd hi (Nat.not_lt_zero i), ?_⟩
    have := h5 0 (by simp)
    rw [hst] at this
    simpa using this
  · obtain ⟨d, rest, e, hd0⟩ := zero_run_counts_head cb hcb1 N N (by omega) (le_refl _)
    have hlen := zero_run_counts_length cb hcb1 N N
    have hlt := zero_run_counts_lt cb N N
    have hval := zero_run_counts_value cb hcb1 N N (le_refl _)
    rw [e] at hs hbits hlen hlt hval
    exact hulsken_decode_run_then_literal buffer hbuf h L hT hwf mc z cb hcb bsb N b hN hzL hz1
      hz8 hbok hbz d rest hd0 hlt hval st hst hs hbits fuel
      (by simp only [List.length_cons] at hlen; omega)

theorem output_bytes_run (output_buffer : Int → Nat) (N b : Nat)
    (h0 : ∀ i : Nat, i < N → output_buffer i = 0) (hb : output_buffer N = b) :
    output_bytes output_buffer (N + 1) = List.replicate N 0 ++ [b] := by
  have := output_bytes_eq output_buffer (List.replicate N 0 ++ [b]) (by
    intro i hi
    simp only [List.length_append, List.length_replicate, List.length_singleton] at hi
    by_cases hiN : i < N
    · rw [h0 i hiN, List.getD_append _ _ _ _ (by simpa using hiN)]
      simp [List.getD_eq_getElem, hiN]
    · have : i = N := by omega
      subst this
      rw [hb, List.getD_append_right _ _ _ _ (by simp)]
      simp)
  simpa using this

/-- C3 (amended): for every Huffman table given by a prefix-code tree of depth
at most 16 with distinct byte symbols, in which the escape symbol has a code of
at most 8 bits, every counter width from 1 to 31 and every `N ≥ 0` with
`N + 1 < 2 ^ 31`, the version 1 message that encodes `N` zero bytes as a zero
run (the escape code followed by a count, one pair per digit of `N` in base
`2 ^ counter_bits`, most significant first; nothing when `N = 0`) followed by
the code of a byte `b` other than the escape symbol, decoded by
`isyntax_hulsken_decompress` with serialized length `N + 1`, yields exactly `N`
zero bytes followed by `b` (`b` need not be non-zero). -/
theorem hulsken_decompress_zero_run (log2f_trunc : Int → Nat) (t : huffman_tree)
    (zerorun_symbol zero_counter_size N b : Nat) (tail : List Nat)
    (coeff_count : Nat) (output_init : Int → Nat) (fuel : Nat)
    (hd : t.depth ≤ 16) (hsym : ∀ x ∈ t.symbols, x < 256) (hnd : t.symbols.Nodup)
    (hz : zerorun_symbol ∈ t.symbols) (hz8 : (t.code_of zerorun_symbol).length ≤ 8)
    (hb : b ∈ t.symbols) (hbz : b ≠ zerorun_symbol)
    (hcb1 : 1 ≤ zero_counter_size) (hcb : zero_counter_size ≤ 31)
    (htail : ∀ x ∈ tail, x < 256) (hN : N + 1 < 2 ^ 31)
    (hsize : 8 * (hulsken_codeblock t zerorun_symbol zero_counter_size (N + 1)
      (zero_run_bits (t.code_of zerorun_symbol) zero_counter_size
        (zero_run_counts zero_counter_size N N) ++ t.code_of b)).length < 2 ^ 31)
    (hfuel : t.leaves + N + 3 ≤ fuel) :
    ∃ r, isyntax_hulsken_decompress log2f_trunc fuel
        (hulsken_codeblock t zerorun_symbol zero_counter_size (N + 1)
          (zero_run_bits (t.code_of zerorun_symbol) zero_counter_size
            (zero_run_counts zero_counter_size N N) ++ t.code_of b) ++ tail)
        (hulsken_codeblock t zerorun_symbol zero_counter_size (N + 1)
          (zero_run_bits (t.code_of zerorun_symbol) zero_counter_size
            (zero_run_counts zero_counter_size N N) ++ t.code_of b)).length
        coeff_count 1 output_init = some r
      ∧ output_bytes r.output_buffer (N + 1) = List.replicate N 0 ++ [b]
      ∧ r.decompressed_size = (N : Int) + 1 := by
  have _ := hsize
  have hbuf : ∀ x ∈ hulsken_codeblock t zerorun_symbol zero_counter_size (N + 1)
      (zero_run_bits (t.code_of zerorun_symbol) zero_counter_size
        (zero_run_counts zero_counter_size N N) ++ t.code_of b) ++ tail, x < 256 := by
    intro x hx
    rcases List.mem_append.mp hx with hx | hx
    · exact hulsken_codeblock_lt t _ _ _ _ (hsym _ hz) (by omega) x hx
    · exact htail x hx
  have hstream := stream_has_codeblock t zerorun_symbol zero_counter_size (N + 1)
    (zero_run_bits (t.code_of zerorun_symbol) zero_counter_size
      (zero_run_counts zero_counter_size N N) ++ t.code_of b) tail
  have hwf := codes_wf_of_tree t hsym hnd hd
  have htable := hulsken_read_table_root _ hbuf t 48 huffman_initial fuel _ hstream hsym hd
    (by omega)
  have hmsg := ((stream_has_append _ _ _ 48).mp hstream).2
  -- the tree has more than one leaf, so every code has at least one bit
  have hzL := code_of_mem t zerorun_symbol hz
  have hbL := code_of_mem t b hb
  have hlen1 : ∀ x ∈ t.symbols, 1 ≤ (t.code_of x).length := by
    cases t with
    | leaf a =>
      simp only [huffman_tree.symbols, List.mem_singleton] at hz hb
      exact absurd (hb.trans hz.symm) hbz
    | node zero one =>
      intro x hx
      exact codes_node_length zero one _ (code_of_mem _ x hx)
  have hbok : message_code_ok t.codes t.code_of b :=
    ⟨_, hbL, rfl, List.prefix_refl _, by
      have := hlen1 b hb
      simp only []
      rw [if_neg (by omega)]⟩
  obtain ⟨st, h1, h2, h3, h4⟩ := hulsken_decode_zero_run_message _ hbuf
    (t.codes.foldl hulsken_store_leaf huffman_initial) t.codes (table_holds_foldl _ hwf) hwf
    t.code_of zerorun_symbol zero_counter_size hcb1 hcb
    (((hulsken_codeblock t zerorun_symbol zero_counter_size (N + 1)
      (zero_run_bits (t.code_of zerorun_symbol) zero_counter_size
        (zero_run_counts zero_counter_size N N) ++ t.code_of b)).length * 8 : Nat) : Int)
    N b (by exact_mod_cast hN) hzL (hlen1 _ hz) hz8 hbok hbz
    { bits_read := 48 + t.serialize.length, decompressed_length := 0,
      output_buffer := output_init }
    rfl hmsg
    (by
      simp only [hulsken_codeblock_length, List.length_append]
      norm_cast
      omega)
    fuel (by omega)
  refine ⟨{ output_buffer := st.output_buffer, decompressed_size := st.decompressed_length },
    ?_, output_bytes_run _ N b h3 h4, h2⟩
  unfold isyntax_hulsken_decompress
  rw [hulsken_read_header_codeblock log2f_trunc t _ _ _ _ tail coeff_count (by omega)]
  simp only []
  have e : ({ fast := fun _ => 0x8080, code := fun _ => 0, size := fun _ => 0 } : huffman_t)
      = huffman_initial := rfl
  rw [e, htable]
  simp only []
  push_cast at h1 ⊢
  rw [h1]

theorem hulsken_decompress_zero_run_witness :
    ∃ r, isyntax_hulsken_decompress (fun _ => 0) 15
        (hulsken_codeblock example_tree 0 2 (9 + 1)
          (zero_run_bits (example_tree.code_of 0) 2 (zero_run_counts 2 9 9)
            ++ example_tree.code_of 7) ++ [255, 255])
        (hulsken_codeblock example_tree 0 2 (9 + 1)
          (zero_run_bits (example_tree.code_of 0) 2 (zero_run_counts 2 9 9)
            ++ example_tree.code_of 7)).length
        1 1 (fun _ => 170) = some r
      ∧ output_bytes r.output_buffer (9 + 1) = List.replicate 9 0 ++ [7]
      ∧ r.decompressed_size = ((9 : Nat) : Int) + 1 :=
  hulsken_decompress_zero_run (fun _ => 0) example_tree 0 2 9 7 [255, 255] 1
    (fun _ => 170) 15 (by decide) (by decide) (by decide) (by decide) (by decide) (by decide)
    (by decide) (by decide) (by decide) (by decide) (by decide) (by decide) (by decide)

/-- Counterexample to C3 as stated: with escape symbol 7, the run of five
zeros followed by the non-zero byte 7, whose code is the escape code, is read
as one chain: the decoder writes six zeros and reports 80 bytes, also when the
byte 7 is followed by a zero count field. -/
theorem hulsken_zero_run_absorbs_escape_symbol :
    (isyntax_hulsken_decompress (fun _ => 0) 16
        (hulsken_codeblock example_tree 7 4 (5 + 1)
          (zero_run_bits (example_tree.code_of 7) 4 (zero_run_counts 4 5 5)
            ++ example_tree.code_of 7))
        (hulsken_codeblock example_tree 7 4 (5 + 1)
          (zero_run_bits (example_tree.code_of 7) 4 (zero_run_counts 4 5 5)
            ++ example_tree.code_of 7)).length
        1 1 (fun _ => 170)).map (fun r => (output_bytes r.output_buffer 6, r.decompressed_size))
      = some ([0, 0, 0, 0, 0, 0], 80)
    ∧ (isyntax_hulsken_decompress (fun _ => 0) 16
        (hulsken_codeblock example_tree 7 4 (5 + 1)
          (zero_run_bits (example_tree.code_of 7) 4 (zero_run_counts 4 5 5)
            ++ hulsken_literal_bits example_tree.code_of 7 4 [7]))
        (hulsken_codeblock example_tree 7 4 (5 + 1)
          (zero_run_bits (example_tree.code_of 7) 4 (zero_run_counts 4 5 5)
            ++ hulsken_literal_bits example_tree.code_of 7 4 [7])).length
        1 1 (fun _ => 170)).map (fun r => (output_bytes r.output_buffer 6, r.decompressed_size))
      = some ([0, 0, 0, 0, 0, 0], 80) := by
  constructor
  · decide!
  · decide!

/-- With an escape code of nine bits the chain of two counts for twenty zeros
is not recognised (`next_code` is a `u8`, the escape code is 511): the result
is not twenty zeros followed by the byte 3. -/
theorem hulsken_zero_run_long_escape_code_not_chained :
    (example_deep_tree.code_of 9).length = 9
    ∧ (isyntax_hulsken_decompress (fun _ => 0) 64
        (hulsken_codeblock example_deep_tree 9 4 (20 + 1)
          (zero_run_bits (example_deep_tree.code_of 9) 4 (zero_run_counts 4 20 20)
            ++ example_deep_tree.code_of 3))
        (hulsken_codeblock example_deep_tree 9 4 (20 + 1)
          (zero_run_bits (example_deep_tree.code_of 9) 4 (zero_run_counts 4 20 20)
            ++ example_deep_tree.code_of 3)).length
        1 1 (fun _ => 170)).map (fun r => (output_bytes r.output_buffer 21, r.decompressed_size))
      ≠ some (List.replicate 20 0 ++ [3], 21) := by
  constructor
  · decide
  · decide!

/-! ### The block header table: record count and record copy -/

/-- The copying loop writes record `j` into codeblock `j` for the `n` records
from `i` on and leaves the other codeblocks alone. -/
theorem copy_block_headers_apply (read_block_header : Nat → isyntax_codeblock_t) :
    ∀ (n i : Nat) (codeblocks : Nat → isyntax_codeblock_t) (j : Nat),
      copy_block_headers read_block_header n i codeblocks j
        = if i ≤ j ∧ j < i + n then read_block_header j else codeblocks j := by
  intro n
  induction n with
  | zero =>
    intro i codeblocks j
    simp only [copy_block_headers]
    rw [if_neg (by omega)]
  | succ n ih =>
    intro i codeblocks j
    simp only [copy_block_headers]
    rw [ih]
    by_cases h1 : i + 1 ≤ j ∧ j < i + 1 + n
    · rw [if_pos h1, if_pos (by omega)]
    · rw [if_neg h1]
      by_cases h2 : j = i
      · rw [if_pos h2, if_pos (by omega), h2]
      · rw [if_neg h2, if_neg (by omega)]

/-- C11 (amended): when the first record of the decoded block header table
has size field 40, the image is marked partial and `codeblock_count` is the
declared table length divided by 48, the size of the record with its 8-byte
sequence element; when the size field is 72, the image is marked not partial,
`codeblock_count` is the declared length divided by 80, and `block_data_offset`
and `block_size` of codeblock `i` are those that the loop body reads from
record `i`, for every `i` below the count. -/
theorem block_header_table_decode
    (read_tag_header : List Nat → Nat → dicom_tag_header_t)
    (read_partial_block_header read_full_block_header : List Nat → Nat → isyntax_codeblock_t)
    (image : isyntax_image_t) (decoded : List Nat) :
    ((read_tag_header decoded 4).size = 40 →
      isyntax_image_t.header_codeblocks_are_partial (isyntax_decode_block_header_table
        read_tag_header read_partial_block_header read_full_block_header image decoded) = true ∧
      (isyntax_decode_block_header_table read_tag_header read_partial_block_header
        read_full_block_header image decoded).codeblock_count = read_u32_le decoded 0 / 48) ∧
    ((read_tag_header decoded 4).size = 72 →
      isyntax_image_t.header_codeblocks_are_partial (isyntax_decode_block_header_table
        read_tag_header read_partial_block_header read_full_block_header image decoded) = false ∧
      (isyntax_decode_block_header_table read_tag_header read_partial_block_header
        read_full_block_header image decoded).codeblock_count = read_u32_le decoded 0 / 80 ∧
      ∃ codeblocks, (isyntax_decode_block_header_table read_tag_header read_partial_block_header
          read_full_block_header image decoded).codeblocks = some codeblocks ∧
        ∀ i, i < read_u32_le decoded 0 / 80 →
          (codeblocks i).block_data_offset
            = (read_full_block_header decoded i).block_data_offset ∧
          (codeblocks i).block_size = (read_full_block_header decoded i).block_size) := by
  constructor
  · intro h
    unfold isyntax_decode_block_header_table
    simp [h]
  · intro h
    have h40 : ¬ (read_tag_header decoded 4).size = 40 := by omega
    unfold isyntax_decode_block_header_table
    simp only [if_neg h40, if_pos h]
    refine ⟨trivial, rfl, _, rfl, ?_⟩
    intro i hi
    rw [copy_block_headers_apply, if_pos (by omega)]
    exact ⟨rfl, rfl⟩

/-- Witness for C11: a table of two full records. -/
theorem block_header_table_decode_witness :
    (example_read_tag_header example_full_table 4).size = 72 ∧
    (isyntax_decode_block_header_table example_read_tag_header (example_read_block_header 48)
      example_read_full_block_header example_empty_image example_full_table).codeblock_count = 2 ∧
    ∃ codeblocks, (isyntax_decode_block_header_table example_read_tag_header
        (example_read_block_header 48) example_read_full_block_header example_empty_image
        example_full_table).codeblocks = some codeblocks ∧
      (codeblocks 0).block_data_offset = 100 ∧ (codeblocks 0).block_size = 20 ∧
      (codeblocks 1).block_data_offset = 120 ∧ (codeblocks 1).block_size = 30 := by
  have h72 : (example_read_tag_header example_full_table 4).size = 72 := by decide
  obtain ⟨_, hcount, codeblocks, hsome, hrec⟩ :=
    (block_header_table_decode example_read_tag_header (example_read_block_header 48)
      example_read_full_block_header example_empty_image example_full_table).2 h72
  have hlen : read_u32_le example_full_table 0 / 80 = 2 := by decide
  rw [hlen] at hcount hrec
  refine ⟨h72, hcount, codeblocks, hsome, ?_⟩
  have h0 := hrec 0 (by omega)
  have h1 := hrec 1 (by omega)
  have e0 : (example_read_full_block_header example_full_table 0).block_data_offset = 100 := by
    decide
  have e1 : (example_read_full_block_header example_full_table 0).block_size = 20 := by decide
  have e2 : (example_read_full_block_header example_full_table 1).block_data_offset = 120 := by
    decide
  have e3 : (example_read_full_block_header example_full_table 1).block_size = 30 := by decide
  rw [e0, e1] at h0
  rw [e2, e3] at h1
  exact ⟨h0.1, h0.2, h1.1, h1.2⟩

/-- Counterexample to C11 as stated: a table that declares 240 bytes and
whose first record has size field 40 yields `240 / 48 = 5` codeblocks, not the
`240 / 40 = 6` of a division by the 40-byte record size. -/
theorem block_header_table_count_not_by_record_size :
    (example_read_tag_header example_partial_table 4).size = 40 ∧
    read_u32_le example_partial_table 0 = 240 ∧
    (isyntax_decode_block_header_table example_read_tag_header (example_read_block_header 48)
      (example_read_block_header 80) example_empty_image
      example_partial_table).codeblock_count = 5 ∧
    (isyntax_decode_block_header_table example_read_tag_header (example_read_block_header 48)
      (example_read_block_header 80) example_empty_image
      example_partial_table).codeblock_count ≠ read_u32_le example_partial_table 0 / 40 := by
  decide

/-! ### Padding in `base64_decode` -/

/-- Symbols without `=` leave `pad` at zero: the loop runs over them and
arrives at the rest of the input with the count of pending symbols advanced. -/
theorem base64_loop_unpadded (pre : List Nat) (hv : ∀ c ∈ pre, base64_dtable c ≠ 0x80)
    (hp : 61 ∉ pre) (rest : List Nat) :
    ∀ (count : Nat) (block : Nat → Nat) (out : List Nat), count < 4 →
      ∃ block1 out1, base64_decode_loop (pre ++ rest) count 0 block out
        = base64_decode_loop rest ((count + pre.length) % 4) 0 block1 out1 := by
  induction pre with
  | nil =>
    intro count block out hc
    exact ⟨block, out, by simp [Nat.mod_eq_of_lt hc]⟩
  | cons c pre ih =>
    intro count block out hc
    have hcv : base64_dtable c ≠ 0x80 := hv c (by simp)
    have hc61 : ¬ c = 61 := fun h => hp (by simp [h])
    have ih2 := ih (fun x hx => hv x (by simp [hx])) (fun h => hp (by simp [h]))
    simp only [List.cons_append, base64_decode_loop, if_neg hcv, if_neg hc61]
    by_cases h4 : count + 1 = 4
    · rw [if_pos h4, if_neg (by simp)]
      have hm : (count + (c :: pre).length) % 4 = (0 + pre.length) % 4 := by
        simp only [List.length_cons]
        omega
      rw [hm]
      exact ih2 0 _ _ (by omega)
    · rw [if_neg h4]
      have hm : (count + (c :: pre).length) % 4 = (count + 1 + pre.length) % 4 := by
        simp only [List.length_cons]
        omega
      rw [hm]
      exact ih2 (count + 1) _ _ (by omega)

/-- A group of four symbols with at least one `=`, read from the start of a
group: the loop ends there, with `NULL` exactly when three or four of the
symbols are `=`. -/
theorem base64_loop_padded_group (a b c d : Nat) (ha : base64_dtable a ≠ 0x80)
    (hb : base64_dtable b ≠ 0x80) (hc : base64_dtable c ≠ 0x80) (hd : base64_dtable d ≠ 0x80)
    (hpad : 61 ∈ [a, b, c, d]) (rest : List Nat) (block : Nat → Nat) (out : List Nat) :
    base64_decode_loop (a :: b :: c :: d :: rest) 0 0 block out = none
      ↔ 3 ≤ [a, b, c, d].count 61 := by
  have hpad2 : a = 61 ∨ b = 61 ∨ c = 61 ∨ d = 61 := by
    simpa [eq_comm] using hpad
  simp only [base64_decode_loop, if_neg ha, if_neg hb, if_neg hc, if_neg hd]
  by_cases h1 : a = 61 <;> by_cases h2 : b = 61 <;> by_cases h3 : c = 61 <;>
    by_cases h4 : d = 61 <;>
    simp [h1, h2, h3, h4, List.count_cons] at hpad2 ⊢

/-- The symbols form whole groups of four, and `g` is the first group that
contains a `=`: `base64_decode` returns `NULL` exactly when `g` contains three
or four of them; what follows the group is not looked at. -/
theorem base64_decode_first_padded_group (src pre g post : List Nat)
    (hsyms : src.filter (fun c => decide (base64_dtable c ≠ 0x80)) = pre ++ g ++ post)
    (hpre : 61 ∉ pre) (hpre4 : pre.length % 4 = 0) (hg : g.length = 4) (hpad : 61 ∈ g)
    (hpost : post.length % 4 = 0) :
    base64_decode src = none ↔ 3 ≤ g.count 61 := by
  have hvalid : ∀ c ∈ pre ++ g ++ post, base64_dtable c ≠ 0x80 := by
    intro c hc
    rw [← hsyms] at hc
    simpa using (List.mem_filter.mp hc).2
  obtain ⟨a, b, c, d, rfl⟩ : ∃ a b c d, g = [a, b, c, d] := by
    match g, hg with
    | [a, b, c, d], _ => exact ⟨a, b, c, d, rfl⟩
  unfold base64_decode
  simp only [hsyms]
  rw [if_neg (by
    simp only [List.length_append, List.length_cons, List.length_nil]
    omega)]
  rw [base64_loop_filter, hsyms, List.append_assoc]
  obtain ⟨block1, out1, e⟩ := base64_loop_unpadded pre
    (fun x hx => hvalid x (by simp [hx])) hpre ([a, b, c, d] ++ post) 0 (fun _ => 0) []
    (by omega)
  rw [e, Nat.zero_add, hpre4]
  exact base64_loop_padded_group a b c d (hvalid a (by simp)) (hvalid b (by simp))
    (hvalid c (by simp)) (hvalid d (by simp)) hpad post block1 out1

/-! ### Padding: the whole decision of `base64_decode` -/

/-- Symbols in whole groups of four, one of them `=`: they split into the
groups before the first group with a `=`, that group, and the rest. -/
theorem base64_symbols_split : ∀ (n : Nat) (syms : List Nat), syms.length = 4 * n →
    61 ∈ syms →
    ∃ pre g post, syms = pre ++ g ++ post ∧ 61 ∉ pre ∧ pre.length % 4 = 0 ∧ g.length = 4
      ∧ 61 ∈ g ∧ post.length % 4 = 0 := by
  intro n
  induction n with
  | zero =>
    intro syms hlen h61
    have : syms = [] := List.length_eq_zero.mp (by omega)
    subst this
    simp at h61
  | succ n ih =>
    intro syms hlen h61
    match syms, hlen with
    | a :: b :: c :: d :: rest, hlen =>
      have hrest : rest.length = 4 * n := by
        simp only [List.length_cons] at hlen
        omega
      by_cases hg : 61 ∈ [a, b, c, d]
      · exact ⟨[], [a, b, c, d], rest, by simp, by simp, by simp, by simp, hg, by omega⟩
      · have h61r : 61 ∈ rest := by
          simp only [List.mem_cons, List.mem_singleton, List.not_mem_nil, or_false] at hg h61
          tauto
        obtain ⟨pre, g, post, e, h1, h2, h3, h4, h5⟩ := ih rest hrest h61r
        refine ⟨[a, b, c, d] ++ pre, g, post, ?_, ?_, ?_, h3, h4, h5⟩
        · rw [e]
          simp
        · intro hm
          rcases List.mem_append.mp hm with hm | hm
          · exact hg hm
          · exact h1 hm
        · simp only [List.length_append, List.length_cons, List.length_nil]
          omega

/-- Symbols without `=` in whole groups of four, at least one group: the
input is decoded. -/
theorem base64_decode_unpadded (src : List Nat)
    (hne : src.filter (fun c => decide (base64_dtable c ≠ 0x80)) ≠ [])
    (h4 : (src.filter (fun c => decide (base64_dtable c ≠ 0x80))).length % 4 = 0)
    (h61 : 61 ∉ src.filter (fun c => decide (base64_dtable c ≠ 0x80))) :
    base64_decode src ≠ none := by
  have hvalid : ∀ c ∈ src.filter (fun c => decide (base64_dtable c ≠ 0x80)),
      base64_dtable c ≠ 0x80 := by
    intro c hc
    simpa using (List.mem_filter.mp hc).2
  unfold base64_decode
  simp only []
  rw [if_neg (by
    have : (src.filter (fun c => decide (base64_dtable c ≠ 0x80))).length ≠ 0 :=
      fun h => hne (List.length_eq_zero.mp h)
    omega)]
  rw [base64_loop_filter]
  obtain ⟨block1, out1, e⟩ := base64_loop_unpadded
    (src.filter (fun c => decide (base64_dtable c ≠ 0x80))) hvalid h61 [] 0 (fun _ => 0) []
    (by omega)
  rw [List.append_nil] at e
  rw [e]
  simp [base64_decode_loop]

/-- C12 (amended): `base64_decode` returns `NULL` exactly when the input holds
no base64 symbol, or the number of its symbols is not a multiple of four, or
the first group of four symbols that contains a `=` contains three or four of
them.  Every other input is decoded: an input without `=`, and an input with
one or two `=` in its first padded group, wherever they stand in the group
and whatever follows the group. -/
theorem base64_decode_padding (src : List Nat) :
    base64_decode src = none ↔
      src.filter (fun c => decide (base64_dtable c ≠ 0x80)) = []
      ∨ (src.filter (fun c => decide (base64_dtable c ≠ 0x80))).length % 4 ≠ 0
      ∨ ∃ pre g post, src.filter (fun c => decide (base64_dtable c ≠ 0x80)) = pre ++ g ++ post
          ∧ 61 ∉ pre ∧ pre.length % 4 = 0 ∧ g.length = 4 ∧ 61 ∈ g ∧ 3 ≤ g.count 61 := by
  by_cases hnil : src.filter (fun c => decide (base64_dtable c ≠ 0x80)) = []
  · refine ⟨fun _ => Or.inl hnil, fun _ => ?_⟩
    unfold base64_decode
    simp only [hnil, List.length_nil]
    simp
  by_cases h4 : (src.filter (fun c => decide (base64_dtable c ≠ 0x80))).length % 4 = 0
  · constructor
    · intro hnone
      right; right
      by_cases h61 : 61 ∈ src.filter (fun c => decide (base64_dtable c ≠ 0x80))
      · obtain ⟨pre, g, post, e, h1, h2, h3, h4g, h5⟩ := base64_symbols_split
          ((src.filter (fun c => decide (base64_dtable c ≠ 0x80))).length / 4) _ (by omega) h61
        exact ⟨pre, g, post, e, h1, h2, h3, h4g,
          (base64_decode_first_padded_group src pre g post e h1 h2 h3 h4g h5).mp hnone⟩
      · exact absurd hnone (base64_decode_unpadded src hnil h4 h61)
    · rintro (h | h | ⟨pre, g, post, e, h1, h2, h3, h4g, h5⟩)
      · exact absurd h hnil
      · exact absurd h4 h
      · have hpost : post.length % 4 = 0 := by
          rw [e] at h4
          simp only [List.length_append] at h4
          omega
        exact (base64_decode_first_padded_group src pre g post e h1 h2 h3 h4g hpost).mpr h5
  · refine ⟨fun _ => Or.inr (Or.inl h4), fun _ => ?_⟩
    unfold base64_decode
    simp only []
    rw [if_pos (Or.inr h4)]

/-- Witness for C12: `AAAAA===` is rejected, the second group holding three
`=`; `AAAA` and `AA==AAAA` are decoded; an input without a symbol and an input
of five symbols are rejected. -/
theorem base64_decode_padding_witness :
    base64_decode [65, 65, 65, 65, 65, 61, 61, 61] = none
    ∧ base64_decode [65, 65, 65, 65] = some [0, 0, 0]
    ∧ base64_decode [65, 65, 61, 61, 65, 65, 65, 65] = some [0]
    ∧ base64_decode [32, 10] = none
    ∧ base64_decode [65, 65, 65, 65, 65] = none :=
  ⟨(base64_decode_padding [65, 65, 65, 65, 65, 61, 61, 61]).mpr
      (Or.inr (Or.inr ⟨[65, 65, 65, 65], [65, 61, 61, 61], [], by decide, by decide, by decide,
        by decide, by decide, by decide⟩)),
    by decide, by decide, by decide, by decide⟩

/-- Counterexample to C12 as stated: in `A=AA` the `=` is the second symbol of
the final group and in `AA==AAAA` the `=` stand in a group that is not the
final one; both inputs are decoded. -/
theorem base64_decode_accepts_misplaced_padding :
    base64_decode [65, 61, 65, 65] = some [0, 0] ∧
    base64_decode [65, 65, 61, 61, 65, 65, 65, 65] = some [0] := by
  decide

/-! ### The size check at the end of `isyntax_hulsken_decompress` -/

/-- The two embeddings of `isyntax_hulsken_decompress` agree: without the
assertion the function returns the buffer and the size that the loops left. -/
theorem isyntax_hulsken_decompress_eq_decode (log2f_trunc : Int → Nat) (fuel : Nat)
    (buffer : List Nat) (block_size coeff_count compressor_version : Nat)
    (output_init : Int → Nat) :
    isyntax_hulsken_decompress log2f_trunc fuel buffer block_size coeff_count compressor_version
        output_init
      = (hulsken_decode log2f_trunc fuel buffer block_size coeff_count compressor_version
          output_init).map
          (fun p => { output_buffer := p.2.output_buffer,
                      decompressed_size := p.2.decompressed_length }) := by
  unfold isyntax_hulsken_decompress hulsken_decode
  cases hulsken_read_header log2f_trunc buffer coeff_count compressor_version with
  | none => rfl
  | some header =>
    simp only []
    cases hulsken_read_table buffer fuel 0 0 header.bits_read
        { fast := fun _ => 0x8080, code := fun _ => 0, size := fun _ => 0 } with
    | none => rfl
    | some p =>
      obtain ⟨bits_read, huffman⟩ := p
      simp only []
      cases hulsken_decode_message buffer compressor_version huffman header.zerorun_symbol
          header.zero_counter_size (block_size * 8) header.serialized_length fuel
          { bits_read := bits_read, decompressed_length := 0, output_buffer := output_init } with
      | none => rfl
      | some st => rfl

/-- C13 (amended): when the number of bytes produced by decoding a codeblock
differs from its declared serialized length, `isyntax_hulsken_decompress` in a
release build prints the size mismatch, returns normally, stores the number of
bytes produced in `decompressed_size` and returns the output buffer all the
same; in a debug build the assertion ends the program. -/
theorem hulsken_size_mismatch_returns_buffer (log2f_trunc : Int → Nat) (fuel : Nat)
    (buffer : List Nat) (block_size coeff_count compressor_version : Nat)
    (output_init : Int → Nat) (serialized_length : Int) (st : hulsken_state_t)
    (hdecode : hulsken_decode log2f_trunc fuel buffer block_size coeff_count compressor_version
      output_init = some (serialized_length, st))
    (hsize : serialized_length ≠ st.decompressed_length) :
    isyntax_hulsken_decompress_return false log2f_trunc fuel buffer block_size coeff_count
        compressor_version output_init
      = some { output_buffer := some st.output_buffer
               decompressed_size := st.decompressed_length
               size_mismatch_printed := true }
    ∧ isyntax_hulsken_decompress_return true log2f_trunc fuel buffer block_size coeff_count
        compressor_version output_init = none := by
  unfold isyntax_hulsken_decompress_return
  rw [hdecode]
  simp only [hulsken_size_check, if_pos hsize]
  exact ⟨rfl, rfl⟩

/-- The codeblock `[8, 0, 0, 0, 0, 4, 131, 0]`, a single leaf and a declared
length of 8, is decoded to seven bytes. -/
theorem hulsken_decode_single_leaf :
    (hulsken_decode (fun _ => 0) 16 [8, 0, 0, 0, 0, 4, 131, 0] 8 1 1 (fun _ => 170)).map
      (fun p => (p.1, p.2.decompressed_length)) = some (8, 7) := by
  decide!

/-- Witness for C13: the codeblock of a single leaf that declares eight bytes
and holds seven. -/
theorem hulsken_size_mismatch_returns_buffer_witness :
    ∃ st : hulsken_state_t, st.decompressed_length = 7 ∧
      isyntax_hulsken_decompress_return false (fun _ => 0) 16 [8, 0, 0, 0, 0, 4, 131, 0] 8 1 1
        (fun _ => 170)
      = some { output_buffer := some st.output_buffer
               decompressed_size := st.decompressed_length
               size_mismatch_printed := true }
    ∧ isyntax_hulsken_decompress_return true (fun _ => 0) 16 [8, 0, 0, 0, 0, 4, 131, 0] 8 1 1
        (fun _ => 170) = none := by
  have h := hulsken_decode_single_leaf
  cases hd : hulsken_decode (fun _ => 0) 16 [8, 0, 0, 0, 0, 4, 131, 0] 8 1 1 (fun _ => 170) with
  | none =>
    rw [hd] at h
    simp at h
  | some p =>
    obtain ⟨sl, st⟩ := p
    rw [hd] at h
    simp only [Option.map_some', Option.some.injEq, Prod.mk.injEq] at h
    obtain ⟨h1, h2⟩ := h
    exact ⟨st, h2, hulsken_size_mismatch_returns_buffer (fun _ => 0) 16
      [8, 0, 0, 0, 0, 4, 131, 0] 8 1 1 (fun _ => 170) sl st hd (by rw [h1, h2]; decide)⟩

/-- Counterexample to C13 as stated: for the codeblock of a single leaf that
declares eight bytes and holds seven, the release build returns an output
buffer, not `NULL`, with `decompressed_size = 7`. -/
theorem hulsken_size_mismatch_buffer_not_null :
    (isyntax_hulsken_decompress_return false (fun _ => 0) 16 [8, 0, 0, 0, 0, 4, 131, 0] 8 1 1
      (fun _ => 170)).map
        (fun r => (r.output_buffer.isSome, r.decompressed_size, r.size_mismatch_printed))
      = some (true, 7, true) := by
  decide!

/-! ### An element end on an empty node stack -/

/-- The loop of `isyntax_parse_xml_header` ends within as many iterations as
the chunk has characters. -/
theorem isyntax_parse_xml_header_loop_isSome {χ : Type} (env : xml_header_env_t χ) :
    ∀ (fuel : Nat) (doc : List Nat) (st : xml_header_state_t χ), doc.length ≤ fuel →
      (isyntax_parse_xml_header_loop env fuel doc st).isSome = true := by
  intro fuel
  induction fuel with
  | zero =>
    intro doc st h
    cases doc with
    | nil => rfl
    | cons c rest => simp at h
  | succ fuel ih =>
    intro doc st h
    cases doc with
    | nil => rfl
    | cons c rest =>
      have hr : rest.length ≤ fuel := by simpa using h
      have hd : ∀ k, (rest.drop k).length ≤ fuel := fun k => by
        rw [List.length_drop]
        omega
      simp only [isyntax_parse_xml_header_loop]
      split_ifs
      · rfl
      · split <;> first | rfl | exact ih _ _ hr | exact ih _ _ (hd _)

/-- With an empty node stack the case `YXML_ELEMEND` prints its error line and
leaves the node stack index at zero: there is no `goto failed`. -/
theorem isyntax_parse_xml_elemend_empty_stack {χ : Type} (env : xml_header_env_t χ)
    (st : xml_header_state_t χ) (h0 : st.parser.node_stack_index = 0)
    (hnone : st.parser.current_node_type = .ISYNTAX_NODE_NONE) :
    isyntax_parse_xml_elemend env st
      = { st with error_lines := st.error_lines ++ [.closing_element_without_matching_start] } := by
  unfold isyntax_parse_xml_elemend
  simp [h0, hnone]

theorem isyntax_parse_xml_elemstart_depth {χ : Type} (env : xml_header_env_t χ)
    (st : xml_header_state_t χ) :
    (isyntax_parse_xml_elemstart env st).parser.node_stack_index
        = st.parser.node_stack_index + 1
    ∧ (isyntax_parse_xml_elemstart env st).x = st.x
    ∧ (isyntax_parse_xml_elemstart env st).error_lines = st.error_lines :=
  ⟨rfl, rfl, rfl⟩

/-- C15, the failing input: in `example_deep_tree` the escape symbol 9 has the
nine-bit code 511.  The message holds two adjacent escape symbols with the
counts 1 and 4 (counter width 4), then the symbol 3, and the codeblock
declares 21 bytes, so a run of `(1 << 4) | 4 = 20` zeros would fit.  The
decoder does not chain the two symbols: it writes a run of one zero, a run
of four zeros and the symbol 3 as the sixth byte. -/
theorem hulsken_zero_run_chain_missed_for_long_escape_code :
    bits_val (example_deep_tree.code_of 9) = 511
    ∧ (1 <<< 4) ||| 4 = 20
    ∧ (isyntax_hulsken_decompress (fun _ => 0) 64
        (hulsken_codeblock example_deep_tree 9 4 21
          (zero_run_bits (example_deep_tree.code_of 9) 4 [1, 4]
            ++ example_deep_tree.code_of 3))
        (hulsken_codeblock example_deep_tree 9 4 21
          (zero_run_bits (example_deep_tree.code_of 9) 4 [1, 4]
            ++ example_deep_tree.code_of 3)).length
        1 1 (fun _ => 170)).map (fun r => output_bytes r.output_buffer 6)
      = some [0, 0, 0, 0, 0, 3] := by
  refine ⟨by decide, by decide, ?_⟩
  decide!

/-! ### The block header table leaf: trimming and decoding -/

/-- The encoding of a non-empty buffer, uninterrupted, is decoded back. -/
theorem base64_decode_of_encoding (b : List Nat) (hne : b ≠ []) (hb : ∀ x ∈ b, x < 256) :
    base64_decode (rfc1341_base64_encode b) = some b := by
  have hlen := rfc1341_base64_encode_length b
  have hvalid := rfc1341_base64_encode_valid b hb
  have hfilter : (rfc1341_base64_encode b).filter (fun c => decide (base64_dtable c ≠ 0x80))
      = rfc1341_base64_encode b := by
    rw [List.filter_eq_self]
    intro c hc
    simpa using hvalid c hc
  unfold base64_decode
  simp only [hfilter]
  rw [if_neg (by
    rintro (h | h)
    · exact hlen.2 hne h
    · exact h hlen.1)]
  rw [base64_loop_encode b hb]
  simp

/-- The list of the casts of a list of naturals, as Lean unfolds the coercion
of a list. -/
theorem flatMap_natCast (l : List Nat) :
    (l.flatMap fun a => [(a : Int)]) = l.map (fun a : Nat => (a : Int)) := by
  induction l with
  | nil => rfl
  | cons a l ih =>
    rw [List.flatMap_cons, ih]
    rfl

/-- A symbol of the encoding is none of the characters that the handler trims. -/
theorem base64_symbol_not_whitespace (c : Nat) (hc : base64_dtable c ≠ 0x80) :
    ¬ (c = 10 ∨ c = 13 ∨ c = 32) := by
  rintro (h | h | h) <;> subst h <;> exact hc (by decide)

/-- C16 (amended): for every non-empty byte buffer `b` whose base64 encoding
does not end in `/`, when the content of a block header table leaf is the
encoding of `b`, the handler's trimming leaves the content as it is and
`base64_decode` yields exactly the bytes of `b`, which the handler then
decodes as the table. -/
theorem block_header_table_leaf_round_trip
    (read_tag_header : List Nat → Nat → dicom_tag_header_t)
    (read_partial_block_header read_full_block_header : List Nat → Nat → isyntax_codeblock_t)
    (image : isyntax_image_t) (b : List Nat) (hne : b ≠ []) (hb : ∀ x ∈ b, x < 256)
    (hlast : (rfc1341_base64_encode b).getLast? ≠ some 47)
    (value : Int → Nat)
    (hvalue : ∀ i : Nat, i < (rfc1341_base64_encode b).length →
      value i = (rfc1341_base64_encode b).getD i 0)
    (fuel : Nat) (hfuel : 1 ≤ fuel) :
    block_header_table_trim fuel value (rfc1341_base64_encode b).length
        = some ((rfc1341_base64_encode b).length : Int)
    ∧ base64_decode ((List.range (rfc1341_base64_encode b).length).map
        (fun i : Nat => value (i : Int))) = some b
    ∧ isyntax_parse_scannedimage_child_node read_tag_header read_partial_block_header
        read_full_block_header fuel image 0x301D 0x2014 value (rfc1341_base64_encode b).length
      = some (isyntax_decode_block_header_table read_tag_header read_partial_block_header
          read_full_block_header image b) := by
  obtain ⟨f, rfl⟩ : ∃ f, fuel = f + 1 := ⟨fuel - 1, by omega⟩
  have hlen := rfc1341_base64_encode_length b
  have hvalid := rfc1341_base64_encode_valid b hb
  have hpos : 0 < (rfc1341_base64_encode b).length := Nat.pos_of_ne_zero (hlen.2 hne)
  -- the last character of the content
  have hlastchar : value (((rfc1341_base64_encode b).length : Int) - 1)
      = (rfc1341_base64_encode b).getD ((rfc1341_base64_encode b).length - 1) 0 := by
    have := hvalue ((rfc1341_base64_encode b).length - 1) (by omega)
    rw [← this]
    congr 1
    omega
  have hmem : (rfc1341_base64_encode b).getD ((rfc1341_base64_encode b).length - 1) 0
      ∈ rfc1341_base64_encode b := by
    rw [List.getD_eq_getElem _ _ (by omega)]
    exact List.getElem_mem _
  have hne47 : ¬ value (((rfc1341_base64_encode b).length : Int) - 1) = 47 := by
    rw [hlastchar]
    intro h
    apply hlast
    rw [List.getLast?_eq_getElem?, List.getElem?_eq_getElem (by omega), ← h,
      List.getD_eq_getElem _ _ (by omega)]
  have hnws := base64_symbol_not_whitespace _ (hvalid _ hmem)
  rw [← hlastchar] at hnws
  have htrim : block_header_table_trim (f + 1) value (rfc1341_base64_encode b).length
      = some ((rfc1341_base64_encode b).length : Int) := by
    simp only [block_header_table_trim]
    rw [if_neg hne47]
    simp only [trim_trailing_whitespace]
    rw [if_neg hnws]
  have hlist : (List.range (rfc1341_base64_encode b).length).map
      (fun i : Nat => value (i : Int)) = rfc1341_base64_encode b := by
    apply List.ext_getElem
    · simp
    · intro i h1 h2
      simp only [List.getElem_map, List.getElem_range]
      rw [hvalue i h2, List.getD_eq_getElem _ _ h2]
  have hdec := base64_decode_of_encoding b hne hb
  refine ⟨htrim, by rw [hlist]; exact hdec, ?_⟩
  unfold isyntax_parse_scannedimage_child_node
  rw [if_pos ⟨rfl, rfl⟩, htrim]
  simp only []
  rw [if_neg (by omega)]
  simp only [Int.toNat_ofNat]
  have e : (List.map (fun i => value i) do
      let a ← List.range (rfc1341_base64_encode b).length
      pure (a : Int))
      = (List.range (rfc1341_base64_encode b).length).map (fun i : Nat => value (i : Int)) := by
    show List.map (fun i => value i)
        ((List.range (rfc1341_base64_encode b).length).flatMap fun a => [(a : Int)]) = _
    rw [flatMap_natCast, List.map_map]
    rfl
  rw [e, hlist, hdec]

/-- Witness for C16: the buffer `[1, 2, 3, 4]`, encoded as `AQIDBA==`. -/
theorem block_header_table_leaf_round_trip_witness :
    block_header_table_trim 1
        (fun i => (rfc1341_base64_encode [1, 2, 3, 4]).getD i.toNat 0)
        (rfc1341_base64_encode [1, 2, 3, 4]).length
      = some ((rfc1341_base64_encode [1, 2, 3, 4]).length : Int)
    ∧ base64_decode ((List.range (rfc1341_base64_encode [1, 2, 3, 4]).length).map
        (fun i : Nat => (fun i : Int => (rfc1341_base64_encode [1, 2, 3, 4]).getD i.toNat 0)
          (i : Int))) = some [1, 2, 3, 4]
    ∧ isyntax_parse_scannedimage_child_node example_read_tag_header
        (example_read_block_header 48) (example_read_block_header 80) 1 example_empty_image
        0x301D 0x2014 (fun i => (rfc1341_base64_encode [1, 2, 3, 4]).getD i.toNat 0)
        (rfc1341_base64_encode [1, 2, 3, 4]).length
      = some (isyntax_decode_block_header_table example_read_tag_header
          (example_read_block_header 48) (example_read_block_header 80) example_empty_image
          [1, 2, 3, 4]) :=
  block_header_table_leaf_round_trip example_read_tag_header (example_read_block_header 48)
    (example_read_block_header 80) example_empty_image [1, 2, 3, 4] (by decide) (by decide)
    (by decide) (fun i => (rfc1341_base64_encode [1, 2, 3, 4]).getD i.toNat 0)
    (fun i _ => by simp) 1 (by decide)

/-- Counterexample to C16 as stated: the encoding of `[255, 255, 255]` is
`////`; the handler drops the last `/`, and `base64_decode` rejects the three
symbols that are left, so the leaf does not touch the image. -/
theorem block_header_table_leaf_drops_final_symbol :
    rfc1341_base64_encode [255, 255, 255] = [47, 47, 47, 47]
    ∧ block_header_table_trim 4 (fun i => [47, 47, 47, 47].getD i.toNat 0) 4 = some 3
    ∧ base64_decode [47, 47, 47] = none
    ∧ (isyntax_parse_scannedimage_child_node example_read_tag_header
        (example_read_block_header 48) (example_read_block_header 80) 4 example_empty_image
        0x301D 0x2014 (fun i => [47, 47, 47, 47].getD i.toNat 0) 4).map
          (fun image => image.codeblocks.isSome) = some false := by
  decide

/-! ### The marking pass -/

/-- A flag that is set in a request slot stays set through a neighbour block. -/
theorem stream_mark_adjacent_mono (level : isyntax_level_t) (w tile_x tile_y lx ly : Int)
    (adjacent flag : Nat) (dx dy : Int) (s : stream_mark_state_t) (i : Int) :
    ((s.tile_req i).need_ll_coeff = true →
      ((stream_mark_adjacent level w tile_x tile_y lx ly adjacent flag dx dy s).tile_req i).need_ll_coeff
        = true) ∧
    ((s.tile_req i).need_h_coeff = true →
      ((stream_mark_adjacent level w tile_x tile_y lx ly adjacent flag dx dy s).tile_req i).need_h_coeff
        = true) := by
  unfold stream_mark_adjacent
  by_cases h1 : adjacent &&& flag ≠ 0
  · rw [if_pos h1]
    by_cases h2 : (level.tiles ((tile_y + dy) * level.width_in_tiles + (tile_x + dx))).exists_ = true
    · simp only [h2, if_true]
      by_cases h3 : (level.tiles ((tile_y + dy) * level.width_in_tiles + (tile_x + dx))).has_ll
          = true <;>
        by_cases h4 : (level.tiles ((tile_y + dy) * level.width_in_tiles + (tile_x + dx))).has_h
            = true <;>
        by_cases h5 : i = (ly + dy) * w + (lx + dx) <;>
        simp [h3, h4, h5]
    · simp only [h2]
      exact ⟨fun h => h, fun h => h⟩
  · rw [if_neg h1]
    exact ⟨fun h => h, fun h => h⟩

/-- A neighbour block sets the flags of an existing flagged neighbour that
lacks coefficients. -/
theorem stream_mark_adjacent_marks (level : isyntax_level_t) (w tile_x tile_y lx ly : Int)
    (adjacent flag : Nat) (dx dy : Int) (s : stream_mark_state_t)
    (hflag : adjacent &&& flag ≠ 0)
    (hex : (level.tiles ((tile_y + dy) * level.width_in_tiles + (tile_x + dx))).exists_ = true) :
    ((level.tiles ((tile_y + dy) * level.width_in_tiles + (tile_x + dx))).has_ll = false →
      ((stream_mark_adjacent level w tile_x tile_y lx ly adjacent flag dx dy s).tile_req
        ((ly + dy) * w + (lx + dx))).need_ll_coeff = true) ∧
    ((level.tiles ((tile_y + dy) * level.width_in_tiles + (tile_x + dx))).has_h = false →
      ((stream_mark_adjacent level w tile_x tile_y lx ly adjacent flag dx dy s).tile_req
        ((ly + dy) * w + (lx + dx))).need_h_coeff = true) := by
  unfold stream_mark_adjacent
  rw [if_pos hflag]
  simp only [hex, if_true]
  by_cases h3 : (level.tiles ((tile_y + dy) * level.width_in_tiles + (tile_x + dx))).has_ll
      = true <;>
    by_cases h4 : (level.tiles ((tile_y + dy) * level.width_in_tiles + (tile_x + dx))).has_h
        = true <;>
    simp [h3, h4]

/-- Flags stay set through the blocks of a list of positions. -/
theorem stream_mark_foldl_mono (level : isyntax_level_t) (w tile_x tile_y lx ly : Int)
    (adjacent : Nat) (l : List (Nat × Int × Int)) :
    ∀ (s : stream_mark_state_t) (i : Int),
      ((s.tile_req i).need_ll_coeff = true →
        ((l.foldl (fun s p => stream_mark_adjacent level w tile_x tile_y lx ly adjacent
          p.1 p.2.1 p.2.2 s) s).tile_req i).need_ll_coeff = true) ∧
      ((s.tile_req i).need_h_coeff = true →
        ((l.foldl (fun s p => stream_mark_adjacent level w tile_x tile_y lx ly adjacent
          p.1 p.2.1 p.2.2 s) s).tile_req i).need_h_coeff = true) := by
  induction l with
  | nil => intro s i; exact ⟨fun h => h, fun h => h⟩
  | cons p l ih =>
    intro s i
    have h1 := stream_mark_adjacent_mono level w tile_x tile_y lx ly adjacent p.1 p.2.1 p.2.2 s i
    have h2 := ih (stream_mark_adjacent level w tile_x tile_y lx ly adjacent p.1 p.2.1 p.2.2 s) i
    simp only [List.foldl_cons]
    exact ⟨fun h => h2.1 (h1.1 h), fun h => h2.2 (h1.2 h)⟩

/-- The blocks of a list of positions mark every flagged existing neighbour
of the list. -/
theorem stream_mark_foldl_marks (level : isyntax_level_t) (w tile_x tile_y lx ly : Int)
    (adjacent : Nat) (l : List (Nat × Int × Int)) :
    ∀ (s : stream_mark_state_t), ∀ p ∈ l, adjacent &&& p.1 ≠ 0 →
      (level.tiles ((tile_y + p.2.2) * level.width_in_tiles + (tile_x + p.2.1))).exists_ = true →
      ((level.tiles ((tile_y + p.2.2) * level.width_in_tiles + (tile_x + p.2.1))).has_ll = false →
        ((l.foldl (fun s p => stream_mark_adjacent level w tile_x tile_y lx ly adjacent
          p.1 p.2.1 p.2.2 s) s).tile_req ((ly + p.2.2) * w + (lx + p.2.1))).need_ll_coeff = true) ∧
      ((level.tiles ((tile_y + p.2.2) * level.width_in_tiles + (tile_x + p.2.1))).has_h = false →
        ((l.foldl (fun s p => stream_mark_adjacent level w tile_x tile_y lx ly adjacent
          p.1 p.2.1 p.2.2 s) s).tile_req ((ly + p.2.2) * w + (lx + p.2.1))).need_h_coeff = true) := by
  induction l with
  | nil => intro s p hp; simp at hp
  | cons q l ih =>
    intro s p hp hflag hex
    simp only [List.foldl_cons]
    rcases List.mem_cons.mp hp with rfl | hp
    · have h1 := stream_mark_adjacent_marks level w tile_x tile_y lx ly adjacent p.1 p.2.1 p.2.2 s
        hflag hex
      have h2 := stream_mark_foldl_mono level w tile_x tile_y lx ly adjacent l
        (stream_mark_adjacent level w tile_x tile_y lx ly adjacent p.1 p.2.1 p.2.2 s)
        ((ly + p.2.2) * w + (lx + p.2.1))
      exact ⟨fun h => h2.1 (h1.1 h), fun h => h2.2 (h1.2 h)⟩
    · exact ih _ p hp hflag hex

/-- Flags stay set through the body of the marking loops. -/
theorem stream_mark_tile_mono (K : isyntax_adj_tile_t)
    (mask : isyntax_level_t → Int → Int → Nat) (level : isyntax_level_t)
    (visible_tiles padded_bounds : bounds2i) (w tile_y tile_x local_tile_index : Int)
    (tile_req : Int → isyntax_tile_req_t) (i : Int) :
    ((tile_req i).need_ll_coeff = true →
      (stream_mark_tile K mask level visible_tiles padded_bounds w tile_y tile_x local_tile_index
        tile_req i).need_ll_coeff = true) ∧
    ((tile_req i).need_h_coeff = true →
      (stream_mark_tile K mask level visible_tiles padded_bounds w tile_y tile_x local_tile_index
        tile_req i).need_h_coeff = true) := by
  have hm := stream_mark_foldl_mono level w tile_x tile_y (tile_x - padded_bounds.min.x)
    (tile_y - padded_bounds.min.y) (mask level tile_x tile_y) (adjacency_positions K)
    { need_ll_mask := 0, need_h_mask := 0
      tile_req := fun i =>
        if i = local_tile_index then { tile_req i with want_load := true } else tile_req i } i
  unfold stream_mark_tile
  by_cases h1 : (level.tiles (tile_y * level.width_in_tiles + tile_x)).is_loaded = true
  · simp only [h1, Bool.not_true, Bool.false_eq_true, if_false]
    exact ⟨fun h => h, fun h => h⟩
  · have h1f : (level.tiles (tile_y * level.width_in_tiles + tile_x)).is_loaded = false := by
      simpa using h1
    simp only [h1f, Bool.not_false, if_true]
    by_cases h2 : tile_x ≥ visible_tiles.min.x ∧ tile_y ≥ visible_tiles.min.y ∧
        tile_x < visible_tiles.max.x ∧ tile_y < visible_tiles.max.y
    · rw [if_pos h2]
      by_cases h3 : i = local_tile_index
      · simp only [if_pos h3] at hm ⊢
        exact hm
      · simp only [if_neg h3] at hm ⊢
        exact hm
    · rw [if_neg h2]
      exact ⟨fun h => h, fun h => h⟩

/-- The body of the marking loops marks the neighbours of a tile that is not
loaded and lies in the visible rectangle. -/
theorem stream_mark_tile_marks (K : isyntax_adj_tile_t)
    (mask : isyntax_level_t → Int → Int → Nat) (level : isyntax_level_t)
    (visible_tiles padded_bounds : bounds2i) (tile_y tile_x local_tile_index : Int)
    (tile_req : Int → isyntax_tile_req_t)
    (hnl : (level.tiles (tile_y * level.width_in_tiles + tile_x)).is_loaded = false)
    (hvis : tile_x ≥ visible_tiles.min.x ∧ tile_y ≥ visible_tiles.min.y ∧
      tile_x < visible_tiles.max.x ∧ tile_y < visible_tiles.max.y) :
    neighbours_marked K mask level padded_bounds
      (stream_mark_tile K mask level visible_tiles padded_bounds
        (padded_bounds.max.x - padded_bounds.min.x) tile_y tile_x local_tile_index tile_req)
      tile_x tile_y := by
  intro p hp hflag hex
  have hm := stream_mark_foldl_marks level (padded_bounds.max.x - padded_bounds.min.x) tile_x
    tile_y (tile_x - padded_bounds.min.x) (tile_y - padded_bounds.min.y) (mask level tile_x tile_y)
    (adjacency_positions K)
    { need_ll_mask := 0, need_h_mask := 0
      tile_req := fun i =>
        if i = local_tile_index then { tile_req i with want_load := true } else tile_req i }
    p hp hflag hex
  unfold stream_mark_tile
  simp only [hnl, Bool.not_false, if_true, if_pos hvis]
  by_cases h3 : (tile_y - padded_bounds.min.y + p.2.2) * (padded_bounds.max.x - padded_bounds.min.x)
      + (tile_x - padded_bounds.min.x + p.2.1) = local_tile_index
  · rw [if_pos h3]
    exact hm
  · rw [if_neg h3]
    exact hm

/-- Request slots in which each flag of `tile_req` is still set. -/
theorem neighbours_marked_mono (K : isyntax_adj_tile_t)
    (mask : isyntax_level_t → Int → Int → Nat) (level : isyntax_level_t)
    (padded_bounds : bounds2i) (tile_req tile_req1 : Int → isyntax_tile_req_t)
    (tile_x tile_y : Int)
    (hmono : ∀ i, ((tile_req i).need_ll_coeff = true → (tile_req1 i).need_ll_coeff = true) ∧
      ((tile_req i).need_h_coeff = true → (tile_req1 i).need_h_coeff = true))
    (h : neighbours_marked K mask level padded_bounds tile_req tile_x tile_y) :
    neighbours_marked K mask level padded_bounds tile_req1 tile_x tile_y := by
  intro p hp hflag hex
  have := h p hp hflag hex
  exact ⟨fun h1 => (hmono _).1 (this.1 h1), fun h1 => (hmono _).2 (this.2 h1)⟩

theorem stream_mark_row_mono (K : isyntax_adj_tile_t)
    (mask : isyntax_level_t → Int → Int → Nat) (level : isyntax_level_t)
    (visible_tiles padded_bounds : bounds2i) (w tile_y : Int) :
    ∀ (n : Nat) (tile_x local_tile_index : Int) (tile_req : Int → isyntax_tile_req_t) (i : Int),
      ((tile_req i).need_ll_coeff = true →
        ((stream_mark_row K mask level visible_tiles padded_bounds w tile_y n tile_x
          local_tile_index tile_req).2 i).need_ll_coeff = true) ∧
      ((tile_req i).need_h_coeff = true →
        ((stream_mark_row K mask level visible_tiles padded_bounds w tile_y n tile_x
          local_tile_index tile_req).2 i).need_h_coeff = true) := by
  intro n
  induction n with
  | zero => intro tile_x lti tile_req i; exact ⟨fun h => h, fun h => h⟩
  | succ n ih =>
    intro tile_x lti tile_req i
    have h1 := stream_mark_tile_mono K mask level visible_tiles padded_bounds w tile_y tile_x lti
      tile_req i
    have h2 := ih (tile_x + 1) (lti + 1)
      (stream_mark_tile K mask level visible_tiles padded_bounds w tile_y tile_x lti tile_req) i
    simp only [stream_mark_row]
    exact ⟨fun h => h2.1 (h1.1 h), fun h => h2.2 (h1.2 h)⟩

/-- The row loop marks the neighbours of every tile of the row that is not
loaded and lies in the visible rectangle. -/
theorem stream_mark_row_marks (K : isyntax_adj_tile_t)
    (mask : isyntax_level_t → Int → Int → Nat) (level : isyntax_level_t)
    (visible_tiles padded_bounds : bounds2i) (tile_y : Int) :
    ∀ (n : Nat) (tile_x0 local_tile_index : Int) (tile_req : Int → isyntax_tile_req_t)
      (tile_x : Int), tile_x0 ≤ tile_x → tile_x < tile_x0 + n →
      (level.tiles (tile_y * level.width_in_tiles + tile_x)).is_loaded = false →
      (tile_x ≥ visible_tiles.min.x ∧ tile_y ≥ visible_tiles.min.y ∧
        tile_x < visible_tiles.max.x ∧ tile_y < visible_tiles.max.y) →
      neighbours_marked K mask level padded_bounds
        (stream_mark_row K mask level visible_tiles padded_bounds
          (padded_bounds.max.x - padded_bounds.min.x) tile_y n tile_x0 local_tile_index
          tile_req).2 tile_x tile_y := by
  intro n
  induction n with
  | zero => intro tile_x0 lti tile_req tile_x h1 h2; omega
  | succ n ih =>
    intro tile_x0 lti tile_req tile_x h1 h2 hnl hvis
    simp only [stream_mark_row]
    by_cases hx : tile_x = tile_x0
    · subst hx
      exact neighbours_marked_mono K mask level padded_bounds _ _ tile_x tile_y
        (stream_mark_row_mono K mask level visible_tiles padded_bounds _ tile_y n (tile_x + 1)
          (lti + 1) _)
        (stream_mark_tile_marks K mask level visible_tiles padded_bounds tile_y tile_x lti
          tile_req hnl hvis)
    · exact ih (tile_x0 + 1) (lti + 1) _ tile_x (by omega) (by push_cast at h2; omega) hnl hvis

theorem stream_mark_rows_mono (K : isyntax_adj_tile_t)
    (mask : isyntax_level_t → Int → Int → Nat) (level : isyntax_level_t)
    (visible_tiles padded_bounds : bounds2i) (w : Int) :
    ∀ (n : Nat) (tile_y local_tile_index : Int) (tile_req : Int → isyntax_tile_req_t) (i : Int),
      ((tile_req i).need_ll_coeff = true →
        ((stream_mark_rows K mask level visible_tiles padded_bounds w n tile_y
          local_tile_index tile_req).2 i).need_ll_coeff = true) ∧
      ((tile_req i).need_h_coeff = true →
        ((stream_mark_rows K mask level visible_tiles padded_bounds w n tile_y
          local_tile_index tile_req).2 i).need_h_coeff = true) := by
  intro n
  induction n with
  | zero => intro tile_y lti tile_req i; exact ⟨fun h => h, fun h => h⟩
  | succ n ih =>
    intro tile_y lti tile_req i
    have h1 := stream_mark_row_mono K mask level visible_tiles padded_bounds w tile_y
      (padded_bounds.max.x - padded_bounds.min.x).toNat padded_bounds.min.x lti tile_req i
    have h2 := ih (tile_y + 1)
      (stream_mark_row K mask level visible_tiles padded_bounds w tile_y
        (padded_bounds.max.x - padded_bounds.min.x).toNat padded_bounds.min.x lti tile_req).1
      (stream_mark_row K mask level visible_tiles padded_bounds w tile_y
        (padded_bounds.max.x - padded_bounds.min.x).toNat padded_bounds.min.x lti tile_req).2 i
    simp only [stream_mark_rows]
    exact ⟨fun h => h2.1 (h1.1 h), fun h => h2.2 (h1.2 h)⟩

/-- The loop over the rows marks the neighbours of every tile of the rows
that is not loaded and lies in the visible rectangle. -/
theorem stream_mark_rows_marks (K : isyntax_adj_tile_t)
    (mask : isyntax_level_t → Int → Int → Nat) (level : isyntax_level_t)
    (visible_tiles padded_bounds : bounds2i) :
    ∀ (n : Nat) (tile_y0 local_tile_index : Int) (tile_req : Int → isyntax_tile_req_t)
      (tile_x tile_y : Int), tile_y0 ≤ tile_y → tile_y < tile_y0 + n →
      padded_bounds.min.x ≤ tile_x → tile_x < padded_bounds.max.x →
      (level.tiles (tile_y * level.width_in_tiles + tile_x)).is_loaded = false →
      (tile_x ≥ visible_tiles.min.x ∧ tile_y ≥ visible_tiles.min.y ∧
        tile_x < visible_tiles.max.x ∧ tile_y < visible_tiles.max.y) →
      neighbours_marked K mask level padded_bounds
        (stream_mark_rows K mask level visible_tiles padded_bounds
          (padded_bounds.max.x - padded_bounds.min.x) n tile_y0 local_tile_index tile_req).2
        tile_x tile_y := by
  intro n
  induction n with
  | zero => intro tile_y0 lti tile_req tile_x tile_y h1 h2; omega
  | succ n ih =>
    intro tile_y0 lti tile_req tile_x tile_y h1 h2 hx1 hx2 hnl hvis
    simp only [stream_mark_rows]
    by_cases hy : tile_y = tile_y0
    · subst hy
      exact neighbours_marked_mono K mask level padded_bounds _ _ tile_x tile_y
        (stream_mark_rows_mono K mask level visible_tiles padded_bounds _ n (tile_y + 1) _ _)
        (stream_mark_row_marks K mask level visible_tiles padded_bounds tile_y _
          padded_bounds.min.x lti tile_req tile_x hx1
          (by rw [Int.toNat_of_nonneg (by omega)]; omega) hnl hvis)
    · exact ih (tile_y0 + 1) _ _ tile_x tile_y (by omega) (by push_cast at h2; omega) hx1 hx2
        hnl hvis

/-- C17 (amended): after the marking pass of `isyntax_stream_image_tiles` for
a scale, for every tile `t` of the padded rectangle that lies in the visible
rectangle and has `is_loaded = false`, and every existing tile `n` at a
position flagged by the adjacency mask of `t`: the request slot of `n` has
`need_ll_coeff` set if `n` lacks `has_ll`, and `need_h_coeff` set if `n` lacks
`has_h`. -/
theorem stream_mark_pass_marks_neighbours (K : isyntax_adj_tile_t)
    (isyntax_get_adjacent_tiles_mask : isyntax_level_t → Int → Int → Nat)
    (level : isyntax_level_t) (visible_tiles padded_bounds : bounds2i) (tile_x tile_y : Int)
    (hx : padded_bounds.min.x ≤ tile_x ∧ tile_x < padded_bounds.max.x)
    (hy : padded_bounds.min.y ≤ tile_y ∧ tile_y < padded_bounds.max.y)
    (hvis : tile_x ≥ visible_tiles.min.x ∧ tile_y ≥ visible_tiles.min.y ∧
      tile_x < visible_tiles.max.x ∧ tile_y < visible_tiles.max.y)
    (hnl : (level.tiles (tile_y * level.width_in_tiles + tile_x)).is_loaded = false) :
    neighbours_marked K isyntax_get_adjacent_tiles_mask level padded_bounds
      (stream_mark_pass K isyntax_get_adjacent_tiles_mask level visible_tiles padded_bounds)
      tile_x tile_y := by
  unfold stream_mark_pass
  exact stream_mark_rows_marks K isyntax_get_adjacent_tiles_mask level visible_tiles
    padded_bounds _ padded_bounds.min.y 0 _ tile_x tile_y hy.1
    (by rw [Int.toNat_of_nonneg (by omega)]; omega) hx.1 hx.2 hnl hvis

/-- Witness for C17: three bare tiles in a row, the middle one visible; its
two neighbours and the tile itself are marked. -/
theorem stream_mark_pass_marks_neighbours_witness :
    neighbours_marked example_adj_tile example_adjacent_tiles_mask example_bare_strip_level
      { min := { x := 0, y := 0 }, max := { x := 3, y := 1 } }
      (stream_mark_pass example_adj_tile example_adjacent_tiles_mask example_bare_strip_level
        { min := { x := 1, y := 0 }, max := { x := 2, y := 1 } }
        { min := { x := 0, y := 0 }, max := { x := 3, y := 1 } }) 1 0 :=
  stream_mark_pass_marks_neighbours example_adj_tile example_adjacent_tiles_mask
    example_bare_strip_level { min := { x := 1, y := 0 }, max := { x := 2, y := 1 } }
    { min := { x := 0, y := 0 }, max := { x := 3, y := 1 } } 1 0 (by decide) (by decide)
    (by decide) (by decide)

/-- Counterexample to C17 as stated: in a row of three tiles with the loaded
middle tile visible, the tile `(0, 0)` lies in the padded rectangle, is not
loaded, exists, lacks `has_ll` and is flagged by its own adjacency mask
(centre), yet its request slot has `need_ll_coeff` and `need_h_coeff` clear:
only tiles of the visible rectangle have their neighbours marked. -/
theorem stream_mark_pass_skips_padding_ring :
    (stream_padded_bounds example_strip_level
      { min := { x := 1, y := 0 }, max := { x := 2, y := 1 } }).min.x = 0
    ∧ (stream_padded_bounds example_strip_level
      { min := { x := 1, y := 0 }, max := { x := 2, y := 1 } }).max.x = 3
    ∧ (stream_padded_bounds example_strip_level
      { min := { x := 1, y := 0 }, max := { x := 2, y := 1 } }).min.y = 0
    ∧ (stream_padded_bounds example_strip_level
      { min := { x := 1, y := 0 }, max := { x := 2, y := 1 } }).max.y = 1
    ∧ (example_strip_level.tiles (0 * example_strip_level.width_in_tiles + 0)).is_loaded = false
    ∧ example_adjacent_tiles_mask example_strip_level 0 0 &&& example_adj_tile.CENTER ≠ 0
    ∧ (example_strip_level.tiles 0).exists_ = true
    ∧ (example_strip_level.tiles 0).has_ll = false
    ∧ (example_strip_level.tiles 0).has_h = false
    ∧ (stream_mark_pass example_adj_tile example_adjacent_tiles_mask example_strip_level
        { min := { x := 1, y := 0 }, max := { x := 2, y := 1 } }
        { min := { x := 0, y := 0 }, max := { x := 3, y := 1 } } 0).need_ll_coeff = false
    ∧ (stream_mark_pass example_adj_tile example_adjacent_tiles_mask example_strip_level
        { min := { x := 1, y := 0 }, max := { x := 2, y := 1 } }
        { min := { x := 0, y := 0 }, max := { x := 3, y := 1 } } 0).need_h_coeff = false := by
  decide

/-! ### The visible rectangle of a cropped streamer -/

/-- With `is_cropped` set the visible rectangle is clipped against the tile
bounds of `camera_bounds` a second time; `crop_bounds` is not read. -/
theorem stream_visible_tiles_ignores_crop_bounds {β : Type}
    (world_bounds_to_tile_bounds : β → Int → bounds2i)
    (clip_bounds2i : bounds2i → bounds2i → bounds2i) (tile_streamer : tile_streamer_t β)
    (crop_bounds : β) (level : isyntax_level_t) (scale : Int) :
    stream_visible_tiles world_bounds_to_tile_bounds clip_bounds2i
        { tile_streamer with crop_bounds := crop_bounds } level scale
      = stream_visible_tiles world_bounds_to_tile_bounds clip_bounds2i tile_streamer level scale :=
  rfl

/-- C18, the failing input: the streamer is cropped to the tile `(0, 0)` while
the camera sees the tiles `[0, 3) x [0, 3)` of a level of four by four tiles.
The visible rectangle that the pass computes is `[0, 3) x [0, 3)`: it is not
contained in the tile bounds `[0, 1) x [0, 1)` of the crop region. -/
theorem stream_visible_tiles_exceeds_crop_region :
    example_cropped_streamer.is_cropped = true
    ∧ (example_world_bounds_to_tile_bounds example_cropped_streamer.crop_bounds 0).max.x = 1
    ∧ (example_world_bounds_to_tile_bounds example_cropped_streamer.crop_bounds 0).max.y = 1
    ∧ (stream_visible_tiles example_world_bounds_to_tile_bounds example_clip_bounds2i
        example_cropped_streamer example_square_level 0).min.x = 0
    ∧ (stream_visible_tiles example_world_bounds_to_tile_bounds example_clip_bounds2i
        example_cropped_streamer example_square_level 0).min.y = 0
    ∧ (stream_visible_tiles example_world_bounds_to_tile_bounds example_clip_bounds2i
        example_cropped_streamer example_square_level 0).max.x = 3
    ∧ (stream_visible_tiles example_world_bounds_to_tile_bounds example_clip_bounds2i
        example_cropped_streamer example_square_level 0).max.y = 3 := by
  decide

/-! ### The list of chunks to load -/

theorem chunks_to_load_search_iff (chunk_index : Nat) (l : List Nat) :
    chunks_to_load_search chunk_index l = true ↔ chunk_index ∈ l := by
  induction l with
  | nil => simp [chunks_to_load_search]
  | cons c l ih =>
    simp only [chunks_to_load_search, List.mem_cons]
    by_cases h : c = chunk_index
    · simp [h]
    · rw [if_neg h, ih]
      constructor
      · exact fun h1 => Or.inr h1
      · rintro (h1 | h1)
        · exact absurd h1.symm h
        · exact h1

/-- An entry keeps its tile when more regions are counted and the regions
counted so far stay as they are. -/
theorem chunk_entry_has_tile_mono (levels : Int → isyntax_level_t)
    (regions regions1 : Int → isyntax_load_region_t) (highest bound bound1 : Int) (e : Nat)
    (hb : bound ≤ bound1) (hr : ∀ k, 0 ≤ k → k < bound → regions1 k = regions k)
    (h : chunk_entry_has_tile levels regions highest bound e) :
    chunk_entry_has_tile levels regions1 highest bound1 e := by
  obtain ⟨k, tile_x, tile_y, h0, h1, h2⟩ := h
  refine ⟨k, tile_x, tile_y, h0, by omega, ?_⟩
  rw [hr k h0 h1]
  exact h2

theorem stream_region_inv_mono (levels : Int → isyntax_level_t) (highest bound bound1 : Int)
    (st st1 : stream_region_state_t) (hb : bound ≤ bound1)
    (hr : ∀ k, 0 ≤ k → k < bound → st1.regions k = st.regions k)
    (hc : st1.chunks_to_load = st.chunks_to_load)
    (hh : st1.chunks_to_load_history = st.chunks_to_load_history)
    (h : stream_region_inv levels highest bound st) :
    stream_region_inv levels highest bound1 st1 := by
  refine ⟨by rw [hc, hh]; exact h.1, ?_⟩
  intro l hl
  rw [hh] at hl
  obtain ⟨h1, h2, h3⟩ := h.2 l hl
  exact ⟨h1, h2, fun e he =>
    chunk_entry_has_tile_mono levels st.regions st1.regions highest bound bound1 e hb hr (h3 e he)⟩

/-- The body of the chunk pass leaves the regions alone. -/
theorem stream_collect_tile_regions (level : isyntax_level_t)
    (tile_req : Int → isyntax_tile_req_t) (tile_y tile_x local_tile_index : Int)
    (st : stream_region_state_t) :
    (stream_collect_tile level tile_req tile_y tile_x local_tile_index st).1.regions
      = st.regions := by
  unfold stream_collect_tile
  simp only []
  split_ifs <;> rfl

/-- The body of the chunk pass keeps the invariant: an index is appended only
when the list has fewer than 16 entries and does not hold it, and it is the
chunk of the tile at hand, whose slot has `need_h_coeff` set. -/
theorem stream_collect_tile_inv (levels : Int → isyntax_level_t) (highest j : Int)
    (hj : 0 ≤ j) (tile_y tile_x : Int) (st : stream_region_state_t)
    (hx : (st.regions j).padded_bounds.min.x ≤ tile_x ∧ tile_x < (st.regions j).padded_bounds.max.x)
    (hy : (st.regions j).padded_bounds.min.y ≤ tile_y ∧ tile_y < (st.regions j).padded_bounds.max.y)
    (h : stream_region_inv levels highest (j + 1) st) :
    stream_region_inv levels highest (j + 1)
      (stream_collect_tile (levels (highest - j)) (st.regions j).tile_req tile_y tile_x
        ((tile_y - (st.regions j).padded_bounds.min.y) * (st.regions j).width_in_tiles
          + (tile_x - (st.regions j).padded_bounds.min.x)) st).1 := by
  unfold stream_collect_tile
  by_cases h16 : st.chunks_to_load.length = max_chunks_to_load
  · rw [if_pos h16]
    exact h
  · rw [if_neg h16]
    simp only []
    by_cases hneed : ((st.regions j).tile_req
        ((tile_y - (st.regions j).padded_bounds.min.y) * (st.regions j).width_in_tiles
          + (tile_x - (st.regions j).padded_bounds.min.x))).need_h_coeff = true
    · rw [if_pos hneed]
      by_cases hin : chunks_to_load_search
          ((levels (highest - j)).tiles
            (tile_y * (levels (highest - j)).width_in_tiles + tile_x)).data_chunk_index
          st.chunks_to_load = true
      · simp only [hin, Bool.not_true, Bool.false_eq_true, if_false]
        exact h
      · have hin2 : chunks_to_load_search
            ((levels (highest - j)).tiles
              (tile_y * (levels (highest - j)).width_in_tiles + tile_x)).data_chunk_index
            st.chunks_to_load = false := by simpa using hin
        have hnot : ((levels (highest - j)).tiles
            (tile_y * (levels (highest - j)).width_in_tiles + tile_x)).data_chunk_index
            ∉ st.chunks_to_load := fun hm => hin ((chunks_to_load_search_iff _ _).mpr hm)
        simp only [hin2, Bool.not_false, if_true]
        obtain ⟨hlen, hnd, hent⟩ := h.2 _ h.1
        refine ⟨by simp, ?_⟩
        intro l hl
        simp only [List.mem_append, List.mem_singleton] at hl
        rcases hl with hl | rfl
        · exact h.2 l hl
        · refine ⟨?_, ?_, ?_⟩
          · simp only [List.length_append, List.length_singleton]
            have : st.chunks_to_load.length ≠ 16 := h16
            omega
          · rw [List.nodup_append]
            refine ⟨hnd, List.nodup_singleton _, ?_⟩
            intro a ha hb
            rw [List.mem_singleton] at hb
            exact hnot (hb ▸ ha)
          · intro e he
            simp only [List.mem_append, List.mem_singleton] at he
            rcases he with he | rfl
            · exact hent e he
            · exact ⟨j, tile_x, tile_y, hj, by omega, hx.1, hx.2, hy.1, hy.2, hneed, rfl⟩
    · rw [if_neg hneed]
      exact h

/-- The row loop of the chunk pass keeps the invariant and the regions, and
counts the slots of the row when it is not left through the `goto`. -/
theorem stream_collect_row_inv (levels : Int → isyntax_level_t) (highest j : Int) (hj : 0 ≤ j)
    (region : isyntax_load_region_t) (tile_y : Int)
    (hy : region.padded_bounds.min.y ≤ tile_y ∧ tile_y < region.padded_bounds.max.y) :
    ∀ (n : Nat) (tile_x0 : Int) (st : stream_region_state_t), st.regions j = region →
      region.padded_bounds.min.x ≤ tile_x0 → tile_x0 + n ≤ region.padded_bounds.max.x →
      stream_region_inv levels highest (j + 1) st →
      stream_region_inv levels highest (j + 1)
        (stream_collect_row (levels (highest - j)) region.tile_req tile_y n tile_x0
          ((tile_y - region.padded_bounds.min.y) * region.width_in_tiles
            + (tile_x0 - region.padded_bounds.min.x)) st).2.1 ∧
      (stream_collect_row (levels (highest - j)) region.tile_req tile_y n tile_x0
          ((tile_y - region.padded_bounds.min.y) * region.width_in_tiles
            + (tile_x0 - region.padded_bounds.min.x)) st).2.1.regions = st.regions ∧
      ((stream_collect_row (levels (highest - j)) region.tile_req tile_y n tile_x0
          ((tile_y - region.padded_bounds.min.y) * region.width_in_tiles
            + (tile_x0 - region.padded_bounds.min.x)) st).2.2 = false →
        (stream_collect_row (levels (highest - j)) region.tile_req tile_y n tile_x0
          ((tile_y - region.padded_bounds.min.y) * region.width_in_tiles
            + (tile_x0 - region.padded_bounds.min.x)) st).1
          = (tile_y - region.padded_bounds.min.y) * region.width_in_tiles
            + (tile_x0 - region.padded_bounds.min.x) + n) := by
  intro n
  induction n with
  | zero =>
    intro tile_x0 st hreg h1 h2 hinv
    simp only [stream_collect_row]
    exact ⟨hinv, trivial, fun _ => by simp⟩
  | succ n ih =>
    intro tile_x0 st hreg h1 h2 hinv
    have hstep := stream_collect_tile_inv levels highest j hj tile_y tile_x0 st
      (by rw [hreg]; push_cast at h2; omega) (by rw [hreg]; exact hy) hinv
    have hregs := stream_collect_tile_regions (levels (highest - j)) region.tile_req tile_y tile_x0
      ((tile_y - region.padded_bounds.min.y) * region.width_in_tiles
        + (tile_x0 - region.padded_bounds.min.x)) st
    rw [hreg] at hstep
    simp only [stream_collect_row]
    cases hc : stream_collect_tile (levels (highest - j)) region.tile_req tile_y tile_x0
        ((tile_y - region.padded_bounds.min.y) * region.width_in_tiles
          + (tile_x0 - region.padded_bounds.min.x)) st with
    | mk st1 flag =>
      rw [hc] at hstep hregs
      simp only [] at hstep hregs
      cases flag with
      | true =>
        simp only []
        exact ⟨hstep, hregs, fun h => by simp at h⟩
      | false =>
        simp only []
        have e : (tile_y - region.padded_bounds.min.y) * region.width_in_tiles
            + (tile_x0 - region.padded_bounds.min.x) + 1
            = (tile_y - region.padded_bounds.min.y) * region.width_in_tiles
              + (tile_x0 + 1 - region.padded_bounds.min.x) := by ring
        rw [e]
        obtain ⟨i1, i2, i3⟩ := ih (tile_x0 + 1) st1 (by rw [hregs, hreg]) (by omega)
          (by push_cast at h2; omega) hstep
        refine ⟨i1, by rw [i2, hregs], fun h => ?_⟩
        rw [i3 h]
        push_cast
        ring

/-- The loop over the rows of the chunk pass keeps the invariant and the
regions. -/
theorem stream_collect_rows_inv (levels : Int → isyntax_level_t) (highest j : Int) (hj : 0 ≤ j)
    (region : isyntax_load_region_t)
    (hw : region.width_in_tiles = region.padded_bounds.max.x - region.padded_bounds.min.x)
    (hw0 : 0 ≤ region.width_in_tiles) :
    ∀ (n : Nat) (tile_y0 : Int) (st : stream_region_state_t), st.regions j = region →
      region.padded_bounds.min.y ≤ tile_y0 → tile_y0 + n ≤ region.padded_bounds.max.y →
      stream_region_inv levels highest (j + 1) st →
      stream_region_inv levels highest (j + 1)
        (stream_collect_rows (levels (highest - j)) region.padded_bounds region.tile_req n tile_y0
          ((tile_y0 - region.padded_bounds.min.y) * region.width_in_tiles) st) ∧
      (stream_collect_rows (levels (highest - j)) region.padded_bounds region.tile_req n tile_y0
          ((tile_y0 - region.padded_bounds.min.y) * region.width_in_tiles) st).regions
        = st.regions := by
  intro n
  induction n with
  | zero =>
    intro tile_y0 st hreg h1 h2 hinv
    simp only [stream_collect_rows]
    exact ⟨hinv, trivial⟩
  | succ n ih =>
    intro tile_y0 st hreg h1 h2 hinv
    have hrow := stream_collect_row_inv levels highest j hj region tile_y0
      ⟨h1, by push_cast at h2; omega⟩
      (region.padded_bounds.max.x - region.padded_bounds.min.x).toNat
      region.padded_bounds.min.x st hreg (le_refl _)
      (by rw [Int.toNat_of_nonneg (by omega)]; omega) hinv
    simp only [sub_self, add_zero] at hrow
    simp only [stream_collect_rows]
    cases hc : stream_collect_row (levels (highest - j)) region.tile_req tile_y0
        (region.padded_bounds.max.x - region.padded_bounds.min.x).toNat
        region.padded_bounds.min.x
        ((tile_y0 - region.padded_bounds.min.y) * region.width_in_tiles) st with
    | mk lti1 rest =>
      obtain ⟨st1, flag⟩ := rest
      rw [hc] at hrow
      simp only [] at hrow
      obtain ⟨i1, i2, i3⟩ := hrow
      cases flag with
      | true =>
        simp only []
        exact ⟨i1, i2⟩
      | false =>
        simp only []
        have e : lti1 = (tile_y0 + 1 - region.padded_bounds.min.y) * region.width_in_tiles := by
          rw [i3 rfl, Int.toNat_of_nonneg (by omega), ← hw]
          ring
        rw [e]
        obtain ⟨k1, k2⟩ := ih (tile_y0 + 1) st1 (by rw [i2, hreg]) (by omega)
          (by push_cast at h2; omega) i1
        exact ⟨k1, by rw [k2, i2]⟩

/-- The chunk pass of a scale, run on the state in which the region of the
scale has been stored, takes the invariant from the first `j` regions to the
first `j + 1`. -/
theorem stream_collect_region_inv (levels : Int → isyntax_level_t) (highest j : Int)
    (hj : 0 ≤ j) (scale : Int) (padded_bounds visible_bounds : bounds2i)
    (tile_req : Int → isyntax_tile_req_t)
    (hw : 0 ≤ padded_bounds.max.x - padded_bounds.min.x)
    (hh : 0 ≤ padded_bounds.max.y - padded_bounds.min.y)
    (st : stream_region_state_t) (h : stream_region_inv levels highest j st) :
    stream_region_inv levels highest (j + 1)
      (stream_collect_rows (levels (highest - j)) padded_bounds tile_req
        (padded_bounds.max.y - padded_bounds.min.y).toNat padded_bounds.min.y 0
        { st with regions := fun i =>
            if i = j then
              { scale := scale, padded_bounds := padded_bounds, visible_bounds := visible_bounds,
                width_in_tiles := padded_bounds.max.x - padded_bounds.min.x,
                height_in_tiles := padded_bounds.max.y - padded_bounds.min.y,
                tile_req := tile_req }
            else st.regions i }) := by
  have hinv1 := stream_region_inv_mono levels highest j (j + 1) st
    { st with regions := fun i =>
        if i = j then
          { scale := scale, padded_bounds := padded_bounds, visible_bounds := visible_bounds,
            width_in_tiles := padded_bounds.max.x - padded_bounds.min.x,
            height_in_tiles := padded_bounds.max.y - padded_bounds.min.y,
            tile_req := tile_req }
        else st.regions i }
    (by omega) (fun k _ hk => if_neg (by omega)) rfl rfl h
  have hrows := stream_collect_rows_inv levels highest j hj
    { scale := scale, padded_bounds := padded_bounds, visible_bounds := visible_bounds,
      width_in_tiles := padded_bounds.max.x - padded_bounds.min.x,
      height_in_tiles := padded_bounds.max.y - padded_bounds.min.y,
      tile_req := tile_req } rfl hw
    (padded_bounds.max.y - padded_bounds.min.y).toNat padded_bounds.min.y _ (if_pos rfl)
    (le_refl _) (by rw [Int.toNat_of_nonneg hh]; simp) hinv1
  simp only [sub_self, zero_mul] at hrows
  exact hrows.1

/-- The body of the loop over scales takes the invariant from the first `j`
regions to the first `j + 1`. -/
theorem stream_region_scale_inv {β : Type} (K : isyntax_adj_tile_t)
    (mask : isyntax_level_t → Int → Int → Nat)
    (world_bounds_to_tile_bounds : β → Int → bounds2i)
    (clip_bounds2i : bounds2i → bounds2i → bounds2i) (tile_streamer : tile_streamer_t β)
    (levels : Int → isyntax_level_t) (highest j : Int) (hj : 0 ≤ j)
    (st : stream_region_state_t) (h : stream_region_inv levels highest j st) :
    stream_region_inv levels highest (j + 1)
      (stream_region_scale K mask world_bounds_to_tile_bounds clip_bounds2i tile_streamer levels
        (highest - j) j st).1 := by
  unfold stream_region_scale
  simp only []
  split_ifs with hempty
  · exact stream_region_inv_mono levels highest j (j + 1) st st (by omega) (fun _ _ _ => rfl)
      rfl rfl h
  · exact stream_collect_region_inv levels highest j hj _ _ _ _ (by omega) (by omega) st h

/-- The loop over scales takes the invariant from the first `j` regions to
the first `j + n`. -/
theorem stream_region_scales_inv {β : Type} (K : isyntax_adj_tile_t)
    (mask : isyntax_level_t → Int → Int → Nat)
    (world_bounds_to_tile_bounds : β → Int → bounds2i)
    (clip_bounds2i : bounds2i → bounds2i → bounds2i) (tile_streamer : tile_streamer_t β)
    (levels : Int → isyntax_level_t) (highest : Int) :
    ∀ (n : Nat) (j : Int) (st : stream_region_state_t), 0 ≤ j →
      stream_region_inv levels highest j st →
      stream_region_inv levels highest (j + n)
        (stream_region_scales K mask world_bounds_to_tile_bounds clip_bounds2i tile_streamer
          levels n (highest - j) j st).1 := by
  intro n
  induction n with
  | zero =>
    intro j st _ h
    simpa [stream_region_scales] using h
  | succ n ih =>
    intro j st hj h
    have hstep := stream_region_scale_inv K mask world_bounds_to_tile_bounds clip_bounds2i
      tile_streamer levels highest j hj st h
    simp only [stream_region_scales]
    cases hc : stream_region_scale K mask world_bounds_to_tile_bounds clip_bounds2i tile_streamer
        levels (highest - j) j st with
    | mk st1 flag =>
      rw [hc] at hstep
      simp only [] at hstep
      cases flag with
      | true =>
        simp only []
        exact stream_region_inv_mono levels highest (j + 1) _ st1 st1 (by push_cast; omega)
          (fun _ _ _ => rfl) rfl rfl hstep
      | false =>
        simp only []
        have e : highest - j - 1 = highest - (j + 1) := by ring
        rw [e]
        have := ih (j + 1) st1 (by omega) hstep
        have e2 : j + 1 + (n : Int) = j + ((n + 1 : Nat) : Int) := by push_cast; ring
        rw [e2] at this
        exact this

/-- The reading loop reads each chunk of the list at most once. -/
theorem stream_read_chunks_length (file_read : Nat → Nat → List Nat)
    (codeblocks : Int → isyntax_codeblock_t) :
    ∀ (l : List Nat) (data_chunks : Nat → isyntax_data_chunk_t),
      (stream_read_chunks file_read codeblocks l data_chunks).2.length ≤ l.length := by
  intro l
  induction l with
  | nil => intro data_chunks; simp [stream_read_chunks]
  | cons c l ih =>
    intro data_chunks
    simp only [stream_read_chunks]
    split_ifs
    · simp only [List.length_cons]
      exact Nat.succ_le_succ (ih _)
    · exact Nat.le_succ_of_le (ih _)

/-- C19: in a pass of `isyntax_stream_image_tiles`, every value that the list
`chunks_to_load` takes holds at most 16 entries, no data chunk index twice,
and only entries that are the `data_chunk_index` of a tile whose request slot
has `need_h_coeff` set; the list at the end of the pass is one of these
values, and the pass issues at most 16 chunk reads. -/
theorem stream_chunk_pass_chunks_to_load {β : Type} (K : isyntax_adj_tile_t)
    (isyntax_get_adjacent_tiles_mask : isyntax_level_t → Int → Int → Nat)
    (world_bounds_to_tile_bounds : β → Int → bounds2i)
    (clip_bounds2i : bounds2i → bounds2i → bounds2i) (file_read : Nat → Nat → List Nat)
    (tile_streamer : tile_streamer_t β) (levels : Int → isyntax_level_t)
    (codeblocks : Int → isyntax_codeblock_t) (data_chunks : Nat → isyntax_data_chunk_t)
    (highest_scale_to_load lowest_visible_scale : Int) :
    (∀ l ∈ (isyntax_stream_chunk_pass K isyntax_get_adjacent_tiles_mask
        world_bounds_to_tile_bounds clip_bounds2i file_read tile_streamer levels codeblocks
        data_chunks highest_scale_to_load lowest_visible_scale).1.chunks_to_load_history,
      chunks_to_load_ok levels
        (isyntax_stream_chunk_pass K isyntax_get_adjacent_tiles_mask
          world_bounds_to_tile_bounds clip_bounds2i file_read tile_streamer levels codeblocks
          data_chunks highest_scale_to_load lowest_visible_scale).1.regions
        highest_scale_to_load
        ((highest_scale_to_load + 1 - lowest_visible_scale).toNat : Int) l)
    ∧ (isyntax_stream_chunk_pass K isyntax_get_adjacent_tiles_mask
        world_bounds_to_tile_bounds clip_bounds2i file_read tile_streamer levels codeblocks
        data_chunks highest_scale_to_load lowest_visible_scale).1.chunks_to_load
      ∈ (isyntax_stream_chunk_pass K isyntax_get_adjacent_tiles_mask
        world_bounds_to_tile_bounds clip_bounds2i file_read tile_streamer levels codeblocks
        data_chunks highest_scale_to_load lowest_visible_scale).1.chunks_to_load_history
    ∧ (isyntax_stream_chunk_pass K isyntax_get_adjacent_tiles_mask
        world_bounds_to_tile_bounds clip_bounds2i file_read tile_streamer levels codeblocks
        data_chunks highest_scale_to_load lowest_visible_scale).2.2.length ≤ 16 := by
  have hinit : stream_region_inv levels highest_scale_to_load 0
      { regions := fun _ => load_region_zero, chunks_to_load := [],
        chunks_to_load_history := [[]] } := by
    refine ⟨by simp, ?_⟩
    intro l hl
    simp only [List.mem_singleton] at hl
    subst hl
    exact ⟨by simp, List.nodup_nil, fun e he => by simp at he⟩
  have hinv := stream_region_scales_inv K isyntax_get_adjacent_tiles_mask
    world_bounds_to_tile_bounds clip_bounds2i tile_streamer levels highest_scale_to_load
    (highest_scale_to_load + 1 - lowest_visible_scale).toNat 0 _ (le_refl _) hinit
  simp only [sub_zero, zero_add] at hinv
  unfold isyntax_stream_chunk_pass isyntax_stream_region_pass
  cases hc : stream_region_scales K isyntax_get_adjacent_tiles_mask world_bounds_to_tile_bounds
      clip_bounds2i tile_streamer levels (highest_scale_to_load + 1 - lowest_visible_scale).toNat
      highest_scale_to_load 0
      { regions := fun _ => load_region_zero, chunks_to_load := [],
        chunks_to_load_history := [[]] } with
  | mk st flag =>
    rw [hc] at hinv
    simp only [] at hinv
    cases flag with
    | true =>
      simp only []
      exact ⟨hinv.2, hinv.1, by simp⟩
    | false =>
      simp only []
      refine ⟨hinv.2, hinv.1, ?_⟩
      exact le_trans (stream_read_chunks_length file_read codeblocks _ _) (hinv.2 _ hinv.1).1

/-- The example pass: three bare tiles of one chunk in a row, all of them in
the visible rectangle; the list of chunks ends as `[0]` and chunk 0 is read. -/
theorem example_chunk_pass_trace :
    (isyntax_stream_chunk_pass example_adj_tile example_adjacent_tiles_mask
      example_world_bounds_to_tile_bounds example_clip_bounds2i (fun _ _ => []) example_streamer
      (fun _ => example_bare_strip_level) example_contiguous_codeblocks
      (fun _ => { example_chunk with data := none }) 0 0).1.chunks_to_load_history = [[], [0]]
    ∧ (isyntax_stream_chunk_pass example_adj_tile example_adjacent_tiles_mask
      example_world_bounds_to_tile_bounds example_clip_bounds2i (fun _ _ => []) example_streamer
      (fun _ => example_bare_strip_level) example_contiguous_codeblocks
      (fun _ => { example_chunk with data := none }) 0 0).2.2 = [0] := by
  decide

/-- Witness for C19: the example pass. -/
theorem stream_chunk_pass_chunks_to_load_witness :
    (∀ l ∈ (isyntax_stream_chunk_pass example_adj_tile example_adjacent_tiles_mask
        example_world_bounds_to_tile_bounds example_clip_bounds2i (fun _ _ => [])
        example_streamer (fun _ => example_bare_strip_level) example_contiguous_codeblocks
        (fun _ => { example_chunk with data := none }) 0 0).1.chunks_to_load_history,
      chunks_to_load_ok (fun _ => example_bare_strip_level)
        (isyntax_stream_chunk_pass example_adj_tile example_adjacent_tiles_mask
          example_world_bounds_to_tile_bounds example_clip_bounds2i (fun _ _ => [])
          example_streamer (fun _ => example_bare_strip_level) example_contiguous_codeblocks
          (fun _ => { example_chunk with data := none }) 0 0).1.regions
        0 (((0 : Int) + 1 - 0).toNat : Int) l)
    ∧ (isyntax_stream_chunk_pass example_adj_tile example_adjacent_tiles_mask
        example_world_bounds_to_tile_bounds example_clip_bounds2i (fun _ _ => [])
        example_streamer (fun _ => example_bare_strip_level) example_contiguous_codeblocks
        (fun _ => { example_chunk with data := none }) 0 0).1.chunks_to_load
      ∈ (isyntax_stream_chunk_pass example_adj_tile example_adjacent_tiles_mask
        example_world_bounds_to_tile_bounds example_clip_bounds2i (fun _ _ => [])
        example_streamer (fun _ => example_bare_strip_level) example_contiguous_codeblocks
        (fun _ => { example_chunk with data := none }) 0 0).1.chunks_to_load_history
    ∧ (isyntax_stream_chunk_pass example_adj_tile example_adjacent_tiles_mask
        example_world_bounds_to_tile_bounds example_clip_bounds2i (fun _ _ => [])
        example_streamer (fun _ => example_bare_strip_level) example_contiguous_codeblocks
        (fun _ => { example_chunk with data := none }) 0 0).2.2.length ≤ 16 :=
  stream_chunk_pass_chunks_to_load example_adj_tile example_adjacent_tiles_mask
    example_world_bounds_to_tile_bounds example_clip_bounds2i (fun _ _ => []) example_streamer
    (fun _ => example_bare_strip_level) example_contiguous_codeblocks
    (fun _ => { example_chunk with data := none }) 0 0

/-! ### The first load: which tiles receive their high-pass blocks -/

/-- A well-formed allocator hands out a block that is not `NULL` and stays
well formed. -/
theorem block_alloc_wf (new_chunk_memory : Nat) (hnew : new_chunk_memory ≠ 0)
    (allocator allocator1 : block_allocator_t) (p : Nat)
    (hwf : block_allocator_wf allocator)
    (h : block_alloc new_chunk_memory allocator = some (p, allocator1)) :
    p ≠ 0 ∧ block_allocator_wf allocator1 := by
  obtain ⟨h1, h2, h3⟩ := hwf
  unfold block_alloc at h
  cases hfl : allocator.free_list with
  | some free_item_ptr =>
    rw [hfl] at h
    simp only [Option.some.injEq, Prod.mk.injEq] at h
    obtain ⟨hp, ha⟩ := h
    subst ha
    refine ⟨?_, h1, h2, h3⟩
    have := h2 _ (h3 free_item_ptr)
    omega
  | none =>
    rw [hfl] at h
    simp only [] at h
    by_cases hc : (allocator.chunks (allocator.used_chunks - 1)).used_blocks
        < allocator.chunk_capacity_in_blocks
    · rw [if_pos hc] at h
      simp only [Option.some.injEq, Prod.mk.injEq] at h
      obtain ⟨hp, ha⟩ := h
      subst ha
      have hm := h2 (allocator.used_chunks - 1) (by omega)
      refine ⟨by omega, h1, ?_, h3⟩
      intro i hi
      simp only []
      by_cases hi2 : i = allocator.used_chunks - 1
      · rw [if_pos hi2]
        exact hm
      · rw [if_neg hi2]
        exact h2 i hi
    · rw [if_neg hc] at h
      by_cases hu : allocator.used_chunks < allocator.chunk_count
      · rw [if_pos hu] at h
        simp only [Option.some.injEq, Prod.mk.injEq] at h
        obtain ⟨hp, ha⟩ := h
        subst ha
        refine ⟨by omega, by simp only []; omega, ?_, ?_⟩
        · intro i hi
          simp only [] at hi ⊢
          by_cases hi2 : i = allocator.used_chunks
          · rw [if_pos hi2]
            exact hnew
          · rw [if_neg hi2]
            exact h2 i (by omega)
        · intro i
          simp only []
          exact Nat.lt_succ_of_lt (h3 i)
      · rw [if_neg hu] at h
        simp at h

theorem first_load_extends_refl (st : first_load_state_t)
    (hwf : block_allocator_wf st.h_coeff_block_allocator) : first_load_extends st st :=
  ⟨hwf, rfl, fun _ _ _ h => h, fun h => h⟩

theorem first_load_extends_trans (st st1 st2 : first_load_state_t)
    (h1 : first_load_extends st st1) (h2 : first_load_extends st1 st2) :
    first_load_extends st st2 :=
  ⟨h2.1, h2.2.1.trans h1.2.1, fun s t c h => h2.2.2.1 s t c (h1.2.2.1 s t c h),
    fun h => h1.2.2.2 (h2.2.2.2 h)⟩

/-- The allocation of a high-pass block: the channel receives a block that is
not `NULL`, unless `panic()` is reached. -/
theorem first_load_alloc_coeff_h_extends (env : first_load_env_t)
    (hmalloc : ∀ i, env.malloc_h i ≠ 0) (scale tile_index : Int) (color : Nat)
    (st : first_load_state_t) (hwf : block_allocator_wf st.h_coeff_block_allocator) :
    first_load_extends st (first_load_alloc_coeff_h env scale tile_index color st) ∧
    ((first_load_alloc_coeff_h env scale tile_index color st).panicked = false →
      ((first_load_alloc_coeff_h env scale tile_index color st).channels scale tile_index
        color).coeff_h ≠ 0) := by
  unfold first_load_alloc_coeff_h
  cases h : block_alloc (env.malloc_h st.h_coeff_block_allocator.used_chunks)
      st.h_coeff_block_allocator with
  | none =>
    simp only []
    exact ⟨⟨hwf, rfl, fun _ _ _ h => h, fun h => by simp at h⟩, fun h => by simp at h⟩
  | some r =>
    obtain ⟨p, allocator⟩ := r
    obtain ⟨hp, hwf1⟩ := block_alloc_wf _ (hmalloc _) _ _ _ hwf h
    simp only []
    refine ⟨⟨hwf1, rfl, ?_, fun h => h⟩, fun _ => ?_⟩
    · intro s t c hc
      by_cases hi : s = scale ∧ t = tile_index ∧ c = color
      · simp only [if_pos hi]
        exact hp
      · simp only [if_neg hi]
        exact hc
    · simp only [true_and, if_true]
      exact hp

theorem first_load_alloc_coeff_ll_extends (env : first_load_env_t)
    (scale tile_index : Int) (color : Nat)
    (st : first_load_state_t) (hwf : block_allocator_wf st.h_coeff_block_allocator) :
    first_load_extends st (first_load_alloc_coeff_ll env scale tile_index color st) := by
  unfold first_load_alloc_coeff_ll
  cases h : block_alloc (env.malloc_ll st.ll_coeff_block_allocator.used_chunks)
      st.ll_coeff_block_allocator with
  | none =>
    simp only []
    exact ⟨hwf, rfl, fun _ _ _ h => h, fun h => by simp at h⟩
  | some r =>
    obtain ⟨p, allocator⟩ := r
    simp only []
    refine ⟨hwf, rfl, ?_, fun h => h⟩
    intro s t c hc
    by_cases hi : s = scale ∧ t = tile_index ∧ c = color
    · simp only [if_pos hi]
      exact hc
    · simp only [if_neg hi]
      exact hc

theorem first_load_set_neighbors_loaded_extends (env : first_load_env_t)
    (level : isyntax_level_t) (scale tile_index : Int) (color : Nat) (tile_x tile_y : Int)
    (st : first_load_state_t) (hwf : block_allocator_wf st.h_coeff_block_allocator) :
    first_load_extends st
      (first_load_set_neighbors_loaded env level scale tile_index color tile_x tile_y st) := by
  unfold first_load_set_neighbors_loaded
  refine ⟨hwf, rfl, ?_, fun h => h⟩
  intro s t c hc
  by_cases hi : s = scale ∧ t = tile_index ∧ c = color
  · simp only [if_pos hi]
    exact hc
  · simp only [if_neg hi]
    exact hc

theorem first_load_top_channel_extends (env : first_load_env_t)
    (hmalloc : ∀ i, env.malloc_h i ≠ 0) (level : isyntax_level_t)
    (scale tile_x tile_y tile_index : Int) (st : first_load_state_t) (i : Nat)
    (hwf : block_allocator_wf st.h_coeff_block_allocator) :
    first_load_extends st (first_load_top_channel env level scale tile_x tile_y tile_index st i) ∧
    ((first_load_top_channel env level scale tile_x tile_y tile_index st i).panicked = false →
      ((first_load_top_channel env level scale tile_x tile_y tile_index st i).channels scale
        tile_index i).coeff_h ≠ 0) := by
  unfold first_load_top_channel
  by_cases hp : st.panicked = true
  · rw [if_pos hp]
    exact ⟨first_load_extends_refl st hwf, fun h => by rw [hp] at h; cases h⟩
  rw [if_neg hp]
  obtain ⟨e1, m1⟩ := first_load_alloc_coeff_h_extends env hmalloc scale tile_index i st hwf
  simp only []
  by_cases hp1 : (first_load_alloc_coeff_h env scale tile_index i st).panicked = true
  · rw [if_pos hp1]
    exact ⟨e1, fun h => by rw [hp1] at h; cases h⟩
  rw [if_neg hp1]
  have e2 := first_load_alloc_coeff_ll_extends env scale tile_index i _ e1.1
  have m2 := e2.2.2.1 _ _ _ (m1 (by simpa using hp1))
  by_cases hp2 : (first_load_alloc_coeff_ll env scale tile_index i
      (first_load_alloc_coeff_h env scale tile_index i st)).panicked = true
  · rw [if_pos hp2]
    exact ⟨first_load_extends_trans _ _ _ e1 e2, fun _ => m2⟩
  rw [if_neg hp2]
  have e3 := first_load_set_neighbors_loaded_extends env level scale tile_index i tile_x tile_y
    _ e2.1
  exact ⟨first_load_extends_trans _ _ _ e1 (first_load_extends_trans _ _ _ e2 e3),
    fun _ => e3.2.2.1 _ _ _ m2⟩

theorem first_load_top_colors_extends (env : first_load_env_t)
    (hmalloc : ∀ i, env.malloc_h i ≠ 0) (level : isyntax_level_t)
    (scale tile_x tile_y tile_index : Int) (colors : List Nat) :
    ∀ st : first_load_state_t, block_allocator_wf st.h_coeff_block_allocator →
    first_load_extends st
      (colors.foldl (first_load_top_channel env level scale tile_x tile_y tile_index) st) ∧
    ((colors.foldl (first_load_top_channel env level scale tile_x tile_y tile_index)
        st).panicked = false →
      ∀ c ∈ colors,
        ((colors.foldl (first_load_top_channel env level scale tile_x tile_y tile_index)
          st).channels scale tile_index c).coeff_h ≠ 0) := by
  induction colors with
  | nil =>
    intro st hwf
    exact ⟨first_load_extends_refl st hwf, fun _ c hc => by cases hc⟩
  | cons a l ih =>
    intro st hwf
    obtain ⟨e1, m1⟩ := first_load_top_channel_extends env hmalloc level scale tile_x tile_y
      tile_index st a hwf
    obtain ⟨e2, m2⟩ := ih _ e1.1
    rw [List.foldl_cons]
    refine ⟨first_load_extends_trans _ _ _ e1 e2, fun hp c hc => ?_⟩
    rcases List.mem_cons.mp hc with h | h
    · subst h
      exact e2.2.2.1 _ _ _ (m1 (e2.2.2.2 hp))
    · exact m2 hp c h

theorem first_load_top_tile_extends (env : first_load_env_t)
    (hmalloc : ∀ i, env.malloc_h i ≠ 0) (level : isyntax_level_t)
    (scale tile_y tile_x tile_index : Int) (st : first_load_state_t)
    (hwf : block_allocator_wf st.h_coeff_block_allocator) :
    first_load_extends st (first_load_top_tile env level scale tile_y tile_x tile_index st) ∧
    ((first_load_top_tile env level scale tile_y tile_x tile_index st).panicked = false →
      (level.tiles tile_index).exists_ = true → ∀ c, c < 3 →
      ((first_load_top_tile env level scale tile_y tile_x tile_index st).channels scale
        tile_index c).coeff_h ≠ 0) := by
  unfold first_load_top_tile
  by_cases he : (level.tiles tile_index).exists_ = true
  · rw [if_neg (by simp [he])]
    obtain ⟨e, m⟩ := first_load_top_colors_extends env hmalloc level scale tile_x tile_y
      tile_index (List.range 3) st hwf
    exact ⟨e, fun hp _ c hc => m hp c (List.mem_range.mpr hc)⟩
  · rw [if_pos (by simpa using he)]
    exact ⟨first_load_extends_refl st hwf, fun _ h => absurd h he⟩

theorem first_load_top_row_extends (env : first_load_env_t)
    (hmalloc : ∀ i, env.malloc_h i ≠ 0) (level : isyntax_level_t) (scale tile_y : Int)
    (n : Nat) :
    ∀ (tile_x tile_index : Int) (st : first_load_state_t),
    block_allocator_wf st.h_coeff_block_allocator →
    first_load_extends st (first_load_top_row env level scale tile_y n tile_x tile_index st).2 ∧
    (first_load_top_row env level scale tile_y n tile_x tile_index st).1 = tile_index + n ∧
    ((first_load_top_row env level scale tile_y n tile_x tile_index st).2.panicked = false →
      ∀ i : Nat, i < n → (level.tiles (tile_index + i)).exists_ = true → ∀ c, c < 3 →
      ((first_load_top_row env level scale tile_y n tile_x tile_index st).2.channels scale
        (tile_index + i) c).coeff_h ≠ 0) := by
  induction n with
  | zero =>
    intro tile_x tile_index st hwf
    exact ⟨first_load_extends_refl st hwf, by simp [first_load_top_row],
      fun _ i hi => absurd hi (Nat.not_lt_zero i)⟩
  | succ n ih =>
    intro tile_x tile_index st hwf
    obtain ⟨e1, m1⟩ := first_load_top_tile_extends env hmalloc level scale tile_y tile_x
      tile_index st hwf
    obtain ⟨e2, i2, m2⟩ := ih (tile_x + 1) (tile_index + 1) _ e1.1
    rw [first_load_top_row]
    refine ⟨first_load_extends_trans _ _ _ e1 e2, by rw [i2]; push_cast; ring,
      fun hp i hi he c hc => ?_⟩
    cases i with
    | zero =>
      have he0 : (level.tiles tile_index).exists_ = true := by simpa using he
      have := e2.2.2.1 _ _ _ (m1 (e2.2.2.2 hp) he0 c hc)
      simpa using this
    | succ i =>
      have e : tile_index + ((i + 1 : Nat) : Int) = tile_index + 1 + (i : Int) := by
        push_cast; ring
      rw [e] at he ⊢
      exact m2 hp i (Nat.lt_of_succ_lt_succ hi) he c hc

theorem first_load_top_rows_extends (env : first_load_env_t)
    (hmalloc : ∀ i, env.malloc_h i ≠ 0) (level : isyntax_level_t) (scale : Int) (n : Nat) :
    ∀ (tile_y tile_index : Int) (st : first_load_state_t),
    block_allocator_wf st.h_coeff_block_allocator →
    first_load_extends st (first_load_top_rows env level scale n tile_y tile_index st) ∧
    ((first_load_top_rows env level scale n tile_y tile_index st).panicked = false →
      ∀ j i : Nat, j < n → i < level.width_in_tiles.toNat →
      (level.tiles (tile_index + j * level.width_in_tiles.toNat + i)).exists_ = true →
      ∀ c, c < 3 →
      ((first_load_top_rows env level scale n tile_y tile_index st).channels scale
        (tile_index + j * level.width_in_tiles.toNat + i) c).coeff_h ≠ 0) := by
  induction n with
  | zero =>
    intro tile_y tile_index st hwf
    exact ⟨first_load_extends_refl st hwf, fun _ j i hj => absurd hj (Nat.not_lt_zero j)⟩
  | succ n ih =>
    intro tile_y tile_index st hwf
    obtain ⟨e1, i1, m1⟩ := first_load_top_row_extends env hmalloc level scale tile_y
      level.width_in_tiles.toNat 0 tile_index st hwf
    obtain ⟨e2, m2⟩ := ih (tile_y + 1)
      (first_load_top_row env level scale tile_y level.width_in_tiles.toNat 0 tile_index st).1
      _ e1.1
    rw [first_load_top_rows]
    refine ⟨first_load_extends_trans _ _ _ e1 e2, fun hp j i hj hi he c hc => ?_⟩
    cases j with
    | zero =>
      have e : tile_index + ((0 : Nat) : Int) * (level.width_in_tiles.toNat : Int) + (i : Int)
          = tile_index + (i : Int) := by push_cast; ring
      rw [e] at he ⊢
      exact e2.2.2.1 _ _ _ (m1 (e2.2.2.2 hp) i hi he c hc)
    | succ j =>
      have e : tile_index + ((j + 1 : Nat) : Int) * (level.width_in_tiles.toNat : Int) + (i : Int)
          = (first_load_top_row env level scale tile_y level.width_in_tiles.toNat 0 tile_index
              st).1 + (j : Int) * (level.width_in_tiles.toNat : Int) + (i : Int) := by
        rw [i1]; push_cast; ring
      rw [e] at he ⊢
      exact m2 hp j i (Nat.lt_of_succ_lt_succ hj) hi he c hc

theorem first_load_chunk_tile_extends (env : first_load_env_t)
    (hmalloc : ∀ i, env.malloc_h i ≠ 0) (level : isyntax_level_t)
    (scale tile_x tile_y : Int) (color : Nat) (st : first_load_state_t) (delta : Int × Int)
    (hwf : block_allocator_wf st.h_coeff_block_allocator) :
    first_load_extends st (first_load_chunk_tile env level scale tile_x tile_y color st delta) ∧
    ((first_load_chunk_tile env level scale tile_x tile_y color st delta).panicked = false →
      ((first_load_chunk_tile env level scale tile_x tile_y color st delta).channels scale
        ((tile_y + delta.2) * level.width_in_tiles + (tile_x + delta.1)) color).coeff_h ≠ 0) := by
  unfold first_load_chunk_tile
  by_cases hp : st.panicked = true
  · rw [if_pos hp]
    exact ⟨first_load_extends_refl st hwf, fun h => by rw [hp] at h; cases h⟩
  rw [if_neg hp]
  obtain ⟨e1, m1⟩ := first_load_alloc_coeff_h_extends env hmalloc scale
    ((tile_y + delta.2) * level.width_in_tiles + (tile_x + delta.1)) color st hwf
  simp only []
  by_cases hp1 : (first_load_alloc_coeff_h env scale
      ((tile_y + delta.2) * level.width_in_tiles + (tile_x + delta.1)) color st).panicked = true
  · rw [if_pos hp1]
    exact ⟨e1, fun h => by rw [hp1] at h; cases h⟩
  rw [if_neg hp1]
  have e3 := first_load_set_neighbors_loaded_extends env level scale
    ((tile_y + delta.2) * level.width_in_tiles + (tile_x + delta.1)) color (tile_x + delta.1)
    (tile_y + delta.2) _ e1.1
  exact ⟨first_load_extends_trans _ _ _ e1 e3,
    fun _ => e3.2.2.1 _ _ _ (m1 (by simpa using hp1))⟩

theorem first_load_chunk_deltas_extends (env : first_load_env_t)
    (hmalloc : ∀ i, env.malloc_h i ≠ 0) (level : isyntax_level_t)
    (scale tile_x tile_y : Int) (color : Nat) (deltas : List (Int × Int)) :
    ∀ st : first_load_state_t, block_allocator_wf st.h_coeff_block_allocator →
    first_load_extends st
      (deltas.foldl (first_load_chunk_tile env level scale tile_x tile_y color) st) ∧
    ((deltas.foldl (first_load_chunk_tile env level scale tile_x tile_y color)
        st).panicked = false →
      ∀ delta ∈ deltas,
        ((deltas.foldl (first_load_chunk_tile env level scale tile_x tile_y color) st).channels
          scale ((tile_y + delta.2) * level.width_in_tiles + (tile_x + delta.1))
          color).coeff_h ≠ 0) := by
  induction deltas with
  | nil =>
    intro st hwf
    exact ⟨first_load_extends_refl st hwf, fun _ c hc => by cases hc⟩
  | cons a l ih =>
    intro st hwf
    obtain ⟨e1, m1⟩ := first_load_chunk_tile_extends env hmalloc level scale tile_x tile_y
      color st a hwf
    obtain ⟨e2, m2⟩ := ih _ e1.1
    rw [List.foldl_cons]
    refine ⟨first_load_extends_trans _ _ _ e1 e2, fun hp c hc => ?_⟩
    rcases List.mem_cons.mp hc with h | h
    · subst h
      exact e2.2.2.1 _ _ _ (m1 (e2.2.2.2 hp))
    · exact m2 hp c h

theorem first_load_chunk_colors_extends (env : first_load_env_t)
    (hmalloc : ∀ i, env.malloc_h i ≠ 0) (level : isyntax_level_t)
    (scale tile_x tile_y : Int) (deltas : List (Int × Int)) (colors : List Nat) :
    ∀ st : first_load_state_t, block_allocator_wf st.h_coeff_block_allocator →
    first_load_extends st
      (colors.foldl
        (fun st color => deltas.foldl (first_load_chunk_tile env level scale tile_x tile_y color) st)
        st) ∧
    ((colors.foldl
        (fun st color => deltas.foldl (first_load_chunk_tile env level scale tile_x tile_y color) st)
        st).panicked = false →
      ∀ c ∈ colors, ∀ delta ∈ deltas,
        ((colors.foldl
          (fun st color =>
            deltas.foldl (first_load_chunk_tile env level scale tile_x tile_y color) st)
          st).channels
          scale ((tile_y + delta.2) * level.width_in_tiles + (tile_x + delta.1))
          c).coeff_h ≠ 0) := by
  induction colors with
  | nil =>
    intro st hwf
    exact ⟨first_load_extends_refl st hwf, fun _ c hc => by cases hc⟩
  | cons a l ih =>
    intro st hwf
    obtain ⟨e1, m1⟩ := first_load_chunk_deltas_extends env hmalloc level scale tile_x tile_y
      a deltas st hwf
    obtain ⟨e2, m2⟩ := ih _ e1.1
    rw [List.foldl_cons]
    refine ⟨first_load_extends_trans _ _ _ e1 e2, fun hp c hc delta hd => ?_⟩
    rcases List.mem_cons.mp hc with h | h
    · subst h
      exact e2.2.2.1 _ _ _ (m1 (e2.2.2.2 hp) delta hd)
    · exact m2 hp c h delta hd

theorem first_load_chunk_extends (env : first_load_env_t)
    (hmalloc : ∀ i, env.malloc_h i ≠ 0) (level : isyntax_level_t) (scale : Int)
    (deltas : List (Int × Int)) (tile_y tile_x : Int) (st : first_load_state_t)
    (hwf : block_allocator_wf st.h_coeff_block_allocator) :
    first_load_extends st (first_load_chunk env level scale deltas tile_y tile_x st) ∧
    ((first_load_chunk env level scale deltas tile_y tile_x st).panicked = false →
      (level.tiles (tile_y * level.width_in_tiles + tile_x)).exists_ = true →
      ∀ delta ∈ deltas, ∀ c, c < 3 →
      ((first_load_chunk env level scale deltas tile_y tile_x st).channels scale
        ((tile_y + delta.2) * level.width_in_tiles + (tile_x + delta.1)) c).coeff_h ≠ 0) := by
  unfold first_load_chunk
  simp only []
  by_cases he : (level.tiles (tile_y * level.width_in_tiles + tile_x)).exists_ = true
  · rw [if_neg (by simp [he])]
    obtain ⟨e, m⟩ := first_load_chunk_colors_extends env hmalloc level scale tile_x tile_y
      deltas (List.range 3) st hwf
    exact ⟨e, fun hp _ delta hd c hc => m hp c (List.mem_range.mpr hc) delta hd⟩
  · rw [if_pos (by simpa using he)]
    exact ⟨first_load_extends_refl st hwf, fun _ h => absurd h he⟩

theorem first_load_chunk_row_extends (env : first_load_env_t)
    (hmalloc : ∀ i, env.malloc_h i ≠ 0) (level : isyntax_level_t) (scale : Int)
    (deltas : List (Int × Int)) (step tile_y : Int) (n : Nat) :
    ∀ (tile_x : Int) (st : first_load_state_t),
    block_allocator_wf st.h_coeff_block_allocator →
    first_load_extends st
      (first_load_chunk_row env level scale deltas step tile_y n tile_x st) ∧
    ((first_load_chunk_row env level scale deltas step tile_y n tile_x st).panicked = false →
      ∀ i : Nat, i < n →
      (level.tiles (tile_y * level.width_in_tiles + (tile_x + step * i))).exists_ = true →
      ∀ delta ∈ deltas, ∀ c, c < 3 →
      ((first_load_chunk_row env level scale deltas step tile_y n tile_x st).channels scale
        ((tile_y + delta.2) * level.width_in_tiles + (tile_x + step * i + delta.1))
        c).coeff_h ≠ 0) := by
  induction n with
  | zero =>
    intro tile_x st hwf
    exact ⟨first_load_extends_refl st hwf, fun _ i hi => absurd hi (Nat.not_lt_zero i)⟩
  | succ n ih =>
    intro tile_x st hwf
    obtain ⟨e1, m1⟩ := first_load_chunk_extends env hmalloc level scale deltas tile_y tile_x
      st hwf
    obtain ⟨e2, m2⟩ := ih (tile_x + step) _ e1.1
    rw [first_load_chunk_row]
    refine ⟨first_load_extends_trans _ _ _ e1 e2, fun hp i hi he delta hd c hc => ?_⟩
    cases i with
    | zero =>
      have e : tile_x + step * ((0 : Nat) : Int) = tile_x := by push_cast; ring
      rw [e] at he ⊢
      exact e2.2.2.1 _ _ _ (m1 (e2.2.2.2 hp) he delta hd c hc)
    | succ i =>
      have e : tile_x + step * ((i + 1 : Nat) : Int) = tile_x + step + step * (i : Int) := by
        push_cast; ring
      rw [e] at he ⊢
      exact m2 hp i (Nat.lt_of_succ_lt_succ hi) he delta hd c hc

theorem first_load_chunk_rows_extends (env : first_load_env_t)
    (hmalloc : ∀ i, env.malloc_h i ≠ 0) (level : isyntax_level_t) (scale : Int)
    (deltas : List (Int × Int)) (step : Int) (n : Nat) :
    ∀ (tile_y : Int) (st : first_load_state_t),
    block_allocator_wf st.h_coeff_block_allocator →
    first_load_extends st (first_load_chunk_rows env level scale deltas step n tile_y st) ∧
    ((first_load_chunk_rows env level scale deltas step n tile_y st).panicked = false →
      ∀ j i : Nat, j < n → i < ((level.width_in_tiles + step - 1) / step).toNat →
      (level.tiles ((tile_y + step * j) * level.width_in_tiles + (0 + step * i))).exists_
        = true →
      ∀ delta ∈ deltas, ∀ c, c < 3 →
      ((first_load_chunk_rows env level scale deltas step n tile_y st).channels scale
        ((tile_y + step * j + delta.2) * level.width_in_tiles + (0 + step * i + delta.1))
        c).coeff_h ≠ 0) := by
  induction n with
  | zero =>
    intro tile_y st hwf
    exact ⟨first_load_extends_refl st hwf, fun _ j i hj => absurd hj (Nat.not_lt_zero j)⟩
  | succ n ih =>
    intro tile_y st hwf
    obtain ⟨e1, m1⟩ := first_load_chunk_row_extends env hmalloc level scale deltas step tile_y
      ((level.width_in_tiles + step - 1) / step).toNat 0 st hwf
    obtain ⟨e2, m2⟩ := ih (tile_y + step) _ e1.1
    rw [first_load_chunk_rows]
    refine ⟨first_load_extends_trans _ _ _ e1 e2, fun hp j i hj hi he delta hd c hc => ?_⟩
    cases j with
    | zero =>
      have e : tile_y + step * ((0 : Nat) : Int) = tile_y := by push_cast; ring
      rw [e] at he ⊢
      exact e2.2.2.1 _ _ _ (m1 (e2.2.2.2 hp) i hi he delta hd c hc)
    | succ j =>
      have e : tile_y + step * ((j + 1 : Nat) : Int) = tile_y + step + step * (j : Int) := by
        push_cast; ring
      rw [e] at he ⊢
      exact m2 hp j i (Nat.lt_of_succ_lt_succ hj) hi he delta hd c hc

theorem tile_delta_2_mem (a b : Int) (ha : 0 ≤ a) (ha2 : a < 2) (hb : 0 ≤ b) (hb2 : b < 2) :
    (a, b) ∈ tile_delta_2 := by
  have h1 : a = 0 ∨ a = 1 := by omega
  have h2 : b = 0 ∨ b = 1 := by omega
  rcases h1 with h1 | h1 <;> rcases h2 with h2 | h2 <;> subst h1 <;> subst h2 <;>
    simp [tile_delta_2]

theorem tile_delta_4_mem (a b : Int) (ha : 0 ≤ a) (ha2 : a < 4) (hb : 0 ≤ b) (hb2 : b < 4) :
    (a, b) ∈ tile_delta_4 := by
  have h1 : a = 0 ∨ a = 1 ∨ a = 2 ∨ a = 3 := by omega
  have h2 : b = 0 ∨ b = 1 ∨ b = 2 ∨ b = 3 := by omega
  rcases h1 with h1 | h1 | h1 | h1 <;> rcases h2 with h2 | h2 | h2 | h2 <;> subst h1 <;>
    subst h2 <;> simp [tile_delta_4]

/-- The chunk loops of a lower level reach every tile of the level whose chunk
has a first tile that exists. -/
theorem first_load_chunk_rows_covers (env : first_load_env_t)
    (hmalloc : ∀ i, env.malloc_h i ≠ 0) (level : isyntax_level_t) (scale : Int)
    (deltas : List (Int × Int)) (step : Int) (hstep : step = 2 ∨ step = 4)
    (hdeltas : ∀ a b : Int, 0 ≤ a → a < step → 0 ≤ b → b < step → (a, b) ∈ deltas)
    (st : first_load_state_t) (hwf : block_allocator_wf st.h_coeff_block_allocator) :
    first_load_extends st
      (first_load_chunk_rows env level scale deltas step
        ((level.height_in_tiles + step - 1) / step).toNat 0 st) ∧
    ((first_load_chunk_rows env level scale deltas step
        ((level.height_in_tiles + step - 1) / step).toNat 0 st).panicked = false →
      ∀ tile_x tile_y : Int, 0 ≤ tile_x → tile_x < level.width_in_tiles →
      0 ≤ tile_y → tile_y < level.height_in_tiles →
      (level.tiles ((tile_y - tile_y % step) * level.width_in_tiles
        + (tile_x - tile_x % step))).exists_ = true →
      ∀ c, c < 3 →
      ((first_load_chunk_rows env level scale deltas step
        ((level.height_in_tiles + step - 1) / step).toNat 0 st).channels scale
        (tile_y * level.width_in_tiles + tile_x) c).coeff_h ≠ 0) := by
  obtain ⟨e, m⟩ := first_load_chunk_rows_extends env hmalloc level scale deltas step
    ((level.height_in_tiles + step - 1) / step).toNat 0 st hwf
  refine ⟨e, fun hp x y hx hxw hy hyh he c hc => ?_⟩
  have hxm : 0 ≤ x % step ∧ x % step < step := by rcases hstep with h | h <;> subst h <;> omega
  have hym : 0 ≤ y % step ∧ y % step < step := by rcases hstep with h | h <;> subst h <;> omega
  have hj : (y / step).toNat < ((level.height_in_tiles + step - 1) / step).toNat := by
    rcases hstep with h | h <;> subst h <;> omega
  have hi : (x / step).toNat < ((level.width_in_tiles + step - 1) / step).toNat := by
    rcases hstep with h | h <;> subst h <;> omega
  have ey : (0 : Int) + step * ((y / step).toNat : Nat) = y - y % step := by
    rcases hstep with h | h <;> subst h <;> omega
  have ex : (0 : Int) + step * ((x / step).toNat : Nat) = x - x % step := by
    rcases hstep with h | h <;> subst h <;> omega
  have := m hp (y / step).toNat (x / step).toNat hj hi (by rw [ey, ex]; exact he)
    (x % step, y % step) (hdeltas _ _ hxm.1 hxm.2 hym.1 hym.2) c hc
  rw [ey, ex] at this
  have e1 : y - y % step + (x % step, y % step).2 = y := by simp
  have e2 : x - x % step + (x % step, y % step).1 = x := by simp
  rw [e1, e2] at this
  exact this

/-- The loops over the top level reach every tile of the level that exists. -/
theorem first_load_top_rows_covers (env : first_load_env_t)
    (hmalloc : ∀ i, env.malloc_h i ≠ 0) (level : isyntax_level_t) (scale : Int)
    (st : first_load_state_t) (hwf : block_allocator_wf st.h_coeff_block_allocator) :
    first_load_extends st
      (first_load_top_rows env level scale level.height_in_tiles.toNat 0 0 st) ∧
    ((first_load_top_rows env level scale level.height_in_tiles.toNat 0 0 st).panicked = false →
      ∀ tile_x tile_y : Int, 0 ≤ tile_x → tile_x < level.width_in_tiles →
      0 ≤ tile_y → tile_y < level.height_in_tiles →
      (level.tiles (tile_y * level.width_in_tiles + tile_x)).exists_ = true →
      ∀ c, c < 3 →
      ((first_load_top_rows env level scale level.height_in_tiles.toNat 0 0 st).channels scale
        (tile_y * level.width_in_tiles + tile_x) c).coeff_h ≠ 0) := by
  obtain ⟨e, m⟩ := first_load_top_rows_extends env hmalloc level scale
    level.height_in_tiles.toNat 0 0 st hwf
  refine ⟨e, fun hp x y hx hxw hy hyh he c hc => ?_⟩
  have hj : y.toNat < level.height_in_tiles.toNat := by omega
  have hi : x.toNat < level.width_in_tiles.toNat := by omega
  have ew : ((level.width_in_tiles.toNat : Nat) : Int) = level.width_in_tiles :=
    Int.toNat_of_nonneg (by omega)
  have ei : (0 : Int) + ((y.toNat : Nat) : Int) * ((level.width_in_tiles.toNat : Nat) : Int)
      + ((x.toNat : Nat) : Int) = y * level.width_in_tiles + x := by
    rw [ew, Int.toNat_of_nonneg hy, Int.toNat_of_nonneg hx]; ring
  have := m hp y.toNat x.toNat hj hi (by rw [ei]; exact he) c hc
  rw [ei] at this
  exact this

/-- The allocator that `block_allocator_create` returns is well formed when its
`malloc` did not fail. -/
theorem block_allocator_create_wf (memory block_size max_capacity_in_blocks chunk_size : Nat)
    (allocator : block_allocator_t) (hm : memory ≠ 0)
    (h : block_allocator_create memory block_size max_capacity_in_blocks chunk_size
      = some allocator) : block_allocator_wf allocator := by
  unfold block_allocator_create at h
  simp only [] at h
  by_cases h1 : chunk_size = 0
  · rw [if_pos h1] at h
    cases h
  rw [if_neg h1] at h
  by_cases h2 : (block_size * max_capacity_in_blocks) % 2 ^ 64 / chunk_size = 0
  · rw [if_pos h2] at h
    cases h
  rw [if_neg h2] at h
  simp only [Option.some.injEq] at h
  subst h
  refine ⟨le_refl 1, fun i hi => ?_, fun i => Nat.one_pos⟩
  have hi0 : i = 0 := by simpa using hi
  simp only [if_pos hi0]
  exact hm

/-- A call of `isyntax_load_all_tiles_in_level` keeps what holds of the calls,
when it holds of the channels at the call. -/
theorem first_load_all_tiles_in_level_calls_ok (env : first_load_env_t)
    (levels : Int → isyntax_level_t) (max_scale scale : Int) (st : first_load_state_t)
    (hload_wf : ∀ scale s, block_allocator_wf s.h_coeff_block_allocator →
      block_allocator_wf (env.load_tiles scale s).h_coeff_block_allocator)
    (hload_calls : ∀ scale s,
      (env.load_tiles scale s).load_all_tiles_calls = s.load_all_tiles_calls)
    (hwf : block_allocator_wf st.h_coeff_block_allocator)
    (hcalls : ∀ call ∈ st.load_all_tiles_calls, first_load_call_ok levels max_scale call)
    (hnew : st.panicked = false →
      first_load_call_ok levels max_scale { scale := scale, channels := st.channels }) :
    block_allocator_wf (first_load_all_tiles_in_level env scale st).h_coeff_block_allocator ∧
    ∀ call ∈ (first_load_all_tiles_in_level env scale st).load_all_tiles_calls,
      first_load_call_ok levels max_scale call := by
  unfold first_load_all_tiles_in_level
  by_cases hp : st.panicked = true
  · rw [if_pos hp]
    exact ⟨hwf, hcalls⟩
  rw [if_neg hp]
  refine ⟨hload_wf _ _ hwf, fun call hc => ?_⟩
  rw [hload_calls] at hc
  rcases List.mem_append.mp hc with h | h
  · exact hcalls call h
  · rw [List.mem_singleton] at h
    subst h
    exact hnew (by simpa using hp)

/-- Every call of `isyntax_load_all_tiles_in_level` of the first load finds
the blocks of the tiles whose chunk has a first tile that exists. -/
theorem first_load_calls_ok (env : first_load_env_t) (levels : Int → isyntax_level_t)
    (codeblocks : Int → isyntax_codeblock_t) (max_scale : Int) (st : first_load_state_t)
    (hwf : block_allocator_wf st.h_coeff_block_allocator)
    (hcalls : st.load_all_tiles_calls = [])
    (hmalloc : ∀ i, env.malloc_h i ≠ 0)
    (hload_wf : ∀ scale s, block_allocator_wf s.h_coeff_block_allocator →
      block_allocator_wf (env.load_tiles scale s).h_coeff_block_allocator)
    (hload_calls : ∀ scale s,
      (env.load_tiles scale s).load_all_tiles_calls = s.load_all_tiles_calls) :
    ∀ call ∈ (isyntax_do_first_load env levels codeblocks max_scale st).load_all_tiles_calls,
      first_load_call_ok levels max_scale call := by
  unfold isyntax_do_first_load
  simp only []
  obtain ⟨e1, m1⟩ := first_load_top_rows_covers env hmalloc (levels max_scale) max_scale st hwf
  have c1 := first_load_all_tiles_in_level_calls_ok env levels max_scale max_scale _ hload_wf
    hload_calls e1.1 (by rw [e1.2.1, hcalls]; intro call hc; cases hc)
    (fun hp => ⟨Or.inl rfl, fun x y hx hxw hy hyh he _ c hc => m1 hp x y hx hxw hy hyh he c hc⟩)
  have hs1 : first_load_chunk_step max_scale (max_scale - 1) = 2 := by
    unfold first_load_chunk_step
    rw [if_neg (by omega), if_pos rfl]
  have hs2 : first_load_chunk_step max_scale (max_scale - 2) = 4 := by
    unfold first_load_chunk_step
    rw [if_neg (by omega), if_neg (by omega)]
  have c2 : ∀ s : first_load_state_t, block_allocator_wf s.h_coeff_block_allocator →
      (∀ call ∈ s.load_all_tiles_calls, first_load_call_ok levels max_scale call) →
      block_allocator_wf (first_load_all_tiles_in_level env (max_scale - 1)
        (first_load_chunk_rows env (levels (max_scale - 1)) (max_scale - 1) tile_delta_2 2
          (((levels (max_scale - 1)).height_in_tiles + 2 - 1) / 2).toNat 0
          s)).h_coeff_block_allocator ∧
      ∀ call ∈ (first_load_all_tiles_in_level env (max_scale - 1)
        (first_load_chunk_rows env (levels (max_scale - 1)) (max_scale - 1) tile_delta_2 2
          (((levels (max_scale - 1)).height_in_tiles + 2 - 1) / 2).toNat 0
          s)).load_all_tiles_calls, first_load_call_ok levels max_scale call := by
    intro s hs hc
    obtain ⟨e, m⟩ := first_load_chunk_rows_covers env hmalloc (levels (max_scale - 1))
      (max_scale - 1) tile_delta_2 2 (Or.inl rfl) tile_delta_2_mem s hs
    refine first_load_all_tiles_in_level_calls_ok env levels max_scale (max_scale - 1) _
      hload_wf hload_calls e.1 (by rw [e.2.1]; exact hc) ?_
    intro hp
    refine ⟨Or.inr (Or.inl rfl), ?_⟩
    intro x y hx hxw hy hyh _ he c hc
    simp only [hs1] at he
    exact m hp x y hx hxw hy hyh he c hc
  have c3 : ∀ s : first_load_state_t, block_allocator_wf s.h_coeff_block_allocator →
      (∀ call ∈ s.load_all_tiles_calls, first_load_call_ok levels max_scale call) →
      ∀ call ∈ (first_load_all_tiles_in_level env (max_scale - 2)
        (first_load_chunk_rows env (levels (max_scale - 2)) (max_scale - 2) tile_delta_4 4
          (((levels (max_scale - 2)).height_in_tiles + 4 - 1) / 4).toNat 0
          s)).load_all_tiles_calls, first_load_call_ok levels max_scale call := by
    intro s hs hc
    obtain ⟨e, m⟩ := first_load_chunk_rows_covers env hmalloc (levels (max_scale - 2))
      (max_scale - 2) tile_delta_4 4 (Or.inr rfl) tile_delta_4_mem s hs
    refine (first_load_all_tiles_in_level_calls_ok env levels max_scale (max_scale - 2) _
      hload_wf hload_calls e.1 (by rw [e.2.1]; exact hc) ?_).2
    intro hp
    refine ⟨Or.inr (Or.inr rfl), ?_⟩
    intro x y hx hxw hy hyh _ he c hc
    simp only [hs2] at he
    exact m hp x y hx hxw hy hyh he c hc
  by_cases h2 : ((((codeblocks ((levels max_scale).tiles 0).codeblock_chunk_index).scale % 3 : Nat)
      : Int) + 1 ≥ 2)
  · rw [if_pos h2]
    by_cases h3 : ((((codeblocks ((levels max_scale).tiles 0).codeblock_chunk_index).scale % 3
        : Nat) : Int) + 1 ≥ 3)
    · rw [if_pos h3]
      exact c3 _ (c2 _ c1.1 c1.2).1 (c2 _ c1.1 c1.2).2
    · rw [if_neg h3]
      exact (c2 _ c1.1 c1.2).2
  · rw [if_neg h2]
    by_cases h3 : ((((codeblocks ((levels max_scale).tiles 0).codeblock_chunk_index).scale % 3
        : Nat) : Int) + 1 ≥ 3)
    · rw [if_pos h3]
      exact c3 _ c1.1 c1.2
    · rw [if_neg h3]
      exact c1.2

/-- C20 (amended): when `malloc` does not fail for the allocator of the
high-pass blocks and the load tasks leave that allocator well formed, every
call of `isyntax_load_all_tiles_in_level` made by `isyntax_do_first_load` is for
the level `max_scale`, `max_scale - 1` or `max_scale - 2`, and at the call every
tile of that level with `exists = true` whose chunk (the tile itself at the top
level, the aligned 2 x 2 tiles one level down, the aligned 4 x 4 tiles two
levels down) has a first tile with `exists = true` has a `coeff_h` that is not
`NULL` in each of its three colour channels. -/
theorem first_load_tiles_have_coeff_h (env : first_load_env_t)
    (levels : Int → isyntax_level_t) (codeblocks : Int → isyntax_codeblock_t)
    (max_scale : Int) (st : first_load_state_t)
    (hwf : block_allocator_wf st.h_coeff_block_allocator)
    (hcalls : st.load_all_tiles_calls = [])
    (hmalloc : ∀ i, env.malloc_h i ≠ 0)
    (hload_wf : ∀ scale s, block_allocator_wf s.h_coeff_block_allocator →
      block_allocator_wf (env.load_tiles scale s).h_coeff_block_allocator)
    (hload_calls : ∀ scale s,
      (env.load_tiles scale s).load_all_tiles_calls = s.load_all_tiles_calls) :
    ∀ call ∈ (isyntax_do_first_load env levels codeblocks max_scale st).load_all_tiles_calls,
      (call.scale = max_scale ∨ call.scale = max_scale - 1 ∨ call.scale = max_scale - 2) ∧
      ∀ tile_x tile_y : Int,
        0 ≤ tile_x → tile_x < (levels call.scale).width_in_tiles →
        0 ≤ tile_y → tile_y < (levels call.scale).height_in_tiles →
        ((levels call.scale).tiles
          (tile_y * (levels call.scale).width_in_tiles + tile_x)).exists_ = true →
        ((levels call.scale).tiles
          ((tile_y - tile_y % first_load_chunk_step max_scale call.scale)
              * (levels call.scale).width_in_tiles
            + (tile_x - tile_x % first_load_chunk_step max_scale call.scale))).exists_ = true →
        ∀ color, color < 3 →
          (call.channels call.scale (tile_y * (levels call.scale).width_in_tiles + tile_x)
            color).coeff_h ≠ 0 :=
  first_load_calls_ok env levels codeblocks max_scale st hwf hcalls hmalloc hload_wf hload_calls

/-- Witness for C20: the first load of a top tile with the 2 x 2 tiles below
it makes a call for the scale 1 and a call for the scale 0, and at the second
call the last tile has its three high-pass blocks. -/
theorem first_load_tiles_have_coeff_h_witness :
    (isyntax_do_first_load example_first_load_env example_first_load_levels
        example_first_load_codeblocks 1 example_first_load_state).load_all_tiles_calls.map
      (fun call => (call.scale, (call.channels call.scale 3 0).coeff_h,
        (call.channels call.scale 3 1).coeff_h, (call.channels call.scale 3 2).coeff_h))
      = [(1, 0, 0, 0), (0, 1096, 5160, 5224)]
    ∧ ∀ call ∈ (isyntax_do_first_load example_first_load_env example_first_load_levels
        example_first_load_codeblocks 1 example_first_load_state).load_all_tiles_calls,
      (call.scale = 1 ∨ call.scale = 1 - 1 ∨ call.scale = 1 - 2) ∧
      ∀ tile_x tile_y : Int,
        0 ≤ tile_x → tile_x < (example_first_load_levels call.scale).width_in_tiles →
        0 ≤ tile_y → tile_y < (example_first_load_levels call.scale).height_in_tiles →
        ((example_first_load_levels call.scale).tiles
          (tile_y * (example_first_load_levels call.scale).width_in_tiles + tile_x)).exists_
          = true →
        ((example_first_load_levels call.scale).tiles
          ((tile_y - tile_y % first_load_chunk_step 1 call.scale)
              * (example_first_load_levels call.scale).width_in_tiles
            + (tile_x - tile_x % first_load_chunk_step 1 call.scale))).exists_ = true →
        ∀ color, color < 3 →
          (call.channels call.scale
            (tile_y * (example_first_load_levels call.scale).width_in_tiles + tile_x)
            color).coeff_h ≠ 0 :=
  ⟨by decide,
    first_load_tiles_have_coeff_h example_first_load_env example_first_load_levels
      example_first_load_codeblocks 1 example_first_load_state
      (block_allocator_create_wf 1000 16 32 128 _ (by decide) rfl) rfl
      (fun i => Nat.ne_of_gt (Nat.lt_of_lt_of_le (by decide : 0 < 5000)
        (Nat.le_add_right 5000 (128 * i)))) (fun _ _ h => h) (fun _ _ => rfl)⟩

/-- Counterexample to C20 as stated: at scale 0 the first tile of the chunk
does not exist and the tile next to it does; the chunk is skipped, and at the
call for the scale 0 the tile that exists has no high-pass block. -/
theorem first_load_skips_chunk_without_first_tile :
    (isyntax_do_first_load example_first_load_env example_first_load_sparse_levels
        example_first_load_codeblocks 1 example_first_load_state).load_all_tiles_calls.map
      (fun call => (call.scale, ((example_first_load_sparse_levels call.scale).tiles 1).exists_,
        (call.channels call.scale 1 0).coeff_h, (call.channels call.scale 1 1).coeff_h,
        (call.channels call.scale 1 2).coeff_h))
      = [(1, true, 0, 0, 0), (0, true, 0, 0, 0)] := by
  decide

/-! ### A pass over loaded tiles -/

/-- The body of the marking loops leaves the request slots alone for a tile
that is loaded or outside the visible rectangle. -/
theorem stream_mark_tile_loaded (K : isyntax_adj_tile_t)
    (mask : isyntax_level_t → Int → Int → Nat) (level : isyntax_level_t)
    (visible_tiles padded_bounds : bounds2i) (w tile_y tile_x local_tile_index : Int)
    (tile_req : Int → isyntax_tile_req_t)
    (h : (tile_x ≥ visible_tiles.min.x ∧ tile_y ≥ visible_tiles.min.y ∧
        tile_x < visible_tiles.max.x ∧ tile_y < visible_tiles.max.y) →
      (level.tiles (tile_y * level.width_in_tiles + tile_x)).is_loaded = true) :
    stream_mark_tile K mask level visible_tiles padded_bounds w tile_y tile_x local_tile_index
      tile_req = tile_req := by
  unfold stream_mark_tile
  simp only []
  by_cases hl : (level.tiles (tile_y * level.width_in_tiles + tile_x)).is_loaded = true
  · simp [hl]
  · by_cases hv : tile_x ≥ visible_tiles.min.x ∧ tile_y ≥ visible_tiles.min.y ∧
        tile_x < visible_tiles.max.x ∧ tile_y < visible_tiles.max.y
    · exact absurd (h hv) hl
    · rw [if_neg hv]
      simp

theorem stream_mark_row_loaded (K : isyntax_adj_tile_t)
    (mask : isyntax_level_t → Int → Int → Nat) (level : isyntax_level_t)
    (visible_tiles padded_bounds : bounds2i) (w tile_y : Int)
    (h : ∀ tile_x, (tile_x ≥ visible_tiles.min.x ∧ tile_y ≥ visible_tiles.min.y ∧
        tile_x < visible_tiles.max.x ∧ tile_y < visible_tiles.max.y) →
      (level.tiles (tile_y * level.width_in_tiles + tile_x)).is_loaded = true) :
    ∀ (n : Nat) (tile_x local_tile_index : Int) (tile_req : Int → isyntax_tile_req_t),
      (stream_mark_row K mask level visible_tiles padded_bounds w tile_y n tile_x
        local_tile_index tile_req).2 = tile_req := by
  intro n
  induction n with
  | zero => intro tile_x lti tile_req; rfl
  | succ n ih =>
    intro tile_x lti tile_req
    rw [stream_mark_row, stream_mark_tile_loaded K mask level visible_tiles padded_bounds w tile_y
      tile_x lti tile_req (h tile_x)]
    exact ih _ _ _

theorem stream_mark_rows_loaded (K : isyntax_adj_tile_t)
    (mask : isyntax_level_t → Int → Int → Nat) (level : isyntax_level_t)
    (visible_tiles padded_bounds : bounds2i) (w : Int)
    (h : ∀ tile_x tile_y, (tile_x ≥ visible_tiles.min.x ∧ tile_y ≥ visible_tiles.min.y ∧
        tile_x < visible_tiles.max.x ∧ tile_y < visible_tiles.max.y) →
      (level.tiles (tile_y * level.width_in_tiles + tile_x)).is_loaded = true) :
    ∀ (n : Nat) (tile_y local_tile_index : Int) (tile_req : Int → isyntax_tile_req_t),
      (stream_mark_rows K mask level visible_tiles padded_bounds w n tile_y local_tile_index
        tile_req).2 = tile_req := by
  intro n
  induction n with
  | zero => intro tile_y lti tile_req; rfl
  | succ n ih =>
    intro tile_y lti tile_req
    rw [stream_mark_rows]
    rw [ih, stream_mark_row_loaded K mask level visible_tiles padded_bounds w tile_y
      (fun x => h x tile_y)]

/-- When every tile of the visible rectangle is loaded, the marking pass sets
nothing: every request slot is as `memset` left it. -/
theorem stream_mark_pass_loaded (K : isyntax_adj_tile_t)
    (mask : isyntax_level_t → Int → Int → Nat) (level : isyntax_level_t)
    (visible_tiles padded_bounds : bounds2i)
    (h : ∀ tile_x tile_y, (tile_x ≥ visible_tiles.min.x ∧ tile_y ≥ visible_tiles.min.y ∧
        tile_x < visible_tiles.max.x ∧ tile_y < visible_tiles.max.y) →
      (level.tiles (tile_y * level.width_in_tiles + tile_x)).is_loaded = true) :
    stream_mark_pass K mask level visible_tiles padded_bounds = fun _ => tile_req_zero := by
  unfold stream_mark_pass
  exact stream_mark_rows_loaded K mask level visible_tiles padded_bounds _ h _ _ _ _

theorem stream_collect_tile_zero (level : isyntax_level_t) (tile_y tile_x local_tile_index : Int)
    (st : stream_region_state_t) :
    (stream_collect_tile level (fun _ => tile_req_zero) tile_y tile_x local_tile_index st).1
      = st := by
  unfold stream_collect_tile
  by_cases h : st.chunks_to_load.length = max_chunks_to_load
  · rw [if_pos h]
  · rw [if_neg h]
    simp [tile_req_zero]

theorem stream_collect_row_zero (level : isyntax_level_t) (tile_y : Int) :
    ∀ (n : Nat) (tile_x local_tile_index : Int) (st : stream_region_state_t),
      (stream_collect_row level (fun _ => tile_req_zero) tile_y n tile_x local_tile_index
        st).2.1 = st := by
  intro n
  induction n with
  | zero => intro tile_x lti st; rfl
  | succ n ih =>
    intro tile_x lti st
    rw [stream_collect_row]
    have h := stream_collect_tile_zero level tile_y tile_x lti st
    rcases hr : stream_collect_tile level (fun _ => tile_req_zero) tile_y tile_x lti st
      with ⟨st1, b⟩
    rw [hr] at h
    simp only [] at h
    subst h
    cases b with
    | true => rfl
    | false => exact ih _ _ _

theorem stream_collect_rows_zero (level : isyntax_level_t) (padded_bounds : bounds2i) :
    ∀ (n : Nat) (tile_y local_tile_index : Int) (st : stream_region_state_t),
      stream_collect_rows level padded_bounds (fun _ => tile_req_zero) n tile_y local_tile_index
        st = st := by
  intro n
  induction n with
  | zero => intro tile_y lti st; rfl
  | succ n ih =>
    intro tile_y lti st
    rw [stream_collect_rows]
    have h := stream_collect_row_zero level tile_y
      (padded_bounds.max.x - padded_bounds.min.x).toNat padded_bounds.min.x lti st
    rcases hr : stream_collect_row level (fun _ => tile_req_zero) tile_y
        (padded_bounds.max.x - padded_bounds.min.x).toNat padded_bounds.min.x lti st
      with ⟨lti1, st1, b⟩
    rw [hr] at h
    simp only [] at h
    subst h
    cases b with
    | true => rfl
    | false => exact ih _ _ _

/-- The body of the region pass for a scale whose visible tiles are all
loaded adds no chunk and leaves every request slot clear. -/
theorem stream_region_scale_loaded {β : Type} (K : isyntax_adj_tile_t)
    (mask : isyntax_level_t → Int → Int → Nat)
    (world_bounds_to_tile_bounds : β → Int → bounds2i)
    (clip_bounds2i : bounds2i → bounds2i → bounds2i) (tile_streamer : tile_streamer_t β)
    (levels : Int → isyntax_level_t) (scale scale_to_load_index : Int)
    (st : stream_region_state_t)
    (h : ∀ tile_x tile_y,
      (tile_x ≥ (stream_visible_tiles world_bounds_to_tile_bounds clip_bounds2i tile_streamer
          (levels scale) scale).min.x ∧
        tile_y ≥ (stream_visible_tiles world_bounds_to_tile_bounds clip_bounds2i tile_streamer
          (levels scale) scale).min.y ∧
        tile_x < (stream_visible_tiles world_bounds_to_tile_bounds clip_bounds2i tile_streamer
          (levels scale) scale).max.x ∧
        tile_y < (stream_visible_tiles world_bounds_to_tile_bounds clip_bounds2i tile_streamer
          (levels scale) scale).max.y) →
      ((levels scale).tiles (tile_y * (levels scale).width_in_tiles + tile_x)).is_loaded = true)
    (hz : ∀ k, (st.regions k).tile_req = fun _ => tile_req_zero) :
    (stream_region_scale K mask world_bounds_to_tile_bounds clip_bounds2i tile_streamer levels
        scale scale_to_load_index st).1.chunks_to_load = st.chunks_to_load ∧
    ∀ k, ((stream_region_scale K mask world_bounds_to_tile_bounds clip_bounds2i tile_streamer
        levels scale scale_to_load_index st).1.regions k).tile_req = fun _ => tile_req_zero := by
  unfold stream_region_scale
  simp only []
  split_ifs with hw
  · exact ⟨rfl, hz⟩
  · rw [stream_mark_pass_loaded K mask (levels scale) _ _ h, stream_collect_rows_zero]
    refine ⟨rfl, fun k => ?_⟩
    simp only []
    split_ifs with hk
    · rfl
    · exact hz k

theorem stream_region_scales_loaded {β : Type} (K : isyntax_adj_tile_t)
    (mask : isyntax_level_t → Int → Int → Nat)
    (world_bounds_to_tile_bounds : β → Int → bounds2i)
    (clip_bounds2i : bounds2i → bounds2i → bounds2i) (tile_streamer : tile_streamer_t β)
    (levels : Int → isyntax_level_t) :
    ∀ (n : Nat) (scale scale_to_load_index : Int) (st : stream_region_state_t),
      (∀ sc, scale - n < sc → sc ≤ scale → ∀ tile_x tile_y,
        (tile_x ≥ (stream_visible_tiles world_bounds_to_tile_bounds clip_bounds2i tile_streamer
            (levels sc) sc).min.x ∧
          tile_y ≥ (stream_visible_tiles world_bounds_to_tile_bounds clip_bounds2i tile_streamer
            (levels sc) sc).min.y ∧
          tile_x < (stream_visible_tiles world_bounds_to_tile_bounds clip_bounds2i tile_streamer
            (levels sc) sc).max.x ∧
          tile_y < (stream_visible_tiles world_bounds_to_tile_bounds clip_bounds2i tile_streamer
            (levels sc) sc).max.y) →
        ((levels sc).tiles (tile_y * (levels sc).width_in_tiles + tile_x)).is_loaded = true) →
      (∀ k, (st.regions k).tile_req = fun _ => tile_req_zero) →
      (stream_region_scales K mask world_bounds_to_tile_bounds clip_bounds2i tile_streamer levels
          n scale scale_to_load_index st).1.chunks_to_load = st.chunks_to_load ∧
      ∀ k, ((stream_region_scales K mask world_bounds_to_tile_bounds clip_bounds2i tile_streamer
          levels n scale scale_to_load_index st).1.regions k).tile_req
        = fun _ => tile_req_zero := by
  intro n
  induction n with
  | zero => intro scale idx st _ hz; exact ⟨rfl, hz⟩
  | succ n ih =>
    intro scale idx st h hz
    rw [stream_region_scales]
    have h1 := stream_region_scale_loaded K mask world_bounds_to_tile_bounds clip_bounds2i
      tile_streamer levels scale idx st (h scale (by push_cast; omega) (le_refl _)) hz
    rcases hr : stream_region_scale K mask world_bounds_to_tile_bounds clip_bounds2i
      tile_streamer levels scale idx st with ⟨st1, b⟩
    rw [hr] at h1
    simp only [] at h1
    cases b with
    | true => exact h1
    | false =>
      have h2 := ih (scale - 1) (idx + 1) st1
        (fun sc hs1 hs2 => h sc (by push_cast; omega) (by omega)) h1.2
      exact ⟨h2.1.trans h1.1, h2.2⟩

/-- The decompression pass does nothing for a region whose request slots are
clear. -/
theorem stream_decompress_tile_zero (env : Nat → work_queue_sample_t)
    (workers : Int → Int → Int → worker_sample_t) (logical_cpu_count : Int)
    (region : isyntax_load_region_t) (hz : region.tile_req = fun _ => tile_req_zero)
    (scale tile_y tile_x local_tile_index : Int) (s : stream_pass_state_t) :
    stream_decompress_tile env workers logical_cpu_count region scale tile_y tile_x
      local_tile_index s = s := by
  unfold stream_decompress_tile
  split_ifs with hp
  · rfl
  · simp [hz, tile_req_zero]

theorem stream_decompress_row_zero (env : Nat → work_queue_sample_t)
    (workers : Int → Int → Int → worker_sample_t) (logical_cpu_count : Int)
    (region : isyntax_load_region_t) (hz : region.tile_req = fun _ => tile_req_zero)
    (scale tile_y : Int) :
    ∀ (n : Nat) (tile_x local_tile_index : Int) (s : stream_pass_state_t),
      (stream_decompress_row env workers logical_cpu_count region scale tile_y n tile_x
        local_tile_index s).2 = s := by
  intro n
  induction n with
  | zero => intro tile_x lti s; rfl
  | succ n ih =>
    intro tile_x lti s
    rw [stream_decompress_row, stream_decompress_tile_zero env workers logical_cpu_count region hz]
    exact ih _ _ _

theorem stream_decompress_rows_zero (env : Nat → work_queue_sample_t)
    (workers : Int → Int → Int → worker_sample_t) (logical_cpu_count : Int)
    (region : isyntax_load_region_t) (hz : region.tile_req = fun _ => tile_req_zero)
    (scale : Int) :
    ∀ (n : Nat) (tile_y local_tile_index : Int) (s : stream_pass_state_t),
      stream_decompress_rows env workers logical_cpu_count region scale n tile_y
        local_tile_index s = s := by
  intro n
  induction n with
  | zero => intro tile_y lti s; rfl
  | succ n ih =>
    intro tile_y lti s
    rw [stream_decompress_rows, ih,
      stream_decompress_row_zero env workers logical_cpu_count region hz]

theorem stream_decompress_scales_zero (env : Nat → work_queue_sample_t)
    (workers : Int → Int → Int → worker_sample_t) (logical_cpu_count : Int)
    (regions : Int → isyntax_load_region_t)
    (hz : ∀ k, (regions k).tile_req = fun _ => tile_req_zero) :
    ∀ (n : Nat) (scale scale_to_load_index : Int) (s : stream_pass_state_t),
      stream_decompress_scales env workers logical_cpu_count regions n scale
        scale_to_load_index s = s := by
  intro n
  induction n with
  | zero => intro scale idx s; rfl
  | succ n ih =>
    intro scale idx s
    rw [stream_decompress_scales]
    rw [stream_decompress_rows_zero env workers logical_cpu_count (regions idx) (hz idx), ih]

/-- The load pass submits nothing for a region whose request slots are clear. -/
theorem stream_load_tile_zero (K : isyntax_adj_tile_t)
    (mask : isyntax_level_t → Int → Int → Nat) (env : Nat → work_queue_sample_t)
    (logical_cpu_count : Int) (region : isyntax_load_region_t)
    (hz : region.tile_req = fun _ => tile_req_zero) (scale tile_y tile_x : Int)
    (st : stream_state_t) :
    stream_load_tile K mask env logical_cpu_count region scale tile_y tile_x st = (st, false) := by
  unfold stream_load_tile
  simp only []
  by_cases h1 : ((st.levels scale).tiles
      (tile_y * (st.levels scale).width_in_tiles + tile_x)).is_submitted_for_loading = true
  · rw [if_pos h1]
  rw [if_neg h1]
  by_cases h2 : (!((st.levels scale).tiles
      (tile_y * (st.levels scale).width_in_tiles + tile_x)).has_ll) = true
  · rw [if_pos h2]
  rw [if_neg h2]
  by_cases h3 : (!((st.levels scale).tiles
      (tile_y * (st.levels scale).width_in_tiles + tile_x)).has_h) = true
  · rw [if_pos h3]
  rw [if_neg h3]
  rw [if_pos (by rw [hz]; rfl)]

theorem stream_load_row_zero (K : isyntax_adj_tile_t)
    (mask : isyntax_level_t → Int → Int → Nat) (env : Nat → work_queue_sample_t)
    (logical_cpu_count : Int) (region : isyntax_load_region_t)
    (hz : region.tile_req = fun _ => tile_req_zero) (scale tile_y : Int) :
    ∀ (n : Nat) (tile_x : Int) (st : stream_state_t),
      stream_load_row K mask env logical_cpu_count region scale tile_y n tile_x st
        = (st, false) := by
  intro n
  induction n with
  | zero => intro tile_x st; rfl
  | succ n ih =>
    intro tile_x st
    rw [stream_load_row, stream_load_tile_zero K mask env logical_cpu_count region hz]
    exact ih _ _

theorem stream_load_rows_zero (K : isyntax_adj_tile_t)
    (mask : isyntax_level_t → Int → Int → Nat) (env : Nat → work_queue_sample_t)
    (logical_cpu_count : Int) (region : isyntax_load_region_t)
    (hz : region.tile_req = fun _ => tile_req_zero) (scale : Int) :
    ∀ (n : Nat) (tile_y : Int) (st : stream_state_t),
      stream_load_rows K mask env logical_cpu_count region scale n tile_y st = (st, false) := by
  intro n
  induction n with
  | zero => intro tile_y st; rfl
  | succ n ih =>
    intro tile_y st
    rw [stream_load_rows, stream_load_row_zero K mask env logical_cpu_count region hz]
    exact ih _ _

theorem stream_load_scales_zero (K : isyntax_adj_tile_t)
    (mask : isyntax_level_t → Int → Int → Nat) (env : Nat → work_queue_sample_t)
    (logical_cpu_count : Int) (regions : Int → isyntax_load_region_t)
    (hz : ∀ k, (regions k).tile_req = fun _ => tile_req_zero) :
    ∀ (n : Nat) (scale scale_to_load_index : Int) (st : stream_state_t),
      stream_load_scales K mask env logical_cpu_count regions n scale scale_to_load_index st
        = st := by
  intro n
  induction n with
  | zero => intro scale idx st; rfl
  | succ n ih =>
    intro scale idx st
    rw [stream_load_scales]
    rw [stream_load_rows_zero K mask env logical_cpu_count (regions idx) (hz idx)]
    exact ih _ _ _

/-- C21: if, for every scale that a pass of `isyntax_stream_image_tiles`
services, every tile of the visible rectangle of that scale has `is_loaded`
set, then the pass reads no chunk, starts no decompression of high-pass
coefficients, submits no tile for loading and leaves the tiles as they are;
once the first load is complete the whole state is left as it is. -/
theorem isyntax_stream_image_tiles_fixed_point {β : Type} (K : isyntax_adj_tile_t)
    (isyntax_get_adjacent_tiles_mask : isyntax_level_t → Int → Int → Nat)
    (world_bounds_to_tile_bounds : β → Int → bounds2i)
    (clip_bounds2i : bounds2i → bounds2i → bounds2i) (ATLEAST ATMOST : Int → Int → Int)
    (file_read : Nat → Nat → List Nat) (env : Nat → work_queue_sample_t)
    (workers : Int → Int → Int → worker_sample_t) (logical_cpu_count : Int)
    (tile_streamer : tile_streamer_t β) (codeblocks : Int → isyntax_codeblock_t)
    (first_load_complete : Bool) (max_scale zoom_level : Int) (s : stream_pass_state_t)
    (hloaded : ∀ scale,
      stream_lowest_visible_scale ATLEAST ATMOST max_scale zoom_level ≤ scale →
      scale ≤ stream_highest_scale_to_load ATLEAST ATMOST s.st.levels max_scale zoom_level →
      ∀ tile_x tile_y,
        (tile_x ≥ (stream_visible_tiles world_bounds_to_tile_bounds clip_bounds2i tile_streamer
            (s.st.levels scale) scale).min.x ∧
          tile_y ≥ (stream_visible_tiles world_bounds_to_tile_bounds clip_bounds2i tile_streamer
            (s.st.levels scale) scale).min.y ∧
          tile_x < (stream_visible_tiles world_bounds_to_tile_bounds clip_bounds2i tile_streamer
            (s.st.levels scale) scale).max.x ∧
          tile_y < (stream_visible_tiles world_bounds_to_tile_bounds clip_bounds2i tile_streamer
            (s.st.levels scale) scale).max.y) →
        ((s.st.levels scale).tiles
          (tile_y * (s.st.levels scale).width_in_tiles + tile_x)).is_loaded = true) :
    (first_load_complete = true →
      isyntax_stream_image_tiles K isyntax_get_adjacent_tiles_mask world_bounds_to_tile_bounds
        clip_bounds2i ATLEAST ATMOST file_read env workers logical_cpu_count tile_streamer
        codeblocks first_load_complete max_scale zoom_level s = s) ∧
    (isyntax_stream_image_tiles K isyntax_get_adjacent_tiles_mask world_bounds_to_tile_bounds
      clip_bounds2i ATLEAST ATMOST file_read env workers logical_cpu_count tile_streamer
      codeblocks first_load_complete max_scale zoom_level s).st.levels = s.st.levels ∧
    (isyntax_stream_image_tiles K isyntax_get_adjacent_tiles_mask world_bounds_to_tile_bounds
      clip_bounds2i ATLEAST ATMOST file_read env workers logical_cpu_count tile_streamer
      codeblocks first_load_complete max_scale zoom_level s).data_chunks = s.data_chunks ∧
    (isyntax_stream_image_tiles K isyntax_get_adjacent_tiles_mask world_bounds_to_tile_bounds
      clip_bounds2i ATLEAST ATMOST file_read env workers logical_cpu_count tile_streamer
      codeblocks first_load_complete max_scale zoom_level s).chunks_read = s.chunks_read ∧
    (isyntax_stream_image_tiles K isyntax_get_adjacent_tiles_mask world_bounds_to_tile_bounds
      clip_bounds2i ATLEAST ATMOST file_read env workers logical_cpu_count tile_streamer
      codeblocks first_load_complete max_scale zoom_level s).h_coeff_tasks = s.h_coeff_tasks ∧
    (isyntax_stream_image_tiles K isyntax_get_adjacent_tiles_mask world_bounds_to_tile_bounds
      clip_bounds2i ATLEAST ATMOST file_read env workers logical_cpu_count tile_streamer
      codeblocks first_load_complete max_scale zoom_level s).h_coeff_decompressed
      = s.h_coeff_decompressed ∧
    (isyntax_stream_image_tiles K isyntax_get_adjacent_tiles_mask world_bounds_to_tile_bounds
      clip_bounds2i ATLEAST ATMOST file_read env workers logical_cpu_count tile_streamer
      codeblocks first_load_complete max_scale zoom_level s).st.begin_load_tile_calls
      = s.st.begin_load_tile_calls := by
  cases first_load_complete with
  | false =>
    have key : isyntax_stream_image_tiles K isyntax_get_adjacent_tiles_mask
        world_bounds_to_tile_bounds clip_bounds2i ATLEAST ATMOST file_read env workers
        logical_cpu_count tile_streamer codeblocks false max_scale zoom_level s
        = { s with st := isyntax_begin_first_load env s.st } := by
      unfold isyntax_stream_image_tiles
      simp only [Bool.not_false, if_true]
    rw [key]
    have h1 : (isyntax_begin_first_load env s.st).levels = s.st.levels := by
      unfold isyntax_begin_first_load
      simp only []
      split_ifs <;> rfl
    have h2 : (isyntax_begin_first_load env s.st).begin_load_tile_calls
        = s.st.begin_load_tile_calls := by
      unfold isyntax_begin_first_load
      simp only []
      split_ifs <;> rfl
    refine ⟨fun h => ?_, h1, rfl, rfl, rfl, rfl, h2⟩
    cases h
  | true =>
    have key : isyntax_stream_image_tiles K isyntax_get_adjacent_tiles_mask
        world_bounds_to_tile_bounds clip_bounds2i ATLEAST ATMOST file_read env workers
        logical_cpu_count tile_streamer codeblocks true max_scale zoom_level s = s := by
      unfold isyntax_stream_image_tiles
      simp only [Bool.not_true, Bool.false_eq_true, if_false]
      split_ifs with hcount
      · rfl
      · have hreg := stream_region_scales_loaded K isyntax_get_adjacent_tiles_mask
          world_bounds_to_tile_bounds clip_bounds2i tile_streamer s.st.levels
          (stream_highest_scale_to_load ATLEAST ATMOST s.st.levels max_scale zoom_level + 1
            - stream_lowest_visible_scale ATLEAST ATMOST max_scale zoom_level).toNat
          (stream_highest_scale_to_load ATLEAST ATMOST s.st.levels max_scale zoom_level) 0
          { regions := fun _ => load_region_zero, chunks_to_load := [],
            chunks_to_load_history := [[]] }
          (fun sc h1 h2 => hloaded sc (by
            rw [Int.toNat_of_nonneg (by omega)] at h1
            omega) h2)
          (fun _ => rfl)
        unfold isyntax_stream_region_pass
        rcases hr : stream_region_scales K isyntax_get_adjacent_tiles_mask
            world_bounds_to_tile_bounds clip_bounds2i tile_streamer s.st.levels
            (stream_highest_scale_to_load ATLEAST ATMOST s.st.levels max_scale zoom_level + 1
              - stream_lowest_visible_scale ATLEAST ATMOST max_scale zoom_level).toNat
            (stream_highest_scale_to_load ATLEAST ATMOST s.st.levels max_scale zoom_level) 0
            { regions := fun _ => load_region_zero, chunks_to_load := [],
              chunks_to_load_history := [[]] } with ⟨r, b⟩
        rw [hr] at hreg
        simp only [] at hreg
        cases b with
        | true => rfl
        | false =>
          simp only []
          rw [hreg.1]
          simp only [stream_read_chunks, List.append_nil]
          rw [stream_decompress_scales_zero env workers logical_cpu_count r.regions hreg.2]
          rw [isyntax_stream_load_pass,
            stream_load_scales_zero K isyntax_get_adjacent_tiles_mask env logical_cpu_count
              r.regions hreg.2]
          split_ifs <;> rfl
    rw [key]
    exact ⟨fun _ => rfl, rfl, rfl, rfl, rfl, rfl, rfl⟩

/-- Witness for C21: a pass over the one-tile pyramid whose tile is loaded.
The pass services the scale 0, whose padded rectangle is not empty, and leaves
the state as it is. -/
theorem isyntax_stream_image_tiles_fixed_point_witness :
    (stream_lowest_visible_scale max min 0 0 = 0
      ∧ stream_highest_scale_to_load max min example_loaded_pass_state.st.levels 0 0 = 0
      ∧ (isyntax_stream_region_pass example_adj_tile example_adjacent_tiles_mask
          example_world_bounds_to_tile_bounds example_clip_bounds2i example_origin_streamer
          example_loaded_pass_state.st.levels 0 0).2 = false)
    ∧ isyntax_stream_image_tiles example_adj_tile example_adjacent_tiles_mask
        example_world_bounds_to_tile_bounds example_clip_bounds2i max min (fun _ _ => [])
        example_queue example_workers 4 example_origin_streamer example_contiguous_codeblocks
        true 0 0 example_loaded_pass_state
      = example_loaded_pass_state :=
  ⟨by decide,
    (isyntax_stream_image_tiles_fixed_point example_adj_tile example_adjacent_tiles_mask
      example_world_bounds_to_tile_bounds example_clip_bounds2i max min (fun _ _ => [])
      example_queue example_workers 4 example_origin_streamer example_contiguous_codeblocks
      true 0 0 example_loaded_pass_state (fun _ _ _ _ _ _ => rfl)).1 rfl⟩

theorem hulsken_descend_zero : ∀ (fuel bits_to_advance code_size : Nat),
    hulsken_descend fuel 0 bits_to_advance code_size = none := by
  intro fuel
  induction fuel with
  | zero => intro _ _; rfl
  | succ fuel ih =>
    intro bta cs
    simp only [hulsken_descend]
    rw [if_neg (by simp)]
    simpa using ih (bta + 1) (cs + 1)

theorem hulsken_descend_some (blob : Nat) (h0 : blob ≠ 0) (hlt : blob < 2 ^ 64)
    (bits_to_advance code_size : Nat) :
    ∃ k, k < 64 ∧ hulsken_descend 65 blob bits_to_advance code_size
      = some (blob >>> k, bits_to_advance + k, code_size + k) := by
  classical
  have hex : ∃ i, blob.testBit i = true := Nat.ne_zero_implies_bit_true h0
  refine ⟨Nat.find hex, ?_, ?_⟩
  · by_contra hk
    have hge : 2 ^ (Nat.find hex) ≤ blob := Nat.testBit_implies_ge (Nat.find_spec hex)
    have : 2 ^ 64 ≤ 2 ^ (Nat.find hex) := Nat.pow_le_pow_right (by omega) (by omega)
    omega
  · have hk : Nat.find hex < 64 := by
      by_contra hk
      have hge : 2 ^ (Nat.find hex) ≤ blob := Nat.testBit_implies_ge (Nat.find_spec hex)
      have : 2 ^ 64 ≤ 2 ^ (Nat.find hex) := Nat.pow_le_pow_right (by omega) (by omega)
      omega
    apply hulsken_descend_zeros (Nat.find hex) 65 blob bits_to_advance code_size (by omega)
    · intro j hj
      have := Nat.find_min hex hj
      simpa using this
    · exact Nat.find_spec hex

theorem read_u64_le_lt (buffer : List Nat) (hbuf : ∀ b ∈ buffer, b < 256) (byte : Nat) :
    read_u64_le buffer byte < 2 ^ 64 := by
  unfold read_u64_le
  have h0 := getD_lt_256 buffer hbuf byte
  have h1 := getD_lt_256 buffer hbuf (byte + 1)
  have h2 := getD_lt_256 buffer hbuf (byte + 2)
  have h3 := getD_lt_256 buffer hbuf (byte + 3)
  have h4 := getD_lt_256 buffer hbuf (byte + 4)
  have h5 := getD_lt_256 buffer hbuf (byte + 5)
  have h6 := getD_lt_256 buffer hbuf (byte + 6)
  have h7 := getD_lt_256 buffer hbuf (byte + 7)
  have key : ∀ a b c d e f g h : Nat, a < 256 → b < 256 → c < 256 → d < 256 → e < 256 →
      f < 256 → g < 256 → h < 256 →
      a + 2 ^ 8 * b + 2 ^ 16 * c + 2 ^ 24 * d + 2 ^ 32 * e + 2 ^ 40 * f + 2 ^ 48 * g
        + 2 ^ 56 * h < 2 ^ 64 := by
    intro a b c d e f g h _ _ _ _ _ _ _ _
    omega
  exact key _ _ _ _ _ _ _ _ h0 h1 h2 h3 h4 h5 h6 h7

theorem bitstream_lsb_read_lt (buffer : List Nat) (hbuf : ∀ b ∈ buffer, b < 256) (pos : Nat) :
    bitstream_lsb_read buffer pos < 2 ^ 64 := by
  unfold bitstream_lsb_read
  rw [Nat.shiftRight_eq_div_pow]
  exact Nat.lt_of_le_of_lt (Nat.div_le_self _ _) (read_u64_le_lt buffer hbuf _)

/-- C22 (amended): for every codeblock content that holds, at the position of
the Huffman table, the serialization of a prefix-code tree with byte symbols
and at most 31 levels, followed by any bits, the table reading loop of
`isyntax_hulsken_decompress` terminates: it returns after one iteration for
each leaf of the tree (`fuel` bounds the iterations), having read exactly the
bits of the serialization and stored one code for each leaf; the enumeration
stops at the last leaf, where no zero bit remains to flip. -/
theorem hulsken_read_table_terminates (buffer : List Nat) (hbuf : ∀ b ∈ buffer, b < 256)
    (t : huffman_tree) (bits_read : Nat) (huffman : huffman_t) (fuel : Nat) (rest : List Bool)
    (hs : stream_has buffer bits_read (t.serialize ++ rest))
    (hsym : ∀ s ∈ t.symbols, s < 256) (hd : t.depth ≤ 31) (hf : t.leaves ≤ fuel) :
    hulsken_read_table buffer fuel 0 0 bits_read huffman
      = some (bits_read + t.serialize.length, t.codes.foldl hulsken_store_leaf huffman) := by
  have := hulsken_read_table_tree buffer hbuf t 0 [] bits_read huffman fuel
    (by simpa using ((stream_has_append buffer _ _ bits_read).mp hs).1) hsym
    (by simp only [List.length_nil]; omega) hf
  simpa [path_succ, bits_val, huffman_tree.codes] using this

/-- Witness for C22: the codeblock of the tree with the codes `0`, `10` and
`11` holds the 29 bits of its serialization from bit 48 on; the loop returns
after three iterations at bit 77. -/
theorem hulsken_read_table_terminates_witness :
    example_tree.serialize.length = 29 ∧ example_tree.leaves = 3
    ∧ hulsken_read_table example_tree_codeblock 3 0 0 48 huffman_initial
      = some (48 + example_tree.serialize.length,
          example_tree.codes.foldl hulsken_store_leaf huffman_initial) :=
  ⟨by decide, by decide,
    hulsken_read_table_terminates example_tree_codeblock (by decide) example_tree 48
      huffman_initial 3 []
      (by simpa [example_tree_codeblock] using stream_has_codeblock example_tree 0 4 0 [] [])
      (by decide) (by decide) (by decide)⟩

/-- Counterexample to C22 as stated: in a codeblock whose table starts with eight zero
bytes the blob of the first descent is zero, the descent ends within no number
of shifts, and neither the table reading loop nor the decompressor returns. -/
theorem hulsken_read_table_zero_blob :
    bitstream_lsb_read example_zero_table_codeblock 48 = 0
    ∧ (∀ fuel bits_to_advance size : Nat,
        hulsken_descend fuel (bitstream_lsb_read example_zero_table_codeblock 48)
          bits_to_advance size = none)
    ∧ (∀ fuel, (hulsken_read_table example_zero_table_codeblock fuel 0 0 48 huffman_initial).isNone
        = true)
    ∧ ∀ fuel, (isyntax_hulsken_decompress (fun _ => 0) fuel example_zero_table_codeblock 14 3 1
        (fun _ => 0)).isNone = true := by
  have h0 : bitstream_lsb_read example_zero_table_codeblock 48 = 0 := by decide
  have ht : ∀ (fuel : Nat) (h : huffman_t),
      hulsken_read_table example_zero_table_codeblock fuel 0 0 48 h = none := by
    intro fuel h
    cases fuel with
    | zero => rfl
    | succ fuel =>
      unfold hulsken_read_table
      simp only [h0, hulsken_descend_zero]
  refine ⟨h0, ?_, ?_, ?_⟩
  · intro fuel bta size
    rw [h0]; exact hulsken_descend_zero fuel bta size
  · intro fuel
    rw [ht]; rfl
  · intro fuel
    have hh : hulsken_read_header (fun _ => 0) example_zero_table_codeblock 3 1
        = some { serialized_length := 1, zerorun_symbol := 0, zero_counter_size := 1,
                 bits_read := 48 } := by
      rfl
    unfold isyntax_hulsken_decompress
    simp only [hh, ht]
    rfl

/-- C23, the failing inputs.  In `example_long_run_codeblock` the chained zero
run has `2 ^ 31 + 5` zeros: the fill is clamped to the 40000 bytes of the
buffer, but `decompressed_length += numzeroes` wraps the signed 32-bit
variable to `-2147483643`, the loop goes on, and the next two symbols are
stored at the indices `-2147483643` and `-2147483642`.  In
`example_huge_length_codeblock` the table ends at bit 77, the first symbol is
the zero run symbol with the count `0x8000`, the chained run has `2 ^ 31`
zeros, and the clamped count `2 ^ 31` becomes `-2 ^ 31` in `i32 bytes_to_write`:
`memset` is called with the size `2 ^ 64 - 2 ^ 31`. -/
theorem hulsken_decompress_writes_outside :
    example_long_run_codeblock.length = 15
    ∧ (hulsken_read_header (fun _ => 0) example_long_run_codeblock 3 1).map
        (fun header => header.serialized_length) = some 40000
    ∧ (isyntax_hulsken_decompress (fun _ => 0) 8 example_long_run_codeblock 15 3 1
        (fun _ => 170)).map
        (fun r => (r.output_buffer (-2147483643), r.output_buffer (-2147483642),
          r.output_buffer (-2147483644), r.decompressed_size))
        = some (5, 0, 170, -2147483641)
    ∧ (hulsken_read_header (fun _ => 0) example_huge_length_codeblock 3 1).map
        (fun header => header.serialized_length) = some 2147483649
    ∧ (hulsken_read_table example_huge_length_codeblock 8 0 0 48 huffman_initial).map
        (fun r => (r.1, r.2.code 0, r.2.size 0,
          hulsken_decode_symbol r.2 (bitstream_lsb_read example_huge_length_codeblock r.1),
          (bitstream_lsb_read example_huge_length_codeblock r.1 >>> 1) &&& mask32 16))
        = some (77, 0, 1, (0, 1), 0x8000)
    ∧ hulsken_extend_zero_run example_huge_length_codeblock 1 0 1 (mask32 1) 16 (mask32 16)
        2147483649 0 7 0x8000 94 = some (2147483648, 111)
    ∧ to_i32 (min (2147483649 - 0) ((2147483648 : Nat) : Int)) = -2147483648
    ∧ (-2147483648 : Int) % 2 ^ 64 = 2 ^ 64 - 2 ^ 31 := by
  refine ⟨by decide, by decide!, by decide!, by decide!, by decide!, by decide!, by decide!,
    by decide!⟩

theorem map_erase_of_inj_on {α β : Type} [DecidableEq α] [BEq β] [LawfulBEq β] (f : α → β)
    (l : List α) (s : α) (hinj : ∀ x ∈ l, f x = f s → x = s) :
    (l.map f).erase (f s) = (l.erase s).map f := by
  induction l with
  | nil => rfl
  | cons x t ih =>
    have iht := ih (fun y hy => hinj y (List.mem_cons_of_mem _ hy))
    by_cases hx : x = s
    · subst hx
      simp
    · have hf : f x ≠ f s := fun h => hx (hinj x (List.mem_cons_self _ _) h)
      rw [List.map_cons, List.erase_cons_tail (by simpa using hf),
        List.erase_cons_tail (by simpa using hx), List.map_cons, iht]

theorem erase_concat_self {α : Type} [DecidableEq α] (l : List α) (s : α) (h : s ∉ l) :
    (l ++ [s]).erase s = l := by
  rw [List.erase_append_right _ h]
  simp

theorem length_erase_mem {α : Type} [DecidableEq α] (l : List α) (s : α) (h : s ∈ l) :
    (l.erase s).length = l.length - 1 :=
  List.length_erase_of_mem h

theorem block_slot_in_chunk (malloc : Nat → Nat) (bs cap cs cc : Nat)
    (hp : block_params_ok malloc bs cap cs cc) (b : Nat) (hb : b < cap) :
    b * bs + bs ≤ cs := by
  have h1 : (b + 1) * bs ≤ cap * bs := Nat.mul_le_mul_right bs hb
  rw [Nat.add_mul, Nat.one_mul] at h1
  exact Nat.le_trans h1 hp.fits

theorem block_address_injective (malloc : Nat → Nat) (bs cap cs cc : Nat)
    (hp : block_params_ok malloc bs cap cs cc) (s t : Nat × Nat)
    (hs1 : s.1 < cc) (hs2 : s.2 < cap) (ht1 : t.1 < cc) (ht2 : t.2 < cap)
    (h : malloc s.1 + s.2 * bs = malloc t.1 + t.2 * bs) : s = t := by
  have r1 := block_slot_in_chunk malloc bs cap cs cc hp s.2 hs2
  have r2 := block_slot_in_chunk malloc bs cap cs cc hp t.2 ht2
  have hbs := hp.bs_pos
  by_cases hc : s.1 = t.1
  · rw [hc] at h
    have h2 : s.2 * bs = t.2 * bs := by omega
    have h3 : s.2 = t.2 := Nat.eq_of_mul_eq_mul_right hbs h2
    exact Prod.ext hc h3
  · rcases hp.disjoint s.1 t.1 hs1 ht1 hc with hd | hd <;> omega

theorem block_alloc_inv (malloc : Nat → Nat) (bs cap cs cc : Nat)
    (hp : block_params_ok malloc bs cap cs cc) (a : block_allocator_t)
    (live freed : List Nat) (ls fl : List (Nat × Nat))
    (hinv : block_run_inv malloc bs cap cs cc a live freed ls fl)
    (p : Nat) (a1 : block_allocator_t)
    (h : block_alloc (malloc a.used_chunks) a = some (p, a1)) :
    ∃ ls1 fl1, block_run_inv malloc bs cap cs cc a1 (p :: live) (freed.erase p) ls1 fl1 := by
  have hvalid_cc : ∀ t ∈ ls ++ fl, t.1 < cc ∧ t.2 < cap := by
    intro t ht
    obtain ⟨h1, h2⟩ := hinv.valid t ht
    exact ⟨Nat.lt_of_lt_of_le h1 hinv.used_le, Nat.lt_of_lt_of_le h2 (hinv.blocks_le _ h1)⟩
  unfold block_alloc at h
  cases hfl : a.free_list with
  | some ptr =>
    rw [hfl] at h
    simp only [Option.some.injEq, Prod.mk.injEq] at h
    obtain ⟨hp1, ha1⟩ := h
    have hhead := hinv.head_eq
    rw [hfl] at hhead
    have hlen : a.free_list_length ≠ 0 := by
      intro h0
      rw [if_pos h0] at hhead
      cases hhead
    rw [if_neg hlen] at hhead
    simp only [Option.some.injEq] at hhead
    rcases List.eq_nil_or_concat fl with hnil | ⟨f1, s, hfl1⟩
    · have := hinv.length_eq
      rw [hnil] at this
      simp at this
      omega
    rw [List.concat_eq_append] at hfl1
    subst hfl1
    have hflen : f1.length + 1 = a.free_list_length := by
      have := hinv.length_eq
      simpa using this
    have hptr : ptr = f1.length := by omega
    have hitem := hinv.storage_eq f1.length (by simp)
    rw [List.getD_append_right _ _ _ _ (le_refl _)] at hitem
    simp only [Nat.sub_self, List.getD_cons_zero] at hitem
    have hs := hinv.valid s (by simp)
    have hmem := hinv.memory_eq s.1 hs.1
    have hnd := hinv.nodup
    have hperm : (s :: (ls ++ f1)).Perm (ls ++ (f1 ++ [s])) := by
      rw [← List.append_assoc]
      exact (List.perm_append_singleton s (ls ++ f1)).symm
    refine ⟨s :: ls, f1, ?_⟩
    subst ha1
    refine
      { block_size_eq := hinv.block_size_eq
        capacity_eq := hinv.capacity_eq
        chunk_size_eq := hinv.chunk_size_eq
        chunk_count_eq := hinv.chunk_count_eq
        used_pos := hinv.used_pos
        used_le := hinv.used_le
        memory_eq := hinv.memory_eq
        blocks_le := hinv.blocks_le
        blocks_full := hinv.blocks_full
        blocks_zero := hinv.blocks_zero
        head_eq := ?_
        length_eq := ?_
        storage_eq := ?_
        live_eq := ?_
        freed_eq := ?_
        nodup := ?_
        valid := ?_
        count := ?_ }
    · show (a.free_list_storage ptr).next
        = if a.free_list_length - 1 = 0 then none else some (a.free_list_length - 1 - 1)
      rw [hptr, hitem]
      have e : a.free_list_length - 1 = f1.length := by omega
      rw [e]
    · show f1.length = a.free_list_length - 1
      omega
    · intro j hj
      have := hinv.storage_eq j (by simp; omega)
      rw [List.getD_append _ _ _ _ hj] at this
      exact this
    · rw [List.map_cons, hinv.live_eq, ← hp1, hptr, hitem]
      simp only []
      rw [hmem, hinv.block_size_eq]
    · rw [hinv.freed_eq, ← hp1, hptr, hitem]
      simp only []
      rw [hmem, hinv.block_size_eq]
      rw [map_erase_of_inj_on (fun t : Nat × Nat => malloc t.1 + t.2 * bs) (f1 ++ [s]) s]
      · have hnot : s ∉ f1 := by
          have h2 : (f1 ++ [s]).Nodup := (List.nodup_append.mp hnd).2.1
          have h3 := List.nodup_append.mp h2
          intro hin
          exact h3.2.2 hin (List.mem_singleton_self s)
        rw [erase_concat_self f1 s hnot]
      · intro x hx hxe
        have hx1 := hvalid_cc x (List.mem_append_right _ hx)
        have hs1 := hvalid_cc s (by simp)
        exact block_address_injective malloc bs cap cs cc hp x s hx1.1 hx1.2 hs1.1 hs1.2 hxe
    · exact (List.Perm.nodup_iff hperm).mpr hnd
    · intro t ht
      exact hinv.valid t ((List.Perm.mem_iff hperm).mp ht)
    · have := hinv.count
      simp only [List.length_append, List.length_cons, List.length_nil] at this ⊢
      omega
  | none =>
    rw [hfl] at h
    simp only [] at h
    have hhead := hinv.head_eq
    rw [hfl] at hhead
    have hlen : a.free_list_length = 0 := by
      by_contra h0
      rw [if_neg h0] at hhead
      cases hhead
    have hnil : fl = [] := List.eq_nil_of_length_eq_zero (by rw [hinv.length_eq, hlen])
    subst hnil
    have hfreed : freed = [] := by rw [hinv.freed_eq]; rfl
    have hused := hinv.used_pos
    by_cases hub : (a.chunks (a.used_chunks - 1)).used_blocks < a.chunk_capacity_in_blocks
    · rw [if_pos hub] at h
      simp only [Option.some.injEq, Prod.mk.injEq] at h
      obtain ⟨hp1, ha1⟩ := h
      subst ha1
      refine ⟨(a.used_chunks - 1, (a.chunks (a.used_chunks - 1)).used_blocks) :: ls, [], ?_⟩
      refine
        { block_size_eq := hinv.block_size_eq
          capacity_eq := hinv.capacity_eq
          chunk_size_eq := hinv.chunk_size_eq
          chunk_count_eq := hinv.chunk_count_eq
          used_pos := hinv.used_pos
          used_le := hinv.used_le
          memory_eq := ?_
          blocks_le := ?_
          blocks_full := ?_
          blocks_zero := ?_
          head_eq := ?_
          length_eq := hinv.length_eq
          storage_eq := hinv.storage_eq
          live_eq := ?_
          freed_eq := ?_
          nodup := ?_
          valid := ?_
          count := ?_ }
      · intro i hi
        show (if i = a.used_chunks - 1 then _ else a.chunks i).memory = malloc i
        by_cases hi1 : i = a.used_chunks - 1
        · rw [if_pos hi1]
          show (a.chunks (a.used_chunks - 1)).memory = malloc i
          rw [← hi1]
          exact hinv.memory_eq i hi
        · rw [if_neg hi1]
          exact hinv.memory_eq i hi
      · intro i hi
        show (if i = a.used_chunks - 1 then _ else a.chunks i).used_blocks ≤ cap
        by_cases hi1 : i = a.used_chunks - 1
        · rw [if_pos hi1]
          show (a.chunks (a.used_chunks - 1)).used_blocks + 1 ≤ cap
          rw [← hinv.capacity_eq]
          omega
        · rw [if_neg hi1]
          exact hinv.blocks_le i hi
      · intro i hi
        have hi2 : i + 1 < a.used_chunks := hi
        show (if i = a.used_chunks - 1 then _ else a.chunks i).used_blocks = cap
        rw [if_neg (by omega)]
        exact hinv.blocks_full i hi
      · intro i hi
        have hi2 : a.used_chunks ≤ i := hi
        show (if i = a.used_chunks - 1 then _ else a.chunks i).used_blocks = 0
        rw [if_neg (by omega)]
        exact hinv.blocks_zero i hi
      · show none = if a.free_list_length = 0 then none else some (a.free_list_length - 1)
        rw [if_pos hlen]
      · rw [List.map_cons, hinv.live_eq, ← hp1]
        simp only []
        rw [hinv.memory_eq _ (by omega), hinv.block_size_eq]
      · rw [hfreed]
        rfl
      · rw [List.append_nil]
        have hnd := hinv.nodup
        rw [List.append_nil] at hnd
        refine List.nodup_cons.mpr ⟨?_, hnd⟩
        intro hin
        have := (hinv.valid _ (by simpa using hin)).2
        simp only [] at this
        omega
      · intro t ht
        rw [List.append_nil] at ht
        show t.1 < a.used_chunks
          ∧ t.2 < (if t.1 = a.used_chunks - 1 then _ else a.chunks t.1).used_blocks
        rcases List.mem_cons.mp ht with rfl | ht
        · refine ⟨?_, ?_⟩
          · show a.used_chunks - 1 < a.used_chunks
            omega
          · show (a.chunks (a.used_chunks - 1)).used_blocks
              < (if a.used_chunks - 1 = a.used_chunks - 1 then _ else a.chunks _).used_blocks
            rw [if_pos rfl]
            show (a.chunks (a.used_chunks - 1)).used_blocks
              < (a.chunks (a.used_chunks - 1)).used_blocks + 1
            omega
        · obtain ⟨v1, v2⟩ := hinv.valid t (by simpa using ht)
          refine ⟨v1, ?_⟩
          by_cases ht1 : t.1 = a.used_chunks - 1
          · rw [if_pos ht1]
            show t.2 < (a.chunks (a.used_chunks - 1)).used_blocks + 1
            rw [ht1] at v2
            omega
          · rw [if_neg ht1]
            exact v2
      · have := hinv.count
        show _ = a.used_chunks * cap
          + (if a.used_chunks - 1 = a.used_chunks - 1 then _ else a.chunks _).used_blocks
        rw [if_pos rfl]
        show _ = a.used_chunks * cap + ((a.chunks (a.used_chunks - 1)).used_blocks + 1)
        simp only [List.length_cons, List.length_nil] at this ⊢
        omega
    · rw [if_neg hub] at h
      by_cases hnew : a.used_chunks < a.chunk_count
      · rw [if_pos hnew] at h
        simp only [Option.some.injEq, Prod.mk.injEq] at h
        obtain ⟨hp1, ha1⟩ := h
        subst ha1
        have hz : (a.chunks a.used_chunks).used_blocks = 0 := hinv.blocks_zero _ (le_refl _)
        have hfull : (a.chunks (a.used_chunks - 1)).used_blocks = cap := by
          have := hinv.blocks_le (a.used_chunks - 1) (by omega)
          rw [hinv.capacity_eq] at hub
          omega
        refine ⟨(a.used_chunks, 0) :: ls, [], ?_⟩
        refine
          { block_size_eq := hinv.block_size_eq
            capacity_eq := hinv.capacity_eq
            chunk_size_eq := hinv.chunk_size_eq
            chunk_count_eq := hinv.chunk_count_eq
            used_pos := ?_
            used_le := ?_
            memory_eq := ?_
            blocks_le := ?_
            blocks_full := ?_
            blocks_zero := ?_
            head_eq := ?_
            length_eq := hinv.length_eq
            storage_eq := hinv.storage_eq
            live_eq := ?_
            freed_eq := ?_
            nodup := ?_
            valid := ?_
            count := ?_ }
        · show 1 ≤ a.used_chunks + 1
          omega
        · show a.used_chunks + 1 ≤ cc
          rw [← hinv.chunk_count_eq]
          omega
        · intro i hi
          show (if i = a.used_chunks then _ else a.chunks i).memory = malloc i
          by_cases hi1 : i = a.used_chunks
          · rw [if_pos hi1, hi1]
          · rw [if_neg hi1]
            exact hinv.memory_eq i (by
              have : i < a.used_chunks + 1 := hi
              omega)
        · intro i hi
          show (if i = a.used_chunks then _ else a.chunks i).used_blocks ≤ cap
          by_cases hi1 : i = a.used_chunks
          · rw [if_pos hi1]
            show (a.chunks a.used_chunks).used_blocks + 1 ≤ cap
            rw [hz]
            exact hp.cap_pos
          · rw [if_neg hi1]
            exact hinv.blocks_le i (by
              have : i < a.used_chunks + 1 := hi
              omega)
        · intro i hi
          have hi2 : i + 1 < a.used_chunks + 1 := hi
          show (if i = a.used_chunks then _ else a.chunks i).used_blocks = cap
          rw [if_neg (by omega)]
          by_cases hi3 : i + 1 < a.used_chunks
          · exact hinv.blocks_full i hi3
          · have : i = a.used_chunks - 1 := by omega
            rw [this]
            exact hfull
        · intro i hi
          have hi2 : a.used_chunks + 1 ≤ i := hi
          show (if i = a.used_chunks then _ else a.chunks i).used_blocks = 0
          rw [if_neg (by omega)]
          exact hinv.blocks_zero i (by omega)
        · show none = if a.free_list_length = 0 then none else some (a.free_list_length - 1)
          rw [if_pos hlen]
        · rw [List.map_cons, hinv.live_eq, ← hp1]
          simp only []
          rw [hz, hinv.block_size_eq]
        · rw [hfreed]
          rfl
        · rw [List.append_nil]
          have hnd := hinv.nodup
          rw [List.append_nil] at hnd
          refine List.nodup_cons.mpr ⟨?_, hnd⟩
          intro hin
          have := (hinv.valid _ (by simpa using hin)).1
          simp only [] at this
          omega
        · intro t ht
          rw [List.append_nil] at ht
          show t.1 < a.used_chunks + 1
            ∧ t.2 < (if t.1 = a.used_chunks then _ else a.chunks t.1).used_blocks
          rcases List.mem_cons.mp ht with rfl | ht
          · refine ⟨?_, ?_⟩
            · show a.used_chunks < a.used_chunks + 1
              omega
            · show 0 < (if a.used_chunks = a.used_chunks then _ else a.chunks _).used_blocks
              rw [if_pos rfl]
              show 0 < (a.chunks a.used_chunks).used_blocks + 1
              omega
          · obtain ⟨v1, v2⟩ := hinv.valid t (by simpa using ht)
            refine ⟨by omega, ?_⟩
            rw [if_neg (by omega)]
            exact v2
        · have := hinv.count
          show _ = (a.used_chunks + 1) * cap
            + (if a.used_chunks + 1 - 1 = a.used_chunks then _ else a.chunks _).used_blocks
          rw [if_pos (by omega)]
          show _ = (a.used_chunks + 1) * cap + ((a.chunks a.used_chunks).used_blocks + 1)
          rw [hz, Nat.add_mul, Nat.one_mul]
          rw [hfull] at this
          simp only [List.length_cons, List.length_nil] at this ⊢
          omega
      · rw [if_neg hnew] at h
        cases h

theorem block_free_inv (malloc : Nat → Nat) (bs cap cs cc : Nat)
    (hp : block_params_ok malloc bs cap cs cc) (a : block_allocator_t)
    (live freed : List Nat) (ls fl : List (Nat × Nat))
    (hinv : block_run_inv malloc bs cap cs cc a live freed ls fl)
    (p : Nat) (hpl : p ∈ live) :
    ∃ a1, block_free a p = some a1 ∧
      ∃ ls1 fl1, block_run_inv malloc bs cap cs cc a1 (live.erase p) (freed ++ [p]) ls1 fl1 := by
  have hvalid_cc : ∀ t ∈ ls ++ fl, t.1 < cc ∧ t.2 < cap := by
    intro t ht
    obtain ⟨h1, h2⟩ := hinv.valid t ht
    exact ⟨Nat.lt_of_lt_of_le h1 hinv.used_le, Nat.lt_of_lt_of_le h2 (hinv.blocks_le _ h1)⟩
  have hpl1 := hpl
  rw [hinv.live_eq] at hpl1
  obtain ⟨s, hs, hsp⟩ := List.mem_map.mp hpl1
  have hv := hinv.valid s (List.mem_append_left _ hs)
  have hvc := hvalid_cc s (List.mem_append_left _ hs)
  have hmem := hinv.memory_eq s.1 hv.1
  have hin := block_slot_in_chunk malloc bs cap cs cc hp s.2 hvc.2
  have hbs := hp.bs_pos
  have hfind : block_free_find_chunk a p (List.range a.used_chunks) = some s.1 := by
    rw [List.range_eq_range']
    apply block_free_find_chunk_range a p s.1 _ _ a.used_chunks 0 (Nat.zero_le _) (by omega)
    · rw [hmem, hinv.chunk_size_eq]
      omega
    · intro j hj
      rw [hinv.memory_eq j (by omega), hinv.chunk_size_eq]
      have := hp.disjoint j s.1 (by omega) hvc.1 (by omega)
      omega
  have hblock : (p - (a.chunks s.1).memory) / a.block_size = s.2 := by
    rw [hmem, hinv.block_size_eq, ← hsp, Nat.add_sub_cancel_left]
    exact Nat.mul_div_cancel _ hbs
  have hperm : (@List.erase (Nat × Nat) instBEqOfDecidableEq ls s ++ (fl ++ [s])).Perm (ls ++ fl) := by
    rw [← List.append_assoc]
    have h1 : ((@List.erase (Nat × Nat) instBEqOfDecidableEq ls s ++ fl) ++ [s]).Perm (s :: (@List.erase (Nat × Nat) instBEqOfDecidableEq ls s ++ fl)) :=
      List.perm_append_singleton _ _
    have h2 : (s :: @List.erase (Nat × Nat) instBEqOfDecidableEq ls s).Perm ls := (List.perm_cons_erase hs).symm
    exact h1.trans (h2.append_right fl)
  unfold block_free
  rw [hfind]
  simp only []
  rw [if_neg (by rw [hinv.block_size_eq]; omega)]
  refine ⟨_, rfl, @List.erase (Nat × Nat) instBEqOfDecidableEq ls s, fl ++ [s], ?_⟩
  refine
    { block_size_eq := hinv.block_size_eq
      capacity_eq := hinv.capacity_eq
      chunk_size_eq := hinv.chunk_size_eq
      chunk_count_eq := hinv.chunk_count_eq
      used_pos := hinv.used_pos
      used_le := hinv.used_le
      memory_eq := hinv.memory_eq
      blocks_le := hinv.blocks_le
      blocks_full := hinv.blocks_full
      blocks_zero := hinv.blocks_zero
      head_eq := ?_
      length_eq := ?_
      storage_eq := ?_
      live_eq := ?_
      freed_eq := ?_
      nodup := ?_
      valid := ?_
      count := ?_ }
  · show some a.free_list_length
      = if a.free_list_length + 1 = 0 then none else some (a.free_list_length + 1 - 1)
    rw [if_neg (by omega)]
    rfl
  · show (fl ++ [s]).length = a.free_list_length + 1
    rw [List.length_append, hinv.length_eq]
    rfl
  · intro j hj
    rw [List.length_append, List.length_singleton] at hj
    show (if j = a.free_list_length then _ else a.free_list_storage j) = _
    by_cases hjl : j = a.free_list_length
    · rw [if_pos hjl]
      have hjf : fl.length ≤ j := by rw [hinv.length_eq, hjl]
      rw [List.getD_append_right _ _ _ _ hjf]
      have e0 : j - fl.length = 0 := by rw [hinv.length_eq, hjl]; omega
      rw [e0, List.getD_cons_zero, hblock, hinv.head_eq, hjl]
    · rw [if_neg hjl]
      have hjf : j < fl.length := by
        have := hinv.length_eq
        omega
      rw [List.getD_append _ _ _ _ hjf]
      exact hinv.storage_eq j hjf
  · rw [hinv.live_eq, ← hsp]
    apply map_erase_of_inj_on (fun t : Nat × Nat => malloc t.1 + t.2 * bs) ls s
    intro x hx hxe
    have hx1 := hvalid_cc x (List.mem_append_left _ hx)
    exact block_address_injective malloc bs cap cs cc hp x s hx1.1 hx1.2 hvc.1 hvc.2 hxe
  · rw [hinv.freed_eq, List.map_append, ← hsp]
    rfl
  · exact (List.Perm.nodup_iff hperm).mpr hinv.nodup
  · intro t ht
    exact hinv.valid t ((List.Perm.mem_iff hperm).mp ht)
  · have := hinv.count
    have hl : 0 < ls.length := List.length_pos_of_mem hs
    have hle : (@List.erase (Nat × Nat) instBEqOfDecidableEq ls s).length = ls.length - 1 :=
      length_erase_mem ls s hs
    rw [hle, List.length_append, List.length_singleton]
    show _ = a.used_chunks * cap + (a.chunks (a.used_chunks - 1)).used_blocks
    omega

theorem block_run_inv_run (malloc : Nat → Nat) (bs cap cs cc : Nat)
    (hp : block_params_ok malloc bs cap cs cc) (ops : List block_op) :
    ∀ (a : block_allocator_t) (live freed : List Nat) (ls fl : List (Nat × Nat)),
      block_run_inv malloc bs cap cs cc a live freed ls fl →
      ∀ (a1 : block_allocator_t) (live1 freed1 : List Nat),
        block_run malloc ops a live freed = some (a1, live1, freed1) →
        ∃ ls1 fl1, block_run_inv malloc bs cap cs cc a1 live1 freed1 ls1 fl1 := by
  induction ops with
  | nil =>
    intro a live freed ls fl hinv a1 live1 freed1 h
    simp only [block_run, Option.some.injEq, Prod.mk.injEq] at h
    obtain ⟨h1, h2, h3⟩ := h
    subst h1 h2 h3
    exact ⟨ls, fl, hinv⟩
  | cons op rest ih =>
    intro a live freed ls fl hinv a1 live1 freed1 h
    cases op with
    | alloc =>
      simp only [block_run] at h
      cases hal : block_alloc (malloc a.used_chunks) a with
      | none => rw [hal] at h; cases h
      | some r =>
        obtain ⟨p, a2⟩ := r
        rw [hal] at h
        obtain ⟨ls2, fl2, hinv2⟩ := block_alloc_inv malloc bs cap cs cc hp a live freed ls fl
          hinv p a2 hal
        exact ih a2 _ _ ls2 fl2 hinv2 a1 live1 freed1 h
    | free p =>
      simp only [block_run] at h
      by_cases hpl : p ∈ live
      · rw [if_pos hpl] at h
        obtain ⟨a2, hfr, ls2, fl2, hinv2⟩ := block_free_inv malloc bs cap cs cc hp a live freed
          ls fl hinv p hpl
        rw [hfr] at h
        exact ih a2 _ _ ls2 fl2 hinv2 a1 live1 freed1 h
      · rw [if_neg hpl] at h
        cases h

theorem block_allocator_create_inv (malloc : Nat → Nat)
    (block_size max_capacity_in_blocks chunk_size : Nat) (a0 : block_allocator_t)
    (hcreate : block_allocator_create (malloc 0) block_size max_capacity_in_blocks chunk_size
      = some a0) :
    0 < block_size
    ∧ a0.chunk_count * a0.chunk_capacity_in_blocks ≤ max_capacity_in_blocks
    ∧ block_run_inv malloc block_size a0.chunk_capacity_in_blocks chunk_size a0.chunk_count
        a0 [] [] [] [] := by
  unfold block_allocator_create at hcreate
  simp only [] at hcreate
  by_cases h1 : chunk_size = 0
  · rw [if_pos h1] at hcreate
    cases hcreate
  rw [if_neg h1] at hcreate
  by_cases h2 : (block_size * max_capacity_in_blocks) % 2 ^ 64 / chunk_size = 0
  · rw [if_pos h2] at hcreate
    cases hcreate
  rw [if_neg h2] at hcreate
  simp only [Option.some.injEq] at hcreate
  subst hcreate
  refine ⟨?_, ?_, ?_⟩
  · rcases Nat.eq_zero_or_pos block_size with h0 | h0
    · exfalso
      apply h2
      rw [h0]
      simp
    · exact h0
  · exact Nat.mul_div_le _ _
  · refine
      { block_size_eq := rfl
        capacity_eq := rfl
        chunk_size_eq := rfl
        chunk_count_eq := rfl
        used_pos := le_refl _
        used_le := Nat.one_le_iff_ne_zero.mpr h2
        memory_eq := ?_
        blocks_le := ?_
        blocks_full := ?_
        blocks_zero := ?_
        head_eq := rfl
        length_eq := rfl
        storage_eq := ?_
        live_eq := rfl
        freed_eq := rfl
        nodup := List.nodup_nil
        valid := ?_
        count := ?_ }
    · intro i hi
      have hi0 : i = 0 := by
        have : i < 1 := hi
        omega
      subst hi0
      rfl
    · intro i _
      show (if i = 0 then _ else _ : block_allocator_chunk_t).used_blocks ≤ _
      by_cases hi0 : i = 0
      · rw [if_pos hi0]; exact Nat.zero_le _
      · rw [if_neg hi0]; exact Nat.zero_le _
    · intro i hi
      have : i + 1 < 1 := hi
      omega
    · intro i _
      show (if i = 0 then _ else _ : block_allocator_chunk_t).used_blocks = 0
      by_cases hi0 : i = 0
      · rw [if_pos hi0]
      · rw [if_neg hi0]
    · intro j hj
      simp at hj
    · intro s hs
      simp at hs
    · simp

/-- C24 (amended): let an allocator come from `block_allocator_create` with at
least one block per chunk and `chunk_capacity_in_blocks * block_size` at most
`chunk_size`, and let `malloc` return chunks that do not overlap.  After every
sequence of `block_alloc` and `block_free` calls in which each freed pointer
is live, the live blocks occupy pairwise distinct slots
`(chunk index, block index)` of the chunks in use and have pairwise distinct
addresses, `free_list_length` is the number of blocks freed and not returned
again, it is at most `max_capacity_in_blocks`, and `block_free` accepts every
live block. -/
theorem block_run_distinct_slots (malloc : Nat → Nat)
    (block_size max_capacity_in_blocks chunk_size : Nat) (a0 : block_allocator_t)
    (hcreate : block_allocator_create (malloc 0) block_size max_capacity_in_blocks chunk_size
      = some a0)
    (hcap : 1 ≤ a0.chunk_capacity_in_blocks)
    (hfits : a0.chunk_capacity_in_blocks * block_size ≤ chunk_size)
    (hmalloc : ∀ i j, i < a0.chunk_count → j < a0.chunk_count → i ≠ j →
      malloc i + chunk_size ≤ malloc j ∨ malloc j + chunk_size ≤ malloc i)
    (ops : List block_op) (a : block_allocator_t) (live freed : List Nat)
    (hrun : block_run malloc ops a0 [] [] = some (a, live, freed)) :
    (∃ slots : List (Nat × Nat), slots.Nodup
      ∧ (∀ s ∈ slots, s.1 < a.used_chunks ∧ s.2 < (a.chunks s.1).used_blocks)
      ∧ live = slots.map (fun s => (a.chunks s.1).memory + s.2 * a.block_size))
    ∧ live.Nodup
    ∧ a.free_list_length = freed.length
    ∧ a.free_list_length ≤ max_capacity_in_blocks
    ∧ ∀ p ∈ live, (block_free a p).isSome = true := by
  obtain ⟨hbs, hmax, hinv0⟩ := block_allocator_create_inv malloc block_size
    max_capacity_in_blocks chunk_size a0 hcreate
  have hp : block_params_ok malloc block_size a0.chunk_capacity_in_blocks chunk_size
      a0.chunk_count :=
    { bs_pos := hbs, cap_pos := hcap, fits := hfits, disjoint := hmalloc }
  obtain ⟨ls, fl, hinv⟩ := block_run_inv_run malloc block_size a0.chunk_capacity_in_blocks
    chunk_size a0.chunk_count hp ops a0 [] [] [] [] hinv0 a live freed hrun
  have hvalid_cc : ∀ t ∈ ls ++ fl, t.1 < a0.chunk_count ∧ t.2 < a0.chunk_capacity_in_blocks := by
    intro t ht
    obtain ⟨h1, h2⟩ := hinv.valid t ht
    exact ⟨Nat.lt_of_lt_of_le h1 hinv.used_le, Nat.lt_of_lt_of_le h2 (hinv.blocks_le _ h1)⟩
  have hnd : ls.Nodup := (List.nodup_append.mp hinv.nodup).1
  refine ⟨⟨ls, hnd, fun s hs => hinv.valid s (List.mem_append_left _ hs), ?_⟩, ?_, ?_, ?_, ?_⟩
  · rw [hinv.live_eq]
    apply List.map_congr_left
    intro s hs
    rw [hinv.memory_eq s.1 (hinv.valid s (List.mem_append_left _ hs)).1, hinv.block_size_eq]
  · rw [hinv.live_eq]
    apply List.Nodup.map_on _ hnd
    intro x hx y hy hxy
    have hx1 := hvalid_cc x (List.mem_append_left _ hx)
    have hy1 := hvalid_cc y (List.mem_append_left _ hy)
    exact block_address_injective malloc _ _ _ _ hp x y hx1.1 hx1.2 hy1.1 hy1.2 hxy
  · rw [hinv.freed_eq, List.length_map, hinv.length_eq]
  · have hc := hinv.count
    have hub := hinv.blocks_le (a.used_chunks - 1) (by have := hinv.used_pos; omega)
    have hu : a.used_chunks * a0.chunk_capacity_in_blocks
        ≤ a0.chunk_count * a0.chunk_capacity_in_blocks :=
      Nat.mul_le_mul_right _ hinv.used_le
    have hl := hinv.length_eq
    omega
  · intro p hpl
    obtain ⟨a1, h1, _⟩ := block_free_inv malloc _ _ _ _ hp a live freed ls fl hinv p hpl
    rw [h1]
    rfl

/-- Witness for C24: `example_spaced_ops` on an allocator of two chunks of
four blocks of 16 bytes, the chunks at 1000 and 1100. -/
theorem block_run_distinct_slots_witness :
    example_spaced_run.2.1 = [1048, 1016] ∧ example_spaced_run.2.2 = [1000, 1100, 1032]
    ∧ example_spaced_run.1.free_list_length = 3
    ∧ (∃ slots : List (Nat × Nat), slots.Nodup
      ∧ (∀ s ∈ slots, s.1 < example_spaced_run.1.used_chunks
          ∧ s.2 < (example_spaced_run.1.chunks s.1).used_blocks)
      ∧ example_spaced_run.2.1 = slots.map (fun s =>
          (example_spaced_run.1.chunks s.1).memory + s.2 * example_spaced_run.1.block_size))
    ∧ example_spaced_run.2.1.Nodup
    ∧ example_spaced_run.1.free_list_length = example_spaced_run.2.2.length
    ∧ example_spaced_run.1.free_list_length ≤ 8
    ∧ ∀ p ∈ example_spaced_run.2.1, (block_free example_spaced_run.1 p).isSome = true :=
  ⟨by decide, by decide, by decide,
    block_run_distinct_slots example_spaced_malloc 16 8 64 example_fresh_allocator rfl
      (by decide) (by decide)
      (fun i j hi hj hij => by
        have hi2 : i < 2 := hi
        have hj2 : j < 2 := hj
        unfold example_spaced_malloc
        omega)
      example_spaced_ops example_spaced_run.1 example_spaced_run.2.1 example_spaced_run.2.2
      rfl⟩

/-- Counterexample to C24 as stated: `block_allocator_create(10, 10, 35)` gives chunks of
35 bytes with five blocks of 10 bytes.  With the second chunk right after the
first, the sixth allocation returns 1035; freeing the fifth block, 1040, which
lies in the range of the second chunk, puts the slot (1, 0) on the free list,
and the next allocation returns 1035 again, while it is live.  At the end the
free list is empty although the block 1040 was freed and not returned again. -/
theorem block_run_slot_handed_out_twice :
    (block_allocator_create (example_adjacent_malloc 0) 10 10 35).map
        (fun a0 => (a0.chunk_capacity_in_blocks, a0.chunk_count, a0.chunk_size)) = some (5, 2, 35)
    ∧ example_adjacent_malloc 0 + 35 ≤ example_adjacent_malloc 1
    ∧ ((block_allocator_create (example_adjacent_malloc 0) 10 10 35).bind
        (fun a0 => block_run example_adjacent_malloc (example_block_ops.take 6) a0 [] [])).map
        (fun r => r.2.1) = some [1035, 1040, 1030, 1020, 1010, 1000]
    ∧ ((block_allocator_create (example_adjacent_malloc 0) 10 10 35).bind
        (fun a0 => block_run example_adjacent_malloc example_block_ops a0 [] [])).map
        (fun r => (r.2.1, r.2.2, r.1.free_list_length))
        = some ([1035, 1035, 1030, 1020, 1010, 1000], [1040], 0) := by
  refine ⟨by decide, by decide, by decide, by decide⟩

/-! ### The capacity of a chunk -/

/-- A block that `block_alloc` takes by bump allocation from an allocator with
an empty free list lies inside the `chunk_size` bytes of its chunk, when a
chunk holds at least one block, the blocks of a chunk fit in `chunk_size`, and
the chunk after the last one in use is fresh. -/
theorem block_alloc_bump_in_chunk (s : block_allocator_t) (hcap : 1 ≤ s.chunk_capacity_in_blocks)
    (hfit : s.chunk_capacity_in_blocks * s.block_size ≤ s.chunk_size)
    (hfree : s.free_list = none) (hfresh : (s.chunks s.used_chunks).used_blocks = 0)
    (new_chunk_memory p : Nat) (s1 : block_allocator_t)
    (h : block_alloc new_chunk_memory s = some (p, s1)) :
    ∃ ci, (s1.chunks ci).memory ≤ p ∧ p + s.block_size ≤ (s1.chunks ci).memory + s.chunk_size := by
  unfold block_alloc at h
  rw [hfree] at h
  simp only [] at h
  by_cases hc : (s.chunks (s.used_chunks - 1)).used_blocks < s.chunk_capacity_in_blocks
  · rw [if_pos hc] at h
    simp only [Option.some.injEq, Prod.mk.injEq] at h
    obtain ⟨hp, hs⟩ := h
    subst hs
    refine ⟨s.used_chunks - 1, ?_⟩
    simp only [if_true]
    have h1 : ((s.chunks (s.used_chunks - 1)).used_blocks + 1) * s.block_size
        ≤ s.chunk_capacity_in_blocks * s.block_size := Nat.mul_le_mul_right _ hc
    have h2 : ((s.chunks (s.used_chunks - 1)).used_blocks + 1) * s.block_size
        = (s.chunks (s.used_chunks - 1)).used_blocks * s.block_size + s.block_size := by ring
    omega
  · rw [if_neg hc] at h
    by_cases hu : s.used_chunks < s.chunk_count
    · rw [if_pos hu] at h
      simp only [Option.some.injEq, Prod.mk.injEq] at h
      obtain ⟨hp, hs⟩ := h
      subst hs
      refine ⟨s.used_chunks, ?_⟩
      simp only [if_true]
      rw [hfresh] at hp
      have h1 : 1 * s.block_size ≤ s.chunk_capacity_in_blocks * s.block_size :=
        Nat.mul_le_mul_right _ hcap
      omega
    · rw [if_neg hu] at h
      cases h

/-- C25 (amended): for `block_allocator_create(block_size, max_capacity_in_blocks,
chunk_size)` with positive arguments whose total capacity does not overflow,
where a block is not larger than a chunk and `chunk_size` divides the total
capacity, the computation does not divide by zero, a chunk holds at least one
block and `chunk_capacity_in_blocks * block_size <= chunk_size`, so every
block handed out by bump allocation lies inside the `chunk_size` bytes of its
chunk. -/
theorem block_allocator_create_capacity (memory block_size max_capacity_in_blocks chunk_size : Nat)
    (hbs : 0 < block_size) (hmax : 0 < max_capacity_in_blocks)
    (hov : block_size * max_capacity_in_blocks < 2 ^ 64)
    (hle : block_size ≤ chunk_size) (hdiv : chunk_size ∣ block_size * max_capacity_in_blocks) :
    ∃ allocator,
      block_allocator_create memory block_size max_capacity_in_blocks chunk_size = some allocator ∧
      1 ≤ allocator.chunk_capacity_in_blocks ∧
      allocator.chunk_capacity_in_blocks * allocator.block_size ≤ allocator.chunk_size ∧
      ∀ s : block_allocator_t,
        s.block_size = allocator.block_size →
        s.chunk_capacity_in_blocks = allocator.chunk_capacity_in_blocks →
        s.chunk_size = allocator.chunk_size →
        s.free_list = none → (s.chunks s.used_chunks).used_blocks = 0 →
        ∀ new_chunk_memory p s1, block_alloc new_chunk_memory s = some (p, s1) →
          ∃ ci, (s1.chunks ci).memory ≤ p ∧
            p + s.block_size ≤ (s1.chunks ci).memory + s.chunk_size := by
  have hcs : 0 < chunk_size := lt_of_lt_of_le hbs hle
  obtain ⟨n, hn⟩ := hdiv
  have htot : 0 < block_size * max_capacity_in_blocks := Nat.mul_pos hbs hmax
  have hn0 : 0 < n := by
    rcases Nat.eq_zero_or_pos n with h | h
    · rw [h, Nat.mul_zero] at hn; omega
    · exact h
  have hcount : (block_size * max_capacity_in_blocks) % 2 ^ 64 / chunk_size = n := by
    rw [Nat.mod_eq_of_lt hov, hn]
    exact Nat.mul_div_cancel_left n hcs
  -- n ≤ max_capacity_in_blocks, since block_size ≤ chunk_size
  have hnmax : n ≤ max_capacity_in_blocks := by
    by_contra hlt
    have h1 : max_capacity_in_blocks < n := by omega
    have h2 : block_size * max_capacity_in_blocks < chunk_size * n :=
      calc block_size * max_capacity_in_blocks
          ≤ chunk_size * max_capacity_in_blocks := Nat.mul_le_mul_right _ hle
        _ < chunk_size * n := Nat.mul_lt_mul_of_pos_left h1 hcs
    omega
  have hcap1 : 1 ≤ max_capacity_in_blocks / n := (Nat.le_div_iff_mul_le hn0).mpr (by omega)
  -- (max / n) * block_size ≤ chunk_size
  have hfit : max_capacity_in_blocks / n * block_size ≤ chunk_size := by
    have h1 : max_capacity_in_blocks / n * n ≤ max_capacity_in_blocks := Nat.div_mul_le_self _ _
    have h2 : max_capacity_in_blocks / n * block_size * n ≤ chunk_size * n :=
      calc max_capacity_in_blocks / n * block_size * n
          = block_size * (max_capacity_in_blocks / n * n) := by ring
        _ ≤ block_size * max_capacity_in_blocks := Nat.mul_le_mul_left _ h1
        _ = chunk_size * n := hn
    exact Nat.le_of_mul_le_mul_right h2 hn0
  unfold block_allocator_create
  simp only []
  rw [if_neg (by omega), hcount, if_neg (by omega)]
  refine ⟨_, rfl, hcap1, hfit, ?_⟩
  intro s h1 h2 h3 hfree hfresh m p s1 h
  simp only [] at h1 h2 h3
  exact block_alloc_bump_in_chunk s (by rw [h2]; exact hcap1) (by rw [h1, h2, h3]; exact hfit)
    hfree hfresh m p s1 h

/-- Witness for C25: `block_allocator_create(16, 32, 128)`, four chunks of
eight blocks. -/
theorem block_allocator_create_capacity_witness :
    ∃ allocator,
      block_allocator_create 1000 16 32 128 = some allocator ∧
      1 ≤ allocator.chunk_capacity_in_blocks ∧
      allocator.chunk_capacity_in_blocks * allocator.block_size ≤ allocator.chunk_size ∧
      ∀ s : block_allocator_t,
        s.block_size = allocator.block_size →
        s.chunk_capacity_in_blocks = allocator.chunk_capacity_in_blocks →
        s.chunk_size = allocator.chunk_size →
        s.free_list = none → (s.chunks s.used_chunks).used_blocks = 0 →
        ∀ new_chunk_memory p s1, block_alloc new_chunk_memory s = some (p, s1) →
          ∃ ci, (s1.chunks ci).memory ≤ p ∧
            p + s.block_size ≤ (s1.chunks ci).memory + s.chunk_size :=
  block_allocator_create_capacity 1000 16 32 128 (by decide) (by decide) (by decide) (by decide)
    ⟨4, by decide⟩

/-- Counterexample to C25 as stated: `block_allocator_create(1, 1, 2)` has
positive arguments and divides by a chunk count of zero;
`block_allocator_create(10, 10, 35)` gives chunks of five blocks of ten bytes
for a `chunk_size` of 35, and the fifth block of the first chunk, at address
1040, starts after the 35 bytes of the chunk at address 1000. -/
theorem block_allocator_create_overfull :
    (block_allocator_create 1000 1 1 2).isNone = true
    ∧ (block_allocator_create 1000 10 10 35).map
        (fun a => (a.chunk_capacity_in_blocks * a.block_size, a.chunk_size)) = some (50, 35)
    ∧ example_overfull_allocator.map (fun r => r.1) = some [1000, 1010, 1020, 1030, 1040] := by
  decide

theorem bits_val_snoc_testBit_lt (l : List Bool) (b : Bool) (j : Nat) (hj : j < l.length) :
    (bits_val (l ++ [b])).testBit j = (bits_val l).testBit j := by
  rw [bits_val_testBit, bits_val_testBit, List.getD_append _ _ _ _ hj]

theorem bits_val_snoc_testBit_eq (l : List Bool) (b : Bool) :
    (bits_val (l ++ [b])).testBit l.length = b := by
  rw [bits_val_testBit, List.getD_append_right _ _ _ _ (le_refl _)]
  simp

theorem path_succ_diverges (L : List Bool) : ∀ rp1 : List Bool, path_succ L = some rp1 →
    rp1.length ≤ L.length ∧ 0 < rp1.length
    ∧ (∀ j < rp1.length - 1,
        (bits_val rp1.reverse).testBit j = (bits_val L.reverse).testBit j)
    ∧ (bits_val L.reverse).testBit (rp1.length - 1) = false
    ∧ (bits_val rp1.reverse).testBit (rp1.length - 1) = true := by
  induction L with
  | nil => intro rp1 h; simp [path_succ] at h
  | cons b tl ih =>
    intro rp1 h
    cases b with
    | true =>
      simp only [path_succ] at h
      obtain ⟨h1, h2, h3, h4, h5⟩ := ih rp1 h
      have hlen : tl.reverse.length = tl.length := List.length_reverse tl
      refine ⟨by simp only [List.length_cons]; omega, h2, ?_, ?_, h5⟩
      · intro j hj
        rw [List.reverse_cons, bits_val_snoc_testBit_lt _ _ _ (by omega)]
        exact h3 j hj
      · rw [List.reverse_cons, bits_val_snoc_testBit_lt _ _ _ (by omega)]
        exact h4
    | false =>
      simp only [path_succ, Option.some.injEq] at h
      subst h
      have hlen : tl.reverse.length = tl.length := List.length_reverse tl
      refine ⟨by simp, by simp, ?_, ?_, ?_⟩
      · intro j hj
        simp only [List.length_cons, Nat.add_sub_cancel] at hj
        rw [List.reverse_cons, List.reverse_cons, bits_val_snoc_testBit_lt _ _ _ (by omega),
          bits_val_snoc_testBit_lt _ _ _ (by omega)]
      · simp only [List.length_cons, Nat.add_sub_cancel, List.reverse_cons]
        rw [← hlen]; exact bits_val_snoc_testBit_eq _ _
      · simp only [List.length_cons, Nat.add_sub_cancel, List.reverse_cons]
        rw [← hlen]; exact bits_val_snoc_testBit_eq _ _

theorem hulsken_descend_code_size : ∀ (fuel blob bits_to_advance code_size : Nat)
    (r : Nat × Nat × Nat), hulsken_descend fuel blob bits_to_advance code_size = some r →
    ∃ k, r.2.2 = code_size + k := by
  intro fuel
  induction fuel with
  | zero => intro _ _ _ r h; cases h
  | succ fuel ih =>
    intro blob bta cs r h
    simp only [hulsken_descend] at h
    by_cases hb : blob &&& 1 ≠ 0
    · rw [if_pos hb] at h
      cases h
      exact ⟨0, rfl⟩
    · rw [if_neg hb] at h
      obtain ⟨k, hk⟩ := ih _ _ _ r h
      exact ⟨k + 1, by omega⟩

theorem testBit_lt_of_lt_two_pow (c n i : Nat) (hc : c < 2 ^ n) (hi : c.testBit i = true) :
    i < n := by
  by_contra hn
  have h1 : 2 ^ i ≤ c := Nat.testBit_implies_ge hi
  have h2 : 2 ^ n ≤ 2 ^ i := Nat.pow_le_pow_right (by omega) (by omega)
  omega

theorem code_diverges_prefix_free (c1 n1 c2 n2 : Nat) (h2 : c2 < 2 ^ n2)
    (h : code_diverges c1 n1 c2) : codes_prefix_free c1 n1 c2 n2 := by
  obtain ⟨i, hi, _, hz, ho⟩ := h
  constructor
  · rintro ⟨_, he⟩
    have : (c2 % 2 ^ n1).testBit i = c2.testBit i := by
      rw [Nat.testBit_mod_two_pow]; simp [hi]
    rw [he, hz, ho] at this
    cases this
  · rintro ⟨_, he⟩
    have hi2 : i < n2 := testBit_lt_of_lt_two_pow c2 n2 i h2 ho
    have : (c1 % 2 ^ n2).testBit i = c1.testBit i := by
      rw [Nat.testBit_mod_two_pow]; simp [hi2]
    rw [he, hz, ho] at this
    cases this

theorem hulsken_read_table_codes_after (buffer : List Nat) :
    ∀ (fuel : Nat) (rp : List Bool) (br : Nat),
      (∀ e ∈ hulsken_read_table_codes buffer fuel rp.length (bits_val rp.reverse) br,
        e.2.2 ≤ 32) →
      (hulsken_read_table_codes buffer fuel rp.length (bits_val rp.reverse) br).Pairwise
          (fun e1 e2 => code_diverges e1.2.1 e1.2.2 e2.2.1)
      ∧ ∀ e ∈ hulsken_read_table_codes buffer fuel rp.length (bits_val rp.reverse) br,
          e.2.1 < 2 ^ e.2.2 ∧ code_after (bits_val rp.reverse) rp.length e.2.1 e.2.2 := by
  intro fuel
  induction fuel with
  | zero => intro rp br _; simp [hulsken_read_table_codes]
  | succ fuel ih =>
    intro rp br hsz
    unfold hulsken_read_table_codes at hsz ⊢
    simp only [] at hsz ⊢
    cases hd : hulsken_descend 65 (bitstream_lsb_read buffer br) 1 rp.length with
    | none => simp
    | some d =>
      obtain ⟨b1, bta, cs1⟩ := d
      obtain ⟨k, hk⟩ := hulsken_descend_code_size _ _ _ _ _ hd
      simp only [] at hk
      rw [hd] at hsz
      simp only [] at hsz ⊢
      have hc : bits_val rp.reverse < 2 ^ cs1 := by
        have h1 := bits_val_lt rp.reverse
        rw [List.length_reverse] at h1
        have h2 : 2 ^ rp.length ≤ 2 ^ cs1 := Nat.pow_le_pow_right (by omega) (by omega)
        omega
      have hhead : code_after (bits_val rp.reverse) rp.length (bits_val rp.reverse) cs1 :=
        Or.inl ⟨by omega, fun j _ => rfl⟩
      have single : ∀ sym : Nat,
          ([(sym, bits_val rp.reverse, cs1)] : List (Nat × Nat × Nat)).Pairwise
              (fun e1 e2 => code_diverges e1.2.1 e1.2.2 e2.2.1)
          ∧ ∀ e ∈ ([(sym, bits_val rp.reverse, cs1)] : List (Nat × Nat × Nat)),
              e.2.1 < 2 ^ e.2.2 ∧ code_after (bits_val rp.reverse) rp.length e.2.1 e.2.2 := by
        intro sym
        refine ⟨List.pairwise_singleton _ _, ?_⟩
        intro e he
        rw [List.mem_singleton] at he
        subst he
        exact ⟨hc, hhead⟩
      by_cases hcs : cs1 = 0
      · rw [if_pos hcs]; exact single _
      · rw [if_neg hcs] at hsz ⊢
        rcases hA : hulsken_ascend cs1 (bits_val rp.reverse) (shl32 (cs1 - 1)) cs1
          with ⟨c2, hb2, cs2⟩
        rw [hA] at hsz
        simp only [] at hsz ⊢
        by_cases h2 : cs2 > 0
        · rw [if_pos h2] at hsz ⊢
          have hsz1 : cs1 ≤ 32 := hsz _ (List.mem_cons_self _ _)
          have hLlen : (List.replicate k false ++ rp).length = cs1 := by
            simp only [List.length_append, List.length_replicate]; omega
          have hLval : bits_val (List.replicate k false ++ rp).reverse = bits_val rp.reverse := by
            rw [List.reverse_append, List.reverse_replicate, bits_val_append_zeros]
          have hne : List.replicate k false ++ rp ≠ [] := by
            intro h
            rw [h] at hLlen
            simp at hLlen
            omega
          obtain ⟨c1, hb1, cs3, hA1, hm⟩ := hulsken_ascend_path (List.replicate k false ++ rp)
            hne (by omega) (List.replicate k false ++ rp).length (le_refl _)
          rw [hLlen, hLval, hA] at hA1
          simp only [Prod.mk.injEq] at hA1
          obtain ⟨e1, e2, e3⟩ := hA1
          subst e1 e2 e3
          cases hps : path_succ (List.replicate k false ++ rp) with
          | none =>
            rw [hps] at hm
            simp only [] at hm
            omega
          | some rp1 =>
            rw [hps] at hm
            simp only [] at hm
            obtain ⟨hm1, hm2⟩ := hm
            rw [hm1, hm2] at hsz ⊢
            obtain ⟨ihp, iha⟩ := ih rp1 _ (fun e he => hsz e (List.mem_cons_of_mem _ he))
            obtain ⟨d1, d2, d3, d4, d5⟩ := path_succ_diverges _ rp1 hps
            rw [hLval] at d3 d4
            rw [hLlen] at d1
            have key : ∀ e ∈ hulsken_read_table_codes buffer fuel rp1.length
                (bits_val rp1.reverse) (br + (bta + 8)),
                code_diverges (bits_val rp.reverse) cs1 e.2.1 := by
              intro e he
              obtain ⟨_, haf⟩ := iha e he
              rcases haf with ⟨hle, hpre⟩ | ⟨j, hj, hjl, hjz, hjo⟩
              · refine ⟨rp1.length - 1, by omega, ?_, d4, ?_⟩
                · intro j hj
                  rw [hpre j (by omega)]
                  exact d3 j hj
                · rw [hpre _ (by omega)]
                  exact d5
              · have hjne : j ≠ rp1.length - 1 := by
                  intro h
                  rw [h] at hjz
                  rw [hjz] at d5
                  cases d5
                refine ⟨j, by omega, ?_, ?_, hjo⟩
                · intro j1 hj1
                  rw [hjl j1 hj1]
                  exact d3 j1 (by omega)
                · rw [← d3 j (by omega)]
                  exact hjz
            refine ⟨List.pairwise_cons.mpr ⟨key, ihp⟩, ?_⟩
            intro e he
            rcases List.mem_cons.mp he with rfl | he
            · exact ⟨hc, hhead⟩
            · refine ⟨(iha e he).1, ?_⟩
              obtain ⟨i, hi, hil, hiz, hio⟩ := key e he
              by_cases hin : i < rp.length
              · exact Or.inr ⟨i, hin, hil, hiz, hio⟩
              · have := testBit_lt_of_lt_two_pow _ _ _ (iha e he).1 hio
                exact Or.inl ⟨by omega, fun j hj => hil j (by omega)⟩
        · rw [if_neg h2]; exact single _

theorem hulsken_read_table_stores_codes (buffer : List Nat) :
    ∀ (fuel code_size code bits_read : Nat) (huffman : huffman_t) (r : Nat × huffman_t),
      hulsken_read_table buffer fuel code_size code bits_read huffman = some r →
      r.2 = (hulsken_read_table_codes buffer fuel code_size code bits_read).foldl
        (fun h e => hulsken_store_code h e.2.1 e.2.2 e.1) huffman := by
  intro fuel
  induction fuel with
  | zero => intro cs code br h r hr; cases hr
  | succ fuel ih =>
    intro cs code br h r hr
    unfold hulsken_read_table at hr
    unfold hulsken_read_table_codes
    simp only [] at hr ⊢
    cases hd : hulsken_descend 65 (bitstream_lsb_read buffer br) 1 cs with
    | none => rw [hd] at hr; cases hr
    | some d =>
      obtain ⟨b1, bta, cs1⟩ := d
      rw [hd] at hr
      simp only [] at hr ⊢
      by_cases hcs : cs1 = 0
      · rw [if_pos hcs] at hr ⊢
        cases hr
        rfl
      · rw [if_neg hcs] at hr ⊢
        by_cases h2 : (hulsken_ascend cs1 code (shl32 (cs1 - 1)) cs1).2.2 > 0
        · rw [if_pos h2] at hr ⊢
          rw [List.foldl_cons]
          exact ih _ _ _ _ r hr
        · rw [if_neg h2] at hr ⊢
          cases hr
          rfl

theorem mem_hulsken_fast_written (code code_size a : Nat) (hc : code < 2 ^ code_size) :
    a ∈ hulsken_fast_written code code_size ↔
      if code_size ≤ 12 then a < 4096 ∧ a % 2 ^ code_size = code else a = code % 4096 := by
  unfold hulsken_fast_written
  by_cases hn : code_size ≤ 12
  · rw [if_pos (by unfold HUFFMAN_FAST_BITS; exact hn), if_pos hn,
      ← fast_addresses_iff code_size code a hn hc]
    simp only [List.mem_map, List.mem_range]
    constructor
    · rintro ⟨i, hi, rfl⟩
      exact ⟨i, Nat.zero_le _, by omega, rfl⟩
    · rintro ⟨i, _, hi, rfl⟩
      exact ⟨i, by omega, rfl⟩
  · rw [if_neg (by unfold HUFFMAN_FAST_BITS; exact hn), if_neg hn, List.mem_singleton]
    have e : shl32 HUFFMAN_FAST_BITS - 1 = 2 ^ 12 - 1 := by
      rw [shl32_eq _ (by unfold HUFFMAN_FAST_BITS; omega)]; rfl
    rw [e, Nat.and_pow_two_sub_one_eq_mod]

theorem hulsken_fast_written_disjoint (c1 n1 c2 n2 a : Nat) (h1 : c1 < 2 ^ n1)
    (h2 : c2 < 2 ^ n2) (hpf : codes_prefix_free c1 n1 c2 n2)
    (ha1 : a ∈ hulsken_fast_written c1 n1) (ha2 : a ∈ hulsken_fast_written c2 n2) :
    HUFFMAN_FAST_BITS < n1 ∧ HUFFMAN_FAST_BITS < n2 := by
  rw [mem_hulsken_fast_written c1 n1 a h1] at ha1
  rw [mem_hulsken_fast_written c2 n2 a h2] at ha2
  have hdvd : ∀ m n : Nat, m ≤ n → 2 ^ m ∣ 2 ^ n := fun m n h => pow_dvd_pow 2 h
  unfold HUFFMAN_FAST_BITS
  by_cases hn1 : n1 ≤ 12
  · rw [if_pos hn1] at ha1
    exfalso
    by_cases hn2 : n2 ≤ 12
    · rw [if_pos hn2] at ha2
      by_cases hle : n1 ≤ n2
      · apply hpf.1
        refine ⟨hle, ?_⟩
        rw [← ha2.2, Nat.mod_mod_of_dvd _ (hdvd _ _ hle)]
        exact ha1.2
      · apply hpf.2
        refine ⟨by omega, ?_⟩
        rw [← ha1.2, Nat.mod_mod_of_dvd _ (hdvd _ _ (by omega))]
        exact ha2.2
    · rw [if_neg hn2] at ha2
      apply hpf.1
      refine ⟨by omega, ?_⟩
      have := ha1.2
      rw [ha2, show (4096 : Nat) = 2 ^ 12 from rfl, Nat.mod_mod_of_dvd _ (hdvd _ _ hn1)] at this
      exact this
  · rw [if_neg hn1] at ha1
    by_cases hn2 : n2 ≤ 12
    · rw [if_pos hn2] at ha2
      exfalso
      apply hpf.2
      refine ⟨by omega, ?_⟩
      have := ha2.2
      rw [ha1, show (4096 : Nat) = 2 ^ 12 from rfl, Nat.mod_mod_of_dvd _ (hdvd _ _ hn2)] at this
      exact this
    · exact ⟨by omega, by omega⟩

/-- C26 (amended): for leaves with codes of at most 32 bits, the codes that the
table reading loop holds at its leaves, which are the ones it stores when it
returns, are smaller than `2 ^ code_size` and prefix-free, least significant
bit first; and of the entries of the fast table only the markers of codes
longer than `HUFFMAN_FAST_BITS` are written for more than one leaf. -/
theorem hulsken_read_table_codes_prefix_free (buffer : List Nat) (fuel bits_read : Nat)
    (huffman : huffman_t)
    (hsize : ∀ e ∈ hulsken_read_table_codes buffer fuel 0 0 bits_read, e.2.2 ≤ 32) :
    (∀ r, hulsken_read_table buffer fuel 0 0 bits_read huffman = some r →
      r.2 = (hulsken_read_table_codes buffer fuel 0 0 bits_read).foldl
        (fun h e => hulsken_store_code h e.2.1 e.2.2 e.1) huffman)
    ∧ (∀ e ∈ hulsken_read_table_codes buffer fuel 0 0 bits_read, e.2.1 < 2 ^ e.2.2)
    ∧ (hulsken_read_table_codes buffer fuel 0 0 bits_read).Pairwise
        (fun e1 e2 => codes_prefix_free e1.2.1 e1.2.2 e2.2.1 e2.2.2
          ∧ ∀ a, a ∈ hulsken_fast_written e1.2.1 e1.2.2 →
              a ∈ hulsken_fast_written e2.2.1 e2.2.2 →
              HUFFMAN_FAST_BITS < e1.2.2 ∧ HUFFMAN_FAST_BITS < e2.2.2) := by
  obtain ⟨hp, ha⟩ := hulsken_read_table_codes_after buffer fuel [] bits_read hsize
  refine ⟨fun r hr => hulsken_read_table_stores_codes buffer fuel 0 0 bits_read huffman r hr,
    fun e he => (ha e he).1, ?_⟩
  refine List.Pairwise.imp_of_mem ?_ hp
  intro e1 e2 he1 he2 hdiv
  have hpf := code_diverges_prefix_free e1.2.1 e1.2.2 e2.2.1 e2.2.2 (ha e2 he2).1 hdiv
  exact ⟨hpf, fun a ha1 ha2 =>
    hulsken_fast_written_disjoint _ _ _ _ a (ha e1 he1).1 (ha e2 he2).1 hpf ha1 ha2⟩

/-- Witness for C26: the table of `example_tree`, with the codes `0`, `01`
and `11` read from the lowest bit. -/
theorem hulsken_read_table_codes_prefix_free_witness :
    hulsken_read_table_codes example_tree_codeblock 10 0 0 48 = [(0, 0, 1), (5, 1, 2), (7, 3, 2)]
    ∧ (hulsken_read_table example_tree_codeblock 10 0 0 48 huffman_initial).isSome = true
    ∧ (∀ r, hulsken_read_table example_tree_codeblock 10 0 0 48 huffman_initial = some r →
      r.2 = (hulsken_read_table_codes example_tree_codeblock 10 0 0 48).foldl
        (fun h e => hulsken_store_code h e.2.1 e.2.2 e.1) huffman_initial)
    ∧ (∀ e ∈ hulsken_read_table_codes example_tree_codeblock 10 0 0 48, e.2.1 < 2 ^ e.2.2)
    ∧ (hulsken_read_table_codes example_tree_codeblock 10 0 0 48).Pairwise
        (fun e1 e2 => codes_prefix_free e1.2.1 e1.2.2 e2.2.1 e2.2.2
          ∧ ∀ a, a ∈ hulsken_fast_written e1.2.1 e1.2.2 →
              a ∈ hulsken_fast_written e2.2.1 e2.2.2 →
              HUFFMAN_FAST_BITS < e1.2.2 ∧ HUFFMAN_FAST_BITS < e2.2.2) :=
  ⟨by decide, by decide,
    hulsken_read_table_codes_prefix_free example_tree_codeblock 10 48 huffman_initial
      (by decide)⟩

/-- Counterexample to C26 as stated, in its last part: the tree of `example_spine_codeblock`
is read to the end, its symbols 12 and 13 get the 13-bit codes 4095 and 8191,
which differ only in bit 12, and entry 4095 of the fast table is written for
both. -/
theorem hulsken_fast_entry_written_twice :
    (hulsken_read_table example_spine_codeblock 20 0 0 48 huffman_initial).isSome = true
    ∧ (12, 4095, 13) ∈ hulsken_read_table_codes example_spine_codeblock 20 0 0 48
    ∧ (13, 8191, 13) ∈ hulsken_read_table_codes example_spine_codeblock 20 0 0 48
    ∧ 4095 ∈ hulsken_fast_written 4095 13
    ∧ 4095 ∈ hulsken_fast_written 8191 13 := by
  refine ⟨by decide!, by decide!, by decide!, ?_, ?_⟩
  · rw [mem_hulsken_fast_written 4095 13 4095 (by norm_num)]
    decide
  · rw [mem_hulsken_fast_written 8191 13 4095 (by norm_num)]
    decide

/-! ### The request slot of a flagged neighbour -/

/-- The nine positions of an adjacency mask are at most one tile away. -/
theorem adjacency_positions_near (K : isyntax_adj_tile_t) :
    ∀ p ∈ adjacency_positions K, -1 ≤ p.2.1 ∧ p.2.1 ≤ 1 ∧ -1 ≤ p.2.2 ∧ p.2.2 ≤ 1 := by
  intro p hp
  simp only [adjacency_positions, List.mem_cons, List.mem_singleton, List.not_mem_nil,
    or_false] at hp
  rcases hp with h | h | h | h | h | h | h | h | h <;> subst h <;> simp

/-- A tile of the level that is at most one tile away from a tile of the
visible rectangle lies in the padded rectangle. -/
theorem stream_padded_bounds_contains (level : isyntax_level_t) (visible_tiles : bounds2i)
    (tile_x tile_y dx dy : Int)
    (hvis : tile_x ≥ visible_tiles.min.x ∧ tile_y ≥ visible_tiles.min.y ∧
      tile_x < visible_tiles.max.x ∧ tile_y < visible_tiles.max.y)
    (hdx : -1 ≤ dx ∧ dx ≤ 1) (hdy : -1 ≤ dy ∧ dy ≤ 1)
    (hin : 0 ≤ tile_x + dx ∧ tile_x + dx < level.width_in_tiles ∧
      0 ≤ tile_y + dy ∧ tile_y + dy < level.height_in_tiles) :
    (stream_padded_bounds level visible_tiles).min.x ≤ tile_x + dx ∧
    tile_x + dx < (stream_padded_bounds level visible_tiles).max.x ∧
    (stream_padded_bounds level visible_tiles).min.y ≤ tile_y + dy ∧
    tile_y + dy < (stream_padded_bounds level visible_tiles).max.y := by
  unfold stream_padded_bounds
  simp only []
  refine ⟨?_, ?_, ?_, ?_⟩
  · split_ifs <;> omega
  · split_ifs <;> omega
  · split_ifs <;> omega
  · split_ifs <;> omega

/-- The row-major index of a position inside a rectangle of `w` by `h` slots
lies in the array of `w * h` slots. -/
theorem local_tile_index_in_range (w h a b : Int) (ha : 0 ≤ a ∧ a < w) (hb : 0 ≤ b ∧ b < h) :
    0 ≤ b * w + a ∧ b * w + a < w * h := by
  have hw : 0 ≤ w := by omega
  have h1 : 0 ≤ b * w := Int.mul_nonneg hb.1 hw
  have h2 : (b + 1) * w ≤ h * w := Int.mul_le_mul_of_nonneg_right (by omega) hw
  have h3 : (b + 1) * w = b * w + w := by ring
  have h4 : h * w = w * h := Int.mul_comm h w
  omega

/-- A neighbour block of the marking pass writes the request slots at
`adj_local_tile_index` only. -/
theorem stream_mark_adjacent_frame (level : isyntax_level_t) (w tile_x tile_y lx ly : Int)
    (adjacent flag : Nat) (dx dy : Int) (s : stream_mark_state_t) (i : Int)
    (hi : i ≠ (ly + dy) * w + (lx + dx)) :
    (stream_mark_adjacent level w tile_x tile_y lx ly adjacent flag dx dy s).tile_req i
      = s.tile_req i := by
  unfold stream_mark_adjacent
  by_cases h1 : adjacent &&& flag ≠ 0
  · rw [if_pos h1]
    by_cases h2 : (level.tiles ((tile_y + dy) * level.width_in_tiles + (tile_x + dx))).exists_ = true
    · simp only [h2, if_true]
      by_cases h3 : (level.tiles ((tile_y + dy) * level.width_in_tiles + (tile_x + dx))).has_ll
          = true <;>
        by_cases h4 : (level.tiles ((tile_y + dy) * level.width_in_tiles + (tile_x + dx))).has_h
            = true <;>
        simp [h3, h4, hi]
    · simp only [h2]
      rfl
  · rw [if_neg h1]

/-- C27: in the marking pass of `isyntax_stream_image_tiles`, for a tile of the
visible rectangle and a position flagged by its adjacency mask, where the mask
flags only positions inside the tile grid of the level, the neighbour lies
inside `padded_bounds`; `adj_local_tile_index` is then at least `0`, below
`local_bounds_width * local_bounds_height`, and is the row-major index of the
neighbour in the padded rectangle, and the block of that position writes no
other request slot. -/
theorem stream_mark_adjacent_index_in_region (K : isyntax_adj_tile_t)
    (isyntax_get_adjacent_tiles_mask : isyntax_level_t → Int → Int → Nat)
    (level : isyntax_level_t) (visible_tiles : bounds2i) (tile_x tile_y : Int)
    (hvis : tile_x ≥ visible_tiles.min.x ∧ tile_y ≥ visible_tiles.min.y ∧
      tile_x < visible_tiles.max.x ∧ tile_y < visible_tiles.max.y)
    (hmask : ∀ p ∈ adjacency_positions K,
      isyntax_get_adjacent_tiles_mask level tile_x tile_y &&& p.1 ≠ 0 →
        0 ≤ tile_x + p.2.1 ∧ tile_x + p.2.1 < level.width_in_tiles ∧
        0 ≤ tile_y + p.2.2 ∧ tile_y + p.2.2 < level.height_in_tiles)
    (p : Nat × Int × Int) (hp : p ∈ adjacency_positions K)
    (hflag : isyntax_get_adjacent_tiles_mask level tile_x tile_y &&& p.1 ≠ 0) :
    ((stream_padded_bounds level visible_tiles).min.x ≤ tile_x + p.2.1 ∧
      tile_x + p.2.1 < (stream_padded_bounds level visible_tiles).max.x ∧
      (stream_padded_bounds level visible_tiles).min.y ≤ tile_y + p.2.2 ∧
      tile_y + p.2.2 < (stream_padded_bounds level visible_tiles).max.y) ∧
    0 ≤ (tile_y - (stream_padded_bounds level visible_tiles).min.y + p.2.2)
          * ((stream_padded_bounds level visible_tiles).max.x
            - (stream_padded_bounds level visible_tiles).min.x)
        + (tile_x - (stream_padded_bounds level visible_tiles).min.x + p.2.1) ∧
    (tile_y - (stream_padded_bounds level visible_tiles).min.y + p.2.2)
          * ((stream_padded_bounds level visible_tiles).max.x
            - (stream_padded_bounds level visible_tiles).min.x)
        + (tile_x - (stream_padded_bounds level visible_tiles).min.x + p.2.1)
      < ((stream_padded_bounds level visible_tiles).max.x
          - (stream_padded_bounds level visible_tiles).min.x)
        * ((stream_padded_bounds level visible_tiles).max.y
          - (stream_padded_bounds level visible_tiles).min.y) ∧
    (tile_y - (stream_padded_bounds level visible_tiles).min.y + p.2.2)
          * ((stream_padded_bounds level visible_tiles).max.x
            - (stream_padded_bounds level visible_tiles).min.x)
        + (tile_x - (stream_padded_bounds level visible_tiles).min.x + p.2.1)
      = (tile_y + p.2.2 - (stream_padded_bounds level visible_tiles).min.y)
          * ((stream_padded_bounds level visible_tiles).max.x
            - (stream_padded_bounds level visible_tiles).min.x)
        + (tile_x + p.2.1 - (stream_padded_bounds level visible_tiles).min.x) ∧
    ∀ (s : stream_mark_state_t) (i : Int),
      i ≠ (tile_y + p.2.2 - (stream_padded_bounds level visible_tiles).min.y)
          * ((stream_padded_bounds level visible_tiles).max.x
            - (stream_padded_bounds level visible_tiles).min.x)
        + (tile_x + p.2.1 - (stream_padded_bounds level visible_tiles).min.x) →
      (stream_mark_adjacent level
        ((stream_padded_bounds level visible_tiles).max.x
          - (stream_padded_bounds level visible_tiles).min.x)
        tile_x tile_y (tile_x - (stream_padded_bounds level visible_tiles).min.x)
        (tile_y - (stream_padded_bounds level visible_tiles).min.y)
        (isyntax_get_adjacent_tiles_mask level tile_x tile_y) p.1 p.2.1 p.2.2 s).tile_req i
        = s.tile_req i := by
  have hnear := adjacency_positions_near K p hp
  have hin := hmask p hp hflag
  have hc := stream_padded_bounds_contains level visible_tiles tile_x tile_y p.2.1 p.2.2 hvis
    ⟨hnear.1, hnear.2.1⟩ ⟨hnear.2.2.1, hnear.2.2.2⟩ hin
  have e1 : tile_y - (stream_padded_bounds level visible_tiles).min.y + p.2.2
      = tile_y + p.2.2 - (stream_padded_bounds level visible_tiles).min.y := by ring
  have e2 : tile_x - (stream_padded_bounds level visible_tiles).min.x + p.2.1
      = tile_x + p.2.1 - (stream_padded_bounds level visible_tiles).min.x := by ring
  have hr := local_tile_index_in_range
    ((stream_padded_bounds level visible_tiles).max.x
      - (stream_padded_bounds level visible_tiles).min.x)
    ((stream_padded_bounds level visible_tiles).max.y
      - (stream_padded_bounds level visible_tiles).min.y)
    (tile_x + p.2.1 - (stream_padded_bounds level visible_tiles).min.x)
    (tile_y + p.2.2 - (stream_padded_bounds level visible_tiles).min.y)
    (by omega) (by omega)
  rw [e1, e2]
  refine ⟨hc, hr.1, hr.2, rfl, fun s i hi => ?_⟩
  apply stream_mark_adjacent_frame
  rw [e1, e2]
  exact hi

/-- Witness for C27: in a row of three tiles with the middle tile visible, the
left neighbour of the tile `(1, 0)` has the slot `0` of the three slots. -/
theorem stream_mark_adjacent_index_in_region_witness :
    ((stream_padded_bounds example_bare_strip_level
        { min := { x := 1, y := 0 }, max := { x := 2, y := 1 } }).min.x ≤ 1 + (-1 : Int) ∧
      1 + (-1 : Int) < (stream_padded_bounds example_bare_strip_level
        { min := { x := 1, y := 0 }, max := { x := 2, y := 1 } }).max.x) ∧
    (0 - (stream_padded_bounds example_bare_strip_level
          { min := { x := 1, y := 0 }, max := { x := 2, y := 1 } }).min.y + (0 : Int))
        * ((stream_padded_bounds example_bare_strip_level
            { min := { x := 1, y := 0 }, max := { x := 2, y := 1 } }).max.x
          - (stream_padded_bounds example_bare_strip_level
            { min := { x := 1, y := 0 }, max := { x := 2, y := 1 } }).min.x)
      + (1 - (stream_padded_bounds example_bare_strip_level
          { min := { x := 1, y := 0 }, max := { x := 2, y := 1 } }).min.x + (-1 : Int))
      < ((stream_padded_bounds example_bare_strip_level
            { min := { x := 1, y := 0 }, max := { x := 2, y := 1 } }).max.x
          - (stream_padded_bounds example_bare_strip_level
            { min := { x := 1, y := 0 }, max := { x := 2, y := 1 } }).min.x)
        * ((stream_padded_bounds example_bare_strip_level
            { min := { x := 1, y := 0 }, max := { x := 2, y := 1 } }).max.y
          - (stream_padded_bounds example_bare_strip_level
            { min := { x := 1, y := 0 }, max := { x := 2, y := 1 } }).min.y) :=
  have h := stream_mark_adjacent_index_in_region example_adj_tile example_adjacent_tiles_mask
    example_bare_strip_level { min := { x := 1, y := 0 }, max := { x := 2, y := 1 } } 1 0
    (by decide) (by decide) (example_adj_tile.CENTER_LEFT, -1, 0) (by decide) (by decide)
  ⟨⟨h.1.1, h.1.2.1⟩, h.2.2.1⟩

/-! ### Seektable resolution and the end of the codeblock array -/

/-- For a codeblock count of at least one, seektable resolution writes no
codeblock at an index from the count on. -/
theorem seektable_resolution_in_range (codeblock_count : Nat) (hn : 1 ≤ codeblock_count)
    (codeblock_headers : List isyntax_seektable_codeblock_header_t)
    (codeblocks : Nat → isyntax_codeblock_t) (k : Nat) (hk : codeblock_count ≤ k) :
    isyntax_resolve_seektable codeblock_count codeblock_headers codeblocks k = codeblocks k := by
  unfold isyntax_resolve_seektable
  apply (seektable_fill_written codeblock_count codeblock_headers 0 codeblocks).2 k
  right
  rw [if_pos (by omega)]
  have := Nat.min_le_left (codeblock_count - 0) (seektable_real_entries codeblock_headers).length
  omega

/-- C28, the failing input: a block header table that declares a length of 0
with a first record of size field 40 makes the image partial with a codeblock
count of 0; seektable resolution with that count and a seektable of three
entries of non-zero offset writes the codeblocks 0, 1 and 2. -/
theorem seektable_resolution_writes_beyond_zero_count :
    (isyntax_decode_block_header_table example_read_tag_header (example_read_block_header 48)
      (example_read_block_header 80) example_empty_image
      example_zero_length_table).codeblock_count = 0
    ∧ isyntax_image_t.header_codeblocks_are_partial
      (isyntax_decode_block_header_table example_read_tag_header (example_read_block_header 48)
        (example_read_block_header 80) example_empty_image example_zero_length_table) = true
    ∧ (example_codeblocks 0).block_data_offset = 0
    ∧ (isyntax_resolve_seektable 0 example_seektable example_codeblocks 0).block_data_offset = 100
    ∧ (isyntax_resolve_seektable 0 example_seektable example_codeblocks 1).block_data_offset = 105
    ∧ (isyntax_resolve_seektable 0 example_seektable example_codeblocks 2).block_data_offset
      = 112 := by
  decide

/-! ### The reads of the block header table leaf -/

/-- C29, the failing inputs.  For an empty content the trimming reads the byte
before the buffer: its result follows that byte, a blank there makes the
length negative.  For a content of two blanks it reads the two bytes before
the buffer.  For the content `AA==` the decoded table is one byte long
(`block_header_size = 1`), and the handler reads the 4-byte length and the
size field of the first record from it.  For the
encoding of a table of twelve bytes that declares 96 bytes, the handler reads
two records of 48 bytes. -/
theorem block_header_table_leaf_reads_outside :
    block_header_table_trim 4 (fun _ => 65) 0 = some 0
    ∧ block_header_table_trim 4 (fun i => if i = -1 then 32 else 65) 0 = some (-1)
    ∧ block_header_table_trim 8
        (fun i => if i = 0 ∨ i = 1 ∨ i = -1 then 32 else if i = -2 then 10 else 65) 2
      = some (-2)
    ∧ base64_decode [65, 65, 61, 61] = some [0]
    ∧ (isyntax_parse_scannedimage_child_node example_read_tag_header
        (example_read_block_header 48) (example_read_block_header 80) 4 example_empty_image
        0x301D 0x2014 (fun i => [65, 65, 61, 61].getD i.toNat 0) 4).map
          (fun image => image.block_header_size) = some 1
    ∧ base64_decode (rfc1341_base64_encode example_truncated_table)
      = some example_truncated_table
    ∧ example_truncated_table.length = 12
    ∧ (isyntax_decode_block_header_table example_read_tag_header (example_read_block_header 48)
        (example_read_block_header 80) example_empty_image
        example_truncated_table).codeblock_count = 2 := by
  decide

/-! ### Which request slots the marking pass flags -/

/-- A flag that a neighbour block leaves set was set before, or the block has
set it: the slot is `adj_local_tile_index`, the position is flagged, and the
neighbour exists and lacks the coefficients. -/
theorem stream_mark_adjacent_sets (level : isyntax_level_t) (w tile_x tile_y lx ly : Int)
    (adjacent flag : Nat) (dx dy : Int) (s : stream_mark_state_t) (i : Int) :
    (((stream_mark_adjacent level w tile_x tile_y lx ly adjacent flag dx dy s).tile_req
        i).need_ll_coeff = true →
      (s.tile_req i).need_ll_coeff = true ∨
      (i = (ly + dy) * w + (lx + dx) ∧ adjacent &&& flag ≠ 0 ∧
        (level.tiles ((tile_y + dy) * level.width_in_tiles + (tile_x + dx))).exists_ = true ∧
        (level.tiles ((tile_y + dy) * level.width_in_tiles + (tile_x + dx))).has_ll = false)) ∧
    (((stream_mark_adjacent level w tile_x tile_y lx ly adjacent flag dx dy s).tile_req
        i).need_h_coeff = true →
      (s.tile_req i).need_h_coeff = true ∨
      (i = (ly + dy) * w + (lx + dx) ∧ adjacent &&& flag ≠ 0 ∧
        (level.tiles ((tile_y + dy) * level.width_in_tiles + (tile_x + dx))).exists_ = true ∧
        (level.tiles ((tile_y + dy) * level.width_in_tiles + (tile_x + dx))).has_h = false)) := by
  unfold stream_mark_adjacent
  by_cases h1 : adjacent &&& flag ≠ 0
  · rw [if_pos h1]
    by_cases h2 : (level.tiles ((tile_y + dy) * level.width_in_tiles + (tile_x + dx))).exists_ = true
    · simp only [h2, if_true]
      by_cases h3 : (level.tiles ((tile_y + dy) * level.width_in_tiles + (tile_x + dx))).has_ll
          = true <;>
        by_cases h4 : (level.tiles ((tile_y + dy) * level.width_in_tiles + (tile_x + dx))).has_h
            = true <;>
        by_cases h5 : i = (ly + dy) * w + (lx + dx) <;>
        simp [h1, h3, h4, h5]
    · simp only [h2]
      exact ⟨fun h => Or.inl h, fun h => Or.inl h⟩
  · rw [if_neg h1]
    exact ⟨fun h => Or.inl h, fun h => Or.inl h⟩

theorem stream_mark_foldl_sets (level : isyntax_level_t) (w tile_x tile_y lx ly : Int)
    (adjacent : Nat) (l : List (Nat × Int × Int)) :
    ∀ (s : stream_mark_state_t) (i : Int),
      (((l.foldl (fun s p => stream_mark_adjacent level w tile_x tile_y lx ly adjacent
          p.1 p.2.1 p.2.2 s) s).tile_req i).need_ll_coeff = true →
        (s.tile_req i).need_ll_coeff = true ∨
        ∃ p ∈ l, i = (ly + p.2.2) * w + (lx + p.2.1) ∧ adjacent &&& p.1 ≠ 0 ∧
          (level.tiles ((tile_y + p.2.2) * level.width_in_tiles + (tile_x + p.2.1))).exists_
            = true ∧
          (level.tiles ((tile_y + p.2.2) * level.width_in_tiles + (tile_x + p.2.1))).has_ll
            = false) ∧
      (((l.foldl (fun s p => stream_mark_adjacent level w tile_x tile_y lx ly adjacent
          p.1 p.2.1 p.2.2 s) s).tile_req i).need_h_coeff = true →
        (s.tile_req i).need_h_coeff = true ∨
        ∃ p ∈ l, i = (ly + p.2.2) * w + (lx + p.2.1) ∧ adjacent &&& p.1 ≠ 0 ∧
          (level.tiles ((tile_y + p.2.2) * level.width_in_tiles + (tile_x + p.2.1))).exists_
            = true ∧
          (level.tiles ((tile_y + p.2.2) * level.width_in_tiles + (tile_x + p.2.1))).has_h
            = false) := by
  induction l with
  | nil => intro s i; exact ⟨fun h => Or.inl h, fun h => Or.inl h⟩
  | cons q l ih =>
    intro s i
    simp only [List.foldl_cons]
    obtain ⟨a1, a2⟩ := ih (stream_mark_adjacent level w tile_x tile_y lx ly adjacent q.1 q.2.1
      q.2.2 s) i
    obtain ⟨b1, b2⟩ := stream_mark_adjacent_sets level w tile_x tile_y lx ly adjacent q.1 q.2.1
      q.2.2 s i
    constructor
    · intro h
      rcases a1 h with h | ⟨p, hp, hh⟩
      · rcases b1 h with h | hh
        · exact Or.inl h
        · exact Or.inr ⟨q, List.mem_cons_self _ _, hh⟩
      · exact Or.inr ⟨p, List.mem_cons_of_mem _ hp, hh⟩
    · intro h
      rcases a2 h with h | ⟨p, hp, hh⟩
      · rcases b2 h with h | hh
        · exact Or.inl h
        · exact Or.inr ⟨q, List.mem_cons_self _ _, hh⟩
      · exact Or.inr ⟨p, List.mem_cons_of_mem _ hp, hh⟩

/-- A flag that the body of the marking loops leaves set was set before or
is flagged from the tile of the body. -/
theorem stream_mark_tile_sets (K : isyntax_adj_tile_t)
    (mask : isyntax_level_t → Int → Int → Nat) (level : isyntax_level_t)
    (visible_tiles padded_bounds : bounds2i) (w tile_y tile_x local_tile_index : Int)
    (tile_req : Int → isyntax_tile_req_t) (i : Int) :
    (((stream_mark_tile K mask level visible_tiles padded_bounds w tile_y tile_x
        local_tile_index tile_req) i).need_ll_coeff = true →
      (tile_req i).need_ll_coeff = true ∨
      slot_flagged_from K mask level visible_tiles padded_bounds w tile_x tile_y i true) ∧
    (((stream_mark_tile K mask level visible_tiles padded_bounds w tile_y tile_x
        local_tile_index tile_req) i).need_h_coeff = true →
      (tile_req i).need_h_coeff = true ∨
      slot_flagged_from K mask level visible_tiles padded_bounds w tile_x tile_y i false) := by
  unfold stream_mark_tile
  simp only []
  by_cases hl : (level.tiles (tile_y * level.width_in_tiles + tile_x)).is_loaded = true
  · simp only [hl, Bool.not_true, Bool.false_eq_true, if_false]
    exact ⟨fun h => Or.inl h, fun h => Or.inl h⟩
  have hl2 : (level.tiles (tile_y * level.width_in_tiles + tile_x)).is_loaded = false := by
    simpa using hl
  simp only [hl2, Bool.not_false, if_true]
  by_cases hv : tile_x ≥ visible_tiles.min.x ∧ tile_y ≥ visible_tiles.min.y ∧
      tile_x < visible_tiles.max.x ∧ tile_y < visible_tiles.max.y
  · rw [if_pos hv]
    obtain ⟨a1, a2⟩ := stream_mark_foldl_sets level w tile_x tile_y
      (tile_x - padded_bounds.min.x) (tile_y - padded_bounds.min.y) (mask level tile_x tile_y)
      (adjacency_positions K)
      { need_ll_mask := 0, need_h_mask := 0
        tile_req := fun i =>
          if i = local_tile_index then { tile_req i with want_load := true } else tile_req i } i
    constructor
    · intro h
      have h' := a1 (by
        by_cases hi : i = local_tile_index
        · rw [if_pos hi] at h; exact h
        · rw [if_neg hi] at h; exact h)
      rcases h' with h' | ⟨p, hp, h1, h2, h3, h4⟩
      · left
        by_cases hi : i = local_tile_index
        · simp only [if_pos hi] at h'; exact h'
        · simp only [if_neg hi] at h'; exact h'
      · exact Or.inr ⟨hl2, hv, p, hp, h1, h2, h3, by simpa using h4⟩
    · intro h
      have h' := a2 (by
        by_cases hi : i = local_tile_index
        · rw [if_pos hi] at h; exact h
        · rw [if_neg hi] at h; exact h)
      rcases h' with h' | ⟨p, hp, h1, h2, h3, h4⟩
      · left
        by_cases hi : i = local_tile_index
        · simp only [if_pos hi] at h'; exact h'
        · simp only [if_neg hi] at h'; exact h'
      · exact Or.inr ⟨hl2, hv, p, hp, h1, h2, h3, by simpa using h4⟩
  · rw [if_neg hv]
    exact ⟨fun h => Or.inl h, fun h => Or.inl h⟩

theorem stream_mark_row_sets (K : isyntax_adj_tile_t)
    (mask : isyntax_level_t → Int → Int → Nat) (level : isyntax_level_t)
    (visible_tiles padded_bounds : bounds2i) (w tile_y : Int) (i : Int) :
    ∀ (n : Nat) (tile_x local_tile_index : Int) (tile_req : Int → isyntax_tile_req_t),
      ((((stream_mark_row K mask level visible_tiles padded_bounds w tile_y n tile_x
          local_tile_index tile_req).2) i).need_ll_coeff = true →
        (tile_req i).need_ll_coeff = true ∨
        ∃ vx, slot_flagged_from K mask level visible_tiles padded_bounds w vx tile_y i true) ∧
      ((((stream_mark_row K mask level visible_tiles padded_bounds w tile_y n tile_x
          local_tile_index tile_req).2) i).need_h_coeff = true →
        (tile_req i).need_h_coeff = true ∨
        ∃ vx, slot_flagged_from K mask level visible_tiles padded_bounds w vx tile_y i false) := by
  intro n
  induction n with
  | zero => intro tile_x lti tile_req; exact ⟨fun h => Or.inl h, fun h => Or.inl h⟩
  | succ n ih =>
    intro tile_x lti tile_req
    rw [stream_mark_row]
    obtain ⟨a1, a2⟩ := ih (tile_x + 1) (lti + 1)
      (stream_mark_tile K mask level visible_tiles padded_bounds w tile_y tile_x lti tile_req)
    obtain ⟨b1, b2⟩ := stream_mark_tile_sets K mask level visible_tiles padded_bounds w tile_y
      tile_x lti tile_req i
    constructor
    · intro h
      rcases a1 h with h | h
      · rcases b1 h with h | h
        · exact Or.inl h
        · exact Or.inr ⟨tile_x, h⟩
      · exact Or.inr h
    · intro h
      rcases a2 h with h | h
      · rcases b2 h with h | h
        · exact Or.inl h
        · exact Or.inr ⟨tile_x, h⟩
      · exact Or.inr h

theorem stream_mark_rows_sets (K : isyntax_adj_tile_t)
    (mask : isyntax_level_t → Int → Int → Nat) (level : isyntax_level_t)
    (visible_tiles padded_bounds : bounds2i) (w : Int) (i : Int) :
    ∀ (n : Nat) (tile_y local_tile_index : Int) (tile_req : Int → isyntax_tile_req_t),
      ((((stream_mark_rows K mask level visible_tiles padded_bounds w n tile_y
          local_tile_index tile_req).2) i).need_ll_coeff = true →
        (tile_req i).need_ll_coeff = true ∨
        ∃ vx vy, slot_flagged_from K mask level visible_tiles padded_bounds w vx vy i true) ∧
      ((((stream_mark_rows K mask level visible_tiles padded_bounds w n tile_y
          local_tile_index tile_req).2) i).need_h_coeff = true →
        (tile_req i).need_h_coeff = true ∨
        ∃ vx vy, slot_flagged_from K mask level visible_tiles padded_bounds w vx vy i false) := by
  intro n
  induction n with
  | zero => intro tile_y lti tile_req; exact ⟨fun h => Or.inl h, fun h => Or.inl h⟩
  | succ n ih =>
    intro tile_y lti tile_req
    rw [stream_mark_rows]
    obtain ⟨a1, a2⟩ := ih (tile_y + 1)
      (stream_mark_row K mask level visible_tiles padded_bounds w tile_y
        (padded_bounds.max.x - padded_bounds.min.x).toNat padded_bounds.min.x lti tile_req).1
      (stream_mark_row K mask level visible_tiles padded_bounds w tile_y
        (padded_bounds.max.x - padded_bounds.min.x).toNat padded_bounds.min.x lti tile_req).2
    obtain ⟨b1, b2⟩ := stream_mark_row_sets K mask level visible_tiles padded_bounds w tile_y i
      (padded_bounds.max.x - padded_bounds.min.x).toNat padded_bounds.min.x lti tile_req
    constructor
    · intro h
      rcases a1 h with h | h
      · rcases b1 h with h | ⟨vx, h⟩
        · exact Or.inl h
        · exact Or.inr ⟨vx, tile_y, h⟩
      · exact Or.inr h
    · intro h
      rcases a2 h with h | h
      · rcases b2 h with h | ⟨vx, h⟩
        · exact Or.inl h
        · exact Or.inr ⟨vx, tile_y, h⟩
      · exact Or.inr h

/-- Two positions of a rectangle of width `w` with the same row-major index
are the same. -/
theorem local_tile_index_injective (w a b c d : Int) (hb : 0 ≤ b ∧ b < w) (hd : 0 ≤ d ∧ d < w)
    (h : a * w + b = c * w + d) : a = c ∧ b = d := by
  have hw : 0 < w := by omega
  have h1 : (a * w + b) % w = b := by
    rw [Int.add_comm, Int.add_mul_emod_self]
    exact Int.emod_eq_of_lt hb.1 hb.2
  have h2 : (c * w + d) % w = d := by
    rw [Int.add_comm, Int.add_mul_emod_self]
    exact Int.emod_eq_of_lt hd.1 hd.2
  have hbd : b = d := by rw [← h1, ← h2, h]
  subst hbd
  have h3 : a * w = c * w := by omega
  exact ⟨Int.eq_of_mul_eq_mul_right (by omega) h3, rfl⟩

/-- The visible rectangle lies in the padded rectangle. -/
theorem stream_padded_bounds_covers (level : isyntax_level_t) (visible_tiles : bounds2i)
    (tile_x tile_y : Int)
    (hvis : tile_x ≥ visible_tiles.min.x ∧ tile_y ≥ visible_tiles.min.y ∧
      tile_x < visible_tiles.max.x ∧ tile_y < visible_tiles.max.y) :
    (stream_padded_bounds level visible_tiles).min.x ≤ tile_x ∧
    tile_x < (stream_padded_bounds level visible_tiles).max.x ∧
    (stream_padded_bounds level visible_tiles).min.y ≤ tile_y ∧
    tile_y < (stream_padded_bounds level visible_tiles).max.y := by
  unfold stream_padded_bounds
  simp only []
  refine ⟨?_, ?_, ?_, ?_⟩
  · split_ifs <;> omega
  · split_ifs <;> omega
  · split_ifs <;> omega
  · split_ifs <;> omega

/-- C30: after the marking pass of `isyntax_stream_image_tiles` for a scale,
where the adjacency mask of a tile of the visible rectangle flags only
positions inside the tile grid of the level, the request slot of a tile of the
padded rectangle has `need_h_coeff` (respectively `need_ll_coeff`) set if and
only if the tile exists, lacks `has_h` (respectively `has_ll`), and sits at a
position flagged by the adjacency mask, centre included, of some tile of the
visible rectangle whose `is_loaded` is false.  The slot is given by the
column and the row of the tile; only the column has to lie in the rectangle. -/
theorem stream_mark_pass_flags_iff (K : isyntax_adj_tile_t)
    (isyntax_get_adjacent_tiles_mask : isyntax_level_t → Int → Int → Nat)
    (level : isyntax_level_t) (visible_tiles padded_bounds : bounds2i)
    (hpb : padded_bounds = stream_padded_bounds level visible_tiles)
    (hmask : ∀ vx vy : Int,
      (vx ≥ visible_tiles.min.x ∧ vy ≥ visible_tiles.min.y ∧
        vx < visible_tiles.max.x ∧ vy < visible_tiles.max.y) →
      ∀ p ∈ adjacency_positions K, isyntax_get_adjacent_tiles_mask level vx vy &&& p.1 ≠ 0 →
        0 ≤ vx + p.2.1 ∧ vx + p.2.1 < level.width_in_tiles ∧
        0 ≤ vy + p.2.2 ∧ vy + p.2.2 < level.height_in_tiles)
    (tile_x tile_y : Int)
    (hx : padded_bounds.min.x ≤ tile_x ∧ tile_x < padded_bounds.max.x) :
    (((stream_mark_pass K isyntax_get_adjacent_tiles_mask level visible_tiles padded_bounds)
        ((tile_y - padded_bounds.min.y) * (padded_bounds.max.x - padded_bounds.min.x)
          + (tile_x - padded_bounds.min.x))).need_h_coeff = true ↔
      (level.tiles (tile_y * level.width_in_tiles + tile_x)).exists_ = true ∧
      (level.tiles (tile_y * level.width_in_tiles + tile_x)).has_h = false ∧
      flagged_by_visible_tile K isyntax_get_adjacent_tiles_mask level visible_tiles
        tile_x tile_y) ∧
    (((stream_mark_pass K isyntax_get_adjacent_tiles_mask level visible_tiles padded_bounds)
        ((tile_y - padded_bounds.min.y) * (padded_bounds.max.x - padded_bounds.min.x)
          + (tile_x - padded_bounds.min.x))).need_ll_coeff = true ↔
      (level.tiles (tile_y * level.width_in_tiles + tile_x)).exists_ = true ∧
      (level.tiles (tile_y * level.width_in_tiles + tile_x)).has_ll = false ∧
      flagged_by_visible_tile K isyntax_get_adjacent_tiles_mask level visible_tiles
        tile_x tile_y) := by
  -- a slot flagged from a visible tile is the slot of the flagged neighbour
  have hfrom : ∀ (need_ll : Bool) (vx vy : Int),
      slot_flagged_from K isyntax_get_adjacent_tiles_mask level visible_tiles padded_bounds
        (padded_bounds.max.x - padded_bounds.min.x) vx vy
        ((tile_y - padded_bounds.min.y) * (padded_bounds.max.x - padded_bounds.min.x)
          + (tile_x - padded_bounds.min.x)) need_ll →
      (level.tiles (tile_y * level.width_in_tiles + tile_x)).exists_ = true ∧
      (if need_ll then (level.tiles (tile_y * level.width_in_tiles + tile_x)).has_ll = false
        else (level.tiles (tile_y * level.width_in_tiles + tile_x)).has_h = false) ∧
      flagged_by_visible_tile K isyntax_get_adjacent_tiles_mask level visible_tiles
        tile_x tile_y := by
    intro need_ll vx vy ⟨hnl, hv, p, hp, hi, hflag, hex, hh⟩
    have hnear := adjacency_positions_near K p hp
    have hin := hmask vx vy hv p hp hflag
    have hc := stream_padded_bounds_contains level visible_tiles vx vy p.2.1 p.2.2 hv
      ⟨hnear.1, hnear.2.1⟩ ⟨hnear.2.2.1, hnear.2.2.2⟩ hin
    rw [← hpb] at hc
    have hinj := local_tile_index_injective (padded_bounds.max.x - padded_bounds.min.x)
      (tile_y - padded_bounds.min.y) (tile_x - padded_bounds.min.x)
      (vy - padded_bounds.min.y + p.2.2) (vx - padded_bounds.min.x + p.2.1)
      (by omega) (by omega) hi
    have ex : vx + p.2.1 = tile_x := by omega
    have ey : vy + p.2.2 = tile_y := by omega
    rw [ex, ey] at hex hh
    exact ⟨hex, hh, vx, vy, hv, hnl, p, hp, hflag, ex, ey⟩
  -- a flagged neighbour of a visible tile that is not loaded is marked
  have hto : flagged_by_visible_tile K isyntax_get_adjacent_tiles_mask level visible_tiles
        tile_x tile_y →
      (level.tiles (tile_y * level.width_in_tiles + tile_x)).exists_ = true →
      ((level.tiles (tile_y * level.width_in_tiles + tile_x)).has_ll = false →
        ((stream_mark_pass K isyntax_get_adjacent_tiles_mask level visible_tiles padded_bounds)
          ((tile_y - padded_bounds.min.y) * (padded_bounds.max.x - padded_bounds.min.x)
            + (tile_x - padded_bounds.min.x))).need_ll_coeff = true) ∧
      ((level.tiles (tile_y * level.width_in_tiles + tile_x)).has_h = false →
        ((stream_mark_pass K isyntax_get_adjacent_tiles_mask level visible_tiles padded_bounds)
          ((tile_y - padded_bounds.min.y) * (padded_bounds.max.x - padded_bounds.min.x)
            + (tile_x - padded_bounds.min.x))).need_h_coeff = true) := by
    intro ⟨vx, vy, hv, hnl, p, hp, hflag, ex, ey⟩ hex
    have hcov := stream_padded_bounds_covers level visible_tiles vx vy hv
    rw [← hpb] at hcov
    have hm := stream_mark_rows_marks K isyntax_get_adjacent_tiles_mask level visible_tiles
      padded_bounds (padded_bounds.max.y - padded_bounds.min.y).toNat padded_bounds.min.y 0
      (fun _ => tile_req_zero) vx vy hcov.2.2.1
      (by rw [Int.toNat_of_nonneg (by omega)]; omega) hcov.1 hcov.2.1 hnl hv p hp hflag
      (by rw [ex, ey]; exact hex)
    rw [ex, ey] at hm
    have e : (vy - padded_bounds.min.y + p.2.2) * (padded_bounds.max.x - padded_bounds.min.x)
        + (vx - padded_bounds.min.x + p.2.1)
        = (tile_y - padded_bounds.min.y) * (padded_bounds.max.x - padded_bounds.min.x)
          + (tile_x - padded_bounds.min.x) := by
      rw [← ex, ← ey]; ring
    rw [e] at hm
    unfold stream_mark_pass
    exact hm
  obtain ⟨s1, s2⟩ := stream_mark_rows_sets K isyntax_get_adjacent_tiles_mask level visible_tiles
    padded_bounds (padded_bounds.max.x - padded_bounds.min.x)
    ((tile_y - padded_bounds.min.y) * (padded_bounds.max.x - padded_bounds.min.x)
      + (tile_x - padded_bounds.min.x))
    (padded_bounds.max.y - padded_bounds.min.y).toNat padded_bounds.min.y 0
    (fun _ => tile_req_zero)
  constructor
  · constructor
    · intro h
      rcases s2 h with h0 | ⟨vx, vy, hf⟩
      · simp [tile_req_zero] at h0
      · have := hfrom false vx vy hf
        exact ⟨this.1, by simpa using this.2.1, this.2.2⟩
    · intro ⟨hex, hh, hf⟩
      exact (hto hf hex).2 hh
  · constructor
    · intro h
      rcases s1 h with h0 | ⟨vx, vy, hf⟩
      · simp [tile_req_zero] at h0
      · have := hfrom true vx vy hf
        exact ⟨this.1, by simpa using this.2.1, this.2.2⟩
    · intro ⟨hex, hh, hf⟩
      exact (hto hf hex).1 hh

/-- In the row of three bare tiles with the middle tile visible, the example
mask of a visible tile flags only positions inside the level. -/
theorem example_strip_mask_in_grid :
    ∀ vx vy : Int,
      (vx ≥ (1 : Int) ∧ vy ≥ (0 : Int) ∧ vx < (2 : Int) ∧ vy < (1 : Int)) →
      ∀ p ∈ adjacency_positions example_adj_tile,
        example_adjacent_tiles_mask example_bare_strip_level vx vy &&& p.1 ≠ 0 →
        0 ≤ vx + p.2.1 ∧ vx + p.2.1 < example_bare_strip_level.width_in_tiles ∧
        0 ≤ vy + p.2.2 ∧ vy + p.2.2 < example_bare_strip_level.height_in_tiles := by
  intro vx vy hv
  have h1 : vx = 1 := by omega
  have h2 : vy = 0 := by omega
  subst h1 h2
  decide

/-- Witness for C30: in the row of three bare tiles with the middle tile
visible, the slot of the tile `(0, 0)` has both flags set. -/
theorem stream_mark_pass_flags_iff_witness :
    ((stream_mark_pass example_adj_tile example_adjacent_tiles_mask example_bare_strip_level
        { min := { x := 1, y := 0 }, max := { x := 2, y := 1 } }
        { min := { x := 0, y := 0 }, max := { x := 3, y := 1 } } 0).need_h_coeff = true
      ∧ (stream_mark_pass example_adj_tile example_adjacent_tiles_mask example_bare_strip_level
        { min := { x := 1, y := 0 }, max := { x := 2, y := 1 } }
        { min := { x := 0, y := 0 }, max := { x := 3, y := 1 } } 0).need_ll_coeff = true)
    ∧ (((stream_mark_pass example_adj_tile example_adjacent_tiles_mask example_bare_strip_level
          { min := { x := 1, y := 0 }, max := { x := 2, y := 1 } }
          { min := { x := 0, y := 0 }, max := { x := 3, y := 1 } })
          ((0 - (0 : Int)) * (3 - 0) + (0 - 0))).need_h_coeff = true ↔
        (example_bare_strip_level.tiles (0 * example_bare_strip_level.width_in_tiles + 0)).exists_
          = true ∧
        (example_bare_strip_level.tiles (0 * example_bare_strip_level.width_in_tiles + 0)).has_h
          = false ∧
        flagged_by_visible_tile example_adj_tile example_adjacent_tiles_mask
          example_bare_strip_level { min := { x := 1, y := 0 }, max := { x := 2, y := 1 } } 0 0) :=
  ⟨by decide,
    (stream_mark_pass_flags_iff example_adj_tile example_adjacent_tiles_mask
      example_bare_strip_level { min := { x := 1, y := 0 }, max := { x := 2, y := 1 } }
      { min := { x := 0, y := 0 }, max := { x := 3, y := 1 } } rfl example_strip_mask_in_grid
      0 0 (by decide)).1⟩

/-! ### The writes of the message loop when no 32-bit length wraps -/

theorem or_le_add : ∀ a b : Nat, a ||| b ≤ a + b := by
  intro a
  induction a using Nat.strong_induction_on with
  | _ a ih =>
    intro b
    rcases Nat.eq_zero_or_pos a with h0 | hpos
    · subst h0
      simp
    · have h1 := ih (a / 2) (Nat.div_lt_self hpos (by omega)) (b / 2)
      have h2 : (a ||| b) / 2 = a / 2 ||| b / 2 := Nat.or_div_two
      have h3 : (a ||| b) % 2 ≤ a % 2 + b % 2 := by
        have := @Nat.or_mod_two_eq_one a b
        omega
      omega

theorem zero_counter_lt_of_bound (zcs : Nat) (sl : Int) (h1 : 1 ≤ sl)
    (hsl : sl + sl * 2 ^ zcs ≤ 2 ^ 31) : zcs < 31 ∧ ((2 : Int) ^ zcs) ≤ sl * 2 ^ zcs := by
  have hP : (0 : Int) < 2 ^ zcs := by positivity
  have h2 : ((2 : Int) ^ zcs) ≤ sl * 2 ^ zcs := by nlinarith
  refine ⟨?_, h2⟩
  by_contra hge
  have h3 : (2 : Int) ^ 31 ≤ 2 ^ zcs := by
    have : (2 : Nat) ^ 31 ≤ 2 ^ zcs := Nat.pow_le_pow_right (by omega) (by omega)
    exact_mod_cast this
  linarith

theorem zero_counter_bits_le (blob zcs version : Nat) (hz : zcs < 32) :
    (if version = 2 then ((blob &&& mask32 zcs) + 1) % 2 ^ 32 else blob &&& mask32 zcs)
      ≤ 2 ^ zcs := by
  have h1 : blob &&& mask32 zcs < 2 ^ zcs := by
    rw [mask32_and blob zcs hz]
    exact Nat.mod_lt _ (Nat.two_pow_pos _)
  split_ifs
  · exact Nat.le_trans (Nat.mod_le _ _) (Nat.succ_le_of_lt h1)
  · exact Nat.le_of_lt h1

theorem hulsken_extend_zero_run_bound (buffer : List Nat)
    (version zerorun_code zerorun_code_size zerorun_code_mask zcs : Nat) (sl dl : Int)
    (hdl : 0 ≤ dl) (hsl : sl + sl * 2 ^ zcs ≤ 2 ^ 31) :
    ∀ (fuel numzeroes bits_read : Nat) (r : Nat × Nat), dl + (numzeroes : Int) < sl →
      hulsken_extend_zero_run buffer version zerorun_code zerorun_code_size zerorun_code_mask
        zcs (mask32 zcs) sl dl fuel numzeroes bits_read = some r →
      dl + (r.1 : Int) < 2 ^ 31 := by
  intro fuel
  induction fuel with
  | zero => intro nz br r _ h; cases h
  | succ fuel ih =>
    intro nz br r hlt h
    have hs1 : 1 ≤ sl := by omega
    obtain ⟨hz, hP⟩ := zero_counter_lt_of_bound zcs sl hs1 hsl
    unfold hulsken_extend_zero_run at h
    simp only [] at h
    by_cases hc : (bitstream_lsb_read buffer br &&& zerorun_code_mask) % 2 ^ 8 = zerorun_code
    · rw [if_pos hc] at h
      generalize hE : (if version = 2 then
          (((bitstream_lsb_read buffer br >>> zerorun_code_size) &&& mask32 zcs) + 1) % 2 ^ 32
        else (bitstream_lsb_read buffer br >>> zerorun_code_size) &&& mask32 zcs) = extra at h
      have hextra : extra ≤ 2 ^ zcs := by
        rw [← hE]
        exact zero_counter_bits_le _ zcs version (by omega)
      have hshift : (nz <<< zcs) % 2 ^ 32 ≤ nz * 2 ^ zcs := by
        rw [Nat.shiftLeft_eq]
        exact Nat.mod_le _ _
      have hor := or_le_add ((nz <<< zcs) % 2 ^ 32) extra
      have hnz1 : ((((nz <<< zcs) % 2 ^ 32) ||| extra : Nat) : Int)
          ≤ (nz : Int) * 2 ^ zcs + 2 ^ zcs := by
        have : (((nz <<< zcs) % 2 ^ 32) ||| extra) ≤ nz * 2 ^ zcs + 2 ^ zcs := by omega
        exact_mod_cast this
      have hmul : ((nz : Int) + 1) * 2 ^ zcs ≤ sl * 2 ^ zcs := by
        have hP0 : (0 : Int) ≤ 2 ^ zcs := by positivity
        exact mul_le_mul_of_nonneg_right (by omega) hP0
      have hb : dl + ((((nz <<< zcs) % 2 ^ 32) ||| extra : Nat) : Int) < 2 ^ 31 := by
        have e : ((nz : Int) + 1) * 2 ^ zcs = (nz : Int) * 2 ^ zcs + 2 ^ zcs := by ring
        linarith
      by_cases hend : (dl + ((((nz <<< zcs) % 2 ^ 32) ||| extra : Nat) : Int)) % 2 ^ 32 ≥ sl
      · rw [if_pos hend] at h
        cases h
        exact hb
      · rw [if_neg hend] at h
        apply ih _ _ r _ h
        have hmod : ∀ x : Int, 0 ≤ x → x < 2 ^ 31 → x % 2 ^ 32 = x := by
          intro x h0 h1
          omega
        rw [hmod _ (by omega) hb] at hend
        omega
    · rw [if_neg hc] at h
      cases h
      simp only []
      have hP0 : (0 : Int) ≤ sl * 2 ^ zcs := by positivity
      linarith

theorem memset_zero_frame (output_buffer : Int → Nat) (start count sl : Int) (h0 : 0 ≤ start)
    (hc0 : 0 ≤ count) (hc1 : start + count ≤ sl) (hc2 : count < 2 ^ 64) (i : Int)
    (hi : i < 0 ∨ sl ≤ i) : memset_zero output_buffer start count i = output_buffer i := by
  unfold memset_zero
  rw [if_neg]
  rintro ⟨a, b⟩
  rw [Int.emod_eq_of_lt hc0 hc2] at b
  omega

theorem hulsken_decode_message_writes_inside (buffer : List Nat) (version : Nat)
    (huffman : huffman_t) (zerorun_symbol zcs : Nat) (bsb sl : Int)
    (hsl : sl + sl * 2 ^ zcs ≤ 2 ^ 31) :
    ∀ (fuel : Nat) (st st1 : hulsken_state_t), 0 ≤ st.decompressed_length →
      hulsken_decode_message buffer version huffman zerorun_symbol zcs bsb sl fuel st
        = some st1 →
      0 ≤ st1.decompressed_length
      ∧ ∀ i, (i < 0 ∨ sl ≤ i) → st1.output_buffer i = st.output_buffer i := by
  intro fuel
  induction fuel with
  | zero => intro st st1 _ h; cases h
  | succ fuel ih =>
    intro st st1 hdl h
    unfold hulsken_decode_message at h
    simp only [] at h
    by_cases hb : ¬ ((st.bits_read : Int) < bsb)
    · rw [if_pos hb] at h
      cases h
      exact ⟨hdl, fun _ _ => rfl⟩
    rw [if_neg hb] at h
    by_cases hdone : st.decompressed_length ≥ sl
    · rw [if_pos hdone] at h
      cases h
      exact ⟨hdl, fun _ _ => rfl⟩
    rw [if_neg hdone] at h
    have hlt : st.decompressed_length < sl := by omega
    have hs1 : 1 ≤ sl := by omega
    obtain ⟨hz, hP⟩ := zero_counter_lt_of_bound zcs sl hs1 hsl
    have hP0 : (0 : Int) < 2 ^ zcs := by positivity
    have hsl30 : st.decompressed_length + 1 < 2 ^ 31 := by linarith
    have hlit : ∀ (symbol bits_read : Nat) (st2 : hulsken_state_t),
        hulsken_decode_message buffer version huffman zerorun_symbol zcs bsb sl fuel
          { bits_read := bits_read
            decompressed_length := to_i32 (st.decompressed_length + 1)
            output_buffer := fun i =>
              if i = st.decompressed_length then symbol else st.output_buffer i } = some st2 →
        0 ≤ st2.decompressed_length
        ∧ ∀ i, (i < 0 ∨ sl ≤ i) → st2.output_buffer i = st.output_buffer i := by
      intro symbol bits_read st2 h2
      have hto : to_i32 (st.decompressed_length + 1) = st.decompressed_length + 1 :=
        to_i32_of_range _ (by omega) hsl30
      obtain ⟨a, b⟩ := ih _ st2 (by show 0 ≤ to_i32 (st.decompressed_length + 1); omega) h2
      refine ⟨a, fun i hi => ?_⟩
      rw [b i hi]
      show (if i = st.decompressed_length then symbol else st.output_buffer i) = _
      rw [if_neg (by omega)]
    by_cases hsym : (hulsken_decode_symbol huffman (bitstream_lsb_read buffer st.bits_read)).1
        = zerorun_symbol
    · rw [if_pos hsym] at h
      generalize hn0 : ((bitstream_lsb_read buffer st.bits_read >>>
          (hulsken_decode_symbol huffman (bitstream_lsb_read buffer st.bits_read)).2)
            &&& mask32 zcs) = n0 at h
      by_cases hpos : n0 > 0
      · rw [if_pos hpos] at h
        have hnz := zero_counter_bits_le (bitstream_lsb_read buffer st.bits_read >>>
          (hulsken_decode_symbol huffman (bitstream_lsb_read buffer st.bits_read)).2) zcs version
          (by omega)
        rw [hn0] at hnz
        generalize hnzv : (if version = 2 then (n0 + 1) % 2 ^ 32 else n0) = nz at h hnz
        have hnzi : (nz : Int) ≤ 2 ^ zcs := by exact_mod_cast hnz
        have hsum : st.decompressed_length + (nz : Int) < 2 ^ 31 := by linarith
        by_cases hend : (st.decompressed_length + (nz : Int)) % 2 ^ 32 ≥ sl
        · rw [if_pos hend] at h
          cases h
          refine ⟨?_, fun i hi => ?_⟩
          · show 0 ≤ to_i32 (st.decompressed_length + (nz : Int))
            rw [to_i32_of_range _ (by omega) hsum]
            omega
          · show memset_zero st.output_buffer st.decompressed_length
              (min (sl - st.decompressed_length) (nz : Int)) i = _
            rcases le_total (sl - st.decompressed_length) (nz : Int) with hm | hm
            · rw [min_eq_left hm]
              exact memset_zero_frame _ _ _ sl hdl (by omega) (by omega) (by omega) i hi
            · rw [min_eq_right hm]
              exact memset_zero_frame _ _ _ sl hdl (by omega) (by omega) (by omega) i hi
        · rw [if_neg hend] at h
          have hmod : ∀ x : Int, 0 ≤ x → x < 2 ^ 31 → x % 2 ^ 32 = x := by
            intro x h0 h1
            omega
          rw [hmod _ (by omega) hsum] at hend
          cases hext : hulsken_extend_zero_run buffer version (huffman.code zerorun_symbol)
              (if huffman.size zerorun_symbol = 0 then 1 else huffman.size zerorun_symbol)
              (mask32 (if huffman.size zerorun_symbol = 0 then 1 else huffman.size zerorun_symbol))
              zcs (mask32 zcs) sl st.decompressed_length fuel nz
              (st.bits_read
                + (hulsken_decode_symbol huffman (bitstream_lsb_read buffer st.bits_read)).2
                + zcs) with
          | none =>
            rw [hext] at h
            cases h
          | some r =>
            obtain ⟨nz1, br3⟩ := r
            rw [hext] at h
            simp only [] at h
            have hb1 := hulsken_extend_zero_run_bound buffer version _ _ _ zcs sl
              st.decompressed_length hdl hsl fuel nz _ (nz1, br3) (by omega) hext
            simp only [] at hb1
            have hto : to_i32 (st.decompressed_length + (nz1 : Int))
                = st.decompressed_length + (nz1 : Int) :=
              to_i32_of_range _ (by omega) hb1
            obtain ⟨a, b⟩ := ih _ st1 (by
              show 0 ≤ to_i32 (st.decompressed_length + (nz1 : Int))
              omega) h
            refine ⟨a, fun i hi => ?_⟩
            rw [b i hi]
            show memset_zero st.output_buffer st.decompressed_length
              (to_i32 (min (sl - st.decompressed_length) (nz1 : Int))) i = _
            rcases le_total (sl - st.decompressed_length) (nz1 : Int) with hm | hm
            · rw [min_eq_left hm, to_i32_of_range _ (by omega) (by omega)]
              exact memset_zero_frame _ _ _ sl hdl (by omega) (by omega) (by omega) i hi
            · rw [min_eq_right hm, to_i32_of_range _ (by omega) (by omega)]
              exact memset_zero_frame _ _ _ sl hdl (by omega) (by omega) (by omega) i hi
      · rw [if_neg hpos] at h
        exact hlit _ _ st1 h
    · rw [if_neg hsym] at h
      exact hlit _ _ st1 h

/-- Where no length can wrap, `isyntax_hulsken_decompress` writes only at the
indices `0 <= i < serialized_length`: with
`serialized_length * (2 ^ zero_counter_size + 1) <= 2 ^ 31` a run that returns
leaves every other byte as it was, and `decompressed_size` is not negative. -/
theorem hulsken_decompress_writes_inside (log2f_trunc : Int → Nat) (fuel : Nat)
    (buffer : List Nat) (block_size coeff_count compressor_version : Nat)
    (output_init : Int → Nat) (header : hulsken_header_t) (r : hulsken_result_t)
    (hh : hulsken_read_header log2f_trunc buffer coeff_count compressor_version = some header)
    (hsl : header.serialized_length + header.serialized_length * 2 ^ header.zero_counter_size
      ≤ 2 ^ 31)
    (hr : isyntax_hulsken_decompress log2f_trunc fuel buffer block_size coeff_count
      compressor_version output_init = some r) :
    0 ≤ r.decompressed_size
    ∧ ∀ i, (i < 0 ∨ header.serialized_length ≤ i) → r.output_buffer i = output_init i := by
  unfold isyntax_hulsken_decompress at hr
  rw [hh] at hr
  simp only [] at hr
  cases ht : hulsken_read_table buffer fuel 0 0 header.bits_read
      { fast := fun _ => 0x8080, code := fun _ => 0, size := fun _ => 0 } with
  | none => rw [ht] at hr; cases hr
  | some t =>
    obtain ⟨bits_read, huffman⟩ := t
    rw [ht] at hr
    simp only [] at hr
    cases hm : hulsken_decode_message buffer compressor_version huffman header.zerorun_symbol
        header.zero_counter_size ((block_size : Int) * 8) header.serialized_length fuel
        { bits_read := bits_read, decompressed_length := 0, output_buffer := output_init } with
    | none => rw [hm] at hr; cases hr
    | some st =>
      rw [hm] at hr
      cases hr
      exact hulsken_decode_message_writes_inside buffer compressor_version huffman
        header.zerorun_symbol header.zero_counter_size _ header.serialized_length hsl fuel _ st
        (le_refl _) hm

end Slidescape
